import Mathlib

/-!
# Static program analysis toolkit: solver, generator, mod/ref information, dataflow analyses

A shallow embedding of `pointer-analysis/constraint_solver.cpp` (namespace `Solver`), of
`constraint-generator/constraint-generator.cpp` (namespace `Generator`), of
`program-dependence-graph/mod_ref_utils.hpp` (namespace `ModRef`), and of the drivers
`constant-analysis/constant_analysis.cpp` (namespace `ConstantAnalysis`),
`interval-analysis/new_interval_analysis.cpp` (namespace `IntervalAnalysis`, with the widening
that `interval-analysis/test_widen.cpp` calls) and `reaching-defn/reachingdef.cpp` (namespace
`ReachingDef`), and of `program-dependence-graph/rtype.hpp` (namespace `ReachableType`), followed
by the properties proved about them.

Conventions of the solver embedding.

* A `Node*` is a `Ref`.  Set-variable nodes are created only by `get_sv`, at most one per name
  (`set_var_map`), so a set-variable node is identified by its name; every other node is created by
  one `new Node` in `parseExpression` and is identified by its allocation index.
* The three `std::set<Node*>` members of a node are kept as relations on the graph:
  `(n, p) ∈ predecessor_nodes` means that `p` is in `n->predecessor_nodes`, and so on.
* A `std::set<Node*>` is iterated in ascending pointer value.  Pointer values are not fixed by the
  program, so every function that iterates takes the address assignment `addr` as a parameter.
* An access outside the bounds of an argument vector (`.at(i)`) aborts the run: the functions that
  can abort return `Option`, `none` being the abort.
-/

namespace Solver

/-- A `Node*`: a set-variable node (one per name) or another node (by allocation index). -/
inductive Ref where
  | sv (name : String)
  | obj (idx : Nat)
  deriving DecidableEq

/-- The type `std::variant<std::string, Node*>` of constructor arguments.  Every `Node*` argument
is built by `get_sv` (see `parseExpression`), so it is recorded by the set variable's name. -/
inductive Arg where
  | str (s : String)
  | node (sv_name : String)
  deriving DecidableEq

/-- Modelled from the spec: the `Node` class of `set_constraint_util.cpp`, whose four constructors
are called in `parseExpression`; this is the data of a node that is not a set variable.  A node is
a set variable, a constructor call (`ref`), a projection or a function value (`lam_`). -/
inductive Node where
  | Constructor (name : String) (call_args : List Arg)
  | Projection (name : String) (proj_sv : String) (proj_idx : Int)
  | Lam (name : String) (call_args : List Arg) (retval_type : String) (param_types : List String)
  deriving DecidableEq

/-- The global state of the solver: the allocated nodes, `set_var_map` (its keys, ascending), the
edge sets of all nodes and the `worklist` deque (front first). -/
structure Graph where
  nodes : List Node
  set_var_map : List String
  proj_sv_refs : List (Ref × Ref)
  predecessor_nodes : List (Ref × Ref)
  successor_nodes : List (Ref × Ref)
  worklist : List Ref
  deriving DecidableEq

/-- The state before the first constraint is read. -/
def Graph.empty : Graph := ⟨[], [], [], [], [], []⟩

/-- The node data behind a pointer (`none` for a set variable). -/
def Graph.node (g : Graph) : Ref → Option Node
  | .sv _ => none
  | .obj i => g.nodes.get? i

/-- Modelled from the spec: `Node::IsSetVar`. -/
def IsSetVar (_g : Graph) : Ref → Bool
  | .sv _ => true
  | .obj _ => false

/-- Modelled from the spec: `Node::IsConstructor`, true of `ref` constructor calls only (the
solver tests `IsLam` separately). -/
def IsConstructor (g : Graph) (n : Ref) : Bool :=
  match g.node n with
  | some (.Constructor _ _) => true
  | _ => false

/-- Modelled from the spec: `Node::IsProjection`. -/
def IsProjection (g : Graph) (n : Ref) : Bool :=
  match g.node n with
  | some (.Projection _ _ _) => true
  | _ => false

/-- Modelled from the spec: `Node::IsLam`. -/
def IsLam (g : Graph) (n : Ref) : Bool :=
  match g.node n with
  | some (.Lam _ _ _ _) => true
  | _ => false

/-- Modelled from the spec: `Node::Name`, the first constructor argument of `Node`. -/
def Name (g : Graph) (n : Ref) : String :=
  match n with
  | .sv name => name
  | .obj _ =>
    match g.node n with
    | some (.Constructor name _) => name
    | some (.Projection name _ _) => name
    | some (.Lam name _ _ _) => name
    | none => ""

/-- Modelled from the spec: `Node::CallArgs`. -/
def CallArgs (g : Graph) (n : Ref) : List Arg :=
  match g.node n with
  | some (.Constructor _ args) => args
  | some (.Lam _ args _ _) => args
  | _ => []

/-- Modelled from the spec: `Node::GetArgAt`, a bounds-checked access (`none` when out of range). -/
def GetArgAt (g : Graph) (n : Ref) (i : Int) : Option Arg :=
  if i < 0 then none else (CallArgs g n).get? i.toNat

/-- Modelled from the spec: `Node::HasRetVal`; a function type without return value is written
with the return type `_` (see `build_func_type_str` in the generator). -/
def HasRetVal (g : Graph) (n : Ref) : Bool :=
  match g.node n with
  | some (.Lam _ _ retval_type _) => retval_type != "_"
  | _ => false

/-- Modelled from the spec: `Node::ProjSV`. -/
def ProjSV (g : Graph) (n : Ref) : String :=
  match g.node n with
  | some (.Projection _ proj_sv _) => proj_sv
  | _ => ""

/-- Modelled from the spec: `Node::ProjIdx`. -/
def ProjIdx (g : Graph) (n : Ref) : Int :=
  match g.node n with
  | some (.Projection _ _ proj_idx) => proj_idx
  | _ => 0

/-- The members of `n->predecessor_nodes`. -/
def preds (g : Graph) (n : Ref) : List Ref :=
  (g.predecessor_nodes.filter (fun e => e.1 = n)).map Prod.snd

/-- The members of `n->successor_nodes`. -/
def succs (g : Graph) (n : Ref) : List Ref :=
  (g.successor_nodes.filter (fun e => e.1 = n)).map Prod.snd

/-- The members of `n->proj_sv_refs`. -/
def projRefs (g : Graph) (n : Ref) : List Ref :=
  (g.proj_sv_refs.filter (fun e => e.1 = n)).map Prod.snd

/-- Modelled from the spec: `Node::HasPredecessor`. -/
def HasPredecessor (g : Graph) (n p : Ref) : Bool := decide ((n, p) ∈ g.predecessor_nodes)

/-- Modelled from the spec: `Node::HasSuccessor`. -/
def HasSuccessor (g : Graph) (n s : Ref) : Bool := decide ((n, s) ∈ g.successor_nodes)

/-- The value of `n->predecessor_nodes.size() + n->successor_nodes.size()` (the sets are far
smaller than the range of `int`). -/
def edgeCount (g : Graph) (n : Ref) : Nat := (preds g n).length + (succs g n).length

/-- The statement `worklist.push_back(n)`. -/
def push_back (g : Graph) (n : Ref) : Graph := { g with worklist := g.worklist ++ [n] }

/-- Run `f` on the elements of `l` from left to right, threading the state; stop at an abort. -/
def forEachM {α : Type} (f : Graph → α → Option Graph) : List α → Graph → Option Graph
  | [], g => some g
  | a :: l, g =>
    match f g a with
    | none => none
    | some g1 => forEachM f l g1

/-- Every pointer of the graph. -/
def allRefs (g : Graph) : List Ref :=
  g.set_var_map.map Ref.sv ++ (List.range g.nodes.length).map Ref.obj

/-- Every pointer of the graph in ascending address. -/
def addrOrder (addr : Ref → Nat) (g : Graph) : List Ref :=
  (allRefs g).insertionSort (fun a b => addr a ≤ addr b)

/-- A range-based `for` over a `std::set<Node*>` that the body may grow: the iterator walks in
ascending address and visits exactly the pointers that are members when it reaches their
position (nothing is ever erased from these sets). -/
def forSet (addr : Ref → Nat) (set : Graph → List Ref) (body : Graph → Ref → Option Graph)
    (g : Graph) : Option Graph :=
  forEachM (fun g1 r => if r ∈ set g1 then body g1 r else some g1) (addrOrder addr g) g

/-- Lines 59-80 of `AddEdge`: the two branches that store an edge. -/
def AddEdgeStore (g : Graph) (lhs rhs : Ref) (is_init : Bool) : Graph :=
  if (IsConstructor g lhs || IsLam g lhs) || IsProjection g rhs then
    if !HasPredecessor g rhs lhs then
      let g1 := { g with predecessor_nodes := (rhs, lhs) :: g.predecessor_nodes }
      if IsSetVar g rhs && !is_init then push_back g1 rhs else g1
    else g
  else
    if !HasSuccessor g lhs rhs then
      let g1 := { g with successor_nodes := (lhs, rhs) :: g.successor_nodes }
      if IsSetVar g lhs && !is_init then push_back g1 lhs else g1
    else g

/-- The recursive call `AddEdge(std::get<Node*>(l), std::get<Node*>(r))` on one pair of
arguments, guarded by the two `holds_alternative<Node*>` tests.  Both pointers are set variables,
which are neither constructors nor lams, so the call runs the storing branches (see
`AddEdge_sv`); `is_init` takes its default value `false`. -/
def AddEdgeArgs (g : Graph) (l r : Option Arg) : Option Graph :=
  match l with
  | none => none
  | some (.str _) => some g
  | some (.node x) =>
    match r with
    | none => none
    | some (.str _) => some g
    | some (.node y) => some (AddEdgeStore g (.sv x) (.sv y) false)

/-- The function `AddEdge(lhs, rhs, is_init)`. -/
def AddEdge (g : Graph) (lhs rhs : Ref) (is_init : Bool) : Option Graph :=
  if ((IsConstructor g lhs && IsConstructor g rhs) || (IsLam g lhs && IsLam g rhs))
      && Name g lhs == Name g rhs then
    if Name g lhs == "ref" then
      AddEdgeArgs g (GetArgAt g lhs 1) (GetArgAt g rhs 1)
    else if Name g lhs == "lam_" then
      let start_idx : Nat := if !HasRetVal g lhs then 1 else 2
      let ret : Option Graph :=
        if !HasRetVal g lhs then some g
        else AddEdgeArgs g ((CallArgs g lhs).get? 1) ((CallArgs g rhs).get? 1)
      match ret with
      | none => none
      | some g1 =>
        forEachM
          (fun g2 (i : Nat) =>
            match GetArgAt g2 lhs i with
            | none => none
            | some (.str _) => some g2
            | some (.node x) =>
              match GetArgAt g2 rhs i with
              | none => none
              | some (.str _) => some g2
              | some (.node y) => some (AddEdgeStore g2 (.sv y) (.sv x) false))
          (List.range' start_idx ((CallArgs g lhs).length - start_idx)) g1
    else some g
  else some (AddEdgeStore g lhs rhs is_init)

/-- Byte-wise lexicographic comparison of two `std::string`s (the order of `std::map` and
`std::set` on strings). -/
def nameLt (a b : String) : Prop := a.data < b.data

instance (a b : String) : Decidable (nameLt a b) := by unfold nameLt; infer_instance

/-- Insertion into a `std::set<std::string>` or among the keys of a `std::map`: the keys stay
ascending and a key that is present is not inserted again. -/
def setInsert (a : String) : List String → List String
  | [] => [a]
  | b :: l => if nameLt a b then a :: b :: l else if a = b then b :: l else b :: setInsert a l

/-- The function `get_sv`: register the set variable if it is new. -/
def get_sv (g : Graph) (sv_name : String) : Graph :=
  if sv_name ∈ g.set_var_map then g else { g with set_var_map := setInsert sv_name g.set_var_map }

/-- An expression of the constraint grammar, as `parseExpression` reads it from the tokens. -/
inductive Expr where
  | setvar (sv_name : String)
  | ref (const_name : String) (sv_name : String)
  | proj (ref_name : String) (proj_idx : Int) (sv_name : String)
  | lam_ (param_types : List String) (retval_type : String) (args : List String)
  deriving DecidableEq

/-- The arguments of a `lam_` node: the first is the function name, the others are set
variables, registered in reading order. -/
def lamArgs : Graph → Nat → List String → Graph × List Arg
  | g, _, [] => (g, [])
  | g, i, arg :: rest =>
    if i = 0 then
      let r := lamArgs g (i + 1) rest
      (r.1, Arg.str arg :: r.2)
    else
      let r := lamArgs (get_sv g arg) (i + 1) rest
      (r.1, Arg.node arg :: r.2)

/-- The expression `new Node(...)`: the node is allocated after all earlier ones. -/
def newNode (g : Graph) (n : Node) : Graph × Ref :=
  ({ g with nodes := g.nodes ++ [n] }, Ref.obj g.nodes.length)

/-- The statement `sv->proj_sv_refs.insert(proj)`. -/
def insertProjRef (g : Graph) (sv proj : Ref) : Graph :=
  if (sv, proj) ∈ g.proj_sv_refs then g
  else { g with proj_sv_refs := (sv, proj) :: g.proj_sv_refs }

/-- The function `parseExpression` on an expression already split into its parts: it allocates
the node and returns the pointer to it. -/
def parseExpression (g : Graph) : Expr → Graph × Ref
  | .ref const_name sv_name =>
    newNode (get_sv g sv_name) (Node.Constructor "ref" [Arg.str const_name, Arg.node sv_name])
  | .proj ref_name proj_idx sv_name =>
    let proj := newNode g (Node.Projection ref_name sv_name proj_idx)
    (insertProjRef (get_sv proj.1 sv_name) (Ref.sv sv_name) proj.2, proj.2)
  | .lam_ param_types retval_type args =>
    let r := lamArgs g 0 args
    newNode r.1 (Node.Lam "lam_" r.2 retval_type param_types)
  | .setvar sv_name => (get_sv g sv_name, Ref.sv sv_name)

/-- The set `Y` of step 2.c, computed from the predecessors `ps` of the projected set variable:
the argument at the projection index of every constructor whose name is the projection's.  The
order in which the predecessors are visited changes neither the set nor whether an access is out
of range. -/
def projValue (g : Graph) (proj_sv_ref : Ref) : List Ref → Option (List Ref)
  | [] => some []
  | pred :: ps =>
    if IsConstructor g pred && Name g pred == Name g proj_sv_ref then
      match GetArgAt g pred (ProjIdx g proj_sv_ref) with
      | none => none
      | some (.str _) => projValue g proj_sv_ref ps
      | some (.node y) => (projValue g proj_sv_ref ps).map (fun Y => Ref.sv y :: Y)
    else projValue g proj_sv_ref ps

/-- The body of `for (auto yi : Y)` in `Solve` (lines 236-255). -/
def projStep (addr : Ref → Nat) (proj_sv_ref : Ref) (g : Graph) (yi : Ref) : Option Graph :=
  let num_of_edges_yi := edgeCount g yi
  let afterPreds :=
    forSet addr (fun g1 => preds g1 proj_sv_ref)
      (fun g1 pred =>
        let num_of_edges_pred := edgeCount g1 pred
        (AddEdge g1 pred yi true).map (fun g2 =>
          if IsSetVar g2 pred && decide (edgeCount g2 pred > num_of_edges_pred)
          then push_back g2 pred else g2)) g
  match afterPreds with
  | none => none
  | some g3 =>
    let afterSuccs :=
      forSet addr (fun g1 => succs g1 proj_sv_ref)
        (fun g1 succ =>
          let num_of_edges_succ := edgeCount g1 succ
          (AddEdge g1 yi succ true).map (fun g2 =>
            if IsSetVar g2 succ && decide (edgeCount g2 succ > num_of_edges_succ)
            then push_back g2 succ else g2)) g3
    afterSuccs.map (fun g4 =>
      if edgeCount g4 yi > num_of_edges_yi then push_back g4 yi else g4)

/-- Step 2.b of `Solve` for the popped set variable (lines 208-212). -/
def propagate (addr : Ref → Nat) (sv_node : Ref) (g : Graph) : Option Graph :=
  forSet addr (fun g1 => preds g1 sv_node)
    (fun g1 pred =>
      forSet addr (fun g2 => succs g2 sv_node) (fun g2 succ => AddEdge g2 pred succ false) g1) g

/-- Step 2.c of `Solve` for the popped set variable (lines 215-257). -/
def resolveProjections (addr : Ref → Nat) (sv_node : Ref) (g : Graph) : Option Graph :=
  forSet addr (fun g1 => projRefs g1 sv_node)
    (fun g1 proj_sv_ref =>
      match projValue g1 proj_sv_ref (preds g1 (Ref.sv (ProjSV g1 proj_sv_ref))) with
      | none => none
      | some Y => forSet addr (fun _ => Y) (projStep addr proj_sv_ref) g1) g

/-- One iteration of the `while` loop of `Solve` after `sv_node` has been popped. -/
def SolveBody (addr : Ref → Nat) (sv_node : Ref) (g : Graph) : Option Graph :=
  match propagate addr sv_node g with
  | none => none
  | some g1 => resolveProjections addr sv_node g1

/-- How a run of the `while` loop ends. -/
inductive Outcome where
  | finished (g : Graph)
  | aborted
  | out_of_fuel
  deriving DecidableEq

/-- The `while (!worklist.empty())` loop of `Solve`, cut off after `fuel` iterations. -/
def SolveLoop (addr : Ref → Nat) : Nat → Graph → Outcome
  | 0, g => if g.worklist = [] then Outcome.finished g else Outcome.out_of_fuel
  | fuel + 1, g =>
    match g.worklist with
    | [] => Outcome.finished g
    | sv_node :: rest =>
      match SolveBody addr sv_node { g with worklist := rest } with
      | none => Outcome.aborted
      | some g1 => SolveLoop addr fuel g1

/-- Step 1 of `Solve`: every set variable with a predecessor goes on the worklist, in the order
of `set_var_map`. -/
def initWorklist (g : Graph) : Graph :=
  { g with worklist := g.worklist ++
      (g.set_var_map.filter (fun name => !(preds g (Ref.sv name)).isEmpty)).map Ref.sv }

/-- The function `Solve`. -/
def Solve (addr : Ref → Nat) (fuel : Nat) (g : Graph) : Outcome :=
  SolveLoop addr fuel (initWorklist g)

/-- A number of iterations within which the `while` loop of `Solve` ends: the pointers on the
worklist at the start and twice the number of edges that a graph on these nodes can hold. -/
def solveFuel (g : Graph) : Nat :=
  g.worklist.length + g.set_var_map.length + 4 * ((allRefs g).length * (allRefs g).length)

/-- The reading loop of `main` for one constraint `lhs <= rhs`. -/
def readConstraint (g : Graph) (c : Expr × Expr) : Option Graph :=
  let l := parseExpression g c.1
  let r := parseExpression l.1 c.2
  AddEdge r.1 l.2 r.2 true

/-- The reading loop of `main`. -/
def readConstraints (cs : List (Expr × Expr)) : Option Graph :=
  forEachM readConstraint cs Graph.empty

/-- The inner loop of the solution extraction for one set variable: the names inserted into
`solution[name]`, as the ascending contents of the `std::set<std::string>`. -/
def collectCells (g : Graph) : List Ref → List String → Option (List String)
  | [], acc => some acc
  | pred :: ps, acc =>
    if IsConstructor g pred || IsLam g pred then
      match GetArgAt g pred 0 with
      | none => none
      | some (.str arg_name) => collectCells g ps (setInsert arg_name acc)
      | some (.node _) => collectCells g ps acc
    else collectCells g ps acc

/-- A `std::set<Node*>` as the ascending sequence a loop sees. -/
def setElems (addr : Ref → Nat) (g : Graph) (s : List Ref) : List Ref :=
  (addrOrder addr g).filter (fun r => r ∈ s)

/-- The `solution` map of `main` (lines 289-299): an entry exists for the set variables into
whose set a name was inserted. -/
def solutionOf (addr : Ref → Nat) (g : Graph) : List String → Option (List (String × List String))
  | [] => some []
  | name :: names =>
    match collectCells g (setElems addr g (preds g (Ref.sv name))) [] with
    | none => none
    | some cells =>
      (solutionOf addr g names).map (fun rest =>
        if cells.isEmpty then rest else (name, cells) :: rest)

/-- The cells of one output line, separated by `", "`. -/
def printCells : List String → String
  | [] => ""
  | [c] => c
  | c :: cs => c ++ ", " ++ printCells cs

/-- The text printed by `main` (lines 302-315). -/
def printSolution : List (String × List String) → String
  | [] => "\n"
  | (name, cells) :: rest => name ++ " -> \x7b" ++ printCells cells ++ "\x7d\n" ++ printSolution rest

/-- The program `main` after tokenizing: read the constraints, solve, extract the solution. -/
def solve_main (addr : Ref → Nat) (fuel : Nat) (cs : List (Expr × Expr)) :
    Option (List (String × List String)) :=
  match readConstraints cs with
  | none => none
  | some g =>
    match Solve addr fuel g with
    | Outcome.finished g1 => solutionOf addr g1 g1.set_var_map
    | _ => none

/-- An address assignment for the examples, with distinct addresses for distinct pointers: the
set variables at even addresses that encode their names, the other nodes at odd addresses in
allocation order. -/
def exampleAddr : Ref → Nat
  | .sv name => 2 * name.data.foldl (fun n c => n * 1114112 + c.toNat + 1) 0
  | .obj i => 2 * i + 1

/-- The constraints `ref(a, F.a) <= F.x` and `F.x <= F.y` of the points-to scenario. -/
def pointsToExample : List (Expr × Expr) :=
  [(Expr.ref "a" "F.a", Expr.setvar "F.x"), (Expr.setvar "F.x", Expr.setvar "F.y")]

/-- The constraints `ref(a, X) <= Y`, `ref(b, B) <= X` and `proj(ref, 1, Y) <= Z`. -/
def loadExample : List (Expr × Expr) :=
  [(Expr.ref "a" "X", Expr.setvar "Y"), (Expr.ref "b" "B", Expr.setvar "X"),
    (Expr.proj "ref" 1 "Y", Expr.setvar "Z")]

/-- The single constraint `x <= y`, in which no set variable has a constructor. -/
def emptySetsExample : List (Expr × Expr) := [(Expr.setvar "x", Expr.setvar "y")]

/-- The graph after `parseExpression` has read `ref(a, X)` and `ref(b, Y)`: node 0 and node 1. -/
def refPairGraph : Graph :=
  (parseExpression (parseExpression Graph.empty (Expr.ref "a" "X")).1 (Expr.ref "b" "Y")).1

/-- The graph after `parseExpression` has read `lam_[(t)->t](f, r, p)` and
`lam_[(t)->t](g, s, q)`: node 0 and node 1. -/
def lamPairGraph : Graph :=
  (parseExpression (parseExpression Graph.empty (Expr.lam_ ["t"] "t" ["f", "r", "p"])).1
    (Expr.lam_ ["t"] "t" ["g", "s", "q"])).1

/-! ### Invariants and relations used in the proofs -/

/-- The structural invariant of the graph: the edge sets hold no edge twice, every edge joins
two allocated nodes, and every node argument is a registered set variable. -/
structure WF (g : Graph) : Prop where
  ndp : g.predecessor_nodes.Nodup
  nds : g.successor_nodes.Nodup
  vp : ∀ e ∈ g.predecessor_nodes, e.1 ∈ allRefs g ∧ e.2 ∈ allRefs g
  vs : ∀ e ∈ g.successor_nodes, e.1 ∈ allRefs g ∧ e.2 ∈ allRefs g
  vprj : ∀ e ∈ g.proj_sv_refs, e.2 ∈ allRefs g
  vargs : ∀ r y, Arg.node y ∈ CallArgs g r → y ∈ g.set_var_map

/-- The change from `g` to `g1`: the nodes stay, `dp` and `ds` are the new predecessor and
successor edges (newest first), `dw` the pointers pushed on the worklist; every pushed pointer got
a new edge. -/
structure Chg (g g1 : Graph) (dp ds : List (Ref × Ref)) (dw : List Ref) : Prop where
  nodes : g1.nodes = g.nodes
  svm : g1.set_var_map = g.set_var_map
  prj : g1.proj_sv_refs = g.proj_sv_refs
  pred : g1.predecessor_nodes = dp ++ g.predecessor_nodes
  succ : g1.successor_nodes = ds ++ g.successor_nodes
  wl : g1.worklist = g.worklist ++ dw
  just : ∀ x ∈ dw, ∃ e, (x, e) ∈ dp ∨ (x, e) ∈ ds
  wf : WF g → WF g1

/-- A change in which at most `k` pointers are pushed per new edge and every set variable that
got a new edge, those in `ex` apart, is pushed. -/
def StepP (k : Nat) (ex : Ref → Prop) (g g1 : Graph) : Prop :=
  ∃ dp ds dw, Chg g g1 dp ds dw ∧ dw.length ≤ k * (dp.length + ds.length) ∧
    ∀ x e, IsSetVar g x = true → ¬ ex x → ((x, e) ∈ dp ∨ (x, e) ∈ ds) → x ∈ dw

/-- A pointer that is an argument of some node. -/
def IsArg (g : Graph) (yi : Ref) : Prop := ∃ r y, yi = Ref.sv y ∧ Arg.node y ∈ CallArgs g r

/-- The measure that every iteration of the `while` loop decreases: the length of the worklist
plus twice the number of edges that can still be added. -/
def potential (g : Graph) : Nat :=
  g.worklist.length + 2 * (2 * ((allRefs g).length * (allRefs g).length) -
    (g.predecessor_nodes.length + g.successor_nodes.length))

/-- The set-variable keys are strictly ascending. -/
def SortedKeys (l : List String) : Prop := l.Pairwise nameLt

/-- How reading changes the graph: nodes are allocated after the earlier ones, and the key set
and the edge sets only gain members. -/
structure Grow (g g1 : Graph) : Prop where
  nodes : ∃ t, g1.nodes = g.nodes ++ t
  svm : g.set_var_map ⊆ g1.set_var_map
  prj : g.proj_sv_refs ⊆ g1.proj_sv_refs
  pred : g.predecessor_nodes ⊆ g1.predecessor_nodes
  succ : g.successor_nodes ⊆ g1.successor_nodes
  wf : WF g → WF g1
  sorted : SortedKeys g.set_var_map → SortedKeys g1.set_var_map

/-- What reading the constraint `c` leaves in the graph, for the three shapes of constraint that
the claims about `Solve` speak of. -/
def Loaded (c : Expr × Expr) (g : Graph) : Prop :=
  (∀ x y, c = (Expr.setvar x, Expr.setvar y) →
    (Ref.sv x, Ref.sv y) ∈ g.successor_nodes) ∧
  (∀ a x y, c = (Expr.ref a x, Expr.setvar y) →
    ∃ r, g.node r = some (Node.Constructor "ref" [Arg.str a, Arg.node x]) ∧
      (Ref.sv y, r) ∈ g.predecessor_nodes ∧ x ∈ g.set_var_map) ∧
  (∀ nm i y z, c = (Expr.proj nm i y, Expr.setvar z) →
    ∃ p, g.node p = some (Node.Projection nm y i) ∧ (Ref.sv y, p) ∈ g.proj_sv_refs ∧
      (p, Ref.sv z) ∈ g.successor_nodes ∧ z ∈ g.set_var_map)

/-- The set variable `x` is saturated: each of its constructor predecessors is a predecessor of
each of its set-variable successors. -/
def Closed (g : Graph) (x : Ref) : Prop :=
  ∀ p s, (x, p) ∈ g.predecessor_nodes → (IsConstructor g p = true ∨ IsLam g p = true) →
    (x, Ref.sv s) ∈ g.successor_nodes → (Ref.sv s, p) ∈ g.predecessor_nodes

/-- The invariant of the `while` loop: a set variable that is not on the worklist is saturated. -/
def InvC (g : Graph) : Prop := ∀ n, Ref.sv n ∈ g.worklist ∨ Closed g (Ref.sv n)

/-- An expression whose argument accesses stay in range: a projection on `ref` has index 0 or 1,
and a `lam_` has `k` arguments, the function name among them, and a return variable if its type
has a return type. -/
def ExprOK (k : Nat) : Expr → Prop
  | .proj nm i _ => nm = "ref" → (i = 0 ∨ i = 1)
  | .lam_ _ rt args => args.length = k ∧ 1 ≤ k ∧ (rt ≠ "_" → 2 ≤ k)
  | _ => True

/-- The nodes that `parseExpression` allocates for expressions with `ExprOK`. -/
def NodeOK (k : Nat) : Node → Prop
  | .Constructor nm args => nm = "ref" ∧ args.length = 2
  | .Projection nm _ i => nm = "ref" → (i = 0 ∨ i = 1)
  | .Lam nm args rt _ => nm = "lam_" ∧ args.length = k ∧ 1 ≤ k ∧ (rt ≠ "_" → 2 ≤ k)

/-- Every allocated node has `NodeOK`. -/
def NodesOK (k : Nat) (g : Graph) : Prop := ∀ r n, g.node r = some n → NodeOK k n

/-- The cell `a` is in the points-to set of the set variable `name`: it is argument 0 of a `ref`
or `lam_` constructor among the predecessors of `name`. -/
def PointsTo (g : Graph) (name a : String) : Prop :=
  ∃ c, (Ref.sv name, c) ∈ g.predecessor_nodes ∧ (IsConstructor g c = true ∨ IsLam g c = true) ∧
    GetArgAt g c 0 = some (Arg.str a)

/-- The edge sets of the nodes that are not set variables are those of `g`. -/
def SameElsewhere (g g1 : Graph) : Prop :=
  ∀ n, IsSetVar g n = false → preds g1 n = preds g n ∧ succs g1 n = succs g n

end Solver

namespace Generator

/-- Modelled from the spec: the base kind of a `Type` of `datatypes.h` (not among the sources). -/
inductive DataType where
  | IntType
  | StructType
  | FuncType
  deriving DecidableEq

/-- Modelled from the spec: the `Type` of `datatypes.h`, a base kind with a pointer depth
(`indirection`); a type is a pointer type when its `indirection` is not zero. -/
structure LirType where
  type : DataType
  indirection : Nat
  deriving DecidableEq

/-- Modelled from the spec: the `Variable` of `datatypes.h`, a name and a type. -/
structure Variable where
  name : String
  type : LirType
  deriving DecidableEq

/-- Modelled from the spec: the `Operand` of `datatypes.h`, a constant int (`IsConstInt()`) or a
variable (`var`). -/
inductive Operand where
  | ConstInt (val : Int)
  | Var (var : Variable)
  deriving DecidableEq

/-- The test `op->IsConstInt()`. -/
def Operand.IsConstInt : Operand → Bool
  | .ConstInt _ => true
  | .Var _ => false

/-- The pointer `op->var`, which only a variable operand has. -/
def Operand.var : Operand → Option Variable
  | .ConstInt _ => none
  | .Var v => some v

/-- Modelled from the spec: `CopyInstruction`, `lhs := op`. -/
structure CopyInstruction where
  lhs : Variable
  op : Operand

/-- Modelled from the spec: `AddrofInstruction`, `lhs := &rhs`. -/
structure AddrofInstruction where
  lhs : Variable
  rhs : Variable

/-- Modelled from the spec: `AllocInstruction`, `lhs := $alloc num id`. -/
structure AllocInstruction where
  lhs : Variable
  num : Operand
  id : Variable

/-- Modelled from the spec: `GepInstruction`, `lhs := gep src idx`. -/
structure GepInstruction where
  lhs : Variable
  src : Variable
  idx : Operand

/-- Modelled from the spec: `GfpInstruction`, `lhs := gfp src field`. -/
structure GfpInstruction where
  lhs : Variable
  src : Variable
  field : String

/-- Modelled from the spec: `LoadInstruction`, `lhs := *src`. -/
structure LoadInstruction where
  lhs : Variable
  src : Variable

/-- Modelled from the spec: `StoreInstruction`, `*dst := op`. -/
structure StoreInstruction where
  dst : Variable
  op : Operand

/-- Modelled from the spec: a non-terminal `Instruction` with its `instrType` tag; the kinds for
which `main` has no `case` (arithmetic, comparison, external call) are `Other`. -/
inductive Instruction where
  | Copy (copy : CopyInstruction)
  | Addrof (addrof : AddrofInstruction)
  | Alloc (alloc : AllocInstruction)
  | Gep (gep : GepInstruction)
  | Gfp (gfp : GfpInstruction)
  | Load (load : LoadInstruction)
  | Store (store : StoreInstruction)
  | Other

/-- The struct `SetVariable`; `is_local` is `true` unless it is set otherwise. -/
structure SetVariable where
  var_name : String
  func_name : String
  is_local : Bool
  deriving DecidableEq

mutual
/-- The type `Term`, a `SetVariable` or a `Constructor`. -/
inductive Term where
  | SetVariable (v : SetVariable)
  | Constructor (c : Constructor)
/-- The struct `Constructor`: the arguments and the name. -/
inductive Constructor where
  | mk (args : List Term) (name : String)
end

/-- The field `args` of a `Constructor`. -/
def Constructor.args : Constructor → List Term
  | .mk args _ => args

/-- The field `name` of a `Constructor`. -/
def Constructor.name : Constructor → String
  | .mk _ name => name

/-- The struct `Projection` of `c^(-arg)(v)`. -/
structure Projection where
  v : SetVariable
  c : Constructor
  arg : Int

/-- The type `Expression`, a `Term` or a `Projection`. -/
inductive Expression where
  | Term (t : Term)
  | Projection (p : Projection)

/-- The struct `Statement`, `e1 <= e2`. -/
structure Statement where
  e1 : Expression
  e2 : Expression

/-- The function `get_copy_constraint`; it reads `copy.op->var->name`, which a constant operand
does not have (`none`). -/
def get_copy_constraint (copy : CopyInstruction) (func_name : String) : Option Statement :=
  match copy.op.var with
  | none => none
  | some var =>
    let x : SetVariable := ⟨copy.lhs.name, func_name, true⟩
    let y : SetVariable := ⟨var.name, func_name, true⟩
    some ⟨Expression.Term (Term.SetVariable y), Expression.Term (Term.SetVariable x)⟩

/-- The function `get_addrof_constraint`. -/
def get_addrof_constraint (addrof : AddrofInstruction) (func_name : String) : Statement :=
  let x : SetVariable := ⟨addrof.lhs.name, func_name, true⟩
  let y_arg : SetVariable := ⟨addrof.rhs.name, func_name, true⟩
  let y : Constructor := Constructor.mk [Term.SetVariable y_arg, Term.SetVariable y_arg] "ref"
  ⟨Expression.Term (Term.Constructor y), Expression.Term (Term.SetVariable x)⟩

/-- The function `get_alloc_constraint`. -/
def get_alloc_constraint (alloc : AllocInstruction) (func_name : String) : Statement :=
  let x : SetVariable := ⟨alloc.lhs.name, func_name, true⟩
  let y_arg : SetVariable := ⟨alloc.id.name, "", false⟩
  let y : Constructor := Constructor.mk [Term.SetVariable y_arg, Term.SetVariable y_arg] "ref"
  ⟨Expression.Term (Term.Constructor y), Expression.Term (Term.SetVariable x)⟩

/-- The function `get_gep_constraint`. -/
def get_gep_constraint (gep : GepInstruction) (func_name : String) : Statement :=
  let x : SetVariable := ⟨gep.lhs.name, func_name, true⟩
  let y : SetVariable := ⟨gep.src.name, func_name, true⟩
  ⟨Expression.Term (Term.SetVariable y), Expression.Term (Term.SetVariable x)⟩

/-- The function `get_gfp_constraint`. -/
def get_gfp_constraint (gfp : GfpInstruction) (func_name : String) : Statement :=
  let x : SetVariable := ⟨gfp.lhs.name, func_name, true⟩
  let y : SetVariable := ⟨gfp.src.name, func_name, true⟩
  ⟨Expression.Term (Term.SetVariable y), Expression.Term (Term.SetVariable x)⟩

/-- The function `get_load_constraint`. -/
def get_load_constraint (load : LoadInstruction) (func_name : String) : Statement :=
  let x : SetVariable := ⟨load.lhs.name, func_name, true⟩
  let y_constructor : Constructor := Constructor.mk [] "ref"
  let y_set_var : SetVariable := ⟨load.src.name, func_name, true⟩
  let y : Projection := ⟨y_set_var, y_constructor, 1⟩
  ⟨Expression.Projection y, Expression.Term (Term.SetVariable x)⟩

/-- The function `get_store_constraint`; it reads `store.op->var->name`, which a constant operand
does not have (`none`). -/
def get_store_constraint (store : StoreInstruction) (func_name : String) : Option Statement :=
  match store.op.var with
  | none => none
  | some var =>
    let y : SetVariable := ⟨var.name, func_name, true⟩
    let x_constructor : Constructor := Constructor.mk [] "ref"
    let x_set_var : SetVariable := ⟨store.dst.name, func_name, true⟩
    let x : Projection := ⟨x_set_var, x_constructor, 1⟩
    some ⟨Expression.Term (Term.SetVariable y), Expression.Projection x⟩

/-- The function `build_set_var_str`. -/
def build_set_var_str (s : SetVariable) : String :=
  if s.is_local then s.func_name ++ "." ++ s.var_name else s.var_name

/-- The loop of `build_expr_str` over the arguments of a constructor: every argument is read
with `std::get<SetVariable>`, which fails on a `Constructor` (`none`); a comma follows every
argument but the last. -/
def build_args_str : List Term → Option String
  | [] => some ""
  | Term.SetVariable v :: rest =>
    match rest with
    | [] => some (build_set_var_str v)
    | _ :: _ => (build_args_str rest).map (fun r => build_set_var_str v ++ "," ++ r)
  | Term.Constructor _ :: _ => none

/-- The function `build_expr_str`. -/
def build_expr_str : Expression → Option String
  | Expression.Term (Term.SetVariable e_set_var) => some (build_set_var_str e_set_var)
  | Expression.Term (Term.Constructor e_constructor) =>
    (build_args_str e_constructor.args).map (fun a => e_constructor.name ++ "(" ++ a ++ ")")
  | Expression.Projection e_proj =>
    some ("proj(" ++ e_proj.c.name ++ "," ++ toString e_proj.arg ++ "," ++
      build_set_var_str e_proj.v ++ ")")

/-- The function `build_constraint`. -/
def build_constraint (c : Statement) : Option String :=
  match build_expr_str c.e1, build_expr_str c.e2 with
  | some s1, some s2 => some (s1 ++ " <= " ++ s2 ++ "\n")
  | _, _ => none

/-- The `switch` of `main` over one non-terminal instruction of the function `func_name`
(lines 400-455): the statements it pushes on `constraints`; `none` when the constraint function
reads the variable of a constant operand. -/
def instruction_constraints (func_name : String) : Instruction → Option (List Statement)
  | .Copy copy =>
    if copy.lhs.type.indirection != 0 then
      (get_copy_constraint copy func_name).map (fun s => [s])
    else some []
  | .Addrof addrof => some [get_addrof_constraint addrof func_name]
  | .Alloc alloc => some [get_alloc_constraint alloc func_name]
  | .Gep gep => some [get_gep_constraint gep func_name]
  | .Gfp gfp => some [get_gfp_constraint gfp func_name]
  | .Load load =>
    if load.lhs.type.indirection != 0 then some [get_load_constraint load func_name]
    else some []
  | .Store store =>
    if !store.op.IsConstInt then
      match store.op.var with
      | none => none
      | some var =>
        if var.type.indirection != 0 then
          (get_store_constraint store func_name).map (fun s => [s])
        else some []
    else some []
  | .Other => some []

/-- The texts of a list of statements, as `build_constraint` renders them one by one. -/
def build_lines : List Statement → Option (List String)
  | [] => some []
  | c :: cs =>
    match build_constraint c, build_lines cs with
    | some l, some ls => some (l :: ls)
    | _, _ => none

/-- The text of the statements of one instruction, as `build_constraint` renders them. -/
def instruction_lines (func_name : String) (i : Instruction) : Option (List String) :=
  match instruction_constraints func_name i with
  | none => none
  | some ss => build_lines ss

/-- An int-typed variable. -/
def intVar (name : String) : Variable := ⟨name, ⟨DataType.IntType, 0⟩⟩

/-- A variable of type pointer to int. -/
def ptrVar (name : String) : Variable := ⟨name, ⟨DataType.IntType, 1⟩⟩

/-- Modelled from the spec: `RetInstruction`, `ret op?`; `op` is null when nothing is returned. -/
structure RetInstruction where
  op : Option Operand

/-- Modelled from the spec: `CallDirInstruction`, `lhs? := call callee(args) then next_bb`; `lhs`
is null when the result is not kept. -/
structure CallDirInstruction where
  lhs : Option Variable
  callee : String
  args : List Operand
  next_bb : String

/-- Modelled from the spec: a terminal instruction with its `instrType` tag; the kinds that
neither `get_ret_val` nor `main` has a `case` for (jump, branch, indirect call) are `Other`. -/
inductive Terminal where
  | Ret (ret : RetInstruction)
  | CallDir (call_dir : CallDirInstruction)
  | Other

/-- Modelled from the spec: `BasicBlock`, a label, the non-terminal instructions in order and one
terminal. -/
structure BasicBlock where
  label : String
  instructions : List Instruction
  terminal : Terminal

/-- Modelled from the spec: `Function`, with the fields the generator reads: the name, the
parameters, and the map `bbs` from label to block as the list of its entries in the order in
which a loop over the map meets them. -/
structure Function where
  name : String
  params : List Variable
  bbs : List (String × BasicBlock)

/-- Modelled from the spec: `Program`, the globals and the map `funcs` from function name to
function as the list of its entries in the order in which a loop over the map meets them. -/
structure Program where
  globals : List Variable
  funcs : List (String × Function)

/-- The loop of `get_ret_val` over the blocks of a function. -/
def get_ret_val_loop : List (String × BasicBlock) → Option Variable
  | [] => none
  | bb :: rest =>
    match bb.2.terminal with
    | .Ret ret =>
      match ret.op with
      | some (.Var var) => some var
      | _ => get_ret_val_loop rest
    | _ => get_ret_val_loop rest

/-- The function `get_ret_val`: the variable returned by the first block, in the order of `bbs`,
whose terminal is a `ret` of a variable; `none` is the null pointer. -/
def get_ret_val (f : Function) : Option Variable := get_ret_val_loop f.bbs

/-- The loop of `get_call_dir_constraint` over `callee->params`, from index `i` on: for a
parameter of pointer type it reads `call_dir.args[i]->var->name`, which an index past the
arguments or a constant argument does not have (`none`). -/
def call_dir_args (call_dir : CallDirInstruction) (func callee : Function) :
    List Variable → Nat → Option (List Statement)
  | [], _ => some []
  | prm :: rest, i =>
    if prm.type.indirection != 0 then
      match call_dir.args.get? i with
      | none => none
      | some a =>
        match a.var with
        | none => none
        | some var =>
          let arg : SetVariable := ⟨var.name, func.name, true⟩
          let param : SetVariable := ⟨prm.name, callee.name, true⟩
          (call_dir_args call_dir func callee rest (i + 1)).map
            (fun ss => ⟨Expression.Term (Term.SetVariable arg),
              Expression.Term (Term.SetVariable param)⟩ :: ss)
    else call_dir_args call_dir func callee rest (i + 1)

/-- The function `get_call_dir_constraint`: the statement for the returned value comes first, then
the statements of the parameters; `none` when it leaves with `exit(EXIT_FAILURE)` (a pointer-typed
`lhs` and a callee without a returned variable) or reads an argument that is not there. -/
def get_call_dir_constraint (call_dir : CallDirInstruction) (func callee : Function) :
    Option (List Statement) :=
  let args := call_dir_args call_dir func callee callee.params 0
  match call_dir.lhs with
  | none => args
  | some lhs =>
    if lhs.type.indirection != 0 then
      match get_ret_val callee with
      | none => none
      | some ret_var =>
        let x : SetVariable := ⟨lhs.name, func.name, true⟩
        let ret_val : SetVariable := ⟨ret_var.name, callee.name, true⟩
        args.map (fun ss => ⟨Expression.Term (Term.SetVariable ret_val),
          Expression.Term (Term.SetVariable x)⟩ :: ss)
    else args

/-- The `switch` of `main` over the terminal of a block of the function `func` (lines 461-474):
only a direct call yields statements; `p.funcs[call_dir->callee]` is null for a name that is not
a function of the program, and the callee is then read through a null pointer (`none`). -/
def terminal_constraints (p : Program) (func : Function) : Terminal → Option (List Statement)
  | .CallDir call_dir =>
    match p.funcs.lookup call_dir.callee with
    | none => none
    | some callee => get_call_dir_constraint call_dir func callee
  | _ => some []

/-- A loop that appends what each element yields; it fails as soon as one element fails. -/
def collect {α β : Type} (f : α → Option (List β)) : List α → Option (List β)
  | [] => some []
  | a :: l =>
    match f a, collect f l with
    | some x, some y => some (x ++ y)
    | _, _ => none

/-- The body of the loop of `main` over the blocks of a function: the statements of the
instructions in order, then those of the terminal. -/
def block_constraints (p : Program) (func_name : String) (func : Function) (bb : BasicBlock) :
    Option (List Statement) :=
  match collect (instruction_constraints func_name) bb.instructions,
    terminal_constraints p func bb.terminal with
  | some x, some y => some (x ++ y)
  | _, _ => none

/-- The two outer loops of `main` (lines 392-476): the vector `constraints` after all functions
and all their blocks. -/
def main_constraints (p : Program) : Option (List Statement) :=
  collect (fun func => collect (fun bb => block_constraints p func.1 func.2 bb.2) func.2.bbs)
    p.funcs

/-- The set `str_constraints` of `main` after the texts `ls` are inserted one by one. -/
def str_constraints (ls : List String) : List String :=
  ls.foldl (fun set l => Solver.setInsert l set) []

/-- The program `main` of the generator: the lines it prints, in the order of the
`std::set<std::string>` that holds them; `none` when the run ends before anything is printed. -/
def main_output (p : Program) : Option (List String) :=
  match main_constraints p with
  | none => none
  | some constraints => (build_lines constraints).map str_constraints

/-- A program with the global pointer `g`, read by a copy in `F` and by a copy in `H`. -/
def globalExample : Program :=
  { globals := [ptrVar "g"]
    funcs :=
      [("F", ⟨"F", [], [("entry", ⟨"entry", [Instruction.Copy ⟨ptrVar "p", Operand.Var (ptrVar "g")⟩],
          Terminal.Ret ⟨none⟩⟩)]⟩),
       ("H", ⟨"H", [], [("entry", ⟨"entry", [Instruction.Copy ⟨ptrVar "q", Operand.Var (ptrVar "g")⟩],
          Terminal.Ret ⟨none⟩⟩)]⟩)] }

/-- The text of the statements of a terminal, as `build_constraint` renders them. -/
def terminal_lines (p : Program) (func : Function) (t : Terminal) : Option (List String) :=
  match terminal_constraints p func t with
  | none => none
  | some ss => build_lines ss

/-- An instruction whose constraint function reads no operand that is not there: a copy into a
pointer copies a variable. -/
def InstructionOK : Instruction → Prop
  | .Copy copy => copy.lhs.type.indirection ≠ 0 → copy.op.IsConstInt = false
  | _ => True

/-- A direct call that `get_call_dir_constraint` handles without leaving the program: the callee
is a function of the program, every parameter of pointer type has an argument, which is a
variable, and a callee whose result is kept in a pointer returns a variable. -/
def CallOK (p : Program) (call_dir : CallDirInstruction) : Prop :=
  ∃ callee, p.funcs.lookup call_dir.callee = some callee ∧
    (∀ i prm, callee.params.get? i = some prm → prm.type.indirection ≠ 0 →
      ∃ var, call_dir.args.get? i = some (Operand.Var var)) ∧
    (∀ lhs, call_dir.lhs = some lhs → lhs.type.indirection ≠ 0 →
      ∃ ret_var, get_ret_val callee = some ret_var)

/-- A terminal that `main` handles without leaving the program. -/
def TerminalOK (p : Program) : Terminal → Prop
  | .CallDir call_dir => CallOK p call_dir
  | _ => True

/-- A program on which the generator runs to its end. -/
def ProgramOK (p : Program) : Prop :=
  ∀ func ∈ p.funcs, ∀ bb ∈ func.2.bbs,
    (∀ i ∈ bb.2.instructions, InstructionOK i) ∧ TerminalOK p bb.2.terminal

/-- The function `G` of the example of a direct call: it takes an int and a pointer and returns
the pointer `r`. -/
def calleeExample : Function :=
  ⟨"G", [intVar "n", ptrVar "a"], [("entry", ⟨"entry", [], Terminal.Ret ⟨some (Operand.Var (ptrVar "r"))⟩⟩)]⟩

/-- The call `x := G(i, q)` of the example, with a pointer `x`. -/
def callExample : CallDirInstruction :=
  ⟨some (ptrVar "x"), "G", [Operand.Var (intVar "i"), Operand.Var (ptrVar "q")], "next"⟩

/-- The function `F` of the example of a direct call: its only block ends with `callExample`. -/
def callerExample : Function :=
  ⟨"F", [], [("entry", ⟨"entry", [Instruction.Copy ⟨ptrVar "q", Operand.Var (ptrVar "p")⟩],
    Terminal.CallDir callExample⟩)]⟩

/-- The program of the example of a direct call. -/
def callProgram : Program :=
  { globals := [], funcs := [("F", callerExample), ("G", calleeExample)] }

end Generator

namespace ModRef

/-!
### The mod/ref information of `mod_ref_utils.hpp`

Conventions of the embedding.

* `get_node` makes one `Node` for each name, so a `Node*` is identified by the name of its node.
* The sets `preds`, `succs`, `mods` and `refs` of the nodes are kept as relations on the state.
* A `std::set<Node*>` is iterated in ascending pointer value, which the program does not fix:
  the functions that iterate take the address assignment `addr` as a parameter. The order of a
  loop over the `unordered_map` `nodes_` is a parameter as well.
* The two `while` loops are cut off after `fuel` iterations; reading through a null pointer
  aborts the run.
-/

open Generator (Variable Operand CopyInstruction AddrofInstruction AllocInstruction
  GepInstruction GfpInstruction LoadInstruction StoreInstruction RetInstruction
  CallDirInstruction intVar ptrVar)

/-- Modelled from the spec: `ArithInstruction`, `lhs := op1 aop op2`. -/
structure ArithInstruction where
  lhs : Variable
  op1 : Operand
  op2 : Operand

/-- Modelled from the spec: `CmpInstruction`, `lhs := op1 rop op2`. -/
structure CmpInstruction where
  lhs : Variable
  op1 : Operand
  op2 : Operand

/-- Modelled from the spec: `CallIdrInstruction`, `lhs? := call *fp(args) then next_bb`. -/
structure CallIdrInstruction where
  lhs : Option Variable
  fp : Variable
  args : List Operand
  next_bb : String

/-- Modelled from the spec: an instruction of the list `instructions` of a block with its
`instrType` tag, for the tags that `InitModRefInfo` tests; an external call is `Other`. The tag
`RetInstrType` is among them because `InitModRefInfo` tests for it (line 278). -/
inductive Instruction where
  | Store (store_instr : StoreInstruction)
  | Load (load_instr : LoadInstruction)
  | Copy (copy_instr : CopyInstruction)
  | Arith (arith_instr : ArithInstruction)
  | Alloc (alloc_instr : AllocInstruction)
  | Cmp (cmp_instr : CmpInstruction)
  | Gep (gep_instr : GepInstruction)
  | Gfp (gfp_instr : GfpInstruction)
  | Addrof (addrof_instr : AddrofInstruction)
  | Ret (ret_instr : RetInstruction)
  | Other

/-- Modelled from the spec: the terminal of a block with its `instrType` tag; a jump and a branch
are `Other`. -/
inductive Terminal where
  | CallDir (call_instr : CallDirInstruction)
  | CallIdr (call_instr : CallIdrInstruction)
  | Ret (ret_instr : RetInstruction)
  | Other

/-- Modelled from the spec: `BasicBlock`, a label, the non-terminal instructions in order and one
terminal. -/
structure BasicBlock where
  label : String
  instructions : List Instruction
  terminal : Terminal

/-- Modelled from the spec: `Function`: the name, the parameters, the map `locals` from name to
variable and the map `bbs` from label to block, each map as the list of its entries in the order
in which a loop over it meets them. -/
structure Function where
  name : String
  params : List Variable
  locals : List (String × Variable)
  bbs : List (String × BasicBlock)

/-- Modelled from the spec: `Program`: the variables `gl->globalVar` of the globals in order, and
the map `funcs` as the list of its functions in the order in which a loop over the map meets
them; the key of a function is its name. -/
structure Program where
  globals : List Variable
  funcs : List Function

/-- The lookup `program_.funcs[func_name]`; `none` is the null pointer that the map gives for a
name without a function. -/
def Program.func (p : Program) (func_name : String) : Option Function :=
  p.funcs.find? (fun f => f.name == func_name)

/-- The map `pointsTo` handed to `ModRef`: its entries, each set in ascending order. -/
abbrev PointsTo := List (String × List String)

/-- The set `pointsTo[key]`; for a key without an entry `operator[]` makes an empty set, which
changes no later lookup. -/
def pts_at (pointsTo : PointsTo) (key : String) : List String :=
  (pointsTo.lookup key).getD []

/-- The nodes of `ModRef`. A `Node*` is identified by the name of its node, since `get_node` makes
one node for each name. `preds` holds the pair `(a, b)` when the node `b` is in `a->preds`, and
likewise `succs`; `mods` holds `(a, x)` when the string `x` is in `a->mods`, and likewise
`refs`. The sets have no repeated member. -/
structure State where
  nodes_ : List String
  preds : List (String × String)
  succs : List (String × String)
  mods : List (String × String)
  refs : List (String × String)
  deriving DecidableEq

/-- The state of a new `ModRef`: no node. -/
def State.empty : State := ⟨[], [], [], [], []⟩

/-- The function `get_node`: the node of the name, made if it is new. -/
def get_node (st : State) (name : String) : State :=
  if name ∈ st.nodes_ then st else { st with nodes_ := st.nodes_ ++ [name] }

/-- Insertion into a `std::set` kept as a list without repetition. -/
def insertNew {α : Type} [DecidableEq α] (a : α) (l : List α) : List α :=
  if a ∈ l then l else l ++ [a]

/-- The two guarded insertions `a->succs.insert(b)` and `b->preds.insert(a)` (lines 71-76 and
126-131). -/
def add_edge (st : State) (a b : String) : State :=
  { st with succs := insertNew (a, b) st.succs, preds := insertNew (b, a) st.preds }

/-- The value `n->preds.size() + n->succs.size()`. -/
def edges (st : State) (n : String) : Nat :=
  (st.preds.filter (fun e => e.1 = n)).length + (st.succs.filter (fun e => e.1 = n)).length

/-- The variables of the two `while` loops: the nodes, the queue (`to_visit` in
`ComputeCallGraph`, `worklist` in `ComputeTransitiveClosure`) and the set `visited`. -/
structure Walk where
  st : State
  queue : List String
  visited : List String
  deriving DecidableEq

/-- Lines 69-80 and 87-97 of `ComputeCallGraph`: the edge from `node` to the callee, which is put
on the queue when it is met for the first time. -/
def add_callee (func_name : String) (w : Walk) (callee : String) : Walk :=
  let st := add_edge (get_node w.st callee) func_name callee
  if callee ∈ w.visited then { w with st := st }
  else { st := st, queue := w.queue ++ [callee], visited := w.visited ++ [callee] }

/-- The body of the loop of `ComputeCallGraph` over the blocks of the function `func_name`: a
direct call adds its callee, an indirect call every member of `pointsTo[call_instr->fp->name]`. -/
def call_graph_block (pointsTo : PointsTo) (func_name : String) (w : Walk) (bb : BasicBlock) :
    Walk :=
  match bb.terminal with
  | .CallDir call_instr => add_callee func_name w call_instr.callee
  | .CallIdr call_instr =>
    (pts_at pointsTo call_instr.fp.name).foldl (add_callee func_name) w
  | _ => w

/-- How a run that is cut off after some iterations ends: with a result, by an abort, or cut
off. -/
inductive Outcome (α : Type) where
  | finished (a : α)
  | aborted
  | out_of_fuel
  deriving DecidableEq

/-- The `while (!to_visit.empty())` loop of `ComputeCallGraph`, cut off after `fuel` iterations;
it aborts when the function `program_.funcs[func_name]` is null. -/
def call_graph_loop (p : Program) (pointsTo : PointsTo) : Nat → Walk → Outcome Walk
  | 0, w => if w.queue = [] then Outcome.finished w else Outcome.out_of_fuel
  | fuel + 1, w =>
    match w.queue with
    | [] => Outcome.finished w
    | func_name :: rest =>
      match p.func func_name with
      | none => Outcome.aborted
      | some func =>
        call_graph_loop p pointsTo fuel
          (func.bbs.foldl (fun w1 bb => call_graph_block pointsTo func_name w1 bb.2)
            { w with st := get_node w.st func_name, queue := rest })

/-- The function `ComputeCallGraph`, cut off after `fuel` iterations. -/
def ComputeCallGraph (p : Program) (pointsTo : PointsTo) (fuel : Nat) (st : State) :
    Outcome Walk :=
  call_graph_loop p pointsTo fuel ⟨st, ["test"], ["test"]⟩

/-- The nodes in ascending address. -/
def nodeOrder (addr : String → Nat) (st : State) : List String :=
  st.nodes_.insertionSort (fun a b => addr a ≤ addr b)

/-- A range-based `for` over the `std::set<Node*>` `n->preds` or `n->succs` (`set` is `preds` or
`succs`) that the body may grow: the iterator walks in ascending address and visits exactly the
nodes that are members when it reaches their position. -/
def forNodes (addr : String → Nat) (set : State → List (String × String)) (n : String)
    (body : Walk → String → Walk) (w : Walk) : Walk :=
  (nodeOrder addr w.st).foldl (fun w1 m => if (n, m) ∈ set w1.st then body w1 m else w1) w

/-- Lines 133-134 and 139-140: `worklist.push(name); visited.insert(name)`. -/
def push (w : Walk) (name : String) : Walk :=
  { w with queue := w.queue ++ [name], visited := insertNew name w.visited }

/-- The body of the loop of `ComputeTransitiveClosure` over `node->preds` (lines 125-135). -/
def closure_pred (succ : String) (w : Walk) (pred : String) : Walk :=
  let pred_edges := edges w.st pred
  let w1 := { w with st := add_edge w.st pred succ }
  if pred ∉ w1.visited ∨ edges w1.st pred > pred_edges then push w1 pred else w1

/-- The body of the loop of `ComputeTransitiveClosure` over `node->succs` (lines 122-141). -/
def closure_succ (addr : String → Nat) (node : String) (w : Walk) (succ : String) : Walk :=
  let succ_edges := edges w.st succ
  let w1 := if node ≠ succ then forNodes addr State.preds node (closure_pred succ) w else w
  if succ ∉ w1.visited ∨ edges w1.st succ > succ_edges then push w1 succ else w1

/-- The `while (!worklist.empty())` loop of `ComputeTransitiveClosure`, cut off after `fuel`
iterations. -/
def closure_loop (addr : String → Nat) : Nat → Walk → Outcome Walk
  | 0, w => if w.queue = [] then Outcome.finished w else Outcome.out_of_fuel
  | fuel + 1, w =>
    match w.queue with
    | [] => Outcome.finished w
    | func_name :: rest =>
      closure_loop addr fuel
        (forNodes addr State.succs func_name (closure_succ addr func_name)
          { w with st := get_node w.st func_name, queue := rest })

/-- The function `ComputeTransitiveClosure`, cut off after `fuel` iterations. -/
def ComputeTransitiveClosure (addr : String → Nat) (fuel : Nat) (st : State) : Outcome Walk :=
  closure_loop addr fuel ⟨st, ["test"], ["test"]⟩

/-- The function `isGlobalVar`: a name among the locals of the function is not a global; another
name is one when a global has it. `none` when `program_.funcs[func_name]` is null. -/
def isGlobalVar (p : Program) (var : Variable) (func_name : String) : Option Bool :=
  match p.func func_name with
  | none => none
  | some func =>
    if (func.locals.filter (fun l => l.1 = var.name)).length > 0 then some false
    else some (p.globals.any (fun gl => gl.name = var.name))

/-- The test `isGlobalVar(var, func_name)` followed by the insertion of `var->name`: the names
to insert. -/
def global_name (p : Program) (func_name : String) (var : Variable) : Option (List String) :=
  (isGlobalVar p var func_name).map (fun g => if g then [var.name] else [])

/-- The test `!op->IsConstInt() && isGlobalVar(op->var, func_name)` followed by the insertion of
`op->var->name`: the names to insert. -/
def global_operand (p : Program) (func_name : String) : Operand → Option (List String)
  | .ConstInt _ => some []
  | .Var var => global_name p func_name var

/-- The key under which `InitModRefInfo` looks up the pointer of a store or a load (lines 172 and
190): the bare name for a global, the name after the function name and a dot otherwise. -/
def pointsToKey (p : Program) (func_name : String) (var : Variable) : Option String :=
  (isGlobalVar p var func_name).map
    (fun g => if g then var.name else func_name ++ "." ++ var.name)

/-- The chain of tests of `InitModRefInfo` on one instruction of the function `func_name` (lines
169-284): the strings it inserts into `node->mods` and those it inserts into `node->refs`, each
in the order of the insertions. `none` when it reads through a null pointer: the function of an
unknown name, or the operand of a `ret` without one. -/
def instr_mod_ref (p : Program) (pointsTo : PointsTo) (func_name : String) :
    Instruction → Option (List String × List String)
  | .Store store_instr =>
    match pointsToKey p func_name store_instr.dst, global_name p func_name store_instr.dst,
      global_operand p func_name store_instr.op with
    | some key, some r1, some r2 => some (pts_at pointsTo key, r1 ++ r2)
    | _, _, _ => none
  | .Load load_instr =>
    match pointsToKey p func_name load_instr.src, global_name p func_name load_instr.lhs with
    | some key, some m => some (m, pts_at pointsTo key)
    | _, _ => none
  | .Copy copy_instr =>
    match global_name p func_name copy_instr.lhs, global_operand p func_name copy_instr.op with
    | some m, some r => some (m, r)
    | _, _ => none
  | .Arith arith_instr =>
    match global_name p func_name arith_instr.lhs, global_operand p func_name arith_instr.op1,
      global_operand p func_name arith_instr.op2 with
    | some m, some r1, some r2 => some (m, r1 ++ r2)
    | _, _, _ => none
  | .Alloc alloc_instr =>
    match global_name p func_name alloc_instr.lhs, global_operand p func_name alloc_instr.num with
    | some m, some r => some (m, r)
    | _, _ => none
  | .Cmp cmp_instr =>
    match global_name p func_name cmp_instr.lhs, global_operand p func_name cmp_instr.op1,
      global_operand p func_name cmp_instr.op2 with
    | some m, some r1, some r2 => some (m, r1 ++ r2)
    | _, _, _ => none
  | .Gep gep_instr =>
    match global_name p func_name gep_instr.lhs, global_name p func_name gep_instr.src,
      global_operand p func_name gep_instr.idx with
    | some m, some r1, some r2 => some (m, r1 ++ r2)
    | _, _, _ => none
  | .Gfp gfp_instr =>
    match global_name p func_name gfp_instr.lhs, global_name p func_name gfp_instr.src with
    | some m, some r => some (m, r)
    | _, _ => none
  | .Addrof addrof_instr =>
    (global_name p func_name addrof_instr.lhs).map (fun m => (m, []))
  | .Ret ret_instr =>
    match ret_instr.op with
    | none => none
    | some op => (global_operand p func_name op).map (fun r => ([], r))
  | .Other => some ([], [])

/-- The insertion of the strings `xs` into the set of the node `node` (`rel` is `mods` or
`refs`). -/
def insertAll (node : String) (xs : List String) (rel : List (String × String)) :
    List (String × String) :=
  xs.foldl (fun l x => insertNew (node, x) l) rel

/-- A loop whose body may abort. -/
def forEach {σ α : Type} (f : σ → α → Option σ) : List α → σ → Option σ
  | [], s => some s
  | a :: l, s =>
    match f s a with
    | none => none
    | some s1 => forEach f l s1

/-- The body of the loop of `InitModRefInfo` over the instructions of a block of the function
`func` whose node is `node`. -/
def init_instr (p : Program) (pointsTo : PointsTo) (func_name node : String) (st : State)
    (instr : Instruction) : Option State :=
  match instr_mod_ref p pointsTo func_name instr with
  | none => none
  | some (ms, rs) =>
    some { st with mods := insertAll node ms st.mods, refs := insertAll node rs st.refs }

/-- The body of the loop of `InitModRefInfo` over `program_.funcs` (lines 165-286); the node is
that of `it.first`, and `isGlobalVar` is given `it.second->name`, both the name of the
function. -/
def init_func (p : Program) (pointsTo : PointsTo) (st : State) (func : Function) : Option State :=
  forEach (fun st1 bb => forEach (init_instr p pointsTo func.name func.name) bb.2.instructions st1)
    func.bbs (get_node st func.name)

/-- The function `InitModRefInfo`. -/
def InitModRefInfo (p : Program) (pointsTo : PointsTo) (st : State) : Option State :=
  forEach (init_func p pointsTo) p.funcs st

/-- The class `ModRefInfo`: the members of the two sets. -/
structure ModRefInfo where
  mod : List String
  ref : List String
  deriving DecidableEq

/-- The members of `n->mods` or `n->refs` (`rel` is `mods` or `refs`). -/
def members (rel : List (String × String)) (n : String) : List String :=
  (rel.filter (fun e => e.1 = n)).map (fun e => e.2)

/-- The body of the loop of `ComputeModRefInfo` over `func_ref->succs` (lines 339-340): the
references and the modifications of the successor `node` are inserted into those of
`func_name`. -/
def propagate_succ (func_name : String) (st : State) (node : String) : State :=
  let st1 := { st with refs := insertAll func_name (members st.refs node) st.refs }
  { st1 with mods := insertAll func_name (members st1.mods node) st1.mods }

/-- The body of the loop of `ComputeModRefInfo` over `nodes_` (lines 338-345): the loop over the
successors in ascending address, which it does not change, and the entry of `mod_ref_info`. -/
def propagate_node (addr : String → Nat) (r : State × List (String × ModRefInfo))
    (func_name : String) : State × List (String × ModRefInfo) :=
  let st := ((nodeOrder addr r.1).filter (fun node => (func_name, node) ∈ r.1.succs)).foldl
    (propagate_succ func_name) r.1
  (st, r.2.filter (fun e => e.1 ≠ func_name) ++
    [(func_name, ⟨members st.mods func_name, members st.refs func_name⟩)])

/-- The function `ComputeModRefInfo`: the map `mod_ref_info` it returns, as the list of its
entries. The `unordered_map` `nodes_` is walked in the order `ord nodes_`, which the standard
leaves open; `addr` gives the addresses of the nodes and `fuel` cuts off each `while` loop. -/
def ComputeModRefInfo (p : Program) (pointsTo : PointsTo) (addr : String → Nat)
    (ord : List String → List String) (fuel : Nat) : Outcome (List (String × ModRefInfo)) :=
  match ComputeCallGraph p pointsTo fuel State.empty with
  | .aborted => .aborted
  | .out_of_fuel => .out_of_fuel
  | .finished w =>
    match ComputeTransitiveClosure addr fuel w.st with
    | .aborted => .aborted
    | .out_of_fuel => .out_of_fuel
    | .finished w1 =>
      match InitModRefInfo p pointsTo w1.st with
      | none => .aborted
      | some st => .finished ((ord st.nodes_).foldl (propagate_node addr) (st, [])).2

/-! ### Relations used in the proofs about the call graph -/

/-- The calls of the program as `ComputeCallGraph` reads them: the function `a` has a block that
ends with a direct call of `b`, or with an indirect call through `fp` where `b` is a member of
`pointsTo[fp->name]`. -/
def Calls (p : Program) (pointsTo : PointsTo) (a b : String) : Prop :=
  ∃ func, p.func a = some func ∧ ∃ bb ∈ func.bbs,
    (∃ c, bb.2.terminal = Terminal.CallDir c ∧ c.callee = b) ∨
    (∃ c, bb.2.terminal = Terminal.CallIdr c ∧ b ∈ pts_at pointsTo c.fp.name)

/-- The edge from `a` to `b` of the call graph: `b` is in `a->succs`. -/
def Succ (st : State) (a b : String) : Prop := (a, b) ∈ st.succs

/-- The names that a block can put on the queue of `ComputeCallGraph`. -/
def blockCallees (pointsTo : PointsTo) (bb : BasicBlock) : List String :=
  match bb.terminal with
  | .CallDir c => [c.callee]
  | .CallIdr c => pts_at pointsTo c.fp.name
  | _ => []

/-- Every name that `ComputeCallGraph` can meet. -/
def callNames (p : Program) (pointsTo : PointsTo) : List String :=
  "test" :: p.funcs.flatMap (fun f => f.bbs.flatMap (fun bb => blockCallees pointsTo bb.2))

/-- The invariant of the loop of `ComputeCallGraph`. -/
structure CallInv (p : Program) (pointsTo : PointsTo) (w : Walk) : Prop where
  test_vis : "test" ∈ w.visited
  reach : ∀ v ∈ w.visited, Relation.ReflTransGen (Calls p pointsTo) "test" v
  queue_vis : ∀ q ∈ w.queue, q ∈ w.visited
  done : ∀ v ∈ w.visited, v ∉ w.queue → ∀ b, Calls p pointsTo v b → (v, b) ∈ w.st.succs
  edges : ∀ a b, (a, b) ∈ w.st.succs → Calls p pointsTo a b ∧ a ∈ w.visited ∧ b ∈ w.visited
  sync : ∀ a b, (a, b) ∈ w.st.succs ↔ (b, a) ∈ w.st.preds
  nodes : ∀ n ∈ w.st.nodes_, n ∈ w.visited
  made : ∀ v ∈ w.visited, v ∉ w.queue → v ∈ w.st.nodes_
  mods : w.st.mods = []
  refs : w.st.refs = []
  names : ∀ v ∈ w.visited, v ∈ callNames p pointsTo

/-- What holds while `ComputeCallGraph` handles the blocks of the function `N`. -/
structure CallMid (p : Program) (pointsTo : PointsTo) (N : String) (w : Walk) : Prop where
  test_vis : "test" ∈ w.visited
  reach : ∀ v ∈ w.visited, Relation.ReflTransGen (Calls p pointsTo) "test" v
  queue_vis : ∀ q ∈ w.queue, q ∈ w.visited
  done : ∀ v ∈ w.visited, v ∉ w.queue → v ≠ N → ∀ b, Calls p pointsTo v b → (v, b) ∈ w.st.succs
  edges : ∀ a b, (a, b) ∈ w.st.succs → Calls p pointsTo a b ∧ a ∈ w.visited ∧ b ∈ w.visited
  sync : ∀ a b, (a, b) ∈ w.st.succs ↔ (b, a) ∈ w.st.preds
  nodes : ∀ n ∈ w.st.nodes_, n ∈ w.visited
  made : ∀ v ∈ w.visited, v ∉ w.queue → v ∈ w.st.nodes_
  mods : w.st.mods = []
  refs : w.st.refs = []
  self_vis : N ∈ w.visited
  names : ∀ v ∈ w.visited, v ∈ callNames p pointsTo

/-- How the handling of blocks moves the loop variables: the sets and the queue grow, and a name
is put on the queue only when it leaves the names not yet visited. -/
structure CallStep (p : Program) (pointsTo : PointsTo) (w w1 : Walk) : Prop where
  succs : ∀ e ∈ w.st.succs, e ∈ w1.st.succs
  visited : ∀ v ∈ w.visited, v ∈ w1.visited
  queue : ∀ q ∈ w.queue, q ∈ w1.queue
  measure : w1.queue.length + ((callNames p pointsTo).filter (fun n => n ∉ w1.visited)).length ≤
    w.queue.length + ((callNames p pointsTo).filter (fun n => n ∉ w.visited)).length

/-- The number of iterations after which `ComputeCallGraph` has surely ended. -/
def callGraphFuel (p : Program) (pointsTo : PointsTo) : Nat :=
  (callNames p pointsTo).length + 1

/-- The program of the example of a call graph: `test` calls `a` directly and calls through its
local pointer `fp`; `a` calls `test`; `b` is called by nobody directly. -/
def cgProgram : Program :=
  { globals := []
    funcs :=
      [⟨"test", [], [("fp", ptrVar "fp")],
          [("bb1", ⟨"bb1", [], Terminal.CallDir ⟨none, "a", [], "bb2"⟩⟩),
           ("bb2", ⟨"bb2", [], Terminal.CallIdr ⟨none, ptrVar "fp", [], "bb3"⟩⟩),
           ("bb3", ⟨"bb3", [], Terminal.Ret ⟨none⟩⟩)]⟩,
       ⟨"a", [], [], [("entry", ⟨"entry", [], Terminal.CallDir ⟨none, "test", [], "exit"⟩⟩),
           ("exit", ⟨"exit", [], Terminal.Ret ⟨none⟩⟩)]⟩,
       ⟨"b", [], [], [("entry", ⟨"entry", [], Terminal.Ret ⟨none⟩⟩)]⟩] }

/-! ### Relations used in the proofs about the transitive closure -/

/-- The well-formed call graphs: the two edge sets are in step, and edges join nodes. -/
structure Sound (st : State) : Prop where
  sync : ∀ a b, (a, b) ∈ st.succs ↔ (b, a) ∈ st.preds
  ends : ∀ a b, (a, b) ∈ st.succs → a ∈ st.nodes_ ∧ b ∈ st.nodes_

/-- How `ComputeTransitiveClosure` changes the nodes: the edge sets gain members at their end,
every edge is a path of the edges before, and nothing else changes. -/
structure Grows (st st1 : State) : Prop where
  nodes : st1.nodes_ = st.nodes_
  mods : st1.mods = st.mods
  refs : st1.refs = st.refs
  succs : ∃ t, st1.succs = st.succs ++ t
  preds : ∃ t, st1.preds = st.preds ++ t
  derived : ∀ a b, (a, b) ∈ st1.succs → Relation.TransGen (Succ st) a b

/-- The node `n` has the same edges in both states. -/
def Same (st st1 : State) (n : String) : Prop :=
  ∀ b, ((n, b) ∈ st1.succs → (n, b) ∈ st.succs) ∧ ((n, b) ∈ st1.preds → (n, b) ∈ st.preds)

/-- The number of pairs of nodes that are not edges. -/
def missing (st : State) : Nat :=
  ((st.nodes_.product st.nodes_).filter (fun e => e ∉ st.succs)).length

/-- The number of nodes that are not visited. -/
def unvisited (w : Walk) : Nat := (w.st.nodes_.filter (fun n => n ∉ w.visited)).length

/-- How a part of an iteration of `ComputeTransitiveClosure` moves the loop variables. A node
whose edges change is put on the queue, unless it is the successor `ex` at hand, which the
enclosing loop looks at afterwards; every push is paid for by a node that becomes visited or by a
pair that becomes an edge (`k` times). -/
structure ClosureStep (k : Nat) (ex : String → Prop) (w w1 : Walk) : Prop where
  grows : Grows w.st w1.st
  queue : ∃ t, w1.queue = w.queue ++ t ∧ (∀ n ∈ t, n ∈ w.st.nodes_ ∧ n ∈ w1.visited) ∧
    (∀ v ∈ w1.visited, v ∈ w.visited ∨ v ∈ t) ∧
    (∀ n, ¬ Same w.st w1.st n → n ∈ t ∨ ex n)
  visited : ∀ v ∈ w.visited, v ∈ w1.visited
  measure : w1.queue.length + unvisited w1 + k * missing w1.st ≤
    w.queue.length + unvisited w + k * missing w.st
  strict : w1.st = w.st ∨ missing w1.st < missing w.st

/-- The invariant of the loop of `ComputeTransitiveClosure` that starts from the nodes `st0`. -/
structure ClosureInv (st0 : State) (w : Walk) : Prop where
  grows : Grows st0 w.st
  sound : Sound w.st
  test_vis : "test" ∈ w.visited
  vis_nodes : ∀ v ∈ w.visited, v ∈ w.st.nodes_
  queue_vis : ∀ q ∈ w.queue, q ∈ w.visited
  closed : ∀ n ∈ w.visited, n ∉ w.queue → ∀ P S, (n, P) ∈ w.st.preds → (n, S) ∈ w.st.succs →
    S ≠ n → (P, S) ∈ w.st.succs
  next : ∀ n ∈ w.visited, n ∉ w.queue → ∀ S, (n, S) ∈ w.st.succs → S ∈ w.visited

/-- The number of iterations after which `ComputeTransitiveClosure` has surely ended. -/
def closureFuel (st : State) : Nat := st.nodes_.length + 2 * missing st + 2

/-- The program of the example of mod/ref information: `test` calls `a`, which writes the global
`g` and calls `b`, which loads through the global pointer `gp` and stores through its local
pointer `q`; `c` is called by nobody. -/
def modRefProgram : Program :=
  { globals := [intVar "g", ptrVar "gp"]
    funcs :=
      [⟨"test", [], [],
          [("entry", ⟨"entry", [], Terminal.CallDir ⟨none, "a", [], "exit"⟩⟩),
           ("exit", ⟨"exit", [], Terminal.Ret ⟨none⟩⟩)]⟩,
       ⟨"a", [], [],
          [("entry", ⟨"entry", [Instruction.Copy ⟨intVar "g", Operand.ConstInt 1⟩],
              Terminal.CallDir ⟨none, "b", [], "exit"⟩⟩),
           ("exit", ⟨"exit", [], Terminal.Ret ⟨none⟩⟩)]⟩,
       ⟨"b", [], [("q", ptrVar "q"), ("x", intVar "x")],
          [("entry", ⟨"entry", [Instruction.Load ⟨intVar "x", ptrVar "gp"⟩,
              Instruction.Store ⟨ptrVar "q", Operand.Var (intVar "x")⟩], Terminal.Ret ⟨none⟩⟩)]⟩,
       ⟨"c", [], [], [("entry", ⟨"entry", [Instruction.Copy ⟨intVar "g", Operand.ConstInt 2⟩],
          Terminal.Ret ⟨none⟩⟩)]⟩] }

/-- The points-to map of the example: the global `gp` points to the cell `c1`, the local `q` of
`b` to the cell `c2`. -/
def modRefPointsTo : PointsTo := [("gp", ["c1"]), ("b.q", ["c2"])]

/-- The addresses of the nodes of the examples: different names have different addresses. -/
def nodeAddr (name : String) : Nat := name.data.foldl (fun n c => 256 * n + c.toNat) 0

/-! ### Relations used in the proofs about the mod/ref information -/

/-- An instruction that `InitModRefInfo` reads without going through a null pointer: a `ret`
among the instructions has an operand. -/
def Instruction.hasOperand : Instruction → Bool
  | .Ret ret_instr => ret_instr.op.isSome
  | _ => true

/-- A program on which `InitModRefInfo` runs to its end. -/
def InitOK (p : Program) : Prop :=
  ∀ func ∈ p.funcs, ∀ bb ∈ func.bbs, ∀ i ∈ bb.2.instructions, i.hasOperand = true

instance (p : Program) : Decidable (InitOK p) := by unfold InitOK; infer_instance

/-- The initial mod set of the function named `F`: the strings that the instructions of `F` give
to `node->mods`. -/
def InitMod (p : Program) (pointsTo : PointsTo) (F x : String) : Prop :=
  ∃ func ∈ p.funcs, func.name = F ∧ ∃ bb ∈ func.bbs, ∃ i ∈ bb.2.instructions, ∃ ms rs,
    instr_mod_ref p pointsTo func.name i = some (ms, rs) ∧ x ∈ ms

/-- The initial ref set of the function named `F`: the strings that the instructions of `F` give
to `node->refs`. -/
def InitRef (p : Program) (pointsTo : PointsTo) (F x : String) : Prop :=
  ∃ func ∈ p.funcs, func.name = F ∧ ∃ bb ∈ func.bbs, ∃ i ∈ bb.2.instructions, ∃ ms rs,
    instr_mod_ref p pointsTo func.name i = some (ms, rs) ∧ x ∈ rs

/-- How `InitModRefInfo` changes the nodes: the edges stay, nodes are made for functions of the
program, and the mod and ref sets gain initial members. -/
structure InitStep (p : Program) (pointsTo : PointsTo) (st st1 : State) : Prop where
  succs : st1.succs = st.succs
  preds : st1.preds = st.preds
  nodes : ∀ n ∈ st.nodes_, n ∈ st1.nodes_
  nodes_new : ∀ n ∈ st1.nodes_, n ∈ st.nodes_ ∨ ∃ func ∈ p.funcs, func.name = n
  mods : ∀ e ∈ st.mods, e ∈ st1.mods
  refs : ∀ e ∈ st.refs, e ∈ st1.refs
  mods_new : ∀ n x, (n, x) ∈ st1.mods → (n, x) ∈ st.mods ∨ InitMod p pointsTo n x
  refs_new : ∀ n x, (n, x) ∈ st1.refs → (n, x) ∈ st.refs ∨ InitRef p pointsTo n x

/-- The members of the set `rel` of `n` together with those of the successors of `n`. -/
def Full (succs rel : List (String × String)) (n x : String) : Prop :=
  (n, x) ∈ rel ∨ ∃ m, (n, m) ∈ succs ∧ (m, x) ∈ rel

/-- The invariant of the propagation loop of `ComputeModRefInfo` that starts from the nodes
`st2`: the edges stay, and every set lies between its initial members and these together with
the initial members of the successors. -/
structure PropInv (st2 st : State) : Prop where
  succs : st.succs = st2.succs
  nodes : st.nodes_ = st2.nodes_
  mods_lo : ∀ e ∈ st2.mods, e ∈ st.mods
  refs_lo : ∀ e ∈ st2.refs, e ∈ st.refs
  mods_hi : ∀ n x, (n, x) ∈ st.mods → Full st2.succs st2.mods n x
  refs_hi : ∀ n x, (n, x) ∈ st.refs → Full st2.succs st2.refs n x

/-- The entry of `mod_ref_info` for `F` holds the initial members of `F` and of its
successors. -/
def Entry (st2 : State) (F : String) (info : List (String × ModRefInfo)) : Prop :=
  ∃ mr, info.lookup F = some mr ∧ (∀ x, x ∈ mr.mod ↔ Full st2.succs st2.mods F x) ∧
    (∀ x, x ∈ mr.ref ↔ Full st2.succs st2.refs F x)

end ModRef

/-! ### Reading the text of the constraints -/

namespace Solver

/-- Modelled from the spec: the end of a token of `util::Tokenizer` (`headers/tokenizer.hpp` is
not among the sources): the characters read so far make a token unless there are none. -/
def flushWord (word : List Char) : List String :=
  if word = [] then [] else [String.mk word]

/-- Modelled from the spec: what a single character means to `util::Tokenizer` for the
arguments that `main` hands to it (line 271): the blank separates tokens, each of the one-letter
delimiters `(`, `)`, `,`, `[`, `]` is a token of its own, and so is the end of a line, which
`main` consumes as the token of the newline; `none` for any other character. -/
def delimOf (c : Char) : Option (List String) :=
  if c = ' ' then some []
  else if c = '(' ∨ c = ')' ∨ c = ',' ∨ c = '[' ∨ c = ']' ∨ c = '\n' then
    some [String.singleton c]
  else none

/-- Modelled from the spec: the tokens that `util::Tokenizer` makes of the characters of the
input: the tokens of `delimOf`, the two-letter delimiters `<=` and `->`, and the words between
them; `word` holds the characters of the word that is being read. -/
def tokenize_loop : List Char → List Char → List String
  | [], word => flushWord word
  | [c], word =>
    match delimOf c with
    | some t => flushWord word ++ t
    | none => flushWord (word ++ [c])
  | c :: d :: rest, word =>
    match delimOf c with
    | some t => flushWord word ++ t ++ tokenize_loop (d :: rest) []
    | none =>
      if c = '<' ∧ d = '=' then flushWord word ++ "<=" :: tokenize_loop rest []
      else if c = '-' ∧ d = '>' then flushWord word ++ "->" :: tokenize_loop rest []
      else tokenize_loop (d :: rest) (word ++ [c])

/-- Modelled from the spec: `tk.Tokens()` for the input text, in reading order. -/
def tokenize (input_str : String) : List String := tokenize_loop input_str.data []

/-- Modelled from the spec: `util::Tokenizer::Consume`, which takes the next token; `none` when
there is none. -/
def Consume : List String → Option (String × List String)
  | [] => none
  | t :: tokens => some (t, tokens)

/-- Modelled from the spec: `util::Tokenizer::ConsumeToken`, which takes the next token and
fails unless it is the expected one. -/
def ConsumeToken (tokens : List String) (expected : String) : Option (List String) :=
  match tokens with
  | [] => none
  | t :: rest => if t = expected then some rest else none

/-- The value of a run of decimal digits. -/
def digitsValue (ds : List Char) : Nat := ds.foldl (fun n c => 10 * n + (c.toNat - 48)) 0

/-- The call `std::stoi(s)` on a token: an optional sign and the decimal digits that follow
it; `none` when it throws, for a token that does not start with a digit or whose value is not
an `int`. -/
def stoi (s : String) : Option Int :=
  let signed : Int × List Char :=
    match s.data with
    | '-' :: r => (-1, r)
    | '+' :: r => (1, r)
    | r => (1, r)
  let digits := signed.2.takeWhile Char.isDigit
  if digits = [] then none
  else
    let v := signed.1 * (digitsValue digits : Int)
    if -2147483648 ≤ v ∧ v ≤ 2147483647 then some v else none

/-- The first `while` loop of the `lam_` branch of `parseExpression` (lines 136-142): the
parameter types up to the closing bracket, which stays; `tokens.back()` of an empty vector is an
abort (`none`). -/
def parseParamTypes : List String → Option (List String × List String)
  | [] => none
  | t :: rest =>
    if t = ")" then some ([], t :: rest)
    else
      match rest with
      | [] => none
      | u :: rest1 =>
        if u = ")" then some ([t], u :: rest1)
        else if u = "," then
          (parseParamTypes rest1).map (fun r => (t :: r.1, r.2))
        else none

/-- The second `while` loop of the `lam_` branch of `parseExpression` (lines 153-166): the
arguments up to the closing bracket, which stays. -/
def parseLamArgs : List String → Option (List String × List String)
  | [] => none
  | t :: rest =>
    if t = ")" then some ([], t :: rest)
    else
      match rest with
      | [] => none
      | u :: rest1 =>
        if u = ")" then some ([t], u :: rest1)
        else if u = "," then
          (parseLamArgs rest1).map (fun r => (t :: r.1, r.2))
        else none

/-- The function `parseExpression` on the tokens: the expression it reads and the tokens that
are left; `none` when a token is missing or is not the expected one. -/
def parseTokens (tokens : List String) : Option (Expr × List String) :=
  match Consume tokens with
  | none => none
  | some (type, tokens) =>
    if type = "ref" then
      (ConsumeToken tokens "(").bind fun tokens =>
      (Consume tokens).bind fun (const_name, tokens) =>
      (ConsumeToken tokens ",").bind fun tokens =>
      (Consume tokens).bind fun (sv_name, tokens) =>
      (ConsumeToken tokens ")").bind fun tokens =>
      some (Expr.ref const_name sv_name, tokens)
    else if type = "proj" then
      (ConsumeToken tokens "(").bind fun tokens =>
      (Consume tokens).bind fun (ref_name, tokens) =>
      (ConsumeToken tokens ",").bind fun tokens =>
      (Consume tokens).bind fun (idx, tokens) =>
      (stoi idx).bind fun proj_idx =>
      (ConsumeToken tokens ",").bind fun tokens =>
      (Consume tokens).bind fun (sv_name, tokens) =>
      (ConsumeToken tokens ")").bind fun tokens =>
      some (Expr.proj ref_name proj_idx sv_name, tokens)
    else if type = "lam_" then
      (ConsumeToken tokens "[").bind fun tokens =>
      (ConsumeToken tokens "(").bind fun tokens =>
      (parseParamTypes tokens).bind fun (param_types, tokens) =>
      (ConsumeToken tokens ")").bind fun tokens =>
      (ConsumeToken tokens "->").bind fun tokens =>
      (Consume tokens).bind fun (retval_type, tokens) =>
      (ConsumeToken tokens "]").bind fun tokens =>
      (ConsumeToken tokens "(").bind fun tokens =>
      (parseLamArgs tokens).bind fun (args, tokens) =>
      (ConsumeToken tokens ")").bind fun tokens =>
      some (Expr.lam_ param_types retval_type args, tokens)
    else some (Expr.setvar type, tokens)

/-- The body of the reading loop of `main` on the tokens (lines 275-278): one constraint and the
tokens that are left. -/
def parseConstraint (tokens : List String) : Option ((Expr × Expr) × List String) :=
  (parseTokens tokens).bind fun (lhs_expr, tokens) =>
  (ConsumeToken tokens "<=").bind fun tokens =>
  (parseTokens tokens).bind fun (rhs_expr, tokens) =>
  (ConsumeToken tokens "\n").bind fun tokens =>
  some ((lhs_expr, rhs_expr), tokens)

/-- The reading loop `while(!tokens.empty())` of `main` on the tokens, cut off after `fuel`
constraints. -/
def parseFile : Nat → List String → Option (List (Expr × Expr))
  | _, [] => some []
  | 0, _ :: _ => none
  | fuel + 1, t :: tokens =>
    (parseConstraint (t :: tokens)).bind fun (c, rest) =>
    (parseFile fuel rest).map (fun cs => c :: cs)

/-- The program `main` of the solver on the text of the constraint file: tokenize, read the
constraints, solve, extract the solution. Every constraint takes at least one token, so that the
number of tokens is enough fuel for the reading loop. -/
def solve_text (addr : Ref → Nat) (fuel : Nat) (input_str : String) :
    Option (List (String × List String)) :=
  (parseFile (tokenize input_str).length (tokenize input_str)).bind (solve_main addr fuel)

end Solver

namespace Generator

/-- A character that is neither the blank nor part of a delimiter of the constraint file. -/
def wordChar (c : Char) : Bool :=
  !(c = ' ' || c = '(' || c = ')' || c = ',' || c = '[' || c = ']' || c = '\n' || c = '<' ||
    c = '-')

/-- A name that the tokenizer leaves in one piece: it is not empty and has only word
characters. -/
def Word (s : String) : Prop := s.data ≠ [] ∧ ∀ c ∈ s.data, wordChar c = true

instance (s : String) : Decidable (Word s) := by unfold Word; infer_instance

/-- The node that the solver is to build for a side of a statement, with the same kind, the same
constructor name, projection index and set-variable names: the constraint that is fed to the
solver directly. -/
def toExpr : Expression → Option Solver.Expr
  | Expression.Term (Term.SetVariable v) => some (Solver.Expr.setvar (build_set_var_str v))
  | Expression.Term (Term.Constructor (Constructor.mk [Term.SetVariable a, Term.SetVariable b]
      name)) =>
    if name = "ref" then some (Solver.Expr.ref (build_set_var_str a) (build_set_var_str b))
    else none
  | Expression.Projection p => some (Solver.Expr.proj p.c.name p.arg (build_set_var_str p.v))
  | _ => none

/-- The sides of the statements that the generator builds: a set variable that does not read as
one of the words `ref`, `proj`, `lam_` (one with a function name never does), a `ref`
constructor with two set-variable arguments, or the projection `proj(ref,1,v)`; the names are
words. -/
def SideOK : Expression → Prop
  | Expression.Term (Term.SetVariable v) =>
    Word (build_set_var_str v) ∧ build_set_var_str v ≠ "ref" ∧ build_set_var_str v ≠ "proj" ∧
      build_set_var_str v ≠ "lam_"
  | Expression.Term (Term.Constructor (Constructor.mk [Term.SetVariable a, Term.SetVariable b]
      name)) =>
    name = "ref" ∧ Word (build_set_var_str a) ∧ Word (build_set_var_str b)
  | Expression.Projection p =>
    p.c.name = "ref" ∧ p.arg = 1 ∧ Word (build_set_var_str p.v)
  | _ => False

instance (e : Expression) : Decidable (SideOK e) := by
  unfold SideOK
  split <;> infer_instance

/-- The statements fed to the solver directly. -/
def toExprs : List Statement → Option (List (Solver.Expr × Solver.Expr))
  | [] => some []
  | s :: ss =>
    match toExpr s.e1, toExpr s.e2, toExprs ss with
    | some l, some r, some cs => some ((l, r) :: cs)
    | _, _, _ => none

/-- The tokens of the text of a side of a statement. -/
def sideTokens : Expression → List String
  | Expression.Term (Term.SetVariable v) => [build_set_var_str v]
  | Expression.Term (Term.Constructor (Constructor.mk [Term.SetVariable a, Term.SetVariable b]
      name)) =>
    [name, "(", build_set_var_str a, ",", build_set_var_str b, ")"]
  | Expression.Projection p =>
    ["proj", "(", p.c.name, ",", toString p.arg, ",", build_set_var_str p.v, ")"]
  | _ => []

/-- The tokens of the text of a statement. -/
def lineTokens (s : Statement) : List String :=
  sideTokens s.e1 ++ "<=" :: (sideTokens s.e2 ++ ["\n"])

/-- The tokens of the texts of a list of statements. -/
def fileTokens : List Statement → List String
  | [] => []
  | s :: ss => lineTokens s ++ fileTokens ss

/-- The text that `main` writes to the standard output: the lines one after the other. -/
def printed : List String → String
  | [] => ""
  | l :: ls => l ++ printed ls

/-- A name without a blank and without a part of a delimiter; it may be empty. -/
def cleanName (s : String) : Prop := ∀ c ∈ s.data, wordChar c = true

instance (s : String) : Decidable (cleanName s) := by unfold cleanName; infer_instance

/-- The names of the operand are clean. -/
def cleanOperand : Operand → Prop
  | .ConstInt _ => True
  | .Var var => cleanName var.name

/-- The names that the constraint of an instruction mentions are clean, and the name of an
allocation site, which is printed bare, is a word. -/
def InstrNamesOK : Instruction → Prop
  | .Copy copy => cleanName copy.lhs.name ∧ cleanOperand copy.op
  | .Addrof addrof => cleanName addrof.lhs.name ∧ cleanName addrof.rhs.name
  | .Alloc alloc => cleanName alloc.lhs.name ∧ Word alloc.id.name
  | .Gep gep => cleanName gep.lhs.name ∧ cleanName gep.src.name
  | .Gfp gfp => cleanName gfp.lhs.name ∧ cleanName gfp.src.name
  | .Load load => cleanName load.lhs.name ∧ cleanName load.src.name
  | .Store store => cleanName store.dst.name ∧ cleanOperand store.op
  | .Other => True

/-- The instructions of the example of a round trip, in the function `F`: a copy, an address, an
allocation, a load and a store. -/
def roundTripInstrs : List Instruction :=
  [Instruction.Copy ⟨ptrVar "p", Operand.Var (ptrVar "q")⟩,
   Instruction.Addrof ⟨ptrVar "q", intVar "a"⟩,
   Instruction.Alloc ⟨ptrVar "h", Operand.ConstInt 1, ptrVar "_alloc1"⟩,
   Instruction.Load ⟨ptrVar "x", ptrVar "p"⟩,
   Instruction.Store ⟨ptrVar "p", Operand.Var (ptrVar "x")⟩]

/-- The statements of the example of a round trip: those of `roundTripInstrs`. -/
def roundTripExample : List Statement :=
  [⟨Expression.Term (Term.SetVariable ⟨"q", "F", true⟩),
      Expression.Term (Term.SetVariable ⟨"p", "F", true⟩)⟩,
   get_addrof_constraint ⟨ptrVar "q", intVar "a"⟩ "F",
   get_alloc_constraint ⟨ptrVar "h", Operand.ConstInt 1, ptrVar "_alloc1"⟩ "F",
   get_load_constraint ⟨ptrVar "x", ptrVar "p"⟩ "F",
   ⟨Expression.Term (Term.SetVariable ⟨"x", "F", true⟩),
      Expression.Projection ⟨⟨"p", "F", true⟩, Constructor.mk [] "ref", 1⟩⟩]

end Generator

/-! ### Examples for the initial mod/ref information -/

namespace ModRef

open Generator (intVar ptrVar Operand)

/-- The program of the example of a returned global: the only block of `test` has no instruction
and ends with `ret g`, where `g` is a global. -/
def retProgram : Program :=
  { globals := [intVar "g"]
    funcs := [⟨"test", [], [],
      [("entry", ⟨"entry", [], Terminal.Ret ⟨some (Operand.Var (intVar "g"))⟩⟩)]⟩] }

/-- The program of the example of a load through a global: the only block of `test` loads the
local `x` through the global pointer `gp`. -/
def loadProgram : Program :=
  { globals := [ptrVar "gp"]
    funcs := [⟨"test", [], [("x", intVar "x")],
      [("entry", ⟨"entry", [Instruction.Load ⟨intVar "x", ptrVar "gp"⟩], Terminal.Ret ⟨none⟩⟩)]⟩] }

/-- The points-to map of the example of a load through a global: `gp` points to the cell
`c1`. -/
def loadPointsTo : PointsTo := [("gp", ["c1"])]

end ModRef

/-! ### The dataflow analyses: the program as they read it -/

namespace Dataflow

open Generator (Variable DataType AddrofInstruction)

/-- Modelled from the spec: the test `isIntType()` of a `Variable` (`datatypes.h` is not among the
sources): the type is `Int` without indirection. -/
def isIntType (v : Variable) : Bool :=
  decide (v.type.type = DataType.IntType ∧ v.type.indirection = 0)

/-- Modelled from the spec: a non-terminal instruction with its `instrType` tag, for the one tag
that the functions below test (`AddrofInstrType`); every other kind is `Other`. -/
inductive Instruction where
  | Addrof (addrof_instr : AddrofInstruction)
  | Other

/-- Modelled from the spec: the terminal of a block with its `instrType` tag and the labels that
`get_loop_headers` reads from it: `tt` and `ff` of a branch, `label` of a jump, `next_bb` of a
direct and of an indirect call. -/
inductive Terminal where
  | Branch (tt ff : String)
  | Jump (label : String)
  | CallDir (next_bb : String)
  | CallIdr (next_bb : String)
  | Ret
  | Other
  deriving DecidableEq

/-- Modelled from the spec: `BasicBlock`, a label, the non-terminal instructions in order and one
terminal. -/
structure BasicBlock where
  label : String
  instructions : List Instruction
  terminal : Terminal

/-- Modelled from the spec: `Function`: the name, the parameters (none of them null), the map
`locals` from name to variable and the map `bbs` from label to block, each map as the list of its
entries in the order in which a loop over it meets them. -/
structure Function where
  name : String
  params : List Variable
  locals : List (String × Variable)
  bbs : List (String × BasicBlock)

/-- Modelled from the spec: `Program`: the variables `gl->globalVar` of the globals in order, and
the functions of the map `funcs`; the key of a function is its name. -/
structure Program where
  globals : List Variable
  funcs : List Function

/-- The lookup `program.funcs[func_name]`; `none` is the null pointer that the map gives for a
name without a function. -/
def Program.func (p : Program) (func_name : String) : Option Function :=
  p.funcs.find? (fun f => f.name == func_name)

/-- The assignment `m[key] = val` on a `std::map` with string keys, kept as the list of its
entries in ascending key order. -/
def mapSet {α : Type} (key : String) (val : α) : List (String × α) → List (String × α)
  | [] => [(key, val)]
  | e :: m =>
    if Solver.nameLt key e.1 then (key, val) :: e :: m
    else if key = e.1 then (key, val) :: m
    else e :: mapSet key val m

/-- The value of `m[key]` for a map whose values are maps or sets: the empty one for a key without
an entry. -/
def mapGet {α : Type} (m : List (String × List α)) (key : String) : List α :=
  (m.lookup key).getD []

/-- The map after `m[key]` was evaluated: a key without an entry gets the empty value. -/
def mapTouch {α : Type} (key : String) (m : List (String × List α)) : List (String × List α) :=
  match m.lookup key with
  | some _ => m
  | none => mapSet key [] m

/-- The chain of tests of `get_addr_of_int_types` (lines 51-66) and of `get_addrof_ints` (lines
77-89) on one instruction of the function `func`: the set after the insertions. The name of the
operand of an `$addrof` with an int type is inserted when it is a key of `locals`, and otherwise
once for every parameter of that name. -/
def addrof_instr (func : Function) (s : List String) : Instruction → List String
  | .Addrof a =>
    if isIntType a.rhs then
      if func.locals.any (fun l => l.1 = a.rhs.name) then ModRef.insertNew a.rhs.name s
      else
        func.params.foldl
          (fun s1 param => if param.name = a.rhs.name then ModRef.insertNew a.rhs.name s1 else s1) s
    else s
  | .Other => s

/-- The loop over the blocks and their instructions that `get_addr_of_int_types` (lines 49-68)
and `get_addrof_ints` (lines 75-91) share: the set they fill, as the list of its members. -/
def addrof_blocks (func : Function) : List String :=
  func.bbs.foldl (fun s bb => bb.2.instructions.foldl (addrof_instr func) s) []

/-- An instruction for which the two functions insert `x` into the set: an `$addrof` whose
operand has an int type and the name `x`, where `x` is a key of `locals` or the name of a
parameter. -/
def Taken (func : Function) (i : Instruction) (x : String) : Prop :=
  ∃ a, i = Instruction.Addrof a ∧ isIntType a.rhs = true ∧ a.rhs.name = x ∧
    ((∃ l ∈ func.locals, l.1 = x) ∨ ∃ param ∈ func.params, param.name = x)

/-- The labels that `get_loop_headers` pushes for a terminal, in the order of the pushes. -/
def pushed : Terminal → List String
  | .Branch tt ff => [tt, ff]
  | .Jump label => [label]
  | .CallDir next_bb => [next_bb]
  | .CallIdr next_bb => [next_bb]
  | .Ret => []
  | .Other => []

/-- The labels of the blocks of a function. -/
def labels (func : Function) : List String := func.bbs.map (fun e => e.1)

/-- A function whose control-flow graph is closed: it has a block `entry`, and every label that a
terminal names is the label of a block. -/
def Closed (func : Function) : Prop :=
  "entry" ∈ labels func ∧ ∀ e ∈ func.bbs, ∀ l ∈ pushed e.2.terminal, l ∈ labels func

instance (func : Function) : Decidable (Closed func) := by unfold Closed; infer_instance

end Dataflow

namespace ConstantAnalysis

open Generator (Variable Operand AddrofInstruction intVar ptrVar)
open Dataflow
open ModRef (Outcome)

/-- Modelled from the spec: an abstract value of the constant lattice (`execute.hpp` is not among
the sources). -/
inductive AbstractVal where
  | BOTTOM
  | Const (n : Int)
  | TOP
  deriving DecidableEq

/-- Modelled from the spec: the map `abstract_store` of an `AbstractStore`, from the name of a
variable to its abstract value. -/
abbrev AbstractStore := List (String × AbstractVal)

/-- The members of `ConstantAnalysis` that `execute` is given by reference. -/
structure Env where
  bb2store : List (String × AbstractStore)
  worklist : List String
  bbs_to_output : List String
  deriving DecidableEq

/-- The transfer function `execute` of `execute.hpp`, which is not among the sources: the
functions below take it as a parameter. It is given the program, the block `func->bbs[label]`
(null for a label without a block), the label whose store `bb2store[label]` it works on, the
members `bb2store`, `worklist` and `bbs_to_output`, the set `addr_of_int_types` and the flag of the
last pass; it gives back the three members and the store it returns, or `none` when it aborts. -/
abbrev Execute :=
  Program → Option BasicBlock → String → Env → List String → Bool → Option (Env × AbstractStore)

/-- The function `get_addr_of_int_types`: the text it writes to the standard stream, one line for
the label of each block (lines 46-48), and the set it fills (lines 49-68). -/
def get_addr_of_int_types (func : Function) : String × List String :=
  (String.join (func.bbs.map (fun e => e.1 ++ "\n")), addrof_blocks func)

/-- The function `InitEntryStore`: a new store in which every parameter with an int type is `TOP`
becomes the store of `entry`. -/
def InitEntryStore (func : Function) (bb2store : List (String × AbstractStore)) :
    List (String × AbstractStore) :=
  mapSet "entry"
    (func.params.foldl
      (fun (store : AbstractStore) param =>
        if isIntType param then mapSet param.name AbstractVal.TOP store else store) [])
    bb2store

/-- Lines 129-141 of `AnalyzeFunc`: an empty store for every block, the store of `entry`, and
`entry` on the worklist and in `bbs_to_output`. -/
def setup (func : Function) : Env :=
  { bb2store := InitEntryStore func (func.bbs.foldl (fun m e => mapSet e.1 [] m) [])
    worklist := ["entry"]
    bbs_to_output := Solver.setInsert "entry" [] }

/-- The `while (!worklist.empty())` loop of `AnalyzeFunc` (lines 152-177), cut off after `fuel`
iterations. -/
def worklist_loop (execute : Execute) (p : Program) (func : Function)
    (addr_of_int_types : List String) : Nat → Env → Outcome Env
  | 0, env => if env.worklist = [] then Outcome.finished env else Outcome.out_of_fuel
  | fuel + 1, env =>
    match env.worklist with
    | [] => Outcome.finished env
    | current_bb :: rest =>
      match execute p (func.bbs.lookup current_bb) current_bb
        { env with worklist := rest, bb2store := mapTouch current_bb env.bb2store }
        addr_of_int_types false with
      | none => Outcome.aborted
      | some (env1, _) =>
        worklist_loop execute p func addr_of_int_types fuel
          { env1 with
            bbs_to_output :=
              env1.worklist.foldl (fun s i => Solver.setInsert i s) env1.bbs_to_output }

/-- The loop of `AnalyzeFunc` over `bbs_to_output` that fills `soln` (lines 184-193), for the
labels that are in the set when the loop starts. -/
def final_loop (execute : Execute) (p : Program) (func : Function)
    (addr_of_int_types : List String) :
    List String → Env → List (String × AbstractStore) → Option (Env × List (String × AbstractStore))
  | [], env, soln => some (env, soln)
  | it :: rest, env, soln =>
    match execute p (func.bbs.lookup it) it { env with bb2store := mapTouch it env.bb2store }
      addr_of_int_types true with
    | none => none
    | some (env1, store) =>
      final_loop execute p func addr_of_int_types rest env1 (mapSet it store soln)

/-- The loop of `AnalyzeFunc` that prints the solution (lines 199-203): for each label of
`bbs_to_output`, ascending, the label with a colon, what `print` writes for `soln[bb_label]`, and
an empty line. The member function `print` of `AbstractStore` is not among the sources: its text
is the parameter `print`. -/
def report (print : AbstractStore → String) (soln : List (String × AbstractStore))
    (bbs_to_output : List String) : String :=
  String.join
    (bbs_to_output.map (fun bb_label => bb_label ++ ":\n" ++ print (mapGet soln bb_label) ++ "\n"))

/-- The function `AnalyzeFunc` on a new `ConstantAnalysis`: the text it writes to the standard
stream. -/
def AnalyzeFunc (execute : Execute) (print : AbstractStore → String) (fuel : Nat) (p : Program)
    (func_name : String) : Outcome String :=
  match p.func func_name with
  | none => Outcome.finished "Func not found\n"
  | some func =>
    match worklist_loop execute p func (get_addr_of_int_types func).2 fuel (setup func) with
    | Outcome.aborted => Outcome.aborted
    | Outcome.out_of_fuel => Outcome.out_of_fuel
    | Outcome.finished env =>
      match final_loop execute p func (get_addr_of_int_types func).2 env.bbs_to_output env [] with
      | none => Outcome.aborted
      | some (env1, soln) =>
        Outcome.finished ((get_addr_of_int_types func).1 ++ report print soln env1.bbs_to_output)

/-- The function `main` of `constant_analysis.cpp` for `argc` arguments, where `p` is the program
read from the file `argv[2]` and `func_name` is `argv[3]`: the text written to the standard
stream and the exit code. -/
def main (execute : Execute) (print : AbstractStore → String) (fuel : Nat) (argc : Nat)
    (p : Program) (func_name : String) : Outcome (String × Nat) :=
  if argc ≠ 4 then Outcome.finished ("", 1)
  else
    match AnalyzeFunc execute print fuel p func_name with
    | Outcome.aborted => Outcome.aborted
    | Outcome.out_of_fuel => Outcome.out_of_fuel
    | Outcome.finished out => Outcome.finished (out, 0)

/-- A transfer function for the examples: it changes nothing and returns the store of the block
it is given. -/
def idleExecute : Execute :=
  fun _ _ label env _ _ => some (env, mapGet env.bb2store label)

/-- A printer for the examples: one line for each key of the store. -/
def keyLines (store : AbstractStore) : String :=
  String.join (store.map (fun e => e.1 ++ "\n"))

/-- The function of the example of an address taken: `test` with the int parameter `n` and the
int local `x` takes the address of `x`, of `n` and of the int variable `g`. -/
def addrFunction : Function :=
  ⟨"test", [intVar "n"], [("p", ptrVar "p"), ("x", intVar "x")],
    [("entry", ⟨"entry",
      [Instruction.Addrof ⟨ptrVar "p", intVar "x"⟩, Instruction.Addrof ⟨ptrVar "p", intVar "n"⟩,
        Instruction.Addrof ⟨ptrVar "p", intVar "g"⟩], Terminal.Ret⟩)]⟩

/-- The program of the example of an address taken: the int global `g` and the function
`addrFunction`. -/
def addrProgram : Program := ⟨[intVar "g"], [addrFunction]⟩

end ConstantAnalysis

namespace IntervalAnalysis

open Generator (Variable Operand AddrofInstruction intVar ptrVar)
open Dataflow
open ModRef (Outcome)

/-- Modelled from the spec: an abstract value of the interval lattice (`interval_analysis.hpp` is
not among the sources): bottom, the interval from `lo` (an integer, or `none` for −∞) to `hi` (an
integer, or `none` for +∞), or top, which stands for the interval from −∞ to +∞. -/
inductive AbstractVals where
  | BOTTOM
  | Interval (lo hi : Option Int)
  | TOP
  deriving DecidableEq

/-- Modelled from the spec: the map `interval_abstract_store`, from the name of a variable to its
abstract value. -/
abbrev interval_abstract_store := List (String × AbstractVals)

/-- The members of `IntervalAnalysis` that `execute` is given by reference. -/
structure Env where
  bb2store : List (String × interval_abstract_store)
  worklist : List String
  bbs_to_output : List String
  deriving DecidableEq

/-- The transfer function `execute` of `interval_execute.hpp`, which is not among the sources:
the functions below take it as a parameter. It is given the program, the block
`func->bbs[label]` (null for a label without a block), the label whose store `bb2store[label]` it
works on, the members `bb2store`, `worklist` and `bbs_to_output`, the set `addrof_ints`, the flag
of the last pass and the set `loop_headers`; it gives back the three members and the store it
returns, or `none` when it aborts. -/
abbrev Execute :=
  Program → Option BasicBlock → String → Env → List String → Bool → List String →
    Option (Env × interval_abstract_store)

/-- The function `get_addrof_ints`: the set it fills. -/
def get_addrof_ints (func : Function) : List String := addrof_blocks func

/-- The variables of `get_loop_headers`: the stack with its top first, and the sets `visited` and
`loop_headers` and the vector `post_order` in the order of the insertions. -/
structure Dfs where
  stack : List String
  visited : List String
  post_order : List String
  loop_headers : List String
  deriving DecidableEq

/-- The body of the `while` loop of `get_loop_headers` for the label `current_bb` taken from the
stack (lines 112-139); `none` when the label has no block, whose terminal is then read through a
null pointer. -/
def loop_headers_body (func : Function) (current_bb : String) (d : Dfs) : Option Dfs :=
  if current_bb ∈ d.visited then
    some { d with loop_headers := ModRef.insertNew current_bb d.loop_headers }
  else
    match func.bbs.lookup current_bb with
    | none => none
    | some bb =>
      some { d with
        stack := (pushed bb.terminal).foldl (fun s l => l :: s) d.stack
        visited := d.visited ++ [current_bb]
        post_order := d.post_order ++ [current_bb] }

/-- The `while (!stack.empty())` loop of `get_loop_headers`, cut off after `fuel` iterations. -/
def loop_headers_loop (func : Function) : Nat → Dfs → Outcome Dfs
  | 0, d => if d.stack = [] then Outcome.finished d else Outcome.out_of_fuel
  | fuel + 1, d =>
    match d.stack with
    | [] => Outcome.finished d
    | current_bb :: rest =>
      match loop_headers_body func current_bb { d with stack := rest } with
      | none => Outcome.aborted
      | some d1 => loop_headers_loop func fuel d1

/-- The function `get_loop_headers` for a function of the program and an empty set
`loop_headers`: the members of the set at the end. The vector `post_order` is reversed at the end
and not read again. -/
def get_loop_headers (func : Function) (fuel : Nat) : Outcome (List String) :=
  match loop_headers_loop func fuel ⟨["entry"], [], [], []⟩ with
  | Outcome.finished d => Outcome.finished d.loop_headers
  | Outcome.aborted => Outcome.aborted
  | Outcome.out_of_fuel => Outcome.out_of_fuel

/-- The function `InitEntryStore`: every parameter with an int type becomes `TOP` in
`bb2store["entry"]`. -/
def InitEntryStore (func : Function) (bb2store : List (String × interval_abstract_store)) :
    List (String × interval_abstract_store) :=
  func.params.foldl
    (fun m param =>
      if isIntType param then
        mapSet "entry" (mapSet param.name AbstractVals.TOP (mapGet m "entry")) m
      else m)
    bb2store

/-- Lines 186-187 of `AnalyzeFunc` on a new `IntervalAnalysis`: the store of `entry`, and `entry`
on the worklist. -/
def setup (func : Function) : Env :=
  { bb2store := InitEntryStore func []
    worklist := ["entry"]
    bbs_to_output := [] }

/-- The `while (!worklist.empty())` loop of `AnalyzeFunc` (lines 192-229), cut off after `fuel`
iterations. -/
def worklist_loop (execute : Execute) (p : Program) (func : Function)
    (addrof_ints loop_headers : List String) : Nat → Env → Outcome Env
  | 0, env => if env.worklist = [] then Outcome.finished env else Outcome.out_of_fuel
  | fuel + 1, env =>
    match env.worklist with
    | [] => Outcome.finished env
    | current_bb :: rest =>
      match execute p (func.bbs.lookup current_bb) current_bb
        { env with worklist := rest, bb2store := mapTouch current_bb env.bb2store }
        addrof_ints false loop_headers with
      | none => Outcome.aborted
      | some (env1, _) =>
        worklist_loop execute p func addrof_ints loop_headers fuel
          { env1 with
            bbs_to_output :=
              env1.worklist.foldl (fun s i => Solver.setInsert i s) env1.bbs_to_output }

/-- The loop of `AnalyzeFunc` over `bb2store` that fills `solution` (lines 241-252), for the
labels that are keys of the map when the loop starts. -/
def final_loop (execute : Execute) (p : Program) (func : Function)
    (addrof_ints loop_headers : List String) :
    List String → Env → List (String × interval_abstract_store) →
      Option (Env × List (String × interval_abstract_store))
  | [], env, solution => some (env, solution)
  | bb_label :: rest, env, solution =>
    match execute p (func.bbs.lookup bb_label) bb_label
      { env with bb2store := mapTouch bb_label env.bb2store } addrof_ints true loop_headers with
    | none => none
    | some (env1, store) =>
      final_loop execute p func addrof_ints loop_headers rest env1 (mapSet bb_label store solution)

/-- The loop of `AnalyzeFunc` that prints the solution (lines 261-265). The function `print` of
`interval_analysis.hpp` is not among the sources: its text is the parameter `print`. -/
def report (print : interval_abstract_store → String)
    (solution : List (String × interval_abstract_store)) : String :=
  String.join (solution.map (fun e => e.1 ++ ":\n" ++ print e.2 ++ "\n"))

/-- The part of `AnalyzeFunc` after the loop headers are known (lines 186-265), with the set
`addrof_ints` that the calls of `execute` are given. -/
def analyze (execute : Execute) (print : interval_abstract_store → String) (fuel : Nat)
    (p : Program) (func : Function) (addrof_ints loop_headers : List String) : Outcome String :=
  match worklist_loop execute p func addrof_ints loop_headers fuel (setup func) with
  | Outcome.aborted => Outcome.aborted
  | Outcome.out_of_fuel => Outcome.out_of_fuel
  | Outcome.finished env =>
    match final_loop execute p func addrof_ints loop_headers (env.bb2store.map (fun e => e.1))
      env [] with
    | none => Outcome.aborted
    | some (_, solution) => Outcome.finished (report print solution)

/-- The function `AnalyzeFunc` on a new `IntervalAnalysis` whose `func_name` is set: the text it
writes to the standard stream. The function of the name is not tested for null, so
`get_loop_headers` aborts for a name without a function. The set `addrof_ints` is declared
empty (line 170) and no statement fills it before it is handed to `execute` (lines 208 and
248). -/
def AnalyzeFunc (execute : Execute) (print : interval_abstract_store → String) (fuel : Nat)
    (p : Program) (func_name : String) : Outcome String :=
  match p.func func_name with
  | none => Outcome.aborted
  | some func =>
    match get_loop_headers func fuel with
    | Outcome.aborted => Outcome.aborted
    | Outcome.out_of_fuel => Outcome.out_of_fuel
    | Outcome.finished loop_headers => analyze execute print fuel p func [] loop_headers

/-- The number of iterations after which the loop of `get_loop_headers` has surely ended. -/
def loopHeadersFuel (func : Function) : Nat := 2 * func.bbs.length + 2

/-- The number of labels of blocks that are not in `visited`, with repetitions. -/
def unvisited (func : Function) (visited : List String) : Nat :=
  ((labels func).filter (fun l => decide (l ∉ visited))).length

/-- The function of the example of a diamond: `entry` branches to `A` and `B`, both jump to `C`,
and `C` returns. -/
def diamond : Function :=
  ⟨"test", [intVar "n", ptrVar "q"], [],
    [("A", ⟨"A", [], Terminal.Jump "C"⟩),
     ("B", ⟨"B", [], Terminal.Jump "C"⟩),
     ("C", ⟨"C", [], Terminal.Ret⟩),
     ("entry", ⟨"entry", [], Terminal.Branch "A" "B"⟩)]⟩

/-- The edges of the control-flow graph of a function: from a block to the labels its terminal
names. -/
def Edge (func : Function) (a b : String) : Prop :=
  ∃ bb, func.bbs.lookup a = some bb ∧ b ∈ pushed bb.terminal

end IntervalAnalysis

namespace ReachingDef

open Dataflow
open ModRef (Outcome)

/-- The call `a.rfind(c)` on the characters of a string: the position of the last `c`, and
`none` for `npos`, when there is none. -/
def rfind (c : Char) : List Char → Option Nat
  | [] => none
  | x :: l =>
    match rfind c l with
    | some i => some (i + 1)
    | none => if x = c then some 0 else none

/-- The string `a.substr(0, a.rfind("."))`: the text before the last dot, and the whole string
when it has no dot. -/
def beforeDot (a : String) : String :=
  match rfind '.' a.data with
  | some i => ⟨a.data.take i⟩
  | none => a

/-- The string `a.substr(a.rfind(".") + 1)`: the text after the last dot, and the whole string
when it has no dot (`npos + 1` is zero). -/
def afterDot (a : String) : String :=
  match rfind '.' a.data with
  | some i => ⟨a.data.drop (i + 1)⟩
  | none => a

/-- The characters that `std::stoi` skips at the start. -/
def isSpace (c : Char) : Bool :=
  c = ' ' ∨ c = '\t' ∨ c = '\n' ∨ c = '\x0b' ∨ c = '\x0c' ∨ c = '\r'

/-- The call `std::stoi(s)`: leading white space is skipped, then `Solver.stoi` reads the sign
and the digits; `none` when it throws. -/
def stoi (s : String) : Option Int := Solver.stoi ⟨s.data.dropWhile isSpace⟩

/-- The comparator that `AnalyzeFunc` hands to `std::sort` (lines 236-250); `none` when
`std::stoi` throws. -/
def pp_less (a b : String) : Option Bool :=
  let a1 := beforeDot a
  let a2 := afterDot a
  let b1 := beforeDot b
  let b2 := afterDot b
  if a1 = b1 ∧ (a2 = "term" ∨ b2 = "term") then some false
  else if a1 = b1 then
    match stoi a2, stoi b2 with
    | some x, some y => some (decide (x < y))
    | _, _ => none
  else some (decide (Solver.nameLt a1 b1))

/-- The program point of the instruction with the index `i` in the block `b`. -/
def pp (b : String) (i : Nat) : String := b ++ "." ++ toString i

/-- The program point of the terminal of the block `b`. -/
def ppTerm (b : String) : String := b ++ ".term"

/-- The function `AnalyzeFunc` on a new `ReachingDef`: the text it writes to the standard stream.
For a function of the program the text comes from lines 128-271, which run the transfer function
of `execute_rdef.hpp` (not among the sources): it is the parameter `analysis`. -/
def AnalyzeFunc (analysis : Function → Outcome String) (p : Program) (func_name : String) :
    Outcome String :=
  match p.func func_name with
  | none => Outcome.finished "Function not found\n"
  | some func => analysis func

/-- The function `main` of `reachingdef.cpp` for `argc` arguments, where `p` is the program read
from the file `argv[2]` and `func_name` is `argv[3]`: the text written to the standard stream and
the exit code. -/
def main (analysis : Function → Outcome String) (argc : Nat) (p : Program)
    (func_name : String) : Outcome (String × Nat) :=
  if argc ≠ 4 then Outcome.finished ("", 1)
  else
    match AnalyzeFunc analysis p func_name with
    | Outcome.aborted => Outcome.aborted
    | Outcome.out_of_fuel => Outcome.out_of_fuel
    | Outcome.finished out => Outcome.finished (out, 0)

end ReachingDef

/-! ### Stores through a projection, the edge pairs, cycles, widening, reachable types -/

namespace Solver

/-- What reading the constraint `w <= proj(nm, i, y)` leaves in the graph: the set variable `w`
is a predecessor of the projection node, which is among the projections of `y`. -/
def LoadedStore (c : Expr × Expr) (g : Graph) : Prop :=
  ∀ w nm i y, c = (Expr.setvar w, Expr.proj nm i y) →
    ∃ p, g.node p = some (Node.Projection nm y i) ∧ (Ref.sv y, p) ∈ g.proj_sv_refs ∧
      (p, Ref.sv w) ∈ g.predecessor_nodes ∧ w ∈ g.set_var_map

/-- The constraints `ref(a, X) <= Y`, `W <= proj(ref, 1, Y)`, `ref(c, C) <= Z` and `Z <= W` of a
store through `Y`: the worklist starts with `Y` and `Z`, so the cell `c` reaches `W` after `Y`
was processed. -/
def storeExample : List (Expr × Expr) :=
  [(Expr.ref "a" "X", Expr.setvar "Y"), (Expr.setvar "W", Expr.proj "ref" 1 "Y"),
    (Expr.ref "c" "C", Expr.setvar "Z"), (Expr.setvar "Z", Expr.setvar "W")]

/-- The constraints `ref(a, A) <= Y1`, `ref(b, B) <= Y2` and
`proj(ref, 1, Y1) <= proj(ref, 1, Y2)`, the last with a projection on both sides. -/
def bothSidesExample : List (Expr × Expr) :=
  [(Expr.ref "a" "A", Expr.setvar "Y1"), (Expr.ref "b" "B", Expr.setvar "Y2"),
    (Expr.proj "ref" 1 "Y1", Expr.proj "ref" 1 "Y2")]

/-- The graph that the reading loop builds from `bothSidesExample`: the nodes 0 and 1 are the two
`ref` constructors, the nodes 2 and 3 the projections of `Y1` and of `Y2`; the projection of `Y1`
is a predecessor of that of `Y2`. -/
def bothSidesGraph : Graph :=
  { nodes := [Node.Constructor "ref" [Arg.str "a", Arg.node "A"],
      Node.Constructor "ref" [Arg.str "b", Arg.node "B"],
      Node.Projection "ref" "Y1" 1, Node.Projection "ref" "Y2" 1]
    set_var_map := ["A", "B", "Y1", "Y2"]
    proj_sv_refs := [(Ref.sv "Y2", Ref.obj 3), (Ref.sv "Y1", Ref.obj 2)]
    predecessor_nodes :=
      [(Ref.obj 3, Ref.obj 2), (Ref.sv "Y2", Ref.obj 1), (Ref.sv "Y1", Ref.obj 0)]
    successor_nodes := []
    worklist := [] }

end Solver

namespace ModRef

/-- The two edge sets are in step: `b` is in `a->succs` exactly when `a` is in `b->preds`. -/
def Symmetric (st : State) : Prop := ∀ a b, (a, b) ∈ st.succs ↔ (b, a) ∈ st.preds

instance (st : State) : Decidable (Symmetric st) :=
  decidable_of_iff ((∀ e ∈ st.succs, (e.2, e.1) ∈ st.preds) ∧ ∀ e ∈ st.preds, (e.2, e.1) ∈ st.succs)
    ⟨fun h a b => ⟨fun hab => h.1 (a, b) hab, fun hba => h.2 (b, a) hba⟩,
      fun h => ⟨fun e he => (h e.1 e.2).1 he, fun e he => (h e.2 e.1).2 he⟩⟩

end ModRef

namespace IntervalAnalysis

open Dataflow

/-- The test that the terminal of the block `v` names the label `w`. -/
def hasEdge (func : Function) (v w : String) : Bool :=
  match func.bbs.lookup v with
  | some bb => decide (w ∈ pushed bb.terminal)
  | none => false

/-- The number of reasons for which the label `w` was pushed so far: the first push of `entry`,
and one for each visited block whose terminal names `w`. -/
def sources (func : Function) (visited : List String) (w : String) : Nat :=
  (if w = "entry" then 1 else 0) + (visited.filter (fun v => hasEdge func v w)).length

/-- The invariant of the loop of `get_loop_headers`: the stack holds labels of blocks; a label
that is not reported yet is on the stack, or was visited, at least once for each reason for which
it was pushed; the labels that the visited blocks name are on the stack or visited; so is
`entry`. -/
structure DfsInv (func : Function) (d : Dfs) : Prop where
  stack_labels : ∀ l ∈ d.stack, l ∈ labels func
  pushes : ∀ w, w ∈ d.loop_headers ∨
    sources func d.visited w ≤ d.stack.count w + (if w ∈ d.visited then 1 else 0)
  next : ∀ v ∈ d.visited, ∀ w, Edge func v w → w ∈ d.stack ∨ w ∈ d.visited
  entry : "entry" ∈ d.stack ∨ "entry" ∈ d.visited

/-- A cycle of the control-flow graph: a sequence of labels, each with an edge to the next and
the last with an edge to the first. -/
def IsCycle (func : Function) : List String → Prop
  | [] => False
  | a :: l => List.Chain (Edge func) a l ∧ Edge func ((a :: l).getLast (List.cons_ne_nil a l)) a

/-- The function of the example of a loop: `entry` jumps to `head`, which branches to `body` and
`exit`; `body` jumps back to `head`, and `exit` returns. -/
def loopExample : Function :=
  ⟨"test", [], [],
    [("body", ⟨"body", [], Terminal.Jump "head"⟩),
     ("entry", ⟨"entry", [], Terminal.Jump "head"⟩),
     ("exit", ⟨"exit", [], Terminal.Ret⟩),
     ("head", ⟨"head", [], Terminal.Branch "body" "exit"⟩)]⟩

end IntervalAnalysis

namespace IntervalAnalysis

open Dataflow

/-- Modelled from the spec: the two bounds of an abstract value; bottom, the empty interval, has
none, and top has −∞ and +∞. -/
def AbstractVals.bounds : AbstractVals → Option (Option Int × Option Int)
  | .BOTTOM => none
  | .Interval lo hi => some (lo, hi)
  | .TOP => some (none, none)

/-- Modelled from the spec: the abstract value with the bounds `lo` and `hi`; the interval from −∞
to +∞ is top. -/
def ofBounds (lo hi : Option Int) : AbstractVals :=
  if lo = none ∧ hi = none then AbstractVals.TOP else AbstractVals.Interval lo hi

/-- Modelled from the spec: the test `new.lo < old.lo` on two lower bounds, where `none` is −∞. -/
def loLt : Option Int → Option Int → Bool
  | none, some _ => true
  | some a, some b => decide (a < b)
  | _, none => false

/-- Modelled from the spec: the test `new.hi > old.hi` on two upper bounds, where `none` is +∞. -/
def hiGt : Option Int → Option Int → Bool
  | none, some _ => true
  | some a, some b => decide (a > b)
  | _, none => false

/-- Modelled from the spec: the widening of two abstract values. Bottom widened with `x` is `x`,
and an empty `new` has no bound beyond those of `old`; otherwise the lower bound is −∞ if
`new.lo < old.lo` and `old.lo` if not, and the upper bound is +∞ if `new.hi > old.hi` and `old.hi`
if not. -/
def widenVal (old new : AbstractVals) : AbstractVals :=
  match old.bounds, new.bounds with
  | none, _ => new
  | some _, none => old
  | some (lo, hi), some (nlo, nhi) =>
    ofBounds (if loLt nlo lo then none else lo) (if hiGt nhi hi then none else hi)

/-- Modelled from the spec: `get(var)` on an abstract store; the value of an absent key is
bottom. -/
def storeGet (s : interval_abstract_store) (var : String) : AbstractVals :=
  (s.lookup var).getD AbstractVals.BOTTOM

/-- Modelled from the spec: `set(var, v)` on an abstract store; setting bottom removes the key. -/
def storeSet (var : String) (v : AbstractVals) (s : interval_abstract_store) :
    interval_abstract_store :=
  if v = AbstractVals.BOTTOM then s.filter (fun e => e.1 ≠ var) else mapSet var v s

/-- Modelled from the spec: the function `widen(old, new)` of `interval_analysis.hpp` (not among
the sources) as `test_widen.cpp` calls it: every variable of `new` is widened in `old`; the
result is the new value of `old` and whether a variable changed. -/
def widen (old new : interval_abstract_store) : interval_abstract_store × Bool :=
  let s := new.foldl (fun s e => storeSet e.1 (widenVal (storeGet s e.1) e.2) s) old
  (s, new.any (fun e => decide (storeGet s e.1 ≠ storeGet old e.1)))

end IntervalAnalysis

namespace Generator

/-- A function `G` with two returning blocks: `left` returns the pointer `r1` and `right` the
pointer `r2`. -/
def twoReturnsExample : Function :=
  ⟨"G", [intVar "n", ptrVar "a"],
    [("entry", ⟨"entry", [], Terminal.Other⟩),
      ("left", ⟨"left", [], Terminal.Ret ⟨some (Operand.Var (ptrVar "r1"))⟩⟩),
      ("right", ⟨"right", [], Terminal.Ret ⟨some (Operand.Var (ptrVar "r2"))⟩⟩)]⟩

/-- The program of the example of a direct call, with the callee of two returning blocks. -/
def twoReturnsProgram : Program :=
  { globals := [], funcs := [("F", callerExample), ("G", twoReturnsExample)] }

end Generator

/-! ### Reachable types (`rtype.hpp`) -/

mutual

/-- Modelled from the spec: the `Type` of `datatypes.h` (not among the sources) that the class
`ReachableType` extends without a new field: the base kind, the pointer `ptr_type` to the struct
or function type behind it (`none` is the null pointer) and the pointer depth `indirection`. -/
inductive ReachableType where
  | mk (type : Generator.DataType) (ptr_type : Option PtrType) (indirection : Nat)

/-- Modelled from the spec: what `ptr_type` points to, at the address `addr`: a `StructType` with
its name, or a `FunctionType` with its return type (`none` is the null pointer of a function that
returns nothing) and the types of its parameters. -/
inductive PtrType where
  | StructType (addr : Nat) (name : String)
  | FunctionType (addr : Nat) (ret : Option ReachableType) (params : List ReachableType)

end

namespace ReachableType

open Generator (DataType)
open ModRef (Outcome)

/-- The field `type`. -/
def type : ReachableType → DataType
  | mk type _ _ => type

/-- The field `ptr_type`. -/
def ptr_type : ReachableType → Option PtrType
  | mk _ ptr_type _ => ptr_type

/-- The field `indirection`. -/
def indirection : ReachableType → Nat
  | mk _ _ indirection => indirection

/-- The address that a pointer `ptr_type` holds. -/
def addr : PtrType → Nat
  | .StructType addr _ => addr
  | .FunctionType addr _ _ => addr

/-- The comparison `(*it)->ptr_type == rtype->ptr_type` of two pointers. -/
def samePtr : Option PtrType → Option PtrType → Bool
  | none, none => true
  | some a, some b => decide (addr a = addr b)
  | _, _ => false

/-- A read through `(FunctionType*) ptr_type`: the fields `ret` and `params`; `none` when the
pointer is null or does not point to a function type. -/
def asFunctionType : Option PtrType → Option (Option ReachableType × List ReachableType)
  | some (.FunctionType _ ret params) => some (ret, params)
  | _ => none

/-- A read through `(StructType*) ptr_type`: the field `name`; `none` when the pointer is null or
does not point to a struct type. -/
def asStructType : Option PtrType → Option String
  | some (.StructType _ name) => some name
  | _ => none

/-- Lines 48-58: the two vectors of parameters have the same size and `isEqualType` holds at
every index. -/
def areParamsEqual (isEqualType : ReachableType → ReachableType → Bool)
    (params1 params2 : List ReachableType) : Bool :=
  decide (params1.length = params2.length) &&
    (params1.zip params2).all (fun e => isEqualType e.1 e.2)

/-- The function `isPresentInSet` on the members of `rset` in the order in which the loop meets
them; `isEqualType` is the function of `datatypes.h` (not among the sources). `none` when the
function reads through a null pointer. -/
def isPresentInSet (isEqualType : ReachableType → ReachableType → Bool) :
    List ReachableType → ReachableType → Option Bool
  | [], _ => some false
  | it :: rest, rtype =>
    if it.type = DataType.IntType ∧ it.type = rtype.type ∧
        samePtr it.ptr_type rtype.ptr_type = true ∧ it.indirection = rtype.indirection then
      some true
    else if it.type = DataType.FuncType ∧ it.type = rtype.type ∧
        it.indirection = rtype.indirection then
      match asFunctionType it.ptr_type, asFunctionType rtype.ptr_type with
      | some f1, some f2 =>
        match f1.1, f2.1 with
        | some _, none => isPresentInSet isEqualType rest rtype
        | none, some _ => isPresentInSet isEqualType rest rtype
        | none, none => none
        | some ret1, some ret2 =>
          if ret1.type = ret2.type ∧ ret1.indirection = ret2.indirection then
            if ret1.type = DataType.StructType then
              match asStructType ret1.ptr_type, asStructType ret2.ptr_type with
              | some name1, some name2 =>
                if name1 ≠ name2 then isPresentInSet isEqualType rest rtype
                else if areParamsEqual isEqualType f1.2 f2.2 then some true
                else isPresentInSet isEqualType rest rtype
              | _, _ => none
            else if areParamsEqual isEqualType f1.2 f2.2 then some true
            else isPresentInSet isEqualType rest rtype
          else isPresentInSet isEqualType rest rtype
      | _, _ => none
    else if it.type = DataType.StructType ∧ it.type = rtype.type ∧
        it.indirection = rtype.indirection then
      match asStructType it.ptr_type, asStructType rtype.ptr_type with
      | some s1, some s2 =>
        if s1 = s2 then some true else isPresentInSet isEqualType rest rtype
      | _, _ => none
    else isPresentInSet isEqualType rest rtype

/-- Modelled from the spec: the part of `Program` that `GetReachableType` reads: the map `structs`
from the name of a struct to its fields, each with a name and a type. -/
structure Program where
  structs : List (String × List (String × ReachableType))

/-- The function `GetReachableType`, cut off when the calls are nested deeper than `fuel`: the set
`rset` at the end, as the list of its members in the order of the insertions. It aborts when it
reads through a null pointer: in `isPresentInSet`, or at `program->structs[struct_name]` for a
name without a struct. -/
def GetReachableType (isEqualType : ReachableType → ReachableType → Bool) (program : Program) :
    Nat → ReachableType → List ReachableType → Outcome (List ReachableType)
  | 0, _, _ => Outcome.out_of_fuel
  | fuel + 1, var_type, rset =>
    if var_type.indirection > 0 ∧
        ¬ (var_type.indirection = 1 ∧ var_type.type = DataType.FuncType) then
      if ¬ (var_type.indirection = 1 ∧ var_type.type = DataType.StructType) then
        let ptr_type := if var_type.indirection = 1 then none else var_type.ptr_type
        let rtype := ReachableType.mk var_type.type ptr_type (var_type.indirection - 1)
        match isPresentInSet isEqualType rset rtype with
        | none => Outcome.aborted
        | some present =>
          GetReachableType isEqualType program fuel rtype
            (if present then rset else rset ++ [rtype])
      else
        GetReachableType isEqualType program fuel
          (ReachableType.mk var_type.type var_type.ptr_type (var_type.indirection - 1)) rset
    else if var_type.type = DataType.StructType then
      match asStructType var_type.ptr_type with
      | none => Outcome.aborted
      | some struct_name =>
        match program.structs.lookup struct_name with
        | none => Outcome.aborted
        | some fields =>
          fields.foldl
            (fun o field =>
              match o with
              | Outcome.finished rset1 =>
                match isPresentInSet isEqualType rset1 field.2 with
                | none => Outcome.aborted
                | some present =>
                  GetReachableType isEqualType program fuel field.2
                    (if present = false ∧
                        ¬ (field.2.type = DataType.StructType ∧ field.2.indirection = 0) then
                      rset1 ++ [field.2]
                    else rset1)
              | o1 => o1)
            (Outcome.finished rset)
    else Outcome.finished rset

/-- The type of a struct `name` behind `indirection` pointers. -/
def structType (name : String) (indirection : Nat) : ReachableType :=
  ReachableType.mk DataType.StructType (some (PtrType.StructType 0 name)) indirection

/-- The type `int` behind `indirection` pointers. -/
def intType (indirection : Nat) : ReachableType :=
  ReachableType.mk DataType.IntType none indirection

/-- The type, at the address `addr`, of a pointer to a function that takes an `int` and returns
nothing. -/
def procType (addr : Nat) : ReachableType :=
  ReachableType.mk DataType.FuncType (some (PtrType.FunctionType addr none [intType 0])) 1

/-- The type, at the address `addr`, of a pointer to a function that takes an `int` and returns
an `int`. -/
def funType (addr : Nat) : ReachableType :=
  ReachableType.mk DataType.FuncType
    (some (PtrType.FunctionType addr (some (intType 0)) [intType 0])) 1

/-- The program of a linked list: the struct `S` has the one field `next`, a pointer to `S`. -/
def listProgram : Program := ⟨[("S", [("next", structType "S" 1)])]⟩

end ReachableType

/-! ## The solver: how one call changes the graph -/

namespace Solver

theorem Chg.same (g : Graph) : Chg g g [] [] [] :=
  ⟨rfl, rfl, rfl, rfl, rfl, by simp, by simp, id⟩

theorem Chg.andThen {g g1 g2 : Graph} {dp ds dp1 ds1 : List (Ref × Ref)} {dw dw1 : List Ref}
    (h : Chg g g1 dp ds dw) (h1 : Chg g1 g2 dp1 ds1 dw1) :
    Chg g g2 (dp1 ++ dp) (ds1 ++ ds) (dw ++ dw1) := by
  refine ⟨h1.nodes.trans h.nodes, h1.svm.trans h.svm, h1.prj.trans h.prj, ?_, ?_, ?_, ?_,
    fun w => h1.wf (h.wf w)⟩
  · rw [h1.pred, h.pred, List.append_assoc]
  · rw [h1.succ, h.succ, List.append_assoc]
  · rw [h1.wl, h.wl, List.append_assoc]
  · intro x hx
    rcases List.mem_append.1 hx with hx | hx
    · obtain ⟨e, he⟩ := h.just x hx
      exact ⟨e, he.imp (fun a => List.mem_append_right _ a) (fun a => List.mem_append_right _ a)⟩
    · obtain ⟨e, he⟩ := h1.just x hx
      exact ⟨e, he.imp (fun a => List.mem_append_left _ a) (fun a => List.mem_append_left _ a)⟩

theorem StepP.stay (k : Nat) (ex : Ref → Prop) (g : Graph) : StepP k ex g g :=
  ⟨[], [], [], Chg.same g, by simp, by simp⟩

theorem isSetVar_indep (g g1 : Graph) (x : Ref) : IsSetVar g1 x = IsSetVar g x := by
  cases x <;> rfl

theorem StepP.seq {k : Nat} {ex : Ref → Prop} {g g1 g2 : Graph}
    (h : StepP k ex g g1) (h1 : StepP k ex g1 g2) : StepP k ex g g2 := by
  obtain ⟨dp, ds, dw, c, hl, hn⟩ := h
  obtain ⟨dp1, ds1, dw1, c1, hl1, hn1⟩ := h1
  refine ⟨dp1 ++ dp, ds1 ++ ds, dw ++ dw1, c.andThen c1, ?_, ?_⟩
  · simp only [List.length_append]
    nlinarith
  · intro x e hx hex he
    rw [List.mem_append]
    simp only [List.mem_append] at he
    rcases he with (he | he) | (he | he)
    · exact Or.inr (hn1 x e (by rw [isSetVar_indep]; exact hx) hex (Or.inl he))
    · exact Or.inl (hn x e hx hex (Or.inl he))
    · exact Or.inr (hn1 x e (by rw [isSetVar_indep]; exact hx) hex (Or.inr he))
    · exact Or.inl (hn x e hx hex (Or.inr he))

theorem StepP.mono {k k1 : Nat} {ex ex1 : Ref → Prop} {g g1 : Graph} (hk : k ≤ k1)
    (hex : ∀ x, ex x → ex1 x) (h : StepP k ex g g1) : StepP k1 ex1 g g1 := by
  obtain ⟨dp, ds, dw, c, hl, hn⟩ := h
  refine ⟨dp, ds, dw, c, le_trans hl (Nat.mul_le_mul_right _ hk), ?_⟩
  intro x e hx hex1 he
  exact hn x e hx (fun a => hex1 (hex x a)) he

theorem allRefs_congr {g g1 : Graph} (hn : g1.nodes = g.nodes)
    (hs : g1.set_var_map = g.set_var_map) : allRefs g1 = allRefs g := by
  unfold allRefs
  rw [hn, hs]

/-- Storing one new predecessor edge keeps the invariant. -/
theorem WF.consPred {g : Graph} (w : WF g) {a b : Ref} (wl : List Ref)
    (ha : a ∈ allRefs g) (hb : b ∈ allRefs g) (hne : (a, b) ∉ g.predecessor_nodes) :
    WF { g with predecessor_nodes := (a, b) :: g.predecessor_nodes, worklist := wl } := by
  refine ⟨List.nodup_cons.2 ⟨hne, w.ndp⟩, w.nds, ?_, w.vs, w.vprj, w.vargs⟩
  intro e he
  rcases List.mem_cons.1 he with rfl | he
  · exact ⟨ha, hb⟩
  · exact w.vp e he

/-- Storing one new successor edge keeps the invariant. -/
theorem WF.consSucc {g : Graph} (w : WF g) {a b : Ref} (wl : List Ref)
    (ha : a ∈ allRefs g) (hb : b ∈ allRefs g) (hne : (a, b) ∉ g.successor_nodes) :
    WF { g with successor_nodes := (a, b) :: g.successor_nodes, worklist := wl } := by
  refine ⟨w.ndp, List.nodup_cons.2 ⟨hne, w.nds⟩, w.vp, ?_, w.vprj, w.vargs⟩
  intro e he
  rcases List.mem_cons.1 he with rfl | he
  · exact ⟨ha, hb⟩
  · exact w.vs e he

/-- The three possible results of the storing branches of `AddEdge`. -/
theorem AddEdgeStore_cases (g : Graph) (lhs rhs : Ref) (is_init : Bool) :
    AddEdgeStore g lhs rhs is_init = g ∨
    (((IsConstructor g lhs || IsLam g lhs) || IsProjection g rhs) = true ∧
      (rhs, lhs) ∉ g.predecessor_nodes ∧
      AddEdgeStore g lhs rhs is_init =
        { g with predecessor_nodes := (rhs, lhs) :: g.predecessor_nodes,
                 worklist := g.worklist ++ (if IsSetVar g rhs && !is_init then [rhs] else []) }) ∨
    (((IsConstructor g lhs || IsLam g lhs) || IsProjection g rhs) = false ∧
      (lhs, rhs) ∉ g.successor_nodes ∧
      AddEdgeStore g lhs rhs is_init =
        { g with successor_nodes := (lhs, rhs) :: g.successor_nodes,
                 worklist := g.worklist ++ (if IsSetVar g lhs && !is_init then [lhs] else []) }) := by
  unfold AddEdgeStore
  by_cases hc : ((IsConstructor g lhs || IsLam g lhs) || IsProjection g rhs) = true
  · rw [if_pos hc]
    by_cases hp : (rhs, lhs) ∈ g.predecessor_nodes
    · left
      simp [HasPredecessor, hp]
    · right; left
      refine ⟨hc, hp, ?_⟩
      by_cases hs : (IsSetVar g rhs && !is_init) = true
      · simp [HasPredecessor, hp, hs, push_back]
      · simp [HasPredecessor, hp, hs, push_back]
  · rw [if_neg hc]
    by_cases hp : (lhs, rhs) ∈ g.successor_nodes
    · left
      simp [HasSuccessor, hp]
    · right; right
      refine ⟨by simpa using hc, hp, ?_⟩
      by_cases hs : (IsSetVar g lhs && !is_init) = true
      · simp [HasSuccessor, hp, hs, push_back]
      · simp [HasSuccessor, hp, hs, push_back]

/-- The change made by the storing branches of `AddEdge`. -/
theorem AddEdgeStore_chg (g : Graph) (lhs rhs : Ref) (is_init : Bool)
    (hv : WF g → lhs ∈ allRefs g ∧ rhs ∈ allRefs g) :
    ∃ dp ds dw, Chg g (AddEdgeStore g lhs rhs is_init) dp ds dw ∧
      dw.length ≤ dp.length + ds.length ∧
      (is_init = false →
        ∀ x e, IsSetVar g x = true → ((x, e) ∈ dp ∨ (x, e) ∈ ds) → x ∈ dw) ∧
      (is_init = true → dw = [] ∧
        ((dp = [] ∧ ds = []) ∨ (dp = [(rhs, lhs)] ∧ ds = []) ∨ (dp = [] ∧ ds = [(lhs, rhs)]))) := by
  rcases AddEdgeStore_cases g lhs rhs is_init with h | ⟨_, hne, h⟩ | ⟨_, hne, h⟩
  · rw [h]
    exact ⟨[], [], [], Chg.same g, by simp, by simp, by simp⟩
  · rw [h]
    refine ⟨[(rhs, lhs)], [], if IsSetVar g rhs && !is_init then [rhs] else [], ?_, ?_, ?_, ?_⟩
    · refine ⟨rfl, rfl, rfl, rfl, rfl, rfl, ?_, fun w => w.consPred _ (hv w).2 (hv w).1 hne⟩
      intro x hx
      split at hx
      · simp only [List.mem_singleton] at hx
        exact ⟨lhs, Or.inl (by simp [hx])⟩
      · simp at hx
    · split <;> simp
    · intro hi x e hx he
      subst hi
      simp only [List.mem_singleton, List.not_mem_nil, or_false, Prod.mk.injEq] at he
      obtain ⟨rfl, -⟩ := he
      simp [hx]
    · intro hi
      subst hi
      simp
  · rw [h]
    refine ⟨[], [(lhs, rhs)], if IsSetVar g lhs && !is_init then [lhs] else [], ?_, ?_, ?_, ?_⟩
    · refine ⟨rfl, rfl, rfl, rfl, rfl, rfl, ?_, fun w => w.consSucc _ (hv w).1 (hv w).2 hne⟩
      intro x hx
      split at hx
      · simp only [List.mem_singleton] at hx
        exact ⟨rhs, Or.inr (by simp [hx])⟩
      · simp at hx
    · split <;> simp
    · intro hi x e hx he
      subst hi
      simp only [List.mem_singleton, List.not_mem_nil, false_or, Prod.mk.injEq] at he
      obtain ⟨rfl, -⟩ := he
      simp [hx]
    · intro hi
      subst hi
      simp

/-- A storing call that may push (`is_init = false`) pushes every set variable it changes. -/
theorem AddEdgeStore_step (g : Graph) (lhs rhs : Ref)
    (hv : WF g → lhs ∈ allRefs g ∧ rhs ∈ allRefs g) :
    StepP 1 (fun _ => False) g (AddEdgeStore g lhs rhs false) := by
  obtain ⟨dp, ds, dw, c, hl, hn, -⟩ := AddEdgeStore_chg g lhs rhs false hv
  exact ⟨dp, ds, dw, c, by simpa using hl, fun x e hx _ he => hn rfl x e hx he⟩

theorem sv_mem_allRefs {g : Graph} {x : String} (h : x ∈ g.set_var_map) : Ref.sv x ∈ allRefs g := by
  unfold allRefs
  exact List.mem_append_left _ (List.mem_map_of_mem _ h)

theorem sv_mem_allRefs_iff {g : Graph} {x : String} : Ref.sv x ∈ allRefs g ↔ x ∈ g.set_var_map := by
  unfold allRefs
  simp

theorem obj_mem_allRefs_iff {g : Graph} {i : Nat} : Ref.obj i ∈ allRefs g ↔ i < g.nodes.length := by
  unfold allRefs
  simp

theorem getArgAt_mem {g : Graph} {n : Ref} {i : Int} {a : Arg} (h : GetArgAt g n i = some a) :
    a ∈ CallArgs g n := by
  unfold GetArgAt at h
  split at h
  · cases h
  · exact List.get?_mem h

/-- The recursive call of `AddEdge` on a pair of arguments is a step. -/
theorem AddEdgeArgs_step {g g1 : Graph} {l r : Option Arg}
    (hl : ∀ x, l = some (Arg.node x) → WF g → x ∈ g.set_var_map)
    (hr : ∀ y, r = some (Arg.node y) → WF g → y ∈ g.set_var_map)
    (h : AddEdgeArgs g l r = some g1) : StepP 1 (fun _ => False) g g1 := by
  unfold AddEdgeArgs at h
  split at h
  · cases h
  · cases h; exact StepP.stay _ _ _
  · split at h
    · cases h
    · cases h; exact StepP.stay _ _ _
    · cases h
      exact AddEdgeStore_step g _ _
        (fun w => ⟨sv_mem_allRefs (hl _ rfl w), sv_mem_allRefs (hr _ rfl w)⟩)

/-- An invariant kept by every round of a loop holds after the loop. -/
theorem forEachM_inv {α : Type} {f : Graph → α → Option Graph} {I : Graph → Prop} :
    ∀ (l : List α) (g g1 : Graph),
      (∀ g2 a g3, a ∈ l → I g2 → f g2 a = some g3 → I g3) → I g →
      forEachM f l g = some g1 → I g1
  | [], g, g1, _, hI, h => by
    simp only [forEachM, Option.some.injEq] at h
    exact h ▸ hI
  | a :: l, g, g1, hf, hI, h => by
    simp only [forEachM] at h
    split at h
    · cases h
    · rename_i g2 hg2
      exact forEachM_inv l g2 g1 (fun g3 b g4 hb => hf g3 b g4 (List.mem_cons_of_mem _ hb))
        (hf g a g2 (List.mem_cons_self _ _) hI hg2) h

/-- A loop whose rounds are steps is a step. -/
theorem forEachM_step {α : Type} {f : Graph → α → Option Graph} {k : Nat} {ex : Ref → Prop}
    {l : List α} {g g1 : Graph}
    (hf : ∀ g2 a g3, a ∈ l → StepP k ex g g2 → f g2 a = some g3 → StepP k ex g2 g3)
    (h : forEachM f l g = some g1) : StepP k ex g g1 :=
  forEachM_inv (I := fun g2 => StepP k ex g g2) l g g1
    (fun g2 a g3 ha hI hg => hI.seq (hf g2 a g3 ha hI hg)) (StepP.stay _ _ _) h

/-- A loop over a pointer set whose rounds are steps is a step. -/
theorem forSet_step {addr : Ref → Nat} {set : Graph → List Ref}
    {body : Graph → Ref → Option Graph} {k : Nat} {ex : Ref → Prop} {g g1 : Graph}
    (hb : ∀ g2 r g3, r ∈ set g2 → StepP k ex g g2 → body g2 r = some g3 → StepP k ex g2 g3)
    (h : forSet addr set body g = some g1) : StepP k ex g g1 := by
  unfold forSet at h
  refine forEachM_step ?_ h
  intro g2 r g3 _ hI hg
  split at hg
  · exact hb g2 r g3 (by assumption) hI hg
  · cases hg; exact StepP.stay _ _ _

theorem StepP.nodes {k : Nat} {ex : Ref → Prop} {g g1 : Graph} (h : StepP k ex g g1) :
    g1.nodes = g.nodes := by
  obtain ⟨_, _, _, c, -⟩ := h
  exact c.nodes

theorem StepP.svm {k : Nat} {ex : Ref → Prop} {g g1 : Graph} (h : StepP k ex g g1) :
    g1.set_var_map = g.set_var_map := by
  obtain ⟨_, _, _, c, -⟩ := h
  exact c.svm

theorem StepP.prj {k : Nat} {ex : Ref → Prop} {g g1 : Graph} (h : StepP k ex g g1) :
    g1.proj_sv_refs = g.proj_sv_refs := by
  obtain ⟨_, _, _, c, -⟩ := h
  exact c.prj

theorem StepP.wf {k : Nat} {ex : Ref → Prop} {g g1 : Graph} (h : StepP k ex g g1) :
    WF g → WF g1 := by
  obtain ⟨_, _, _, c, -⟩ := h
  exact c.wf

theorem StepP.pred_mono {k : Nat} {ex : Ref → Prop} {g g1 : Graph} (h : StepP k ex g g1)
    {e : Ref × Ref} (he : e ∈ g.predecessor_nodes) : e ∈ g1.predecessor_nodes := by
  obtain ⟨_, _, _, c, -⟩ := h
  rw [c.pred]
  exact List.mem_append_right _ he

theorem StepP.succ_mono {k : Nat} {ex : Ref → Prop} {g g1 : Graph} (h : StepP k ex g g1)
    {e : Ref × Ref} (he : e ∈ g.successor_nodes) : e ∈ g1.successor_nodes := by
  obtain ⟨_, _, _, c, -⟩ := h
  rw [c.succ]
  exact List.mem_append_right _ he

theorem StepP.wl_mono {k : Nat} {ex : Ref → Prop} {g g1 : Graph} (h : StepP k ex g g1)
    {x : Ref} (hx : x ∈ g.worklist) : x ∈ g1.worklist := by
  obtain ⟨_, _, _, c, -⟩ := h
  rw [c.wl]
  exact List.mem_append_left _ hx

theorem node_congr {g g1 : Graph} (h : g1.nodes = g.nodes) (r : Ref) : g1.node r = g.node r := by
  cases r <;> simp [Graph.node, h]

theorem callArgs_congr {g g1 : Graph} (h : g1.nodes = g.nodes) (r : Ref) :
    CallArgs g1 r = CallArgs g r := by
  unfold CallArgs
  rw [node_congr h]

theorem getArgAt_congr {g g1 : Graph} (h : g1.nodes = g.nodes) (r : Ref) (i : Int) :
    GetArgAt g1 r i = GetArgAt g r i := by
  unfold GetArgAt
  rw [callArgs_congr h]

theorem mem_preds_iff {g : Graph} {n p : Ref} : p ∈ preds g n ↔ (n, p) ∈ g.predecessor_nodes := by
  unfold preds
  simp only [List.mem_map, List.mem_filter, decide_eq_true_eq]
  constructor
  · rintro ⟨⟨a, b⟩, ⟨h, rfl⟩, rfl⟩
    exact h
  · intro h
    exact ⟨(n, p), ⟨h, rfl⟩, rfl⟩

theorem mem_succs_iff {g : Graph} {n p : Ref} : p ∈ succs g n ↔ (n, p) ∈ g.successor_nodes := by
  unfold succs
  simp only [List.mem_map, List.mem_filter, decide_eq_true_eq]
  constructor
  · rintro ⟨⟨a, b⟩, ⟨h, rfl⟩, rfl⟩
    exact h
  · intro h
    exact ⟨(n, p), ⟨h, rfl⟩, rfl⟩

theorem mem_projRefs_iff {g : Graph} {n p : Ref} : p ∈ projRefs g n ↔ (n, p) ∈ g.proj_sv_refs := by
  unfold projRefs
  simp only [List.mem_map, List.mem_filter, decide_eq_true_eq]
  constructor
  · rintro ⟨⟨a, b⟩, ⟨h, rfl⟩, rfl⟩
    exact h
  · intro h
    exact ⟨(n, p), ⟨h, rfl⟩, rfl⟩

theorem isSetVar_of_node {g : Graph} {n : Ref} {d : Node} (h : g.node n = some d) :
    IsSetVar g n = false := by
  cases n with
  | sv _ => simp [Graph.node] at h
  | obj _ => rfl

theorem isSetVar_of_isConstructor {g : Graph} {n : Ref} (h : IsConstructor g n = true) :
    IsSetVar g n = false := by
  unfold IsConstructor at h
  split at h
  · exact isSetVar_of_node (by assumption)
  · cases h

theorem isSetVar_of_isLam {g : Graph} {n : Ref} (h : IsLam g n = true) :
    IsSetVar g n = false := by
  unfold IsLam at h
  split at h
  · exact isSetVar_of_node (by assumption)
  · cases h

/-- The round of the parameter loop of `AddEdge` is a step. -/
theorem lamRound_step {g2 g3 : Graph} {lhs rhs : Ref} {i : Nat}
    (h : (match GetArgAt g2 lhs i with
      | none => none
      | some (.str _) => some g2
      | some (.node x) =>
        match GetArgAt g2 rhs i with
        | none => none
        | some (.str _) => some g2
        | some (.node y) => some (AddEdgeStore g2 (.sv y) (.sv x) false)) = some g3) :
    StepP 1 (fun _ => False) g2 g3 := by
  split at h
  · cases h
  · cases h; exact StepP.stay _ _ _
  · rename_i x hx
    split at h
    · cases h
    · cases h; exact StepP.stay _ _ _
    · rename_i y hy
      cases h
      exact AddEdgeStore_step g2 _ _ (fun w =>
        ⟨sv_mem_allRefs (w.vargs _ _ (getArgAt_mem hy)), sv_mem_allRefs (w.vargs _ _ (getArgAt_mem hx))⟩)

/-- A call of `AddEdge` either is on two constructors of one name, and then it is a step that
pushes every set variable it changes, or it runs the storing branches. -/
theorem AddEdge_cases {g g1 : Graph} {lhs rhs : Ref} {is_init : Bool}
    (h : AddEdge g lhs rhs is_init = some g1) :
    (IsSetVar g lhs = false ∧ IsSetVar g rhs = false ∧ StepP 1 (fun _ => False) g g1) ∨
      g1 = AddEdgeStore g lhs rhs is_init := by
  unfold AddEdge at h
  split at h
  · rename_i hc
    left
    have hsv : IsSetVar g lhs = false ∧ IsSetVar g rhs = false := by
      simp only [Bool.and_eq_true, Bool.or_eq_true] at hc
      rcases hc.1 with ⟨a, b⟩ | ⟨a, b⟩
      · exact ⟨isSetVar_of_isConstructor a, isSetVar_of_isConstructor b⟩
      · exact ⟨isSetVar_of_isLam a, isSetVar_of_isLam b⟩
    refine ⟨hsv.1, hsv.2, ?_⟩
    split at h
    · exact AddEdgeArgs_step (fun x hx w => w.vargs _ _ (getArgAt_mem hx))
        (fun x hx w => w.vargs _ _ (getArgAt_mem hx)) h
    · split at h
      · simp only at h
        split at h
        · cases h
        · rename_i g2 hg2
          have s1 : StepP 1 (fun _ => False) g g2 := by
            split at hg2
            · cases hg2; exact StepP.stay _ _ _
            · exact AddEdgeArgs_step (fun x hx w => w.vargs lhs _ (List.get?_mem hx))
                (fun x hx w => w.vargs rhs _ (List.get?_mem hx)) hg2
          exact s1.seq (forEachM_step (fun g3 a g4 _ _ hg => lamRound_step hg) h)
      · cases h; exact StepP.stay _ _ _
  · cases h
    right; rfl

/-- A call of `AddEdge` that may push is a step. -/
theorem AddEdge_step {g g1 : Graph} {lhs rhs : Ref}
    (hv : WF g → lhs ∈ allRefs g ∧ rhs ∈ allRefs g)
    (h : AddEdge g lhs rhs false = some g1) : StepP 1 (fun _ => False) g g1 := by
  rcases AddEdge_cases h with ⟨-, -, s⟩ | rfl
  · exact s
  · exact AddEdgeStore_step g lhs rhs hv

theorem filter_fst_length_pos {l : List (Ref × Ref)} {z : Ref} :
    0 < (l.filter (fun e => decide (e.1 = z))).length ↔ ∃ e, (z, e) ∈ l := by
  rw [List.length_pos_iff_exists_mem]
  constructor
  · rintro ⟨⟨a, b⟩, h⟩
    simp only [List.mem_filter, decide_eq_true_eq] at h
    obtain ⟨h1, rfl⟩ := h
    exact ⟨b, h1⟩
  · rintro ⟨e, h⟩
    exact ⟨(z, e), by simp [h]⟩

/-- The edge count of a node after a change. -/
theorem Chg.edgeCount {g g1 : Graph} {dp ds : List (Ref × Ref)} {dw : List Ref}
    (c : Chg g g1 dp ds dw) (z : Ref) :
    Solver.edgeCount g1 z = (dp.filter (fun e => decide (e.1 = z))).length +
      (ds.filter (fun e => decide (e.1 = z))).length + Solver.edgeCount g z := by
  unfold Solver.edgeCount preds succs
  rw [c.pred, c.succ]
  simp only [List.filter_append, List.map_append, List.length_append, List.length_map]
  omega

/-- The edge count of a node grows exactly when the node gets a new edge. -/
theorem Chg.edgeCount_lt {g g1 : Graph} {dp ds : List (Ref × Ref)} {dw : List Ref}
    (c : Chg g g1 dp ds dw) (z : Ref) :
    Solver.edgeCount g1 z > Solver.edgeCount g z ↔ ∃ e, (z, e) ∈ dp ∨ (z, e) ∈ ds := by
  rw [c.edgeCount z]
  constructor
  · intro h
    have : 0 < (dp.filter (fun e => decide (e.1 = z))).length ∨
        0 < (ds.filter (fun e => decide (e.1 = z))).length := by omega
    rcases this with h1 | h1
    · obtain ⟨e, he⟩ := filter_fst_length_pos.1 h1
      exact ⟨e, Or.inl he⟩
    · obtain ⟨e, he⟩ := filter_fst_length_pos.1 h1
      exact ⟨e, Or.inr he⟩
  · rintro ⟨e, he | he⟩
    · have := filter_fst_length_pos.2 ⟨e, he⟩
      omega
    · have := filter_fst_length_pos.2 ⟨e, he⟩
      omega

/-- Pushing a pointer that got a new edge. -/
theorem Chg.push {g g1 : Graph} {dp ds : List (Ref × Ref)} {dw : List Ref}
    (c : Chg g g1 dp ds dw) {z : Ref} (hz : ∃ e, (z, e) ∈ dp ∨ (z, e) ∈ ds) :
    Chg g (push_back g1 z) dp ds (dw ++ [z]) := by
  refine ⟨c.nodes, c.svm, c.prj, c.pred, c.succ, ?_, ?_, ?_⟩
  · show g1.worklist ++ [z] = _
    rw [c.wl, List.append_assoc]
  · intro x hx
    rcases List.mem_append.1 hx with hx | hx
    · exact c.just x hx
    · simp only [List.mem_singleton] at hx
      exact hx ▸ hz
  · intro w
    have w1 := c.wf w
    exact ⟨w1.ndp, w1.nds, w1.vp, w1.vs, w1.vprj, w1.vargs⟩

theorem IsArg.carry {g g1 : Graph} (h : g1.nodes = g.nodes) {yi : Ref} (ha : IsArg g yi) :
    IsArg g1 yi := by
  obtain ⟨r, y, h1, h2⟩ := ha
  exact ⟨r, y, h1, by rw [callArgs_congr h]; exact h2⟩

theorem IsArg.valid {g : Graph} {yi : Ref} (ha : IsArg g yi) (w : WF g) : yi ∈ allRefs g := by
  obtain ⟨r, y, rfl, h2⟩ := ha
  exact sv_mem_allRefs (w.vargs r y h2)

/-- One round of the two inner loops of step 2.c, `AddEdge(l, r, true)` followed by the push of
`z` when its edge count grew: every set variable that got an edge is pushed, the other end `y` of
the edge apart. -/
theorem addEdge_push_step {g g3 : Graph} {l r z y : Ref}
    (hzy : (z = l ∧ y = r) ∨ (z = r ∧ y = l))
    (hv : WF g → l ∈ allRefs g ∧ r ∈ allRefs g)
    (h : (AddEdge g l r true).map (fun g2 =>
      if IsSetVar g2 z && decide (edgeCount g2 z > edgeCount g z)
      then push_back g2 z else g2) = some g3) :
    StepP 1 (fun x => x = y) g g3 := by
  rw [Option.map_eq_some'] at h
  obtain ⟨g2, h2, h3⟩ := h
  rcases AddEdge_cases h2 with ⟨hl, hr, s⟩ | hst
  · have hz : IsSetVar g2 z = false := by
      rw [isSetVar_indep g g2]
      rcases hzy with ⟨rfl, -⟩ | ⟨rfl, -⟩
      · exact hl
      · exact hr
    simp only [hz, Bool.false_and] at h3
    cases h3
    exact s.mono (le_refl _) (fun _ hF => hF.elim)
  · obtain ⟨dp, ds, dw, c, -, -, hi⟩ := AddEdgeStore_chg g l r true hv
    rw [← hst] at c
    obtain ⟨rfl, hsh⟩ := hi rfl
    have hgrow := c.edgeCount_lt z
    by_cases hp : (IsSetVar g2 z && decide (edgeCount g2 z > edgeCount g z)) = true
    · rw [if_pos hp] at h3
      subst h3
      simp only [Bool.and_eq_true, decide_eq_true_eq] at hp
      have hz := hgrow.1 hp.2
      refine ⟨dp, ds, [] ++ [z], c.push hz, ?_, ?_⟩
      · rcases hsh with ⟨rfl, rfl⟩ | ⟨rfl, rfl⟩ | ⟨rfl, rfl⟩ <;> simp at hz ⊢
      · intro x e hx hne he
        rcases hsh with ⟨rfl, rfl⟩ | ⟨rfl, rfl⟩ | ⟨rfl, rfl⟩
        · simp at he
        · simp only [List.mem_singleton, List.not_mem_nil, or_false, Prod.mk.injEq] at he hz
          obtain ⟨e1, hz1, -⟩ := hz
          simp [he.1, hz1]
        · simp only [List.mem_singleton, List.not_mem_nil, false_or, Prod.mk.injEq] at he hz
          obtain ⟨e1, hz1, -⟩ := hz
          simp [he.1, hz1]
    · rw [if_neg hp] at h3
      subst h3
      refine ⟨dp, ds, [], c, by simp, ?_⟩
      intro x e hx hne he
      exfalso
      have hxz : x = z := by
        rcases hsh with ⟨rfl, rfl⟩ | ⟨rfl, rfl⟩ | ⟨rfl, rfl⟩
        · simp at he
        · simp only [List.mem_singleton, List.not_mem_nil, or_false, Prod.mk.injEq] at he
          rcases hzy with ⟨rfl, rfl⟩ | ⟨rfl, rfl⟩
          · exact absurd he.1 hne
          · exact he.1
        · simp only [List.mem_singleton, List.not_mem_nil, false_or, Prod.mk.injEq] at he
          rcases hzy with ⟨rfl, rfl⟩ | ⟨rfl, rfl⟩
          · exact he.1
          · exact absurd he.1 hne
      subst hxz
      apply hp
      simp only [Bool.and_eq_true, decide_eq_true_eq]
      exact ⟨by rw [isSetVar_indep g g2]; exact hx, hgrow.2 ⟨e, he⟩⟩

/-- The body of the loop over `Y` in step 2.c is a step: it pushes at most two pointers per new
edge, only pointers that got a new edge, and every set variable that got one. -/
theorem projStep_step {addr : Ref → Nat} {proj_sv_ref yi : Ref} {g g5 : Graph}
    (hyi : IsArg g yi) (h : projStep addr proj_sv_ref g yi = some g5) :
    StepP 2 (fun _ => False) g g5 := by
  unfold projStep at h
  simp only at h
  split at h
  · cases h
  · rename_i g3 h3
    rw [Option.map_eq_some'] at h
    obtain ⟨g4, h4, h5⟩ := h
    have s1 : StepP 1 (fun x => x = yi) g g3 := by
      refine forSet_step ?_ h3
      intro g1 pred g2 hm hs hb
      refine addEdge_push_step (Or.inl ⟨rfl, rfl⟩) ?_ hb
      intro w
      exact ⟨(w.vp _ (mem_preds_iff.1 hm)).2, (hyi.carry hs.nodes).valid w⟩
    have s2 : StepP 1 (fun x => x = yi) g3 g4 := by
      refine forSet_step ?_ h4
      intro g1 succ g2 hm hs hb
      refine addEdge_push_step (Or.inr ⟨rfl, rfl⟩) ?_ hb
      intro w
      exact ⟨(hyi.carry (hs.nodes.trans s1.nodes)).valid w, (w.vs _ (mem_succs_iff.1 hm)).2⟩
    obtain ⟨dp, ds, dw, c, hl, hn⟩ := s1.seq s2
    have hgrow := c.edgeCount_lt yi
    by_cases hp : edgeCount g4 yi > edgeCount g yi
    · rw [if_pos hp] at h5
      subst h5
      have hz := hgrow.1 hp
      refine ⟨dp, ds, dw ++ [yi], c.push hz, ?_, ?_⟩
      · have : 0 < dp.length + ds.length := by
          obtain ⟨e, he | he⟩ := hz
          · have := List.length_pos_of_mem he
            omega
          · have := List.length_pos_of_mem he
            omega
        simp only [List.length_append, List.length_singleton]
        omega
      · intro x e hx _ he
        by_cases hxy : x = yi
        · simp [hxy]
        · exact List.mem_append_left _ (hn x e hx hxy he)
    · rw [if_neg hp] at h5
      subst h5
      refine ⟨dp, ds, dw, c, by omega, ?_⟩
      intro x e hx _ he
      by_cases hxy : x = yi
      · subst hxy
        exact absurd (hgrow.2 ⟨e, he⟩) hp
      · exact hn x e hx hxy he

/-- Every member of the set `Y` of step 2.c is an argument of a node. -/
theorem projValue_isArg {g : Graph} {proj_sv_ref : Ref} :
    ∀ (ps : List Ref) (Y : List Ref), projValue g proj_sv_ref ps = some Y → ∀ yi ∈ Y, IsArg g yi
  | [], Y, h => by
    simp only [projValue, Option.some.injEq] at h
    subst h
    simp
  | pred :: ps, Y, h => by
    simp only [projValue] at h
    split at h
    · split at h
      · cases h
      · exact projValue_isArg ps Y h
      · rename_i y hy
        rw [Option.map_eq_some'] at h
        obtain ⟨Y1, h1, rfl⟩ := h
        intro yi hyi
        rcases List.mem_cons.1 hyi with rfl | hyi
        · exact ⟨pred, y, rfl, getArgAt_mem hy⟩
        · exact projValue_isArg ps Y1 h1 yi hyi
    · exact projValue_isArg ps Y h

/-- Step 2.b is a step. -/
theorem propagate_step {addr : Ref → Nat} {sv_node : Ref} {g g1 : Graph}
    (h : propagate addr sv_node g = some g1) : StepP 1 (fun _ => False) g g1 := by
  refine forSet_step ?_ h
  intro g2 pred g3 hm _ hb
  refine forSet_step ?_ hb
  intro g4 succ g5 hm4 hs4 hb4
  refine AddEdge_step ?_ hb4
  intro w
  refine ⟨?_, (w.vs _ (mem_succs_iff.1 hm4)).2⟩
  have hp : (sv_node, pred) ∈ g4.predecessor_nodes := hs4.pred_mono (mem_preds_iff.1 hm)
  exact (w.vp _ hp).2

/-- Step 2.c is a step. -/
theorem resolveProjections_step {addr : Ref → Nat} {sv_node : Ref} {g g1 : Graph}
    (h : resolveProjections addr sv_node g = some g1) : StepP 2 (fun _ => False) g g1 := by
  refine forSet_step ?_ h
  intro g2 p g3 _ _ hb
  split at hb
  · cases hb
  · rename_i Y hY
    refine forSet_step ?_ hb
    intro g4 yi g5 hm hs hb4
    exact projStep_step ((projValue_isArg _ Y hY yi hm).carry hs.nodes) hb4

/-- One iteration of the `while` loop of `Solve` is a step: the nodes stay, edges are only
added, every pushed pointer got a new edge, at most two pointers are pushed per new edge, and
every set variable that got a new edge is pushed. -/
theorem SolveBody_step {addr : Ref → Nat} {sv_node : Ref} {g g1 : Graph}
    (h : SolveBody addr sv_node g = some g1) : StepP 2 (fun _ => False) g g1 := by
  unfold SolveBody at h
  split at h
  · cases h
  · rename_i g2 h2
    exact ((propagate_step h2).mono (by omega) (fun _ a => a)).seq (resolveProjections_step h)

/-! ## Termination of `Solve` -/

/-- An edge set without repetition on the pointers of the graph holds at most one edge per pair
of pointers. -/
theorem edges_length_le {A : List Ref} {l : List (Ref × Ref)} (hn : l.Nodup)
    (h : ∀ e ∈ l, e.1 ∈ A ∧ e.2 ∈ A) : l.length ≤ A.length * A.length := by
  have hsub : l ⊆ A ×ˢ A := by
    intro e he
    obtain ⟨a, b⟩ := e
    exact List.pair_mem_product.2 (h _ he)
  have hle := (List.subperm_of_subset hn hsub).length_le
  rw [List.length_product] at hle
  exact hle

/-- The number of edges of a graph is bounded by the number of pairs of its pointers. -/
theorem WF.edges_le {g : Graph} (w : WF g) :
    g.predecessor_nodes.length + g.successor_nodes.length ≤
      2 * ((allRefs g).length * (allRefs g).length) := by
  have h1 := edges_length_le w.ndp w.vp
  have h2 := edges_length_le w.nds w.vs
  omega

theorem WF.dropWorklist {g : Graph} (w : WF g) (wl : List Ref) : WF { g with worklist := wl } :=
  ⟨w.ndp, w.nds, w.vp, w.vs, w.vprj, w.vargs⟩

/-- Every completed iteration of the `while` loop decreases the potential. -/
theorem potential_decreases {addr : Ref → Nat} {g g1 : Graph} {sv_node : Ref} {rest : List Ref}
    (w : WF g) (hw : g.worklist = sv_node :: rest)
    (h : SolveBody addr sv_node { g with worklist := rest } = some g1) :
    WF g1 ∧ potential g1 < potential g := by
  obtain ⟨dp, ds, dw, c, hl, -⟩ := SolveBody_step h
  have w1 : WF g1 := c.wf (w.dropWorklist rest)
  refine ⟨w1, ?_⟩
  have hA : allRefs g1 = allRefs g := allRefs_congr c.nodes c.svm
  have hb := w1.edges_le
  unfold potential
  rw [hA] at hb ⊢
  rw [c.pred, c.succ] at hb ⊢
  rw [c.wl, hw]
  simp only [List.length_append, List.length_cons] at hb ⊢
  omega

/-- The `while` loop of `Solve` does not run out of fuel when it is given the potential of the
graph: it ends in a graph with an empty worklist or it aborts. -/
theorem SolveLoop_terminates (addr : Ref → Nat) :
    ∀ (fuel : Nat) (g : Graph), WF g → potential g ≤ fuel →
      SolveLoop addr fuel g ≠ Outcome.out_of_fuel
  | 0, g, _, hp => by
    have : g.worklist = [] := by
      unfold potential at hp
      exact List.length_eq_zero.1 (by omega)
    simp [SolveLoop, this]
  | fuel + 1, g, w, hp => by
    unfold SolveLoop
    split
    · simp
    · rename_i sv_node rest hw
      split
      · simp
      · rename_i g1 h1
        obtain ⟨w1, hd⟩ := potential_decreases w hw h1
        exact SolveLoop_terminates addr fuel g1 w1 (by omega)

/-- A property kept by every iteration of the `while` loop holds of the graph in which the loop
ends, and the worklist of that graph is empty. -/
theorem SolveLoop_inv (addr : Ref → Nat) {I : Graph → Prop}
    (hI : ∀ g sv_node rest g1, I g → g.worklist = sv_node :: rest →
      SolveBody addr sv_node { g with worklist := rest } = some g1 → I g1) :
    ∀ (fuel : Nat) (g g1 : Graph), I g → SolveLoop addr fuel g = Outcome.finished g1 →
      I g1 ∧ g1.worklist = []
  | 0, g, g1, h, hs => by
    unfold SolveLoop at hs
    split at hs
    · cases hs
      exact ⟨h, by assumption⟩
    · cases hs
  | fuel + 1, g, g1, h, hs => by
    unfold SolveLoop at hs
    split at hs
    · cases hs
      exact ⟨h, by assumption⟩
    · rename_i sv_node rest hw
      split at hs
      · cases hs
      · rename_i g2 h2
        exact SolveLoop_inv addr hI fuel g2 g1 (hI g sv_node rest g2 h hw h2) hs

theorem initWorklist_wf {g : Graph} (w : WF g) : WF (initWorklist g) :=
  w.dropWorklist _

theorem potential_initWorklist_le {g : Graph} : potential (initWorklist g) ≤ solveFuel g := by
  unfold potential solveFuel initWorklist allRefs
  simp only [List.length_append, List.length_map]
  have := List.length_filter_le (fun name => !(preds g (Ref.sv name)).isEmpty) g.set_var_map
  omega

/-- More fuel than needed does not change how the `while` loop ends. -/
theorem SolveLoop_mono (addr : Ref → Nat) :
    ∀ (fuel : Nat) (g : Graph), SolveLoop addr fuel g ≠ Outcome.out_of_fuel →
      ∀ fuel1, fuel ≤ fuel1 → SolveLoop addr fuel1 g = SolveLoop addr fuel g
  | 0, g, h, fuel1, _ => by
    unfold SolveLoop at h
    split at h
    · rename_i hw
      cases fuel1 <;> simp [SolveLoop, hw]
    · exact absurd rfl h
  | fuel + 1, g, h, fuel1, hf => by
    obtain ⟨f1, rfl⟩ : ∃ f1, fuel1 = f1 + 1 := ⟨fuel1 - 1, by omega⟩
    unfold SolveLoop at h ⊢
    split
    · rfl
    · rename_i sv_node rest hw
      split
      · rfl
      · rename_i g1 h1
        rw [hw] at h
        simp only [h1] at h
        exact SolveLoop_mono addr fuel g1 h f1 (by omega)

/-! ## Reading the constraints -/

theorem Grow.still (g : Graph) : Grow g g :=
  ⟨⟨[], by simp⟩, fun _ h => h, fun _ h => h, fun _ h => h, fun _ h => h, id, id⟩

theorem Grow.comp {g g1 g2 : Graph} (h : Grow g g1) (h1 : Grow g1 g2) : Grow g g2 := by
  obtain ⟨t, ht⟩ := h.nodes
  obtain ⟨t1, ht1⟩ := h1.nodes
  exact ⟨⟨t ++ t1, by rw [ht1, ht, List.append_assoc]⟩, fun _ a => h1.svm (h.svm a),
    fun _ a => h1.prj (h.prj a), fun _ a => h1.pred (h.pred a), fun _ a => h1.succ (h.succ a),
    fun w => h1.wf (h.wf w), fun w => h1.sorted (h.sorted w)⟩

theorem Grow.node {g g1 : Graph} (h : Grow g g1) {r : Ref} {n : Node} (hn : g.node r = some n) :
    g1.node r = some n := by
  cases r with
  | sv _ => simp [Graph.node] at hn
  | obj i =>
    simp only [Graph.node] at hn ⊢
    obtain ⟨t, ht⟩ := h.nodes
    rw [ht]
    have hi : i < g.nodes.length := (List.get?_eq_some.1 hn).1
    rw [List.get?_eq_getElem?, List.getElem?_append_left hi, ← List.get?_eq_getElem?]
    exact hn

theorem Grow.allRefs {g g1 : Graph} (h : Grow g g1) {r : Ref} (hr : r ∈ allRefs g) :
    r ∈ allRefs g1 := by
  cases r with
  | sv x => exact sv_mem_allRefs_iff.2 (h.svm (sv_mem_allRefs_iff.1 hr))
  | obj i =>
    rw [obj_mem_allRefs_iff] at hr ⊢
    obtain ⟨t, ht⟩ := h.nodes
    rw [ht, List.length_append]
    omega

theorem Chg.toGrow {g g1 : Graph} {dp ds : List (Ref × Ref)} {dw : List Ref}
    (c : Chg g g1 dp ds dw) : Grow g g1 :=
  ⟨⟨[], by rw [c.nodes]; simp⟩, by rw [c.svm]; exact fun _ a => a,
    by rw [c.prj]; exact fun _ a => a,
    by rw [c.pred]; exact fun _ a => List.mem_append_right _ a,
    by rw [c.succ]; exact fun _ a => List.mem_append_right _ a, c.wf,
    by rw [c.svm]; exact id⟩

theorem mem_setInsert {a y : String} : ∀ {l : List String}, y ∈ setInsert a l ↔ y = a ∨ y ∈ l
  | [] => by simp [setInsert]
  | b :: l => by
    unfold setInsert
    split
    · simp
    · split
      · rename_i hab
        subst hab
        simp
      · rw [List.mem_cons, mem_setInsert (l := l), List.mem_cons]
        tauto

theorem nameLt_trans {a b c : String} (h : nameLt a b) (h1 : nameLt b c) : nameLt a c :=
  @lt_trans (List Char) _ _ _ _ h h1

theorem nameLt_irrefl (a : String) : ¬ nameLt a a :=
  @lt_irrefl (List Char) _ a.data

theorem nameLt_trichotomy (a b : String) : nameLt a b ∨ a = b ∨ nameLt b a := by
  rcases @lt_trichotomy (List Char) _ a.data b.data with h | h | h
  · exact Or.inl h
  · exact Or.inr (Or.inl (String.ext h))
  · exact Or.inr (Or.inr h)

/-- Insertion keeps the keys strictly ascending. -/
theorem sortedKeys_setInsert (a : String) :
    ∀ {l : List String}, SortedKeys l → SortedKeys (setInsert a l)
  | [], _ => by simp [setInsert, SortedKeys]
  | b :: l, h => by
    unfold SortedKeys at h ⊢
    have hb := (List.pairwise_cons.1 h).1
    have hl := (List.pairwise_cons.1 h).2
    unfold setInsert
    split
    · rename_i hab
      refine List.pairwise_cons.2 ⟨?_, h⟩
      intro c hc
      rcases List.mem_cons.1 hc with rfl | hc
      · exact hab
      · exact nameLt_trans hab (hb c hc)
    · split
      · exact h
      · rename_i hab hne
        refine List.pairwise_cons.2 ⟨?_, sortedKeys_setInsert a hl⟩
        intro c hc
        rcases mem_setInsert.1 hc with rfl | hc
        · rcases nameLt_trichotomy c b with h1 | h1 | h1
          · exact absurd h1 hab
          · exact absurd h1 hne
          · exact h1
        · exact hb c hc

theorem mem_get_sv {g : Graph} {x y : String} :
    y ∈ (get_sv g x).set_var_map ↔ y = x ∨ y ∈ g.set_var_map := by
  unfold get_sv
  split
  · rename_i h
    constructor
    · exact Or.inr
    · rintro (rfl | h1)
      · exact h
      · exact h1
  · exact mem_setInsert

theorem get_sv_nodes (g : Graph) (x : String) : (get_sv g x).nodes = g.nodes := by
  unfold get_sv
  split <;> rfl

theorem WF.grow_refs {g g1 : Graph} (w : WF g)
    (hn : g1.nodes = g.nodes)
    (hs : g.set_var_map ⊆ g1.set_var_map)
    (hj : g1.proj_sv_refs = g.proj_sv_refs)
    (hp : g1.predecessor_nodes = g.predecessor_nodes)
    (hc : g1.successor_nodes = g.successor_nodes) : WF g1 := by
  have hA : ∀ r, r ∈ allRefs g → r ∈ allRefs g1 := by
    intro r hr
    cases r with
    | sv x => exact sv_mem_allRefs_iff.2 (hs (sv_mem_allRefs_iff.1 hr))
    | obj i =>
      rw [obj_mem_allRefs_iff] at hr ⊢
      rw [hn]; exact hr
  refine ⟨hp ▸ w.ndp, hc ▸ w.nds, ?_, ?_, ?_, ?_⟩
  · intro e he
    rw [hp] at he
    exact ⟨hA _ (w.vp e he).1, hA _ (w.vp e he).2⟩
  · intro e he
    rw [hc] at he
    exact ⟨hA _ (w.vs e he).1, hA _ (w.vs e he).2⟩
  · intro e he
    rw [hj] at he
    exact hA _ (w.vprj e he)
  · intro r y hy
    rw [callArgs_congr hn] at hy
    exact hs (w.vargs r y hy)

/-- Registering a set variable only adds a key. -/
theorem get_sv_grow (g : Graph) (x : String) : Grow g (get_sv g x) := by
  have hs : g.set_var_map ⊆ (get_sv g x).set_var_map := fun y hy => mem_get_sv.2 (Or.inr hy)
  have hj : (get_sv g x).proj_sv_refs = g.proj_sv_refs := by unfold get_sv; split <;> rfl
  have hp : (get_sv g x).predecessor_nodes = g.predecessor_nodes := by unfold get_sv; split <;> rfl
  have hc : (get_sv g x).successor_nodes = g.successor_nodes := by unfold get_sv; split <;> rfl
  refine ⟨⟨[], by rw [get_sv_nodes]; simp⟩, hs, by rw [hj]; exact fun _ a => a,
    by rw [hp]; exact fun _ a => a, by rw [hc]; exact fun _ a => a,
    fun w => w.grow_refs (get_sv_nodes g x) hs hj hp hc, ?_⟩
  intro h
  unfold get_sv
  split
  · exact h
  · exact sortedKeys_setInsert x h

/-- The node data of the pointers after an allocation. -/
theorem newNode_node (g : Graph) (n : Node) (r : Ref) :
    (newNode g n).1.node r = if r = Ref.obj g.nodes.length then some n else g.node r := by
  cases r with
  | sv x => simp [Graph.node]
  | obj i =>
    simp only [Graph.node, newNode, Ref.obj.injEq]
    by_cases hi : i = g.nodes.length
    · subst hi
      simp
    · rw [if_neg hi]
      by_cases hlt : i < g.nodes.length
      · rw [List.get?_eq_getElem?, List.getElem?_append_left hlt, List.get?_eq_getElem?]
      · have h1 : (g.nodes ++ [n]).get? i = none :=
          List.get?_eq_none.2 (by simp only [List.length_append, List.length_singleton]; omega)
        have h2 : g.nodes.get? i = none := List.get?_eq_none.2 (by omega)
        rw [h1, h2]

theorem newNode_ref_mem (g : Graph) (n : Node) : (newNode g n).2 ∈ allRefs (newNode g n).1 := by
  simp [newNode, obj_mem_allRefs_iff]

/-- Allocating a node whose node arguments are registered set variables. -/
theorem newNode_grow (g : Graph) (n : Node)
    (hargs : ∀ y, (∃ nm args, (n = Node.Constructor nm args ∨
      ∃ rt ps, n = Node.Lam nm args rt ps) ∧ Arg.node y ∈ args) → y ∈ g.set_var_map) :
    Grow g (newNode g n).1 := by
  refine ⟨⟨[n], rfl⟩, fun _ a => a, fun _ a => a, fun _ a => a, fun _ a => a, ?_, id⟩
  intro w
  have hA : ∀ r, r ∈ allRefs g → r ∈ allRefs (newNode g n).1 := by
    intro r hr
    cases r with
    | sv x =>
      have hx : x ∈ g.set_var_map := sv_mem_allRefs_iff.1 hr
      exact sv_mem_allRefs_iff.2 hx
    | obj i =>
      rw [obj_mem_allRefs_iff] at hr ⊢
      simp only [newNode, List.length_append, List.length_singleton]
      omega
  refine ⟨w.ndp, w.nds, fun e he => ⟨hA _ (w.vp e he).1, hA _ (w.vp e he).2⟩,
    fun e he => ⟨hA _ (w.vs e he).1, hA _ (w.vs e he).2⟩, fun e he => hA _ (w.vprj e he), ?_⟩
  intro r y hy
  unfold CallArgs at hy
  rw [newNode_node] at hy
  split at hy
  · rename_i nm args hnode
    split at hnode
    · cases hnode
      exact hargs y ⟨nm, args, Or.inl rfl, hy⟩
    · exact w.vargs r y (by unfold CallArgs; rw [hnode]; exact hy)
  · rename_i nm args rt ps hnode
    split at hnode
    · cases hnode
      exact hargs y ⟨nm, args, Or.inr ⟨rt, ps, rfl⟩, hy⟩
    · exact w.vargs r y (by unfold CallArgs; rw [hnode]; exact hy)
  · simp at hy

/-- Reading the arguments of a `lam_` registers its set variables and allocates nothing. -/
theorem lamArgs_grow : ∀ (args : List String) (g : Graph) (i : Nat),
    Grow g (lamArgs g i args).1 ∧
      ∀ y, Arg.node y ∈ (lamArgs g i args).2 → y ∈ (lamArgs g i args).1.set_var_map
  | [], g, i => by simp [lamArgs, Grow.still]
  | arg :: rest, g, i => by
    unfold lamArgs
    split
    · obtain ⟨h1, h2⟩ := lamArgs_grow rest g (i + 1)
      refine ⟨h1, ?_⟩
      intro y hy
      simp only [List.mem_cons] at hy
      rcases hy with hy | hy
      · cases hy
      · exact h2 y hy
    · obtain ⟨h1, h2⟩ := lamArgs_grow rest (get_sv g arg) (i + 1)
      refine ⟨(get_sv_grow g arg).comp h1, ?_⟩
      intro y hy
      simp only [List.mem_cons, Arg.node.injEq] at hy
      rcases hy with rfl | hy
      · exact h1.svm (mem_get_sv.2 (Or.inl rfl))
      · exact h2 y hy

/-- Recording a projection with its set variable. -/
theorem insertProjRef_grow (g : Graph) (sv proj : Ref) (hp : proj ∈ allRefs g) :
    Grow g (insertProjRef g sv proj) := by
  unfold insertProjRef
  split
  · exact Grow.still g
  · refine ⟨⟨[], by simp⟩, fun _ a => a, fun _ a => List.mem_cons_of_mem _ a, fun _ a => a,
      fun _ a => a, ?_, id⟩
    intro w
    refine ⟨w.ndp, w.nds, w.vp, w.vs, ?_, w.vargs⟩
    intro e he
    rcases List.mem_cons.1 he with rfl | he
    · exact hp
    · exact w.vprj e he

theorem mem_insertProjRef (g : Graph) (sv proj : Ref) :
    (sv, proj) ∈ (insertProjRef g sv proj).proj_sv_refs := by
  unfold insertProjRef
  split
  · assumption
  · exact List.mem_cons_self _ _

/-- What `parseExpression` returns: the graph has grown, the pointer is allocated, and for each
kind of expression the node it points to. -/
theorem parseExpression_spec (g : Graph) (e : Expr) :
    Grow g (parseExpression g e).1 ∧ (parseExpression g e).2 ∈ allRefs (parseExpression g e).1 ∧
    (∀ x, e = Expr.setvar x → (parseExpression g e).2 = Ref.sv x) ∧
    (∀ a x, e = Expr.ref a x →
      (parseExpression g e).1.node (parseExpression g e).2 =
        some (Node.Constructor "ref" [Arg.str a, Arg.node x]) ∧
      x ∈ (parseExpression g e).1.set_var_map) ∧
    (∀ nm i x, e = Expr.proj nm i x →
      (parseExpression g e).1.node (parseExpression g e).2 = some (Node.Projection nm x i) ∧
      (Ref.sv x, (parseExpression g e).2) ∈ (parseExpression g e).1.proj_sv_refs) := by
  cases e with
  | setvar x =>
    refine ⟨get_sv_grow g x, sv_mem_allRefs (mem_get_sv.2 (Or.inl rfl)), ?_, ?_, ?_⟩
    · intro _ h
      cases h; rfl
    · intro _ _ h
      cases h
    · intro _ _ _ h
      cases h
  | ref a x =>
    have hg : Grow (get_sv g x) (parseExpression g (Expr.ref a x)).1 := by
      refine newNode_grow _ _ ?_
      rintro y ⟨nm, args, h | ⟨rt, ps, h⟩, hy⟩
      · cases h
        simp only [List.mem_cons, Arg.node.injEq, List.not_mem_nil, or_false] at hy
        rcases hy with hy | hy
        · cases hy
        · exact mem_get_sv.2 (Or.inl hy)
      · cases h
    refine ⟨(get_sv_grow g x).comp hg, newNode_ref_mem _ _, ?_, ?_, ?_⟩
    · intro _ h
      cases h
    · intro a1 x1 h
      cases h
      refine ⟨?_, hg.svm (mem_get_sv.2 (Or.inl rfl))⟩
      show (newNode _ _).1.node _ = _
      rw [newNode_node]
      exact if_pos rfl
    · intro _ _ _ h
      cases h
  | proj nm i x =>
    have hg : Grow g (newNode g (Node.Projection nm x i)).1 := by
      refine newNode_grow _ _ ?_
      rintro y ⟨nm1, args, h | ⟨rt, ps, h⟩, -⟩ <;> cases h
    have hg1 := get_sv_grow (newNode g (Node.Projection nm x i)).1 x
    have hm : (newNode g (Node.Projection nm x i)).2 ∈
        allRefs (get_sv (newNode g (Node.Projection nm x i)).1 x) :=
      hg1.allRefs (newNode_ref_mem _ _)
    have hg2 := insertProjRef_grow _ (Ref.sv x) _ hm
    refine ⟨hg.comp (hg1.comp hg2), hg2.allRefs hm, ?_, ?_, ?_⟩
    · intro _ h
      cases h
    · intro _ _ h
      cases h
    · intro nm1 i1 x1 h
      cases h
      refine ⟨?_, mem_insertProjRef _ _ _⟩
      refine (hg1.comp hg2).node ?_
      rw [newNode_node]
      exact if_pos rfl
  | lam_ pts rt args =>
    obtain ⟨h1, h2⟩ := lamArgs_grow args g 0
    have hg : Grow (lamArgs g 0 args).1 (parseExpression g (Expr.lam_ pts rt args)).1 := by
      refine newNode_grow _ _ ?_
      rintro y ⟨nm, args1, h | ⟨rt1, ps, h⟩, hy⟩
      · cases h
      · cases h
        exact h2 y hy
    refine ⟨h1.comp hg, newNode_ref_mem _ _, ?_, ?_, ?_⟩
    · intro _ h
      cases h
    · intro _ _ h
      cases h
    · intro _ _ _ h
      cases h

/-- A call of `AddEdge` on allocated pointers is a change of the graph. -/
theorem AddEdge_chg {g g1 : Graph} {lhs rhs : Ref} {is_init : Bool}
    (hv : WF g → lhs ∈ allRefs g ∧ rhs ∈ allRefs g)
    (h : AddEdge g lhs rhs is_init = some g1) : ∃ dp ds dw, Chg g g1 dp ds dw := by
  rcases AddEdge_cases h with ⟨-, -, dp, ds, dw, c, -⟩ | rfl
  · exact ⟨dp, ds, dw, c⟩
  · obtain ⟨dp, ds, dw, c, -⟩ := AddEdgeStore_chg g lhs rhs is_init hv
    exact ⟨dp, ds, dw, c⟩

/-- Reading one constraint makes the graph grow. -/
theorem readConstraint_grow {g g1 : Graph} {c : Expr × Expr} (h : readConstraint g c = some g1) :
    Grow g g1 := by
  unfold readConstraint at h
  simp only at h
  obtain ⟨hl, hlm, -⟩ := parseExpression_spec g c.1
  obtain ⟨hr, hrm, -⟩ := parseExpression_spec (parseExpression g c.1).1 c.2
  obtain ⟨dp, ds, dw, ch⟩ := AddEdge_chg (fun _ => ⟨hr.allRefs hlm, hrm⟩) h
  exact hl.comp (hr.comp ch.toGrow)

theorem wf_empty : WF Graph.empty :=
  ⟨List.nodup_nil, List.nodup_nil, by simp [Graph.empty], by simp [Graph.empty],
    by simp [Graph.empty], by intro r y; cases r <;> simp [Graph.empty, CallArgs, Graph.node]⟩

/-- After reading, the graph satisfies the structural invariant and its keys are ascending. -/
theorem readConstraints_wf {cs : List (Expr × Expr)} {g : Graph}
    (h : readConstraints cs = some g) : WF g ∧ SortedKeys g.set_var_map := by
  unfold readConstraints at h
  refine forEachM_inv (I := fun g => WF g ∧ SortedKeys g.set_var_map) cs _ g ?_ ?_ h
  · intro g2 c g3 _ hI hg
    have hgr := readConstraint_grow hg
    exact ⟨hgr.wf hI.1, hgr.sorted hI.2⟩
  · exact ⟨wf_empty, by simp [SortedKeys, Graph.empty]⟩

/-- What a round of a loop establishes for its element, and later rounds keep, holds of every
element after the loop. -/
theorem forEachM_visit {α : Type} {f : Graph → α → Option Graph} {I : Graph → Prop}
    {Q : α → Graph → Prop} :
    ∀ (l : List α) (g g1 : Graph),
      (∀ g2 a g3, a ∈ l → I g2 → f g2 a = some g3 → I g3 ∧ Q a g3) →
      (∀ g2 a b g3, b ∈ l → I g2 → Q a g2 → f g2 b = some g3 → Q a g3) → I g →
      forEachM f l g = some g1 → ∀ a ∈ l, Q a g1
  | [], _, _, _, _, _, _ => by simp
  | b :: l, g, g1, hf, hs, hI, h => by
    simp only [forEachM] at h
    split at h
    · cases h
    · rename_i g2 hg2
      obtain ⟨hI2, hQ⟩ := hf g b g2 (List.mem_cons_self _ _) hI hg2
      intro a ha
      rcases List.mem_cons.1 ha with rfl | ha
      · refine forEachM_inv (I := fun g3 => I g3 ∧ Q a g3) l g2 g1 ?_ ⟨hI2, hQ⟩ h |>.2
        intro g3 c g4 hc hI3 hg
        exact ⟨(hf g3 c g4 (List.mem_cons_of_mem _ hc) hI3.1 hg).1,
          hs g3 a c g4 (List.mem_cons_of_mem _ hc) hI3.1 hI3.2 hg⟩
      · exact forEachM_visit l g2 g1
          (fun g3 c g4 hc => hf g3 c g4 (List.mem_cons_of_mem _ hc))
          (fun g3 c d g4 hd => hs g3 c d g4 (List.mem_cons_of_mem _ hd)) hI2 h a ha

theorem isConstructor_sv (g : Graph) (x : String) : IsConstructor g (Ref.sv x) = false := rfl

theorem isLam_sv (g : Graph) (x : String) : IsLam g (Ref.sv x) = false := rfl

theorem isProjection_sv (g : Graph) (x : String) : IsProjection g (Ref.sv x) = false := rfl

/-- The recursive equation of `AddEdge` on a set variable on the left: the call runs the storing
branches. -/
theorem AddEdge_sv (g : Graph) (x : String) (rhs : Ref) (is_init : Bool) :
    AddEdge g (Ref.sv x) rhs is_init = some (AddEdgeStore g (Ref.sv x) rhs is_init) := by
  unfold AddEdge
  simp [isConstructor_sv, isLam_sv]

/-- A call of `AddEdge` with a set variable on the right runs the storing branches. -/
theorem AddEdge_sv_right (g : Graph) (lhs : Ref) (y : String) (is_init : Bool) :
    AddEdge g lhs (Ref.sv y) is_init = some (AddEdgeStore g lhs (Ref.sv y) is_init) := by
  unfold AddEdge
  simp [isConstructor_sv, isLam_sv]

/-- After the first storing branch the edge is among the predecessors. -/
theorem AddEdgeStore_pred_mem {g : Graph} {lhs rhs : Ref} (is_init : Bool)
    (hc : ((IsConstructor g lhs || IsLam g lhs) || IsProjection g rhs) = true) :
    (rhs, lhs) ∈ (AddEdgeStore g lhs rhs is_init).predecessor_nodes := by
  unfold AddEdgeStore
  rw [if_pos hc]
  by_cases hp : (rhs, lhs) ∈ g.predecessor_nodes
  · simp [HasPredecessor, hp]
  · by_cases hs : (IsSetVar g rhs && !is_init) = true <;> simp [HasPredecessor, hp, hs, push_back]

/-- After the second storing branch the edge is among the successors. -/
theorem AddEdgeStore_succ_mem {g : Graph} {lhs rhs : Ref} (is_init : Bool)
    (hc : ((IsConstructor g lhs || IsLam g lhs) || IsProjection g rhs) = false) :
    (lhs, rhs) ∈ (AddEdgeStore g lhs rhs is_init).successor_nodes := by
  unfold AddEdgeStore
  rw [if_neg (by simp [hc])]
  by_cases hp : (lhs, rhs) ∈ g.successor_nodes
  · simp [HasSuccessor, hp]
  · by_cases hs : (IsSetVar g lhs && !is_init) = true <;> simp [HasSuccessor, hp, hs, push_back]

theorem Loaded.persist {c : Expr × Expr} {g g1 : Graph} (h : Loaded c g) (hg : Grow g g1) :
    Loaded c g1 := by
  obtain ⟨h1, h2, h3⟩ := h
  refine ⟨fun x y e => hg.succ (h1 x y e), ?_, ?_⟩
  · intro a x y e
    obtain ⟨r, hr, hp, hx⟩ := h2 a x y e
    exact ⟨r, hg.node hr, hg.pred hp, hg.svm hx⟩
  · intro nm i y z e
    obtain ⟨p, hp, hj, hs, hz⟩ := h3 nm i y z e
    exact ⟨p, hg.node hp, hg.prj hj, hg.succ hs, hg.svm hz⟩

theorem isConstructor_of_node {g : Graph} {r : Ref} {nm : String} {args : List Arg}
    (h : g.node r = some (Node.Constructor nm args)) : IsConstructor g r = true := by
  unfold IsConstructor
  rw [h]

theorem node_projection {g : Graph} {r : Ref} {nm x : String} {i : Int}
    (h : g.node r = some (Node.Projection nm x i)) :
    IsConstructor g r = false ∧ IsLam g r = false ∧ IsProjection g r = true ∧
      ProjSV g r = x ∧ ProjIdx g r = i ∧ Name g r = nm := by
  cases r with
  | sv _ => simp [Graph.node] at h
  | obj j =>
    unfold IsConstructor IsLam IsProjection ProjSV ProjIdx Name
    rw [h]
    simp

/-- Reading a constraint leaves its edge in the graph. -/
theorem readConstraint_loaded {g g1 : Graph} {c : Expr × Expr}
    (h : readConstraint g c = some g1) : Loaded c g1 := by
  unfold readConstraint at h
  simp only at h
  obtain ⟨-, -, hl1, hl2, hl3⟩ := parseExpression_spec g c.1
  obtain ⟨hgr, -, hr1, -, -⟩ := parseExpression_spec (parseExpression g c.1).1 c.2
  obtain ⟨e1, e2⟩ := c
  refine ⟨?_, ?_, ?_⟩
  · intro x y e
    cases e
    simp only at h hl1 hr1
    rw [hl1 x rfl, hr1 y rfl, AddEdge_sv] at h
    cases h
    exact AddEdgeStore_succ_mem _ (by simp [isConstructor_sv, isLam_sv, isProjection_sv])
  · intro a x y e
    cases e
    simp only at h hl2 hr1
    obtain ⟨hn, hx⟩ := hl2 a x rfl
    have hn1 := hgr.node hn
    rw [hr1 y rfl, AddEdge_sv_right] at h
    cases h
    refine ⟨_, ?_, AddEdgeStore_pred_mem _ (by simp [isConstructor_of_node hn1]), ?_⟩
    · obtain ⟨dp, ds, dw, ch, -⟩ := AddEdgeStore_chg (parseExpression (parseExpression g
        (Expr.ref a x)).1 (Expr.setvar y)).1 (parseExpression g (Expr.ref a x)).2 (Ref.sv y) true
        (fun w => ⟨hgr.allRefs (parseExpression_spec g _).2.1, sv_mem_allRefs (by
          have := (parseExpression_spec (parseExpression g (Expr.ref a x)).1 (Expr.setvar y)).2.1
          rw [hr1 y rfl] at this
          exact sv_mem_allRefs_iff.1 this)⟩)
      rw [node_congr ch.nodes]
      exact hn1
    · have : (AddEdgeStore (parseExpression (parseExpression g (Expr.ref a x)).1
          (Expr.setvar y)).1 (parseExpression g (Expr.ref a x)).2 (Ref.sv y) true).set_var_map =
          (parseExpression (parseExpression g (Expr.ref a x)).1 (Expr.setvar y)).1.set_var_map := by
        rcases AddEdgeStore_cases (parseExpression (parseExpression g (Expr.ref a x)).1
          (Expr.setvar y)).1 (parseExpression g (Expr.ref a x)).2 (Ref.sv y) true
          with h0 | ⟨-, -, h0⟩ | ⟨-, -, h0⟩ <;> rw [h0]
      rw [this]
      exact hgr.svm hx
  · intro nm i y z e
    cases e
    simp only at h hl3 hr1
    obtain ⟨hn, hj⟩ := hl3 nm i y rfl
    have hn1 := hgr.node hn
    rw [hr1 z rfl, AddEdge_sv_right] at h
    cases h
    have hmz : z ∈ (parseExpression (parseExpression g (Expr.proj nm i y)).1
        (Expr.setvar z)).1.set_var_map := by
      have := (parseExpression_spec (parseExpression g (Expr.proj nm i y)).1 (Expr.setvar z)).2.1
      rw [hr1 z rfl] at this
      exact sv_mem_allRefs_iff.1 this
    have hfr : ∀ (G : Graph) (l r : Ref), (AddEdgeStore G l r true).nodes = G.nodes ∧
        (AddEdgeStore G l r true).set_var_map = G.set_var_map ∧
        (AddEdgeStore G l r true).proj_sv_refs = G.proj_sv_refs := by
      intro G l r
      rcases AddEdgeStore_cases G l r true with h0 | ⟨-, -, h0⟩ | ⟨-, -, h0⟩ <;> rw [h0] <;> simp
    obtain ⟨f1, f2, f3⟩ := hfr (parseExpression (parseExpression g (Expr.proj nm i y)).1
      (Expr.setvar z)).1 (parseExpression g (Expr.proj nm i y)).2 (Ref.sv z)
    refine ⟨_, ?_, ?_, AddEdgeStore_succ_mem _ ?_, ?_⟩
    · rw [node_congr f1]; exact hn1
    · rw [f3]; exact hgr.prj hj
    · simp [(node_projection hn1).1, (node_projection hn1).2.1, isProjection_sv]
    · rw [f2]; exact hmz

/-- After the reading loop, every constraint that was read has left its edge in the graph. -/
theorem readConstraints_loaded {cs : List (Expr × Expr)} {g : Graph}
    (h : readConstraints cs = some g) : ∀ c ∈ cs, Loaded c g := by
  unfold readConstraints at h
  refine forEachM_visit (I := fun _ => True) cs _ g ?_ ?_ trivial h
  · intro g2 a g3 _ _ hg
    exact ⟨trivial, readConstraint_loaded hg⟩
  · intro g2 a b g3 _ _ hQ hg
    exact hQ.persist (readConstraint_grow hg)

/-! ## What the iterations of `Solve` establish -/

theorem mem_addrOrder {addr : Ref → Nat} {g : Graph} {r : Ref} :
    r ∈ addrOrder addr g ↔ r ∈ allRefs g := by
  unfold addrOrder
  exact (List.perm_insertionSort _ _).mem_iff

/-- A loop over a pointer set reaches every allocated pointer that stays a member: what its
round establishes, and steps keep, holds after the loop. -/
theorem forSet_visit {addr : Ref → Nat} {set : Graph → List Ref}
    {body : Graph → Ref → Option Graph} {k : Nat} {E : Ref → Prop} {g g1 : Graph} {r : Ref}
    {Q : Graph → Prop} (hr : r ∈ allRefs g)
    (hb : ∀ g2 a g3, a ∈ set g2 → StepP k E g g2 → body g2 a = some g3 → StepP k E g2 g3)
    (hmem : ∀ g2, StepP k E g g2 → r ∈ set g2)
    (hQ : ∀ g2 g3, StepP k E g g2 → body g2 r = some g3 → Q g3)
    (hmono : ∀ g2 g3, StepP k E g2 g3 → Q g2 → Q g3)
    (h : forSet addr set body g = some g1) : Q g1 := by
  unfold forSet at h
  refine forEachM_visit (I := fun g2 => StepP k E g g2) (Q := fun a g2 => a = r → Q g2)
    (addrOrder addr g) g g1 ?_ ?_ (StepP.stay _ _ _) h r (mem_addrOrder.2 hr) rfl
  · intro g2 a g3 _ hI hg
    split at hg
    · rename_i hm
      refine ⟨hI.seq (hb g2 a g3 hm hI hg), ?_⟩
      rintro rfl
      exact hQ g2 g3 hI hg
    · cases hg
      refine ⟨hI, ?_⟩
      rintro rfl
      exact absurd (hmem g2 hI) (by assumption)
  · intro g2 a b g3 _ hI hq hg hra
    split at hg
    · rename_i hm
      exact hmono g2 g3 (hb g2 b g3 hm hI hg) (hq hra)
    · cases hg
      exact hq hra

/-- The inner loop of step 2.b is a step. -/
theorem propagateInner_step {addr : Ref → Nat} {sv_node pred : Ref} {g g1 : Graph}
    (hp : (sv_node, pred) ∈ g.predecessor_nodes)
    (h : forSet addr (fun g2 => succs g2 sv_node) (fun g2 succ => AddEdge g2 pred succ false) g
      = some g1) : StepP 1 (fun _ => False) g g1 := by
  refine forSet_step ?_ h
  intro g4 succ g5 hm4 hs4 hb4
  refine AddEdge_step ?_ hb4
  intro w
  exact ⟨(w.vp _ (hs4.pred_mono hp)).2, (w.vs _ (mem_succs_iff.1 hm4)).2⟩

theorem isConstructor_congr {g g1 : Graph} (h : g1.nodes = g.nodes) (r : Ref) :
    IsConstructor g1 r = IsConstructor g r := by
  unfold IsConstructor
  rw [node_congr h]

theorem isLam_congr {g g1 : Graph} (h : g1.nodes = g.nodes) (r : Ref) :
    IsLam g1 r = IsLam g r := by
  unfold IsLam
  rw [node_congr h]

/-- After step 2.b on `sv_node`, every constructor that was a predecessor of `sv_node` is a
predecessor of every set variable that was a successor of `sv_node`. -/
theorem propagate_post {addr : Ref → Nat} {sv_node p : Ref} {s : String} {g g1 : Graph}
    (h : propagate addr sv_node g = some g1)
    (hp : (sv_node, p) ∈ g.predecessor_nodes) (hs : (sv_node, Ref.sv s) ∈ g.successor_nodes)
    (hpv : p ∈ allRefs g) (hsv : Ref.sv s ∈ allRefs g)
    (hcl : IsConstructor g p = true ∨ IsLam g p = true) :
    (Ref.sv s, p) ∈ g1.predecessor_nodes := by
  refine forSet_visit (k := 1) (E := fun _ => False)
    (Q := fun g2 => (Ref.sv s, p) ∈ g2.predecessor_nodes) hpv ?_ ?_ ?_ ?_ h
  · intro g2 a g3 hm hI hb
    exact propagateInner_step (mem_preds_iff.1 hm) hb
  · intro g2 hI
    exact mem_preds_iff.2 (hI.pred_mono hp)
  · intro g2 g3 hI hb
    have hA : allRefs g2 = allRefs g := allRefs_congr hI.nodes hI.svm
    refine forSet_visit (k := 1) (E := fun _ => False)
      (Q := fun g4 => (Ref.sv s, p) ∈ g4.predecessor_nodes)
      (by rw [hA]; exact hsv) ?_ ?_ ?_ ?_ hb
    · intro g4 a g5 hm hI4 hb4
      refine AddEdge_step ?_ hb4
      intro w
      exact ⟨(w.vp _ (hI4.pred_mono (hI.pred_mono hp))).2, (w.vs _ (mem_succs_iff.1 hm)).2⟩
    · intro g4 hI4
      exact mem_succs_iff.2 (hI4.succ_mono (hI.succ_mono hs))
    · intro g4 g5 hI4 hb4
      rw [AddEdge_sv_right] at hb4
      cases hb4
      refine AddEdgeStore_pred_mem _ ?_
      have hn : g4.nodes = g.nodes := hI4.nodes.trans hI.nodes
      rw [isConstructor_congr hn, isLam_congr hn]
      rcases hcl with h1 | h1 <;> simp [h1]
    · intro g4 g5 hst hq
      exact hst.pred_mono hq
  · intro g2 g3 hst hq
    exact hst.pred_mono hq

/-- A step keeps the edges of the set variables that it does not push. -/
theorem StepP.unchanged {k : Nat} {g g1 : Graph} (h : StepP k (fun _ => False) g g1) {n : String}
    (hn : Ref.sv n ∉ g1.worklist) :
    (∀ e, (Ref.sv n, e) ∈ g1.predecessor_nodes → (Ref.sv n, e) ∈ g.predecessor_nodes) ∧
    (∀ e, (Ref.sv n, e) ∈ g1.successor_nodes → (Ref.sv n, e) ∈ g.successor_nodes) := by
  obtain ⟨dp, ds, dw, c, -, hnot⟩ := h
  have hdw : Ref.sv n ∉ dw := by
    intro hd
    apply hn
    rw [c.wl]
    exact List.mem_append_right _ hd
  constructor
  · intro e he
    rw [c.pred] at he
    rcases List.mem_append.1 he with he | he
    · exact absurd (hnot (Ref.sv n) e rfl (fun a => a) (Or.inl he)) hdw
    · exact he
  · intro e he
    rw [c.succ] at he
    rcases List.mem_append.1 he with he | he
    · exact absurd (hnot (Ref.sv n) e rfl (fun a => a) (Or.inr he)) hdw
    · exact he

/-- Every iteration of the `while` loop keeps the invariant `InvC`. -/
theorem InvC_body {addr : Ref → Nat} {g g1 : Graph} {sv_node : Ref} {rest : List Ref}
    (w : WF g) (hI : InvC g) (hw : g.worklist = sv_node :: rest)
    (h : SolveBody addr sv_node { g with worklist := rest } = some g1) : InvC g1 := by
  have hst := SolveBody_step h
  intro n
  by_cases hin : Ref.sv n ∈ g1.worklist
  · exact Or.inl hin
  right
  obtain ⟨hup, hus⟩ := hst.unchanged hin
  have hrest : Ref.sv n ∉ rest := fun hr => hin (hst.wl_mono hr)
  intro p s hp hcl hs
  have hp0 : (Ref.sv n, p) ∈ g.predecessor_nodes := hup p hp
  have hs0 : (Ref.sv n, Ref.sv s) ∈ g.successor_nodes := hus _ hs
  have hcl0 : IsConstructor g p = true ∨ IsLam g p = true := by
    rw [isConstructor_congr hst.nodes, isLam_congr hst.nodes] at hcl
    exact hcl
  by_cases hx : Ref.sv n = sv_node
  · subst hx
    unfold SolveBody at h
    split at h
    · cases h
    · rename_i g2 h2
      have := propagate_post h2 hp0 hs0 (w.vp _ hp0).2 (w.vs _ hs0).2 hcl0
      exact (resolveProjections_step h).pred_mono this
  · have hnw : Ref.sv n ∉ g.worklist := by
      rw [hw]
      intro hm
      rcases List.mem_cons.1 hm with hm | hm
      · exact hx hm
      · exact hrest hm
    rcases hI n with h1 | h1
    · exact absurd h1 hnw
    · exact hst.pred_mono (h1 p s hp0 hcl0 hs0)

/-- The invariant `InvC` holds when the `while` loop starts. -/
theorem InvC_init {g : Graph} (w : WF g) : InvC (initWorklist g) := by
  intro n
  by_cases hp : preds g (Ref.sv n) = []
  · right
    intro p s hp1 _ _
    have : p ∈ preds g (Ref.sv n) := mem_preds_iff.2 hp1
    rw [hp] at this
    cases this
  · left
    unfold initWorklist
    simp only [List.mem_append, List.mem_map, List.mem_filter]
    right
    obtain ⟨p, hp1⟩ := List.exists_mem_of_ne_nil _ hp
    have hv := (w.vp _ (mem_preds_iff.1 hp1)).1
    refine ⟨n, ⟨sv_mem_allRefs_iff.1 hv, ?_⟩, rfl⟩
    cases hq : preds g (Ref.sv n) with
    | nil => exact absurd hq hp
    | cons _ _ => rfl

/-- When `Solve` finishes, every set variable is saturated. -/
theorem Solve_closed {addr : Ref → Nat} {fuel : Nat} {g g1 : Graph} (w : WF g)
    (h : Solve addr fuel g = Outcome.finished g1) : WF g1 ∧ ∀ n, Closed g1 (Ref.sv n) := by
  unfold Solve at h
  have := SolveLoop_inv addr (I := fun g => WF g ∧ InvC g) ?_ fuel _ g1
    ⟨initWorklist_wf w, InvC_init w⟩ h
  · obtain ⟨⟨w1, hI⟩, hw⟩ := this
    refine ⟨w1, fun n => ?_⟩
    rcases hI n with h1 | h1
    · rw [hw] at h1
      cases h1
    · exact h1
  · intro g2 sv_node rest g3 hI hw hb
    exact ⟨(potential_decreases hI.1 hw hb).1, InvC_body hI.1 hI.2 hw hb⟩

/-- The set `Y` of step 2.c holds the argument of every matching constructor. -/
theorem projValue_mem {g : Graph} {proj_sv_ref : Ref} :
    ∀ (ps : List Ref) (Y : List Ref), projValue g proj_sv_ref ps = some Y →
      ∀ pred ∈ ps, IsConstructor g pred = true → Name g pred = Name g proj_sv_ref →
        ∀ x, GetArgAt g pred (ProjIdx g proj_sv_ref) = some (Arg.node x) → Ref.sv x ∈ Y
  | [], _, _ => by simp
  | q :: ps, Y, h => by
    intro pred hpred hc hn x hx
    simp only [projValue] at h
    rcases List.mem_cons.1 hpred with rfl | hpred
    · rw [if_pos (by simp [hc, hn]), hx] at h
      rw [Option.map_eq_some'] at h
      obtain ⟨Y1, -, rfl⟩ := h
      exact List.mem_cons_self _ _
    · split at h
      · split at h
        · cases h
        · exact projValue_mem ps Y h pred hpred hc hn x hx
        · rw [Option.map_eq_some'] at h
          obtain ⟨Y1, h1, rfl⟩ := h
          exact List.mem_cons_of_mem _ (projValue_mem ps Y1 h1 pred hpred hc hn x hx)
      · exact projValue_mem ps Y h pred hpred hc hn x hx

/-- The first inner loop of step 2.c is a step that pushes every changed set variable but `yi`. -/
theorem projPreds_step {addr : Ref → Nat} {proj_sv_ref yi : Ref} {g g3 : Graph}
    (hyi : IsArg g yi)
    (h : forSet addr (fun g1 => preds g1 proj_sv_ref)
      (fun g1 pred =>
        (AddEdge g1 pred yi true).map (fun g2 =>
          if IsSetVar g2 pred && decide (edgeCount g2 pred > edgeCount g1 pred)
          then push_back g2 pred else g2)) g = some g3) :
    StepP 1 (fun x => x = yi) g g3 := by
  refine forSet_step ?_ h
  intro g1 pred g2 hm hs hb
  refine addEdge_push_step (Or.inl ⟨rfl, rfl⟩) ?_ hb
  intro w
  exact ⟨(w.vp _ (mem_preds_iff.1 hm)).2, (hyi.carry hs.nodes).valid w⟩

/-- One round of the second inner loop of step 2.c. -/
theorem projSuccs_round {proj_sv_ref yi succ : Ref} {g g1 g2 : Graph}
    (hyi : IsArg g yi) (hn : g1.nodes = g.nodes) (hm : succ ∈ succs g1 proj_sv_ref)
    (hb : (AddEdge g1 yi succ true).map (fun g2 =>
          if IsSetVar g2 succ && decide (edgeCount g2 succ > edgeCount g1 succ)
          then push_back g2 succ else g2) = some g2) :
    StepP 1 (fun x => x = yi) g1 g2 := by
  refine addEdge_push_step (Or.inr ⟨rfl, rfl⟩) ?_ hb
  intro w
  exact ⟨(hyi.carry hn).valid w, (w.vs _ (mem_succs_iff.1 hm)).2⟩

/-- After the body of the loop over `Y` for the set variable `x`, every set variable that was a
successor of the projection is a successor of `x`. -/
theorem projStep_post {addr : Ref → Nat} {proj_sv_ref : Ref} {x z : String} {g g5 : Graph}
    (hx : IsArg g (Ref.sv x)) (hz : (proj_sv_ref, Ref.sv z) ∈ g.successor_nodes)
    (hzv : Ref.sv z ∈ allRefs g) (h : projStep addr proj_sv_ref g (Ref.sv x) = some g5) :
    (Ref.sv x, Ref.sv z) ∈ g5.successor_nodes := by
  unfold projStep at h
  simp only at h
  split at h
  · cases h
  · rename_i g3 h3
    rw [Option.map_eq_some'] at h
    obtain ⟨g4, h4, h5⟩ := h
    have s1 := projPreds_step hx h3
    have h6 : (Ref.sv x, Ref.sv z) ∈ g4.successor_nodes := by
      refine forSet_visit (k := 1) (E := fun r => r = Ref.sv x)
        (Q := fun g6 => (Ref.sv x, Ref.sv z) ∈ g6.successor_nodes)
        (by rw [allRefs_congr s1.nodes s1.svm]; exact hzv) ?_ ?_ ?_ ?_ h4
      · intro g6 a g7 hm hI hb
        exact projSuccs_round hx (hI.nodes.trans s1.nodes) hm hb
      · intro g6 hI
        exact mem_succs_iff.2 (hI.succ_mono (s1.succ_mono hz))
      · intro g6 g7 _ hb
        rw [AddEdge_sv, Option.map_some', Option.some.injEq] at hb
        have hmem : (Ref.sv x, Ref.sv z) ∈
            (AddEdgeStore g6 (Ref.sv x) (Ref.sv z) true).successor_nodes :=
          AddEdgeStore_succ_mem _ (by simp [isConstructor_sv, isLam_sv, isProjection_sv])
        split at hb
        · rw [← hb]; exact hmem
        · rw [← hb]; exact hmem
      · intro g6 g7 hst hq
        exact hst.succ_mono hq
    split at h5
    · rw [← h5]; exact h6
    · rw [← h5]; exact h6

/-- One round of the loop over the projections of step 2.c is a step. -/
theorem resolveRound_step {addr : Ref → Nat} {p : Ref} {g2 g3 : Graph}
    (hb : (match projValue g2 p (preds g2 (Ref.sv (ProjSV g2 p))) with
      | none => none
      | some Y => forSet addr (fun _ => Y) (projStep addr p) g2) = some g3) :
    StepP 2 (fun _ => False) g2 g3 := by
  split at hb
  · cases hb
  · rename_i Y hY
    refine forSet_step ?_ hb
    intro g4 yi g5 hm hs hb4
    exact projStep_step ((projValue_isArg _ Y hY yi hm).carry hs.nodes) hb4

theorem name_of_constructor {g : Graph} {r : Ref} {nm : String} {args : List Arg}
    (h : g.node r = some (Node.Constructor nm args)) : Name g r = nm := by
  cases r with
  | sv _ => simp [Graph.node] at h
  | obj j =>
    unfold Name
    rw [h]

/-- After step 2.c on the set variable `y`: when `c` is a constructor predecessor of `y` with the
set variable `x` at the index of a projection of `y`, every set variable that was a successor of
the projection is a successor of `x`. -/
theorem resolveProjections_post {addr : Ref → Nat} {y x z nm : String} {i : Int}
    {args : List Arg} {p c : Ref} {g g1 : Graph}
    (h : resolveProjections addr (Ref.sv y) g = some g1)
    (hP : (Ref.sv y, p) ∈ g.proj_sv_refs) (hPn : g.node p = some (Node.Projection nm y i))
    (hPv : p ∈ allRefs g)
    (hc : (Ref.sv y, c) ∈ g.predecessor_nodes) (hcn : g.node c = some (Node.Constructor nm args))
    (harg : GetArgAt g c i = some (Arg.node x))
    (hz : (p, Ref.sv z) ∈ g.successor_nodes) (hzv : Ref.sv z ∈ allRefs g)
    (hxv : Ref.sv x ∈ allRefs g) :
    (Ref.sv x, Ref.sv z) ∈ g1.successor_nodes := by
  refine forSet_visit (k := 2) (E := fun _ => False)
    (Q := fun g2 => (Ref.sv x, Ref.sv z) ∈ g2.successor_nodes) hPv ?_ ?_ ?_ ?_ h
  · intro g2 a g3 _ _ hb
    exact resolveRound_step hb
  · intro g2 hI
    rw [mem_projRefs_iff, hI.prj]
    exact hP
  · intro g2 g3 hI hb
    have hPn2 : g2.node p = some (Node.Projection nm y i) := by
      rw [node_congr hI.nodes]; exact hPn
    have hcn2 : g2.node c = some (Node.Constructor nm args) := by
      rw [node_congr hI.nodes]; exact hcn
    obtain ⟨-, -, -, hsv, hidx, hname⟩ := node_projection hPn2
    split at hb
    · cases hb
    · rename_i Y hY
      have hxY : Ref.sv x ∈ Y := by
        refine projValue_mem _ Y hY c ?_ (isConstructor_of_node hcn2) ?_ x ?_
        · rw [hsv]
          exact mem_preds_iff.2 (hI.pred_mono hc)
        · rw [name_of_constructor hcn2, hname]
        · rw [hidx, getArgAt_congr hI.nodes]
          exact harg
      have hxa : IsArg g2 (Ref.sv x) :=
        ⟨c, x, rfl, by rw [callArgs_congr hI.nodes]; exact getArgAt_mem harg⟩
      refine forSet_visit (k := 2) (E := fun _ => False)
        (Q := fun g4 => (Ref.sv x, Ref.sv z) ∈ g4.successor_nodes)
        (by rw [allRefs_congr hI.nodes hI.svm]; exact hxv) ?_ ?_ ?_ ?_ hb
      · intro g4 yi g5 hm hs hb4
        exact projStep_step ((projValue_isArg _ Y hY yi hm).carry hs.nodes) hb4
      · intro _ _
        exact hxY
      · intro g4 g5 hI4 hb4
        refine projStep_post (hxa.carry hI4.nodes) (hI4.succ_mono (hI.succ_mono hz)) ?_ hb4
        rw [allRefs_congr (hI4.nodes.trans hI.nodes) (hI4.svm.trans hI.svm)]
        exact hzv
      · intro g4 g5 hst hq
        exact hst.succ_mono hq
  · intro g2 g3 hst hq
    exact hst.succ_mono hq

/-! ## Inputs on which no access is out of range -/

theorem NodesOK.transfer {k : Nat} {g g1 : Graph} (h : NodesOK k g) (hn : g1.nodes = g.nodes) :
    NodesOK k g1 := by
  intro r n hr
  rw [node_congr hn] at hr
  exact h r n hr

/-- A loop whose rounds do not abort does not abort. -/
theorem forEachM_some {α : Type} {f : Graph → α → Option Graph} {I : Graph → Prop} :
    ∀ (l : List α) (g : Graph),
      (∀ g2 a, a ∈ l → I g2 → ∃ g3, f g2 a = some g3 ∧ I g3) → I g →
      ∃ g1, forEachM f l g = some g1 ∧ I g1
  | [], g, _, hI => ⟨g, rfl, hI⟩
  | a :: l, g, hf, hI => by
    obtain ⟨g2, h2, hI2⟩ := hf g a (List.mem_cons_self _ _) hI
    obtain ⟨g1, h1, hI1⟩ := forEachM_some l g2
      (fun g3 b hb => hf g3 b (List.mem_cons_of_mem _ hb)) hI2
    exact ⟨g1, by simp only [forEachM, h2]; exact h1, hI1⟩

/-- A loop over a pointer set whose rounds are steps that do not abort does not abort. -/
theorem forSet_some {addr : Ref → Nat} {set : Graph → List Ref}
    {body : Graph → Ref → Option Graph} {k : Nat} {E : Ref → Prop} {g : Graph}
    (hb : ∀ g2 r g3, r ∈ set g2 → StepP k E g g2 → body g2 r = some g3 → StepP k E g2 g3)
    (hs : ∀ g2 r, r ∈ set g2 → StepP k E g g2 → ∃ g3, body g2 r = some g3) :
    ∃ g1, forSet addr set body g = some g1 := by
  unfold forSet
  have hside : ∀ g2 a, a ∈ addrOrder addr g → StepP k E g g2 →
      ∃ g3, (fun g1 r => if r ∈ set g1 then body g1 r else some g1) g2 a = some g3 ∧
        StepP k E g g3 := by
    intro g2 a _ hI
    by_cases hm : a ∈ set g2
    · obtain ⟨g3, h3⟩ := hs g2 a hm hI
      exact ⟨g3, by simp only [if_pos hm]; exact h3, hI.seq (hb g2 a g3 hm hI h3)⟩
    · exact ⟨g2, by simp only [if_neg hm], hI⟩
  obtain ⟨g1, h1, -⟩ := forEachM_some (I := fun g2 => StepP k E g g2) (addrOrder addr g) g hside
    (StepP.stay _ _ _)
  exact ⟨g1, h1⟩

theorem getArgAt_some {g : Graph} {r : Ref} {i : Nat} (h : i < (CallArgs g r).length) :
    ∃ a, GetArgAt g r (i : Int) = some a := by
  unfold GetArgAt
  rw [if_neg (by omega), Int.toNat_ofNat]
  exact ⟨_, List.get?_eq_get h⟩

theorem AddEdgeArgs_some {g : Graph} {a b : Arg} :
    ∃ g1, AddEdgeArgs g (some a) (some b) = some g1 := by
  unfold AddEdgeArgs
  cases a <;> cases b <;> simp

/-- The argument vectors of two nodes on which `AddEdge` takes its first branch. -/
theorem NodesOK.callArgs {k : Nat} {g : Graph} (h : NodesOK k g) {r : Ref}
    (hr : IsConstructor g r = true ∨ IsLam g r = true) :
    (IsConstructor g r = true ∧ Name g r = "ref" ∧ (CallArgs g r).length = 2) ∨
    (IsLam g r = true ∧ Name g r = "lam_" ∧ (CallArgs g r).length = k ∧ 1 ≤ k ∧
      (HasRetVal g r = true → 2 ≤ k)) := by
  cases r with
  | sv x => simp [isConstructor_sv, isLam_sv] at hr
  | obj j =>
    unfold IsConstructor IsLam Name CallArgs HasRetVal at *
    cases hn : g.node (Ref.obj j) with
    | none => simp [hn] at hr
    | some n =>
      have hok := h _ n hn
      cases n with
      | Constructor nm args =>
        left
        simp only [NodeOK] at hok
        simp [hok.1, hok.2]
      | Projection nm x i => simp [hn] at hr
      | Lam nm args rt ps =>
        right
        simp only [NodeOK] at hok
        refine ⟨rfl, hok.1, hok.2.1, hok.2.2.1, ?_⟩
        intro hrv
        exact hok.2.2.2 (by simpa using hrv)

/-- On nodes with `NodeOK` a call of `AddEdge` does not abort. -/
theorem AddEdge_some {k : Nat} {g : Graph} (h : NodesOK k g) (lhs rhs : Ref) (is_init : Bool) :
    ∃ g1, AddEdge g lhs rhs is_init = some g1 := by
  unfold AddEdge
  split
  · rename_i hc
    simp only [Bool.and_eq_true, Bool.or_eq_true, beq_iff_eq] at hc
    obtain ⟨hk, hname⟩ := hc
    have hl := h.callArgs (r := lhs) (hk.imp (fun a => a.1) (fun a => a.1))
    have hr := h.callArgs (r := rhs) (hk.imp (fun a => a.2) (fun a => a.2))
    split
    · rename_i href
      simp only [beq_iff_eq] at href
      rcases hl with ⟨-, -, hl2⟩ | ⟨-, hl1, -⟩
      · rcases hr with ⟨-, -, hr2⟩ | ⟨-, hr1, -⟩
        · obtain ⟨a, ha⟩ := getArgAt_some (g := g) (r := lhs) (i := 1) (by omega)
          obtain ⟨b, hb⟩ := getArgAt_some (g := g) (r := rhs) (i := 1) (by omega)
          simp only [Nat.cast_one] at ha hb
          rw [ha, hb]
          exact AddEdgeArgs_some
        · rw [← hname, href] at hr1
          exact absurd hr1 (by decide)
      · rw [href] at hl1
        exact absurd hl1 (by decide)
    · split
      · rename_i hnref hlam
        simp only [beq_iff_eq] at hnref hlam
        rcases hl with ⟨-, hl1, -⟩ | ⟨-, -, hlk, hk1, hlr⟩
        · exact absurd hl1 hnref
        · rcases hr with ⟨-, hr1, -⟩ | ⟨-, -, hrk, -, -⟩
          · rw [← hname, hlam] at hr1
            exact absurd hr1 (by decide)
          · simp only
            have hret : ∃ g2, (if (!HasRetVal g lhs) = true then some g
                else AddEdgeArgs g ((CallArgs g lhs).get? 1) ((CallArgs g rhs).get? 1)) = some g2
                ∧ g2.nodes = g.nodes := by
              by_cases hrv : HasRetVal g lhs = true
              · have h2 := hlr hrv
                rw [if_neg (by simp [hrv]), List.get?_eq_get (by omega : 1 < (CallArgs g lhs).length),
                  List.get?_eq_get (by omega : 1 < (CallArgs g rhs).length)]
                obtain ⟨g2, hg2⟩ := AddEdgeArgs_some (g := g)
                  (a := (CallArgs g lhs).get ⟨1, by omega⟩) (b := (CallArgs g rhs).get ⟨1, by omega⟩)
                exact ⟨g2, hg2, (AddEdgeArgs_step (fun _ hx w => w.vargs lhs _ (List.get?_mem
                  (by rw [← hx]; exact List.get?_eq_get _)))
                  (fun _ hx w => w.vargs rhs _ (List.get?_mem (by rw [← hx]; exact List.get?_eq_get _)))
                  hg2).nodes⟩
              · exact ⟨g, by rw [if_pos (by simpa using hrv)], rfl⟩
            obtain ⟨g2, hg2, hn2⟩ := hret
            rw [hg2]
            simp only
            have hside : ∀ g3 (i : Nat), i ∈ List.range' (if (!HasRetVal g lhs) = true then 1 else 2)
                ((CallArgs g lhs).length - (if (!HasRetVal g lhs) = true then 1 else 2)) →
                g3.nodes = g.nodes →
                ∃ g4, (fun g2 (i : Nat) =>
                  match GetArgAt g2 lhs i with
                  | none => none
                  | some (.str _) => some g2
                  | some (.node x) =>
                    match GetArgAt g2 rhs i with
                    | none => none
                    | some (.str _) => some g2
                    | some (.node y) => some (AddEdgeStore g2 (.sv y) (.sv x) false)) g3 i = some g4
                  ∧ g4.nodes = g.nodes := by
              intro g3 i hi hn3
              have hi2 : i < k := by
                rw [List.mem_range'_1] at hi
                rw [hlk] at hi
                omega
              obtain ⟨a, ha⟩ := getArgAt_some (g := g3) (r := lhs) (i := i)
                (by rw [callArgs_congr hn3, hlk]; exact hi2)
              obtain ⟨b, hb⟩ := getArgAt_some (g := g3) (r := rhs) (i := i)
                (by rw [callArgs_congr hn3, hrk]; exact hi2)
              have key : ∃ g4, (match GetArgAt g3 lhs i with
                  | none => none
                  | some (.str _) => some g3
                  | some (.node x) =>
                    match GetArgAt g3 rhs i with
                    | none => none
                    | some (.str _) => some g3
                    | some (.node y) => some (AddEdgeStore g3 (.sv y) (.sv x) false)) = some g4 := by
                rw [ha, hb]
                cases a <;> cases b <;> simp
              obtain ⟨g4, hg4⟩ := key
              exact ⟨g4, hg4, (lamRound_step hg4).nodes.trans hn3⟩
            obtain ⟨g1, h1, -⟩ := forEachM_some (I := fun g3 => g3.nodes = g.nodes) _ g2 hside hn2
            exact ⟨g1, h1⟩
      · exact ⟨g, rfl⟩
  · exact ⟨_, rfl⟩

/-- On nodes with `NodeOK` a projection whose name is `ref` has index 0 or 1. -/
theorem NodesOK.projIdx {k : Nat} {g : Graph} (h : NodesOK k g) {p : Ref}
    (hn : Name g p = "ref") : ProjIdx g p = 0 ∨ ProjIdx g p = 1 := by
  cases p with
  | sv x => left; rfl
  | obj j =>
    unfold ProjIdx Name at *
    cases hj : g.node (Ref.obj j) with
    | none => left; rfl
    | some n =>
      have hok := h _ n hj
      cases n with
      | Constructor nm args => left; rfl
      | Projection nm x i =>
        simp only [hj] at hn
        simp only [NodeOK] at hok
        exact hok hn
      | Lam nm args rt ps => left; rfl

/-- On nodes with `NodeOK` the computation of the set `Y` does not abort. -/
theorem projValue_some {k : Nat} {g : Graph} (h : NodesOK k g) (p : Ref) :
    ∀ ps : List Ref, ∃ Y, projValue g p ps = some Y
  | [] => ⟨[], rfl⟩
  | pred :: ps => by
    obtain ⟨Y, hY⟩ := projValue_some h p ps
    simp only [projValue]
    split
    · rename_i hc
      simp only [Bool.and_eq_true, beq_iff_eq] at hc
      rcases h.callArgs (r := pred) (Or.inl hc.1) with ⟨-, hname, hlen⟩ | ⟨hl, -⟩
      · have hidx := h.projIdx (p := p) (by rw [← hc.2, hname])
        have : ∃ a, GetArgAt g pred (ProjIdx g p) = some a := by
          rcases hidx with h0 | h0 <;> rw [h0]
          · exact getArgAt_some (i := 0) (by omega)
          · exact getArgAt_some (i := 1) (by omega)
        obtain ⟨a, ha⟩ := this
        rw [ha]
        cases a with
        | str _ => exact ⟨Y, hY⟩
        | node y => exact ⟨Ref.sv y :: Y, by simp [hY]⟩
      · have h1 : IsConstructor g pred = true := hc.1
        unfold IsConstructor at h1
        unfold IsLam at hl
        split at h1
        · rename_i hnode
          rw [hnode] at hl
          cases hl
        · cases h1
    · exact ⟨Y, hY⟩

/-- On nodes with `NodeOK` the body of the loop over `Y` does not abort. -/
theorem projStep_some {k : Nat} {addr : Ref → Nat} {g : Graph} (h : NodesOK k g)
    (proj_sv_ref : Ref) {yi : Ref} (hyi : IsArg g yi) :
    ∃ g5, projStep addr proj_sv_ref g yi = some g5 := by
  unfold projStep
  simp only
  have h1 : ∃ g3, forSet addr (fun g1 => preds g1 proj_sv_ref)
      (fun g1 pred =>
        (AddEdge g1 pred yi true).map (fun g2 =>
          if IsSetVar g2 pred && decide (edgeCount g2 pred > edgeCount g1 pred)
          then push_back g2 pred else g2)) g = some g3 := by
    refine forSet_some (k := 1) (E := fun x => x = yi) ?_ ?_
    · intro g1 pred g2 hm hs hb
      refine addEdge_push_step (Or.inl ⟨rfl, rfl⟩) ?_ hb
      intro w
      exact ⟨(w.vp _ (mem_preds_iff.1 hm)).2, (hyi.carry hs.nodes).valid w⟩
    · intro g1 pred _ hs
      obtain ⟨g2, hg2⟩ := AddEdge_some (h.transfer hs.nodes) pred yi true
      exact ⟨_, by rw [hg2]; rfl⟩
  obtain ⟨g3, h3⟩ := h1
  have s1 := projPreds_step hyi h3
  rw [h3]
  simp only
  have h2 : ∃ g4, forSet addr (fun g1 => succs g1 proj_sv_ref)
      (fun g1 succ =>
        (AddEdge g1 yi succ true).map (fun g2 =>
          if IsSetVar g2 succ && decide (edgeCount g2 succ > edgeCount g1 succ)
          then push_back g2 succ else g2)) g3 = some g4 := by
    refine forSet_some (k := 1) (E := fun x => x = yi) ?_ ?_
    · intro g1 succ g2 hm hs hb
      exact projSuccs_round hyi (hs.nodes.trans s1.nodes) hm hb
    · intro g1 succ _ hs
      obtain ⟨g2, hg2⟩ := AddEdge_some (h.transfer (hs.nodes.trans s1.nodes)) yi succ true
      exact ⟨_, by rw [hg2]; rfl⟩
  obtain ⟨g4, h4⟩ := h2
  rw [h4]
  exact ⟨_, rfl⟩

/-- On nodes with `NodeOK` an iteration of the `while` loop does not abort. -/
theorem SolveBody_some {k : Nat} {addr : Ref → Nat} {g : Graph} (h : NodesOK k g)
    (sv_node : Ref) : ∃ g1, SolveBody addr sv_node g = some g1 := by
  unfold SolveBody
  have h1 : ∃ g2, propagate addr sv_node g = some g2 := by
    refine forSet_some (k := 1) (E := fun _ => False) ?_ ?_
    · intro g2 a g3 hm hI hb
      exact propagateInner_step (mem_preds_iff.1 hm) hb
    · intro g2 pred hm hI
      refine forSet_some (k := 1) (E := fun _ => False) ?_ ?_
      · intro g4 succ g5 hm4 hs4 hb4
        refine AddEdge_step ?_ hb4
        intro w
        exact ⟨(w.vp _ (hs4.pred_mono (mem_preds_iff.1 hm))).2, (w.vs _ (mem_succs_iff.1 hm4)).2⟩
      · intro g4 succ _ hs4
        exact AddEdge_some (h.transfer (hs4.nodes.trans hI.nodes)) pred succ false
  obtain ⟨g2, h2⟩ := h1
  rw [h2]
  simp only
  have hn2 := (propagate_step h2).nodes
  refine forSet_some (k := 2) (E := fun _ => False) ?_ ?_
  · intro g3 a g4 _ _ hb
    exact resolveRound_step hb
  · intro g3 p _ hI
    have hok3 : NodesOK k g3 := h.transfer (hI.nodes.trans hn2)
    obtain ⟨Y, hY⟩ := projValue_some hok3 p (preds g3 (Ref.sv (ProjSV g3 p)))
    rw [hY]
    simp only
    refine forSet_some (k := 2) (E := fun _ => False) ?_ ?_
    · intro g4 yi g5 hm hs hb4
      exact projStep_step ((projValue_isArg _ Y hY yi hm).carry hs.nodes) hb4
    · intro g4 yi hm hs
      exact projStep_some (hok3.transfer hs.nodes) p ((projValue_isArg _ Y hY yi hm).carry hs.nodes)

/-- On nodes with `NodeOK` the `while` loop of `Solve` finishes within the potential. -/
theorem SolveLoop_finishes {k : Nat} (addr : Ref → Nat) :
    ∀ (fuel : Nat) (g : Graph), WF g → NodesOK k g → potential g ≤ fuel →
      ∃ g1, SolveLoop addr fuel g = Outcome.finished g1
  | 0, g, _, _, hp => by
    have : g.worklist = [] := by
      unfold potential at hp
      exact List.length_eq_zero.1 (by omega)
    exact ⟨g, by simp [SolveLoop, this]⟩
  | fuel + 1, g, w, hok, hp => by
    unfold SolveLoop
    split
    · exact ⟨g, rfl⟩
    · rename_i sv_node rest hw
      have hok0 : NodesOK k { g with worklist := rest } := hok.transfer rfl
      have hsome : ∃ g1, SolveBody addr sv_node { g with worklist := rest } = some g1 :=
        SolveBody_some hok0 sv_node
      obtain ⟨g1, h1⟩ := hsome
      rw [h1]
      simp only
      obtain ⟨w1, hd⟩ := potential_decreases w hw h1
      exact SolveLoop_finishes addr fuel g1 w1 (hok.transfer (SolveBody_step h1).nodes) (by omega)

theorem lamArgs_length : ∀ (args : List String) (g : Graph) (i : Nat),
    (lamArgs g i args).2.length = args.length
  | [], _, _ => rfl
  | arg :: rest, g, i => by
    unfold lamArgs
    split
    · simp [lamArgs_length rest g (i + 1)]
    · simp [lamArgs_length rest (get_sv g arg) (i + 1)]

theorem NodesOK.newNode {k : Nat} {g : Graph} (h : NodesOK k g) {n : Node} (hn : NodeOK k n) :
    NodesOK k (newNode g n).1 := by
  intro r m hr
  rw [newNode_node] at hr
  split at hr
  · cases hr; exact hn
  · exact h r m hr

theorem insertProjRef_nodes (g : Graph) (sv proj : Ref) :
    (insertProjRef g sv proj).nodes = g.nodes := by
  unfold insertProjRef
  split <;> rfl

theorem lamArgs_nodes : ∀ (args : List String) (g : Graph) (i : Nat),
    (lamArgs g i args).1.nodes = g.nodes
  | [], _, _ => rfl
  | arg :: rest, g, i => by
    unfold lamArgs
    split
    · exact lamArgs_nodes rest g (i + 1)
    · exact (lamArgs_nodes rest (get_sv g arg) (i + 1)).trans (get_sv_nodes g arg)

/-- Reading an expression with `ExprOK` allocates a node with `NodeOK`. -/
theorem parseExpression_ok {k : Nat} {g : Graph} (h : NodesOK k g) {e : Expr} (he : ExprOK k e) :
    NodesOK k (parseExpression g e).1 := by
  cases e with
  | setvar x => exact h.transfer (get_sv_nodes g x)
  | ref a x => exact (h.transfer (get_sv_nodes g x)).newNode ⟨rfl, rfl⟩
  | proj nm i x =>
    have h1 : NodesOK k (newNode g (Node.Projection nm x i)).1 := h.newNode he
    exact h1.transfer ((insertProjRef_nodes _ _ _).trans (get_sv_nodes _ _))
  | lam_ pts rt args =>
    refine (h.transfer (lamArgs_nodes args g 0)).newNode ?_
    simp only [ExprOK] at he
    exact ⟨rfl, by rw [lamArgs_length]; exact he.1, he.2.1, he.2.2⟩

/-- On constraints whose expressions have `ExprOK` the reading loop does not abort. -/
theorem readConstraints_some {k : Nat} {cs : List (Expr × Expr)}
    (h : ∀ c ∈ cs, ExprOK k c.1 ∧ ExprOK k c.2) :
    ∃ g, readConstraints cs = some g ∧ NodesOK k g := by
  unfold readConstraints
  refine forEachM_some (I := fun g => NodesOK k g) cs Graph.empty ?_ ?_
  · intro g2 c hc hI
    have hok := parseExpression_ok (parseExpression_ok hI (h c hc).1) (h c hc).2
    obtain ⟨g3, hg3⟩ := AddEdge_some hok (parseExpression g2 c.1).2
      (parseExpression (parseExpression g2 c.1).1 c.2).2 true
    refine ⟨g3, hg3, hok.transfer ?_⟩
    obtain ⟨-, hlm, -⟩ := parseExpression_spec g2 c.1
    obtain ⟨hr, hrm, -⟩ := parseExpression_spec (parseExpression g2 c.1).1 c.2
    obtain ⟨dp, ds, dw, ch⟩ := AddEdge_chg (fun _ => ⟨hr.allRefs hlm, hrm⟩) hg3
    exact ch.nodes
  · intro r n hr
    cases r <;> simp [Graph.node, Graph.empty] at hr

/-! ## The solution that `main` extracts -/

/-- The names collected for one set variable: ascending, and exactly the arguments 0 of the
constructors in the list, besides those collected before. -/
theorem collectCells_spec {g : Graph} :
    ∀ (ps : List Ref) (acc cells : List String), collectCells g ps acc = some cells →
      (SortedKeys acc → SortedKeys cells) ∧
      ∀ a, a ∈ cells ↔ a ∈ acc ∨ ∃ c ∈ ps, (IsConstructor g c = true ∨ IsLam g c = true) ∧
        GetArgAt g c 0 = some (Arg.str a)
  | [], acc, cells, h => by
    simp only [collectCells, Option.some.injEq] at h
    subst h
    simp
  | pred :: ps, acc, cells, h => by
    simp only [collectCells] at h
    split at h
    · rename_i hc
      simp only [Bool.or_eq_true] at hc
      split at h
      · cases h
      · rename_i arg_name harg
        obtain ⟨h1, h2⟩ := collectCells_spec ps _ cells h
        refine ⟨fun hs => h1 (sortedKeys_setInsert _ hs), fun a => ?_⟩
        rw [h2 a, mem_setInsert]
        constructor
        · rintro ((rfl | ha) | ⟨c, hcm, hcc, hca⟩)
          · exact Or.inr ⟨pred, List.mem_cons_self _ _, hc, harg⟩
          · exact Or.inl ha
          · exact Or.inr ⟨c, List.mem_cons_of_mem _ hcm, hcc, hca⟩
        · rintro (ha | ⟨c, hcm, hcc, hca⟩)
          · exact Or.inl (Or.inr ha)
          · rcases List.mem_cons.1 hcm with rfl | hcm
            · rw [harg] at hca
              cases hca
              exact Or.inl (Or.inl rfl)
            · exact Or.inr ⟨c, hcm, hcc, hca⟩
      · rename_i y harg
        obtain ⟨h1, h2⟩ := collectCells_spec ps acc cells h
        refine ⟨h1, fun a => ?_⟩
        rw [h2 a]
        constructor
        · rintro (ha | ⟨c, hcm, hcc, hca⟩)
          · exact Or.inl ha
          · exact Or.inr ⟨c, List.mem_cons_of_mem _ hcm, hcc, hca⟩
        · rintro (ha | ⟨c, hcm, hcc, hca⟩)
          · exact Or.inl ha
          · rcases List.mem_cons.1 hcm with rfl | hcm
            · rw [harg] at hca
              cases hca
            · exact Or.inr ⟨c, hcm, hcc, hca⟩
    · rename_i hc
      obtain ⟨h1, h2⟩ := collectCells_spec ps acc cells h
      refine ⟨h1, fun a => ?_⟩
      rw [h2 a]
      constructor
      · rintro (ha | ⟨c, hcm, hcc, hca⟩)
        · exact Or.inl ha
        · exact Or.inr ⟨c, List.mem_cons_of_mem _ hcm, hcc, hca⟩
      · rintro (ha | ⟨c, hcm, hcc, hca⟩)
        · exact Or.inl ha
        · rcases List.mem_cons.1 hcm with rfl | hcm
          · exact absurd (by simpa using hcc) hc
          · exact Or.inr ⟨c, hcm, hcc, hca⟩

theorem mem_setElems {addr : Ref → Nat} {g : Graph} {s : List Ref} {r : Ref} :
    r ∈ setElems addr g s ↔ r ∈ allRefs g ∧ r ∈ s := by
  unfold setElems
  simp [List.mem_filter, mem_addrOrder]

/-- The cells collected for a set variable are its points-to set, in ascending order. -/
theorem collectCells_pointsTo {addr : Ref → Nat} {g : Graph} (w : WF g) {name : String}
    {cells : List String}
    (h : collectCells g (setElems addr g (preds g (Ref.sv name))) [] = some cells) :
    SortedKeys cells ∧ ∀ a, a ∈ cells ↔ PointsTo g name a := by
  obtain ⟨h1, h2⟩ := collectCells_spec _ _ _ h
  refine ⟨h1 (by simp [SortedKeys]), fun a => ?_⟩
  rw [h2 a]
  simp only [List.not_mem_nil, false_or]
  constructor
  · rintro ⟨c, hcm, hcc, hca⟩
    exact ⟨c, mem_preds_iff.1 (mem_setElems.1 hcm).2, hcc, hca⟩
  · rintro ⟨c, hcm, hcc, hca⟩
    exact ⟨c, mem_setElems.2 ⟨(w.vp _ hcm).2, mem_preds_iff.2 hcm⟩, hcc, hca⟩

/-- The `solution` map: its keys are, in the order of `names`, the names with a non-empty
points-to set, and each is mapped to that set in ascending order. -/
theorem solutionOf_spec {addr : Ref → Nat} {g : Graph} (w : WF g) :
    ∀ (names : List String) (sol : List (String × List String)),
      solutionOf addr g names = some sol →
      (sol.map Prod.fst).Sublist names ∧
      (∀ name cells, (name, cells) ∈ sol →
        cells ≠ [] ∧ SortedKeys cells ∧ ∀ a, a ∈ cells ↔ PointsTo g name a) ∧
      (∀ name ∈ names, (∃ a, PointsTo g name a) → ∃ cells, (name, cells) ∈ sol)
  | [], sol, h => by
    simp only [solutionOf, Option.some.injEq] at h
    subst h
    simp
  | name :: names, sol, h => by
    simp only [solutionOf] at h
    split at h
    · cases h
    · rename_i cells hcells
      rw [Option.map_eq_some'] at h
      obtain ⟨rest, hrest, rfl⟩ := h
      obtain ⟨h1, h2, h3⟩ := solutionOf_spec w names rest hrest
      obtain ⟨hsorted, hmem⟩ := collectCells_pointsTo w hcells
      by_cases he : cells = []
      · subst he
        simp only [List.isEmpty_nil, if_true]
        refine ⟨h1.trans (List.sublist_cons_self _ _), h2, ?_⟩
        intro n hn hpt
        rcases List.mem_cons.1 hn with rfl | hn
        · obtain ⟨a, ha⟩ := hpt
          exact absurd ((hmem a).2 ha) (List.not_mem_nil a)
        · exact h3 n hn hpt
      · have hne : cells.isEmpty = false := by
          cases cells with
          | nil => exact absurd rfl he
          | cons _ _ => rfl
        simp only [hne, Bool.false_eq_true, if_false]
        refine ⟨?_, ?_, ?_⟩
        · simp only [List.map_cons]
          exact h1.cons₂ _
        · intro n c hnc
          rcases List.mem_cons.1 hnc with hnc | hnc
          · cases hnc
            exact ⟨he, hsorted, hmem⟩
          · exact h2 n c hnc
        · intro n hn hpt
          rcases List.mem_cons.1 hn with rfl | hn
          · exact ⟨cells, List.mem_cons_self _ _⟩
          · obtain ⟨c, hc⟩ := h3 n hn hpt
            exact ⟨c, List.mem_cons_of_mem _ hc⟩

/-- On nodes with `NodeOK` the extraction of the solution does not abort. -/
theorem collectCells_some {k : Nat} {g : Graph} (h : NodesOK k g) :
    ∀ (ps : List Ref) (acc : List String), ∃ cells, collectCells g ps acc = some cells
  | [], acc => ⟨acc, rfl⟩
  | pred :: ps, acc => by
    simp only [collectCells]
    split
    · rename_i hc
      simp only [Bool.or_eq_true] at hc
      have : ∃ a, GetArgAt g pred 0 = some a := by
        rcases h.callArgs hc with ⟨-, -, hl⟩ | ⟨-, -, hl, hk, -⟩
        · exact getArgAt_some (i := 0) (by omega)
        · exact getArgAt_some (i := 0) (by omega)
      obtain ⟨a, ha⟩ := this
      rw [ha]
      cases a with
      | str _ => exact collectCells_some h ps _
      | node _ => exact collectCells_some h ps _
    · exact collectCells_some h ps acc

theorem solutionOf_some {k : Nat} {addr : Ref → Nat} {g : Graph} (h : NodesOK k g) :
    ∀ names : List String, ∃ sol, solutionOf addr g names = some sol
  | [] => ⟨[], rfl⟩
  | name :: names => by
    obtain ⟨cells, hc⟩ := collectCells_some h (setElems addr g (preds g (Ref.sv name))) []
    have hr0 : ∃ sol, solutionOf addr g names = some sol := solutionOf_some h names
    obtain ⟨rest, hr⟩ := hr0
    simp only [solutionOf, hc, hr]
    exact ⟨_, rfl⟩

/-- What `Solve` keeps of the graph it starts from. -/
theorem Solve_grows {addr : Ref → Nat} {fuel : Nat} {g g1 : Graph} (w : WF g)
    (h : Solve addr fuel g = Outcome.finished g1) :
    WF g1 ∧ g1.nodes = g.nodes ∧ g1.set_var_map = g.set_var_map ∧
      g1.proj_sv_refs = g.proj_sv_refs ∧ g.predecessor_nodes ⊆ g1.predecessor_nodes ∧
      g.successor_nodes ⊆ g1.successor_nodes := by
  unfold Solve at h
  refine (SolveLoop_inv addr (I := fun g2 => WF g2 ∧ g2.nodes = g.nodes ∧
    g2.set_var_map = g.set_var_map ∧ g2.proj_sv_refs = g.proj_sv_refs ∧
    g.predecessor_nodes ⊆ g2.predecessor_nodes ∧ g.successor_nodes ⊆ g2.successor_nodes)
    ?_ fuel _ g1 ⟨initWorklist_wf w, rfl, rfl, rfl, fun _ a => a, fun _ a => a⟩ h).1
  intro g2 sv_node rest g3 hI hw hb
  have hst := SolveBody_step hb
  exact ⟨(potential_decreases hI.1 hw hb).1, hst.nodes.trans hI.2.1, hst.svm.trans hI.2.2.1,
    hst.prj.trans hI.2.2.2.1, fun _ a => hst.pred_mono (hI.2.2.2.2.1 a),
    fun _ a => hst.succ_mono (hI.2.2.2.2.2 a)⟩

/-! ## Properties of a whole run -/

/-- The run of `Solve` on the graph read from any constraints ends within `solveFuel`. -/
theorem Solve_no_timeout (addr : Ref → Nat) {cs : List (Expr × Expr)} {g : Graph}
    (h : readConstraints cs = some g) : Solve addr (solveFuel g) g ≠ Outcome.out_of_fuel :=
  SolveLoop_terminates addr _ _ (initWorklist_wf (readConstraints_wf h).1)
    potential_initWorklist_le

/-- The parts of a run of `main` that produced a solution. -/
theorem solve_main_parts {addr : Ref → Nat} {fuel : Nat} {cs : List (Expr × Expr)}
    {sol : List (String × List String)} (h : solve_main addr fuel cs = some sol) :
    ∃ g g1, readConstraints cs = some g ∧ Solve addr fuel g = Outcome.finished g1 ∧
      solutionOf addr g1 g1.set_var_map = some sol := by
  unfold solve_main at h
  split at h
  · cases h
  · rename_i g hg
    split at h
    · rename_i g1 hg1
      exact ⟨g, g1, hg, hg1, h⟩
    · cases h

/-- On constraints whose expressions have `ExprOK`, `main` produces a solution. -/
theorem solve_main_some (addr : Ref → Nat) {k : Nat} {cs : List (Expr × Expr)}
    (h : ∀ c ∈ cs, ExprOK k c.1 ∧ ExprOK k c.2) :
    ∃ g sol, readConstraints cs = some g ∧ solve_main addr (solveFuel g) cs = some sol := by
  obtain ⟨g, hg, hok⟩ := readConstraints_some h
  have w := (readConstraints_wf hg).1
  obtain ⟨g1, hg1⟩ := SolveLoop_finishes addr (solveFuel g) (initWorklist g) (initWorklist_wf w)
    (hok.transfer rfl) potential_initWorklist_le
  have hn : g1.nodes = g.nodes := (Solve_grows w hg1).2.1
  have hsome : ∃ sol, solutionOf addr g1 g1.set_var_map = some sol :=
    solutionOf_some (hok.transfer hn) g1.set_var_map
  obtain ⟨sol, hsol⟩ := hsome
  refine ⟨g, sol, hg, ?_⟩
  unfold solve_main
  rw [hg]
  simp only
  have hg2 : Solve addr (solveFuel g) g = Outcome.finished g1 := hg1
  rw [hg2]
  exact hsol

/-- After `Solve`, the points-to set of the left side of a constraint between two set variables
is within that of the right side. -/
theorem Solve_copy {addr : Ref → Nat} {fuel : Nat} {cs : List (Expr × Expr)} {g g1 : Graph}
    {x y : String} (hg : readConstraints cs = some g)
    (h : (Expr.setvar x, Expr.setvar y) ∈ cs) (hs : Solve addr fuel g = Outcome.finished g1) :
    ∀ c, (IsConstructor g1 c = true ∨ IsLam g1 c = true) →
      c ∈ preds g1 (Ref.sv x) → c ∈ preds g1 (Ref.sv y) := by
  have w := (readConstraints_wf hg).1
  have hxy := (readConstraints_loaded hg _ h).1 x y rfl
  obtain ⟨-, hcl⟩ := Solve_closed w hs
  have hxy1 := (Solve_grows w hs).2.2.2.2.2 hxy
  intro c hc hm
  exact mem_preds_iff.2 (hcl x c y (mem_preds_iff.1 hm) hc hxy1)

theorem pointsTo_mono {g : Graph} {x y : String}
    (h : ∀ c, (IsConstructor g c = true ∨ IsLam g c = true) →
      c ∈ preds g (Ref.sv x) → c ∈ preds g (Ref.sv y)) {a : String} (ha : PointsTo g x a) :
    PointsTo g y a := by
  obtain ⟨c, hc, hk, hq⟩ := ha
  exact ⟨c, mem_preds_iff.1 (h c hk (mem_preds_iff.2 hc)), hk, hq⟩

/-- An inclusion of points-to sets shows in the printed solution. -/
theorem solution_subset {addr : Ref → Nat} {g1 : Graph} (w : WF g1)
    {sol : List (String × List String)} (hsol : solutionOf addr g1 g1.set_var_map = some sol)
    {x y : String} (h : ∀ a, PointsTo g1 x a → PointsTo g1 y a) :
    ∀ cx, (x, cx) ∈ sol → ∃ cy, (y, cy) ∈ sol ∧ ∀ a ∈ cx, a ∈ cy := by
  obtain ⟨-, h2, h3⟩ := solutionOf_spec w _ _ hsol
  intro cx hcx
  obtain ⟨hne, -, hmem⟩ := h2 x cx hcx
  obtain ⟨a0, ha0⟩ := List.exists_mem_of_ne_nil _ hne
  have hp0 := h a0 ((hmem a0).1 ha0)
  have hy : y ∈ g1.set_var_map := by
    obtain ⟨c, hc, -⟩ := hp0
    exact sv_mem_allRefs_iff.1 (w.vp _ hc).1
  obtain ⟨cy, hcy⟩ := h3 y hy ⟨a0, hp0⟩
  refine ⟨cy, hcy, fun a ha => ?_⟩
  exact ((h2 y cy hcy).2.2 a).2 (h a ((hmem a).1 ha))

theorem getArgAt_ref_one {g : Graph} {c : Ref} {nm a x : String}
    (h : g.node c = some (Node.Constructor nm [Arg.str a, Arg.node x])) :
    GetArgAt g c 1 = some (Arg.node x) := by
  unfold GetArgAt CallArgs
  rw [h]
  rfl

/-- After `Solve`, the set variable under a `ref` that flows into `y` has every set variable that
reads `proj(ref, 1, y)` among its successors. -/
theorem Solve_load_edge {addr : Ref → Nat} {fuel : Nat} {cs : List (Expr × Expr)} {g g1 : Graph}
    {a x y z : String} (hg : readConstraints cs = some g)
    (h1 : (Expr.ref a x, Expr.setvar y) ∈ cs)
    (h2 : (Expr.proj "ref" 1 y, Expr.setvar z) ∈ cs)
    (hs : Solve addr fuel g = Outcome.finished g1) :
    (Ref.sv x, Ref.sv z) ∈ g1.successor_nodes := by
  have w := (readConstraints_wf hg).1
  obtain ⟨c, hcn, hcp, hxm⟩ := (readConstraints_loaded hg _ h1).2.1 a x y rfl
  obtain ⟨p, hpn, hpj, hps, hzm⟩ := (readConstraints_loaded hg _ h2).2.2 "ref" 1 y z rfl
  have hpv : p ∈ allRefs g := w.vprj _ hpj
  unfold Solve at hs
  have key := SolveLoop_inv addr (I := fun g2 => WF g2 ∧ g2.nodes = g.nodes ∧
    g2.set_var_map = g.set_var_map ∧ g2.proj_sv_refs = g.proj_sv_refs ∧
    (Ref.sv y, c) ∈ g2.predecessor_nodes ∧ (p, Ref.sv z) ∈ g2.successor_nodes ∧
    (Ref.sv y ∈ g2.worklist ∨ (Ref.sv x, Ref.sv z) ∈ g2.successor_nodes)) ?_ fuel _ g1 ?_ hs
  · obtain ⟨⟨-, -, -, -, -, -, hor⟩, hw⟩ := key
    rcases hor with h0 | h0
    · rw [hw] at h0
      cases h0
    · exact h0
  · intro g2 sv_node rest g3 ⟨w2, hn2, hs2, hj2, hc2, hp2, hor⟩ hw hb
    have hst := SolveBody_step hb
    refine ⟨(potential_decreases w2 hw hb).1, hst.nodes.trans hn2, hst.svm.trans hs2,
      hst.prj.trans hj2, hst.pred_mono hc2, hst.succ_mono hp2, ?_⟩
    by_cases hy : sv_node = Ref.sv y
    · subst hy
      right
      unfold SolveBody at hb
      split at hb
      · cases hb
      · rename_i g4 h4
        have s4 := propagate_step h4
        have hn4 : g4.nodes = g.nodes := s4.nodes.trans hn2
        have hA : allRefs g4 = allRefs g := allRefs_congr hn4 (s4.svm.trans hs2)
        have e1 : (Ref.sv y, p) ∈ g4.proj_sv_refs := by
          rw [s4.prj]
          show (Ref.sv y, p) ∈ g2.proj_sv_refs
          rw [hj2]; exact hpj
        have e2 : g4.node p = some (Node.Projection "ref" y 1) := by
          rw [node_congr hn4]; exact hpn
        have e3 : p ∈ allRefs g4 := by rw [hA]; exact hpv
        have e4 : g4.node c = some (Node.Constructor "ref" [Arg.str a, Arg.node x]) := by
          rw [node_congr hn4]; exact hcn
        have e5 : GetArgAt g4 c 1 = some (Arg.node x) := by
          rw [getArgAt_congr hn4]; exact getArgAt_ref_one hcn
        have e6 : Ref.sv z ∈ allRefs g4 := by rw [hA]; exact sv_mem_allRefs hzm
        have e7 : Ref.sv x ∈ allRefs g4 := by rw [hA]; exact sv_mem_allRefs hxm
        exact resolveProjections_post hb e1 e2 e3 (s4.pred_mono hc2) e4 e5 (s4.succ_mono hp2) e6 e7
    · rcases hor with h0 | h0
      · left
        rw [hw] at h0
        rcases List.mem_cons.1 h0 with h0 | h0
        · exact absurd h0.symm hy
        · exact hst.wl_mono h0
      · right
        exact hst.succ_mono h0
  · refine ⟨initWorklist_wf w, rfl, rfl, rfl, hcp, hps, Or.inl ?_⟩
    unfold initWorklist
    simp only [List.mem_append, List.mem_map, List.mem_filter]
    right
    refine ⟨y, ⟨sv_mem_allRefs_iff.1 (w.vp _ hcp).1, ?_⟩, rfl⟩
    have hm : c ∈ preds g (Ref.sv y) := mem_preds_iff.2 hcp
    cases hq : preds g (Ref.sv y) with
    | nil => rw [hq] at hm; cases hm
    | cons _ _ => rfl

/-! ## The claims about the solver -/

/-- C1. For every constraint set and every constraint `x <= y` between two set variables in it:
the run of `Solve` ends (it does not run out of fuel); when it finishes, every `ref` or `lam_`
constructor among the predecessors of `x` is among those of `y`, so the points-to set of `x` is
within that of `y`, in the graph and in the printed solution; and on constraints whose argument
accesses are in range the run does finish with a solution. -/
theorem solve_setvar_constraint_subset (addr : Ref → Nat) (cs : List (Expr × Expr))
    (x y : String) (h : (Expr.setvar x, Expr.setvar y) ∈ cs) :
    (∀ g, readConstraints cs = some g → Solve addr (solveFuel g) g ≠ Outcome.out_of_fuel) ∧
    (∀ g fuel g1, readConstraints cs = some g → Solve addr fuel g = Outcome.finished g1 →
      (∀ c, (IsConstructor g1 c = true ∨ IsLam g1 c = true) →
        c ∈ preds g1 (Ref.sv x) → c ∈ preds g1 (Ref.sv y)) ∧
      ∀ a, PointsTo g1 x a → PointsTo g1 y a) ∧
    (∀ fuel sol, solve_main addr fuel cs = some sol →
      ∀ cx, (x, cx) ∈ sol → ∃ cy, (y, cy) ∈ sol ∧ ∀ a ∈ cx, a ∈ cy) ∧
    (∀ k, (∀ c ∈ cs, ExprOK k c.1 ∧ ExprOK k c.2) →
      ∃ g sol, readConstraints cs = some g ∧ solve_main addr (solveFuel g) cs = some sol) := by
  refine ⟨fun g hg => Solve_no_timeout addr hg, ?_, ?_, fun k hk => solve_main_some addr hk⟩
  · intro g fuel g1 hg hs
    have hc := Solve_copy hg h hs
    exact ⟨hc, fun a ha => pointsTo_mono hc ha⟩
  · intro fuel sol hsol
    obtain ⟨g, g1, hg, hs, hso⟩ := solve_main_parts hsol
    have w1 := (Solve_grows (readConstraints_wf hg).1 hs).1
    exact solution_subset w1 hso (fun a ha => pointsTo_mono (Solve_copy hg h hs) ha)

/-- C1, on the points-to scenario: the constraints `ref(a, F.a) <= F.x` and `F.x <= F.y` give the
solution `F.x -> {a}`, `F.y -> {a}`. -/
theorem solve_setvar_constraint_subset_witness :
    (Expr.setvar "F.x", Expr.setvar "F.y") ∈ pointsToExample ∧
    solve_main exampleAddr 10 pointsToExample = some [("F.x", ["a"]), ("F.y", ["a"])] ∧
    printSolution [("F.x", ["a"]), ("F.y", ["a"])] = "F.x -> \x7ba\x7d\nF.y -> \x7ba\x7d\n\n" ∧
    (∀ cx, ("F.x", cx) ∈ [("F.x", ["a"]), ("F.y", ["a"])] →
      ∃ cy, ("F.y", cy) ∈ [("F.x", ["a"]), ("F.y", ["a"])] ∧ ∀ a ∈ cx, a ∈ cy) :=
  ⟨by decide, by decide, by decide,
    (solve_setvar_constraint_subset exampleAddr pointsToExample "F.x" "F.y" (by decide)).2.2.1
      10 _ (by decide)⟩

/-- C2. For every constraint set that contains `ref(a, x) <= y` and `proj(ref, 1, y) <= z`,
whatever else it contains and in whatever order: the run of `Solve` ends; when it finishes, `z`
is a successor of `x` and every `ref` or `lam_` constructor among the predecessors of `x` is
among those of `z`, so the points-to set of `x` is within that of `z`, in the graph and in the
printed solution; and on constraints whose argument accesses are in range the run does finish. -/
theorem solve_ref_proj_flow (addr : Ref → Nat) (cs : List (Expr × Expr)) (a x y z : String)
    (h1 : (Expr.ref a x, Expr.setvar y) ∈ cs)
    (h2 : (Expr.proj "ref" 1 y, Expr.setvar z) ∈ cs) :
    (∀ g, readConstraints cs = some g → Solve addr (solveFuel g) g ≠ Outcome.out_of_fuel) ∧
    (∀ g fuel g1, readConstraints cs = some g → Solve addr fuel g = Outcome.finished g1 →
      (Ref.sv x, Ref.sv z) ∈ g1.successor_nodes ∧
      (∀ c, (IsConstructor g1 c = true ∨ IsLam g1 c = true) →
        c ∈ preds g1 (Ref.sv x) → c ∈ preds g1 (Ref.sv z)) ∧
      ∀ b, PointsTo g1 x b → PointsTo g1 z b) ∧
    (∀ fuel sol, solve_main addr fuel cs = some sol →
      ∀ cx, (x, cx) ∈ sol → ∃ cz, (z, cz) ∈ sol ∧ ∀ b ∈ cx, b ∈ cz) ∧
    (∀ k, (∀ c ∈ cs, ExprOK k c.1 ∧ ExprOK k c.2) →
      ∃ g sol, readConstraints cs = some g ∧ solve_main addr (solveFuel g) cs = some sol) := by
  have key : ∀ g fuel g1, readConstraints cs = some g → Solve addr fuel g = Outcome.finished g1 →
      (Ref.sv x, Ref.sv z) ∈ g1.successor_nodes ∧
      ∀ c, (IsConstructor g1 c = true ∨ IsLam g1 c = true) →
        c ∈ preds g1 (Ref.sv x) → c ∈ preds g1 (Ref.sv z) := by
    intro g fuel g1 hg hs
    have he := Solve_load_edge hg h1 h2 hs
    obtain ⟨-, hcl⟩ := Solve_closed (readConstraints_wf hg).1 hs
    exact ⟨he, fun c hc hm => mem_preds_iff.2 (hcl x c z (mem_preds_iff.1 hm) hc he)⟩
  refine ⟨fun g hg => Solve_no_timeout addr hg, ?_, ?_, fun k hk => solve_main_some addr hk⟩
  · intro g fuel g1 hg hs
    obtain ⟨he, hc⟩ := key g fuel g1 hg hs
    exact ⟨he, hc, fun b hb => pointsTo_mono hc hb⟩
  · intro fuel sol hsol
    obtain ⟨g, g1, hg, hs, hso⟩ := solve_main_parts hsol
    have w1 := (Solve_grows (readConstraints_wf hg).1 hs).1
    exact solution_subset w1 hso (fun b hb => pointsTo_mono (key g fuel g1 hg hs).2 hb)

/-- C2, on `ref(a, X) <= Y`, `ref(b, B) <= X`, `proj(ref, 1, Y) <= Z`: the cell `b` of `X`
reaches `Z`. -/
theorem solve_ref_proj_flow_witness :
    (Expr.ref "a" "X", Expr.setvar "Y") ∈ loadExample ∧
    (Expr.proj "ref" 1 "Y", Expr.setvar "Z") ∈ loadExample ∧
    solve_main exampleAddr 20 loadExample = some [("X", ["b"]), ("Y", ["a"]), ("Z", ["b"])] ∧
    (∀ cx, ("X", cx) ∈ [("X", ["b"]), ("Y", ["a"]), ("Z", ["b"])] →
      ∃ cz, ("Z", cz) ∈ [("X", ["b"]), ("Y", ["a"]), ("Z", ["b"])] ∧ ∀ b ∈ cx, b ∈ cz) :=
  ⟨by decide, by decide, by decide,
    (solve_ref_proj_flow exampleAddr loadExample "a" "X" "Y" "Z" (by decide) (by decide)).2.2.1
      20 _ (by decide)⟩

/-- C3, as the claim states it, fails: a set variable with an empty points-to set has no line in
the printed solution.  On the single constraint `x <= y` the set variables `x` and `y` are
registered and the solution has no entry, so the output is one empty line. -/
theorem solution_omits_empty_sets :
    ¬ (∀ g sol, readConstraints emptySetsExample = some g →
        solve_main exampleAddr 5 emptySetsExample = some sol →
        ∀ name ∈ g.set_var_map, ∃ cells, (name, cells) ∈ sol) ∧
    (∃ g, readConstraints emptySetsExample = some g ∧ g.set_var_map = ["x", "y"]) ∧
    solve_main exampleAddr 5 emptySetsExample = some [] ∧ printSolution [] = "\n" := by
  refine ⟨?_, ⟨_, rfl, by decide⟩, by decide, by decide⟩
  intro hall
  obtain ⟨cells, hc⟩ := hall _ [] rfl (by decide) "x" (by decide)
  cases hc

/-- C3, amended. The printed solution has a line exactly for the set variables with a non-empty
points-to set; the line of `name` holds exactly the arguments 0 of the `ref` and `lam_`
constructors among the predecessors of `name`; the lines are strictly ascending in the name and
the cells of a line are strictly ascending (so without duplicates). -/
theorem solution_lines (addr : Ref → Nat) (fuel : Nat) (cs : List (Expr × Expr))
    (sol : List (String × List String)) (h : solve_main addr fuel cs = some sol) :
    ∃ g g1, readConstraints cs = some g ∧ Solve addr fuel g = Outcome.finished g1 ∧
      (sol.map Prod.fst).Pairwise nameLt ∧
      (∀ name cells, (name, cells) ∈ sol →
        name ∈ g1.set_var_map ∧ cells ≠ [] ∧ cells.Pairwise nameLt ∧
          ∀ a, a ∈ cells ↔ PointsTo g1 name a) ∧
      (∀ name, (∃ a, PointsTo g1 name a) → ∃ cells, (name, cells) ∈ sol) := by
  obtain ⟨g, g1, hg, hs, hso⟩ := solve_main_parts h
  obtain ⟨w, hsorted⟩ := readConstraints_wf hg
  obtain ⟨w1, -, hsv, -⟩ := Solve_grows w hs
  obtain ⟨hsub, h2, h3⟩ := solutionOf_spec w1 _ _ hso
  refine ⟨g, g1, hg, hs, ?_, ?_, ?_⟩
  · rw [hsv] at hsub
    exact List.Pairwise.sublist hsub hsorted
  · intro name cells hm
    refine ⟨hsub.subset (List.mem_map_of_mem Prod.fst hm), h2 name cells hm⟩
  · intro name hp
    obtain ⟨a, c, hc, hr⟩ := hp
    exact h3 name (sv_mem_allRefs_iff.1 (w1.vp _ hc).1) ⟨a, c, hc, hr⟩

/-- C3, amended, on the points-to scenario. -/
theorem solution_lines_witness :
    solve_main exampleAddr 10 pointsToExample = some [("F.x", ["a"]), ("F.y", ["a"])] ∧
    ∃ g g1, readConstraints pointsToExample = some g ∧
      Solve exampleAddr 10 g = Outcome.finished g1 ∧
      ([("F.x", ["a"]), ("F.y", ["a"])].map Prod.fst).Pairwise nameLt ∧
      (∀ name cells, (name, cells) ∈ [("F.x", ["a"]), ("F.y", ["a"])] →
        name ∈ g1.set_var_map ∧ cells ≠ [] ∧ cells.Pairwise nameLt ∧
          ∀ a, a ∈ cells ↔ PointsTo g1 name a) ∧
      (∀ name, (∃ a, PointsTo g1 name a) →
        ∃ cells, (name, cells) ∈ [("F.x", ["a"]), ("F.y", ["a"])]) :=
  ⟨by decide, solution_lines exampleAddr 10 pointsToExample _ (by decide)⟩

/-- C6. `Solve` terminates on the graph read from any constraint set: with `solveFuel` or more
iterations allowed the `while` loop ends, always in the same way.  In every iteration the nodes
stay, edges are only added, and every pointer that is pushed (by `AddEdge` or by the projection
step) has a strictly larger edge set after the iteration than before it.  The edges of the final
graph contain those read, and they are at most two per pair of nodes.  On constraints whose
argument accesses are in range the loop finishes.  More generally the loop ends on every graph
with the structural invariant `WF` (edge sets without repetition between allocated nodes), which
the graph read from the constraints has. -/
theorem Solve_terminates (addr : Ref → Nat) (cs : List (Expr × Expr)) (g : Graph)
    (h : readConstraints cs = some g) :
    (∀ fuel, solveFuel g ≤ fuel →
      Solve addr fuel g ≠ Outcome.out_of_fuel ∧
      Solve addr fuel g = Solve addr (solveFuel g) g) ∧
    (∀ g0 sv_node g1, SolveBody addr sv_node g0 = some g1 →
      ∃ dp ds dw, g1.nodes = g0.nodes ∧ g1.set_var_map = g0.set_var_map ∧
        g1.predecessor_nodes = dp ++ g0.predecessor_nodes ∧
        g1.successor_nodes = ds ++ g0.successor_nodes ∧
        g1.worklist = g0.worklist ++ dw ∧
        ∀ n ∈ dw, edgeCount g0 n < edgeCount g1 n) ∧
    (∀ fuel g1, Solve addr fuel g = Outcome.finished g1 →
      g1.worklist = [] ∧ g1.nodes = g.nodes ∧
      g.predecessor_nodes ⊆ g1.predecessor_nodes ∧ g.successor_nodes ⊆ g1.successor_nodes ∧
      g1.predecessor_nodes.length + g1.successor_nodes.length ≤
        2 * ((allRefs g).length * (allRefs g).length)) ∧
    (∀ k, (∀ c ∈ cs, ExprOK k c.1 ∧ ExprOK k c.2) →
      ∃ g1, Solve addr (solveFuel g) g = Outcome.finished g1) ∧
    (WF g ∧ ∀ g0, WF g0 → ∀ fuel, potential g0 ≤ fuel →
      SolveLoop addr fuel g0 ≠ Outcome.out_of_fuel) := by
  have w := (readConstraints_wf h).1
  have hno := Solve_no_timeout addr h
  refine ⟨?_, ?_, ?_, ?_, w, fun g0 w0 fuel hf => SolveLoop_terminates addr fuel g0 w0 hf⟩
  · intro fuel hf
    have he : Solve addr fuel g = Solve addr (solveFuel g) g :=
      SolveLoop_mono addr (solveFuel g) (initWorklist g) hno fuel hf
    exact ⟨by rw [he]; exact hno, he⟩
  · intro g0 sv_node g1 hb
    obtain ⟨dp, ds, dw, c, -, -⟩ := SolveBody_step hb
    refine ⟨dp, ds, dw, c.nodes, c.svm, c.pred, c.succ, c.wl, ?_⟩
    intro n hn
    exact (c.edgeCount_lt n).2 (c.just n hn)
  · intro fuel g1 hs
    obtain ⟨w1, hn, hsv, -, hp, hsu⟩ := Solve_grows w hs
    have hwl : g1.worklist = [] :=
      (SolveLoop_inv addr (I := fun _ => True) (fun _ _ _ _ _ _ _ => trivial) fuel _ g1
        trivial hs).2
    have hb := w1.edges_le
    rw [allRefs_congr hn hsv] at hb
    exact ⟨hwl, hn, hp, hsu, hb⟩
  · intro k hk
    obtain ⟨g2, hg2, hok⟩ := readConstraints_some hk
    rw [h] at hg2
    cases hg2
    exact SolveLoop_finishes addr (solveFuel g) (initWorklist g) (initWorklist_wf w)
      (hok.transfer rfl) potential_initWorklist_le

/-- C6, on the constraints `ref(a, X) <= Y`, `ref(b, B) <= X`, `proj(ref, 1, Y) <= Z`. -/
theorem Solve_terminates_witness :
    ∃ g, readConstraints loadExample = some g ∧
      (∀ fuel, solveFuel g ≤ fuel →
        Solve exampleAddr fuel g ≠ Outcome.out_of_fuel ∧
        Solve exampleAddr fuel g = Solve exampleAddr (solveFuel g) g) ∧
      ∃ g1, Solve exampleAddr (solveFuel g) g = Outcome.finished g1 :=
  ⟨_, rfl, (Solve_terminates exampleAddr loadExample _ rfl).1,
    (Solve_terminates exampleAddr loadExample _ rfl).2.2.2.1 1 (by
      intro c hc
      simp only [loadExample, List.mem_cons, List.mem_singleton, List.not_mem_nil, or_false] at hc
      rcases hc with rfl | rfl | rfl <;> simp [ExprOK])⟩

theorem getArgAt_nat {g : Graph} {r : Ref} (i : Nat) :
    GetArgAt g r (i : Int) = (CallArgs g r).get? i := by
  unfold GetArgAt
  rw [if_neg (by omega), Int.toNat_ofNat]

theorem AddEdgeStore_nodes (g : Graph) (lhs rhs : Ref) (is_init : Bool) :
    (AddEdgeStore g lhs rhs is_init).nodes = g.nodes := by
  rcases AddEdgeStore_cases g lhs rhs is_init with h | ⟨-, -, h⟩ | ⟨-, -, h⟩ <;> rw [h]

/-- The parameter loop of `AddEdge` on two `lam_` nodes whose arguments from position
`pre.length` on are the set variables `ps` and `qs`: it is the sequence of the calls
`AddEdge(q_i, p_i)`. -/
theorem lamLoop_eq (lhs rhs : Ref) (g0 : Graph) :
    ∀ (ps qs : List String) (pre pre1 : List Arg) (g2 : Graph),
      CallArgs g0 lhs = pre ++ ps.map Arg.node → CallArgs g0 rhs = pre1 ++ qs.map Arg.node →
      pre1.length = pre.length → ps.length = qs.length → g2.nodes = g0.nodes →
      forEachM
          (fun g3 (i : Nat) =>
            match GetArgAt g3 lhs i with
            | none => none
            | some (.str _) => some g3
            | some (.node x) =>
              match GetArgAt g3 rhs i with
              | none => none
              | some (.str _) => some g3
              | some (.node y) => some (AddEdgeStore g3 (.sv y) (.sv x) false))
          (List.range' pre.length ps.length) g2 =
        forEachM (fun g3 (qp : String × String) => AddEdge g3 (Ref.sv qp.1) (Ref.sv qp.2) false)
          (qs.zip ps) g2
  | [], [], _, _, _, _, _, _, _, _ => rfl
  | [], _ :: _, _, _, _, _, _, _, hlen, _ => by simp at hlen
  | _ :: _, [], _, _, _, _, _, _, hlen, _ => by simp at hlen
  | p :: ps, q :: qs, pre, pre1, g2, hl, hr, hpre, hlen, hn => by
    have e1 : GetArgAt g2 lhs (pre.length : Nat) = some (Arg.node p) := by
      rw [getArgAt_nat, callArgs_congr hn, hl, List.map_cons, List.get?_eq_getElem?,
        List.getElem?_append_right (le_refl _)]
      simp
    have e2 : GetArgAt g2 rhs (pre.length : Nat) = some (Arg.node q) := by
      rw [getArgAt_nat, callArgs_congr hn, hr, ← hpre, List.map_cons, List.get?_eq_getElem?,
        List.getElem?_append_right (le_refl _)]
      simp
    simp only [List.length_cons, List.range'_succ, List.zip_cons_cons, forEachM, e1, e2,
      AddEdge_sv]
    have ih := lamLoop_eq lhs rhs g0 ps qs (pre ++ [Arg.node p]) (pre1 ++ [Arg.node q])
      (AddEdgeStore g2 (Ref.sv q) (Ref.sv p) false)
      (by rw [hl]; simp) (by rw [hr]; simp) (by simp [hpre]) (by simpa using hlen)
      ((AddEdgeStore_nodes _ _ _ _).trans hn)
    simp only [List.length_append, List.length_singleton] at ih
    exact ih

/-- A storing call on two set variables changes no edge set of a node that is not a set
variable. -/
theorem AddEdgeStore_sv_others (g : Graph) (x y : String) (is_init : Bool) (n : Ref)
    (hn : IsSetVar g n = false) :
    preds (AddEdgeStore g (Ref.sv x) (Ref.sv y) is_init) n = preds g n ∧
    succs (AddEdgeStore g (Ref.sv x) (Ref.sv y) is_init) n = succs g n := by
  rcases AddEdgeStore_cases g (Ref.sv x) (Ref.sv y) is_init with h | ⟨hc, -, -⟩ | ⟨-, -, h⟩
  · rw [h]; exact ⟨rfl, rfl⟩
  · simp [isConstructor_sv, isLam_sv, isProjection_sv] at hc
  · rw [h]
    refine ⟨rfl, ?_⟩
    unfold succs
    have : ¬ (Ref.sv x = n) := by
      rintro rfl
      cases hn
    simp [List.filter_cons, this]

theorem AddEdgeArgs_elsewhere {g g0 g1 : Graph} {l r : Option Arg} (h0 : SameElsewhere g0 g)
    (h : AddEdgeArgs g l r = some g1) : SameElsewhere g0 g1 := by
  unfold AddEdgeArgs at h
  split at h
  · cases h
  · cases h; exact h0
  · split at h
    · cases h
    · cases h; exact h0
    · cases h
      intro n hn
      obtain ⟨a, b⟩ := AddEdgeStore_sv_others g _ _ false n (by rw [isSetVar_indep g0 g]; exact hn)
      exact ⟨a.trans (h0 n hn).1, b.trans (h0 n hn).2⟩

/-- A call of `AddEdge` on two constructors of one name changes no edge set of a node that is
not a set variable: it stores no edge at the two constructors. -/
theorem AddEdge_ctor_elsewhere {g g1 : Graph} {lhs rhs : Ref} {is_init : Bool}
    (hc : (((IsConstructor g lhs && IsConstructor g rhs) || (IsLam g lhs && IsLam g rhs))
      && Name g lhs == Name g rhs) = true)
    (h : AddEdge g lhs rhs is_init = some g1) : SameElsewhere g g1 := by
  have h00 : SameElsewhere g g := fun _ _ => ⟨rfl, rfl⟩
  unfold AddEdge at h
  rw [if_pos hc] at h
  split at h
  · exact AddEdgeArgs_elsewhere h00 h
  · split at h
    · simp only at h
      split at h
      · cases h
      · rename_i g2 hg2
        have s1 : SameElsewhere g g2 := by
          split at hg2
          · cases hg2; exact h00
          · exact AddEdgeArgs_elsewhere h00 hg2
        refine forEachM_inv (I := fun g3 => SameElsewhere g g3) _ g2 g1 ?_ s1 h
        intro g3 i g4 _ hI hg
        split at hg
        · cases hg
        · cases hg; exact hI
        · split at hg
          · cases hg
          · cases hg; exact hI
          · cases hg
            intro n hn
            obtain ⟨a, b⟩ := AddEdgeStore_sv_others g3 _ _ false n
              (by rw [isSetVar_indep g g3]; exact hn)
            exact ⟨a.trans (hI n hn).1, b.trans (hI n hn).2⟩
    · cases h; exact h00

theorem lam_node_facts {g : Graph} {r : Ref} {args : List Arg} {rt : String} {pts : List String}
    (h : g.node r = some (Node.Lam "lam_" args rt pts)) :
    IsConstructor g r = false ∧ IsLam g r = true ∧ Name g r = "lam_" ∧ CallArgs g r = args ∧
      HasRetVal g r = (rt != "_") ∧ IsSetVar g r = false := by
  cases r with
  | sv _ => simp [Graph.node] at h
  | obj j =>
    unfold IsConstructor IsLam Name CallArgs HasRetVal
    rw [h]
    exact ⟨rfl, rfl, rfl, rfl, rfl, rfl⟩

/-- C4, as the claim states it, fails: `AddEdge` does not compare the cell identifiers.  On
`ref(a, X)` and `ref(b, Y)` with the distinct cells `a` and `b` the call stores the successor
edge from `X` to `Y` and pushes `X`; so does reading the constraint `ref(a, X) <= ref(b, Y)`. -/
theorem AddEdge_ref_distinct_cells_stores :
    "a" ≠ "b" ∧
    refPairGraph.node (Ref.obj 0) = some (Node.Constructor "ref" [Arg.str "a", Arg.node "X"]) ∧
    refPairGraph.node (Ref.obj 1) = some (Node.Constructor "ref" [Arg.str "b", Arg.node "Y"]) ∧
    AddEdge refPairGraph (Ref.obj 0) (Ref.obj 1) false ≠ some refPairGraph ∧
    AddEdge refPairGraph (Ref.obj 0) (Ref.obj 1) false =
      some { refPairGraph with successor_nodes := [(Ref.sv "X", Ref.sv "Y")],
                               worklist := [Ref.sv "X"] } ∧
    (readConstraints [(Expr.ref "a" "X", Expr.ref "b" "Y")]).map
      (fun g => (g.successor_nodes, g.worklist)) =
      some ([(Ref.sv "X", Ref.sv "Y")], [Ref.sv "X"]) := by
  decide

/-- C4, amended. `AddEdge(ref(a, X), ref(b, Y))` behaves exactly as `AddEdge(X, Y)` with the
default `is_init = false`, whether or not the cell identifiers `a` and `b` agree; that call
stores the successor edge from `X` to `Y` if it is new, and then pushes `X`. -/
theorem AddEdge_ref_ref (g : Graph) (lhs rhs : Ref) (is_init : Bool) (a b x y : String)
    (hl : g.node lhs = some (Node.Constructor "ref" [Arg.str a, Arg.node x]))
    (hr : g.node rhs = some (Node.Constructor "ref" [Arg.str b, Arg.node y])) :
    AddEdge g lhs rhs is_init = AddEdge g (Ref.sv x) (Ref.sv y) false ∧
    AddEdge g lhs rhs is_init = some (
      if (Ref.sv x, Ref.sv y) ∈ g.successor_nodes then g
      else { g with successor_nodes := (Ref.sv x, Ref.sv y) :: g.successor_nodes,
                    worklist := g.worklist ++ [Ref.sv x] }) := by
  have e : AddEdge g lhs rhs is_init = some (AddEdgeStore g (Ref.sv x) (Ref.sv y) false) := by
    unfold AddEdge
    rw [if_pos (by simp [isConstructor_of_node hl, isConstructor_of_node hr,
      name_of_constructor hl, name_of_constructor hr]),
      if_pos (by simp [name_of_constructor hl]), getArgAt_ref_one hl, getArgAt_ref_one hr]
    rfl
  refine ⟨by rw [e, AddEdge_sv], ?_⟩
  rw [e]
  unfold AddEdgeStore
  by_cases hm : (Ref.sv x, Ref.sv y) ∈ g.successor_nodes
  · simp [isConstructor_sv, isLam_sv, isProjection_sv, HasSuccessor, hm]
  · simp [isConstructor_sv, isLam_sv, isProjection_sv, HasSuccessor, hm, IsSetVar, push_back]

/-- C4, amended, on `ref(a, X)` and `ref(b, Y)` with distinct cells. -/
theorem AddEdge_ref_ref_witness :
    AddEdge refPairGraph (Ref.obj 0) (Ref.obj 1) true =
      AddEdge refPairGraph (Ref.sv "X") (Ref.sv "Y") false ∧
    AddEdge refPairGraph (Ref.obj 0) (Ref.obj 1) true = some (
      if (Ref.sv "X", Ref.sv "Y") ∈ refPairGraph.successor_nodes then refPairGraph
      else { refPairGraph with
        successor_nodes := (Ref.sv "X", Ref.sv "Y") :: refPairGraph.successor_nodes,
        worklist := refPairGraph.worklist ++ [Ref.sv "X"] }) :=
  AddEdge_ref_ref refPairGraph (Ref.obj 0) (Ref.obj 1) true "a" "b" "X" "Y" (by decide) (by decide)

/-- C5. `AddEdge` on two `lam_` nodes of equal arity.  When the left one carries a return
variable (`lam_(f, r, p1..pn)` against `lam_(f1, r1, q1..qn)`), the call is `AddEdge(r, r1)`
followed by `AddEdge(q_i, p_i)` for every parameter position in turn.  When the left one carries
no return variable (`lam_(f, p1..pn)` against `lam_(f1, q1..qn)`), it is `AddEdge(q_i, p_i)` for
every position after the name.  In both cases no edge set of a node that is not a set variable
changes: no edge is stored between the two `lam_` nodes. -/
theorem AddEdge_lam_lam (g : Graph) (lhs rhs : Ref) (is_init : Bool)
    (f f1 rt rt1 : String) (pts pts1 : List String) (ps qs : List String)
    (largs rargs : List Arg)
    (hl : g.node lhs = some (Node.Lam "lam_" largs rt pts))
    (hr : g.node rhs = some (Node.Lam "lam_" rargs rt1 pts1))
    (hlen : ps.length = qs.length) :
    (HasRetVal g lhs = true → ∀ r r1, largs = Arg.str f :: Arg.node r :: ps.map Arg.node →
      rargs = Arg.str f1 :: Arg.node r1 :: qs.map Arg.node →
      AddEdge g lhs rhs is_init =
        (AddEdge g (Ref.sv r) (Ref.sv r1) false).bind
          (forEachM (fun g2 (qp : String × String) =>
            AddEdge g2 (Ref.sv qp.1) (Ref.sv qp.2) false) (qs.zip ps))) ∧
    (HasRetVal g lhs = false → largs = Arg.str f :: ps.map Arg.node →
      rargs = Arg.str f1 :: qs.map Arg.node →
      AddEdge g lhs rhs is_init =
        forEachM (fun g2 (qp : String × String) =>
          AddEdge g2 (Ref.sv qp.1) (Ref.sv qp.2) false) (qs.zip ps) g) ∧
    (∀ g1, AddEdge g lhs rhs is_init = some g1 →
      ∀ n, IsSetVar g n = false → preds g1 n = preds g n ∧ succs g1 n = succs g n) := by
  obtain ⟨lc, ll, ln, la, -, -⟩ := lam_node_facts hl
  obtain ⟨rc, rl, rn, ra, -, -⟩ := lam_node_facts hr
  have hc : (((IsConstructor g lhs && IsConstructor g rhs) || (IsLam g lhs && IsLam g rhs))
      && Name g lhs == Name g rhs) = true := by
    simp [ll, rl, ln, rn]
  have hnr : ¬ ((Name g lhs == "ref") = true) := by
    rw [ln]; decide
  have hlm : (Name g lhs == "lam_") = true := by
    rw [ln]; decide
  refine ⟨?_, ?_, fun g1 h1 => AddEdge_ctor_elsewhere hc h1⟩
  · intro hrv r r1 hla hra
    unfold AddEdge
    rw [if_pos hc, if_neg hnr, if_pos hlm]
    simp only [hrv, Bool.not_true, Bool.false_eq_true, if_false]
    rw [la, ra, hla, hra]
    simp only [List.get?_cons_succ, List.get?_cons_zero, AddEdgeArgs, AddEdge_sv,
      Option.some_bind, List.length_cons, List.length_map]
    have := lamLoop_eq lhs rhs g ps qs [Arg.str f, Arg.node r] [Arg.str f1, Arg.node r1]
      (AddEdgeStore g (Ref.sv r) (Ref.sv r1) false)
      (by rw [la, hla]; rfl) (by rw [ra, hra]; rfl) rfl hlen (AddEdgeStore_nodes _ _ _ _)
    simpa using this
  · intro hrv hla hra
    unfold AddEdge
    rw [if_pos hc, if_neg hnr, if_pos hlm]
    simp only [hrv, Bool.not_false, if_true]
    rw [la, hla]
    simp only [List.length_cons, List.length_map]
    have := lamLoop_eq lhs rhs g ps qs [Arg.str f] [Arg.str f1] g
      (by rw [la, hla]; rfl) (by rw [ra, hra]; rfl) rfl hlen rfl
    simpa using this

/-- C5, on `lam_(f, r, p)` against `lam_(g, s, q)`: the return edge from `r` to `s` and the
parameter edge from `q` to `p` are stored, and nothing at the two `lam_` nodes. -/
theorem AddEdge_lam_lam_witness :
    AddEdge lamPairGraph (Ref.obj 0) (Ref.obj 1) false =
      (AddEdge lamPairGraph (Ref.sv "r") (Ref.sv "s") false).bind
        (forEachM (fun g2 (qp : String × String) =>
          AddEdge g2 (Ref.sv qp.1) (Ref.sv qp.2) false) (["q"].zip ["p"])) ∧
    (AddEdge lamPairGraph (Ref.obj 0) (Ref.obj 1) false).map
      (fun g1 => (g1.predecessor_nodes, g1.successor_nodes, g1.worklist)) =
      some ([], [(Ref.sv "q", Ref.sv "p"), (Ref.sv "r", Ref.sv "s")], [Ref.sv "r", Ref.sv "q"]) :=
  ⟨(AddEdge_lam_lam lamPairGraph (Ref.obj 0) (Ref.obj 1) false "f" "g" "t" "t" ["t"] ["t"]
      ["p"] ["q"] _ _ (by decide) (by decide) rfl).1 (by decide) "r" "s" rfl rfl, by decide⟩

end Solver

/-! ## The claims about the constraint generator -/

namespace Generator

/-- C7, as the claim states it, fails: the first argument of the `ref` that the generator emits
for `x := &a` in `F` is the function-qualified `F.a`, not the bare cell name `a`.  The line is
`ref(F.a,F.a) <= F.x`, and on that constraint the solver reports `F.x -> {F.a}`. -/
theorem addrof_first_argument_is_qualified :
    instruction_lines "F" (Instruction.Addrof ⟨ptrVar "x", intVar "a"⟩) =
      some ["ref(F.a,F.a) <= F.x\n"] ∧
    instruction_lines "F" (Instruction.Addrof ⟨ptrVar "x", intVar "a"⟩) ≠
      some ["ref(a,F.a) <= F.x\n"] ∧
    Solver.solve_main Solver.exampleAddr 10
      [(Solver.Expr.ref "F.a" "F.a", Solver.Expr.setvar "F.x")] = some [("F.x", ["F.a"])] := by
  decide

/-- C7, amended. For every Addrof instruction `lhs := &rhs` in function `F` the generator emits
the constraint `ref(F.rhs,F.rhs) <= F.lhs`: both arguments of `ref` are the same
function-qualified set variable `F.rhs`. -/
theorem addrof_emits (addrof : AddrofInstruction) (func_name : String) :
    instruction_constraints func_name (Instruction.Addrof addrof) =
      some [⟨Expression.Term (Term.Constructor (Constructor.mk
          [Term.SetVariable ⟨addrof.rhs.name, func_name, true⟩,
            Term.SetVariable ⟨addrof.rhs.name, func_name, true⟩] "ref")),
        Expression.Term (Term.SetVariable ⟨addrof.lhs.name, func_name, true⟩)⟩] ∧
    instruction_lines func_name (Instruction.Addrof addrof) =
      some ["ref(" ++ func_name ++ "." ++ addrof.rhs.name ++ "," ++
        func_name ++ "." ++ addrof.rhs.name ++ ") <= " ++
        func_name ++ "." ++ addrof.lhs.name ++ "\n"] := by
  refine ⟨rfl, ?_⟩
  simp [instruction_lines, instruction_constraints, get_addrof_constraint, build_lines, build_constraint,
    build_expr_str, build_args_str, build_set_var_str, Constructor.args, Constructor.name,
    String.append_assoc]

/-- C8. For every Copy instruction `lhs := op` in function `F`: if `lhs` is pointer-typed and
`op` is a variable, the generator emits exactly the constraint `F.op <= F.lhs`; if `lhs` is not
pointer-typed it emits no constraint. -/
theorem copy_emits (copy : CopyInstruction) (func_name : String) :
    (∀ var, copy.op = Operand.Var var → copy.lhs.type.indirection ≠ 0 →
      instruction_constraints func_name (Instruction.Copy copy) =
        some [⟨Expression.Term (Term.SetVariable ⟨var.name, func_name, true⟩),
          Expression.Term (Term.SetVariable ⟨copy.lhs.name, func_name, true⟩)⟩] ∧
      instruction_lines func_name (Instruction.Copy copy) =
        some [func_name ++ "." ++ var.name ++ " <= " ++ func_name ++ "." ++ copy.lhs.name
          ++ "\n"]) ∧
    (copy.lhs.type.indirection = 0 →
      instruction_constraints func_name (Instruction.Copy copy) = some [] ∧
      instruction_lines func_name (Instruction.Copy copy) = some []) := by
  constructor
  · intro var hop hptr
    have e : instruction_constraints func_name (Instruction.Copy copy) =
        some [⟨Expression.Term (Term.SetVariable ⟨var.name, func_name, true⟩),
          Expression.Term (Term.SetVariable ⟨copy.lhs.name, func_name, true⟩)⟩] := by
      simp [instruction_constraints, get_copy_constraint, hop, hptr, Operand.var]
    refine ⟨e, ?_⟩
    unfold instruction_lines
    rw [e]
    simp [build_lines, build_constraint, build_expr_str, build_set_var_str, String.append_assoc]
  · intro h0
    have e : instruction_constraints func_name (Instruction.Copy copy) = some [] := by
      simp [instruction_constraints, h0]
    refine ⟨e, ?_⟩
    unfold instruction_lines
    rw [e]
    rfl

/-- C8, on `p := q` with a pointer `p` and on `i := j` with an int `i`, in `F`. -/
theorem copy_emits_witness :
    instruction_lines "F" (Instruction.Copy ⟨ptrVar "p", Operand.Var (ptrVar "q")⟩) =
      some ["F" ++ "." ++ "q" ++ " <= " ++ "F" ++ "." ++ "p" ++ "\n"] ∧
    instruction_lines "F" (Instruction.Copy ⟨intVar "i", Operand.Var (intVar "j")⟩) = some [] :=
  ⟨((copy_emits ⟨ptrVar "p", Operand.Var (ptrVar "q")⟩ "F").1 (ptrVar "q") rfl
      (by decide)).2,
    ((copy_emits ⟨intVar "i", Operand.Var (intVar "j")⟩ "F").2 rfl).2⟩

/-- C9. For every Load instruction `lhs := *src` in function `F` the generator emits the
constraint `proj(ref,1,F.src) <= F.lhs` if `lhs` is pointer-typed, and no constraint otherwise. -/
theorem load_emits (load : LoadInstruction) (func_name : String) :
    (load.lhs.type.indirection ≠ 0 →
      instruction_constraints func_name (Instruction.Load load) =
        some [⟨Expression.Projection
            ⟨⟨load.src.name, func_name, true⟩, Constructor.mk [] "ref", 1⟩,
          Expression.Term (Term.SetVariable ⟨load.lhs.name, func_name, true⟩)⟩] ∧
      instruction_lines func_name (Instruction.Load load) =
        some ["proj(ref,1," ++ func_name ++ "." ++ load.src.name ++ ") <= " ++
          func_name ++ "." ++ load.lhs.name ++ "\n"]) ∧
    (load.lhs.type.indirection = 0 →
      instruction_constraints func_name (Instruction.Load load) = some [] ∧
      instruction_lines func_name (Instruction.Load load) = some []) := by
  constructor
  · intro hptr
    have e : instruction_constraints func_name (Instruction.Load load) =
        some [⟨Expression.Projection
            ⟨⟨load.src.name, func_name, true⟩, Constructor.mk [] "ref", 1⟩,
          Expression.Term (Term.SetVariable ⟨load.lhs.name, func_name, true⟩)⟩] := by
      simp [instruction_constraints, get_load_constraint, hptr]
    refine ⟨e, ?_⟩
    unfold instruction_lines
    rw [e]
    have h1 : toString (1 : Int) = "1" := by decide
    simp [build_lines, build_constraint, build_expr_str, build_set_var_str, Constructor.name, h1,
      String.append_assoc]
  · intro h0
    have e : instruction_constraints func_name (Instruction.Load load) = some [] := by
      simp [instruction_constraints, h0]
    refine ⟨e, ?_⟩
    unfold instruction_lines
    rw [e]
    rfl

/-- C9, on `p := *q` with a pointer `p` and on `i := *q` with an int `i`, in `F`. -/
theorem load_emits_witness :
    instruction_lines "F" (Instruction.Load ⟨ptrVar "p", ptrVar "q"⟩) =
      some ["proj(ref,1," ++ "F" ++ "." ++ "q" ++ ") <= " ++ "F" ++ "." ++ "p" ++ "\n"] ∧
    instruction_lines "F" (Instruction.Load ⟨intVar "i", ptrVar "q"⟩) = some [] :=
  ⟨((load_emits ⟨ptrVar "p", ptrVar "q"⟩ "F").1 (by decide)).2,
    ((load_emits ⟨intVar "i", ptrVar "q"⟩ "F").2 rfl).2⟩

/-- C10. For every Store instruction `*dst := op` in function `F` the generator emits the
constraint `F.op <= proj(ref,1,F.dst)` if `op` is a variable of pointer type, and it emits
nothing if `op` is an int-typed variable or a constant: it emits the constraint if and only if
`op` is a variable of pointer type. -/
theorem store_emits (store : StoreInstruction) (func_name : String) :
    (∀ var, store.op = Operand.Var var → var.type.indirection ≠ 0 →
      instruction_constraints func_name (Instruction.Store store) =
        some [⟨Expression.Term (Term.SetVariable ⟨var.name, func_name, true⟩),
          Expression.Projection
            ⟨⟨store.dst.name, func_name, true⟩, Constructor.mk [] "ref", 1⟩⟩] ∧
      instruction_lines func_name (Instruction.Store store) =
        some [func_name ++ "." ++ var.name ++ " <= " ++
          ("proj(ref,1," ++ func_name ++ "." ++ store.dst.name ++ ")") ++ "\n"]) ∧
    (∀ var, store.op = Operand.Var var → var.type.indirection = 0 →
      instruction_constraints func_name (Instruction.Store store) = some [] ∧
      instruction_lines func_name (Instruction.Store store) = some []) ∧
    (∀ val, store.op = Operand.ConstInt val →
      instruction_constraints func_name (Instruction.Store store) = some [] ∧
      instruction_lines func_name (Instruction.Store store) = some []) ∧
    (instruction_lines func_name (Instruction.Store store) ≠ some [] ↔
      ∃ var, store.op = Operand.Var var ∧ var.type.indirection ≠ 0) := by
  have hA : ∀ var, store.op = Operand.Var var → var.type.indirection ≠ 0 →
      instruction_constraints func_name (Instruction.Store store) =
        some [⟨Expression.Term (Term.SetVariable ⟨var.name, func_name, true⟩),
          Expression.Projection
            ⟨⟨store.dst.name, func_name, true⟩, Constructor.mk [] "ref", 1⟩⟩] ∧
      instruction_lines func_name (Instruction.Store store) =
        some [func_name ++ "." ++ var.name ++ " <= " ++
          ("proj(ref,1," ++ func_name ++ "." ++ store.dst.name ++ ")") ++ "\n"] := by
    intro var hop hptr
    have e : instruction_constraints func_name (Instruction.Store store) =
        some [⟨Expression.Term (Term.SetVariable ⟨var.name, func_name, true⟩),
          Expression.Projection
            ⟨⟨store.dst.name, func_name, true⟩, Constructor.mk [] "ref", 1⟩⟩] := by
      simp [instruction_constraints, get_store_constraint, hop, hptr, Operand.var,
        Operand.IsConstInt]
    refine ⟨e, ?_⟩
    unfold instruction_lines
    rw [e]
    have h1 : toString (1 : Int) = "1" := by decide
    simp [build_lines, build_constraint, build_expr_str, build_set_var_str, Constructor.name, h1,
      String.append_assoc]
  have hB : ∀ var, store.op = Operand.Var var → var.type.indirection = 0 →
      instruction_constraints func_name (Instruction.Store store) = some [] ∧
      instruction_lines func_name (Instruction.Store store) = some [] := by
    intro var hop h0
    have e : instruction_constraints func_name (Instruction.Store store) = some [] := by
      simp [instruction_constraints, hop, h0, Operand.var, Operand.IsConstInt]
    refine ⟨e, ?_⟩
    unfold instruction_lines
    rw [e]
    rfl
  have hC : ∀ val, store.op = Operand.ConstInt val →
      instruction_constraints func_name (Instruction.Store store) = some [] ∧
      instruction_lines func_name (Instruction.Store store) = some [] := by
    intro val hop
    have e : instruction_constraints func_name (Instruction.Store store) = some [] := by
      simp [instruction_constraints, hop, Operand.IsConstInt]
    refine ⟨e, ?_⟩
    unfold instruction_lines
    rw [e]
    rfl
  refine ⟨hA, hB, hC, ?_⟩
  constructor
  · intro hne
    cases hop : store.op with
    | ConstInt val => exact absurd (hC val hop).2 hne
    | Var var =>
      refine ⟨var, rfl, ?_⟩
      intro h0
      exact hne (hB var hop h0).2
  · rintro ⟨var, hop, hptr⟩ he
    rw [(hA var hop hptr).2] at he
    simp at he

/-- C10, on `*d := q` with a pointer `q`, on `*d := j` with an int `j` and on `*d := 7`. -/
theorem store_emits_witness :
    instruction_lines "F" (Instruction.Store ⟨ptrVar "d", Operand.Var (ptrVar "q")⟩) =
      some ["F" ++ "." ++ "q" ++ " <= " ++ ("proj(ref,1," ++ "F" ++ "." ++ "d" ++ ")") ++ "\n"] ∧
    instruction_lines "F" (Instruction.Store ⟨ptrVar "d", Operand.Var (intVar "j")⟩) = some [] ∧
    instruction_lines "F" (Instruction.Store ⟨ptrVar "d", Operand.ConstInt 7⟩) = some [] :=
  ⟨((store_emits ⟨ptrVar "d", Operand.Var (ptrVar "q")⟩ "F").1 (ptrVar "q") rfl
      (by decide)).2,
    ((store_emits ⟨ptrVar "d", Operand.Var (intVar "j")⟩ "F").2.1 (intVar "j") rfl rfl).2,
    ((store_emits ⟨ptrVar "d", Operand.ConstInt 7⟩ "F").2.2.1 7 rfl).2⟩

theorem collect_some {α β : Type} (f : α → Option (List β)) :
    ∀ (l : List α), (∀ a ∈ l, ∃ y, f a = some y) →
      ∃ r, collect f l = some r ∧ ∀ x, x ∈ r ↔ ∃ a ∈ l, ∃ y, f a = some y ∧ x ∈ y
  | [], _ => ⟨[], rfl, by simp⟩
  | a :: l, h => by
    obtain ⟨y, hy⟩ := h a (List.mem_cons_self _ _)
    obtain ⟨r, hr, hmem⟩ := collect_some f l (fun b hb => h b (List.mem_cons_of_mem _ hb))
    refine ⟨y ++ r, by simp [collect, hy, hr], ?_⟩
    intro x
    rw [List.mem_append, hmem]
    constructor
    · rintro (hx | ⟨b, hb, z, hz, hx⟩)
      · exact ⟨a, List.mem_cons_self _ _, y, hy, hx⟩
      · exact ⟨b, List.mem_cons_of_mem _ hb, z, hz, hx⟩
    · rintro ⟨b, hb, z, hz, hx⟩
      rcases List.mem_cons.1 hb with rfl | hb
      · rw [hy] at hz
        cases hz
        exact Or.inl hx
      · exact Or.inr ⟨b, hb, z, hz, hx⟩

theorem build_lines_some : ∀ (cs : List Statement), (∀ c ∈ cs, ∃ l, build_constraint c = some l) →
    ∃ ls, build_lines cs = some ls ∧ ∀ l, l ∈ ls ↔ ∃ c ∈ cs, build_constraint c = some l
  | [], _ => ⟨[], rfl, by simp⟩
  | c :: cs, h => by
    obtain ⟨l, hl⟩ := h c (List.mem_cons_self _ _)
    obtain ⟨ls, hls, hmem⟩ := build_lines_some cs (fun b hb => h b (List.mem_cons_of_mem _ hb))
    refine ⟨l :: ls, by simp [build_lines, hl, hls], ?_⟩
    intro x
    rw [List.mem_cons, hmem]
    constructor
    · rintro (rfl | ⟨b, hb, hx⟩)
      · exact ⟨c, List.mem_cons_self _ _, hl⟩
      · exact ⟨b, List.mem_cons_of_mem _ hb, hx⟩
    · rintro ⟨b, hb, hx⟩
      rcases List.mem_cons.1 hb with rfl | hb
      · rw [hl] at hx
        cases hx
        exact Or.inl rfl
      · exact Or.inr ⟨b, hb, hx⟩

/-- The text of a statement between two set variables. -/
theorem build_constraint_sv (a b : SetVariable) :
    build_constraint ⟨Expression.Term (Term.SetVariable a), Expression.Term (Term.SetVariable b)⟩ =
      some (build_set_var_str a ++ " <= " ++ build_set_var_str b ++ "\n") := by
  simp [build_constraint, build_expr_str]

/-- Every statement of an instruction has a text. -/
theorem instruction_constraints_printable (func_name : String) (i : Instruction)
    (ss : List Statement) (h : instruction_constraints func_name i = some ss) :
    ∀ c ∈ ss, ∃ l, build_constraint c = some l := by
  cases i with
  | Copy copy =>
    simp only [instruction_constraints] at h
    split at h
    · unfold get_copy_constraint at h
      split at h
      · simp at h
      · simp at h
        subst h
        simp [build_constraint, build_expr_str]
    · simp at h; subst h; simp
  | Addrof a =>
    simp [instruction_constraints] at h; subst h
    simp [get_addrof_constraint, build_constraint, build_expr_str, build_args_str, Constructor.args]
  | Alloc a =>
    simp [instruction_constraints] at h; subst h
    simp [get_alloc_constraint, build_constraint, build_expr_str, build_args_str, Constructor.args]
  | Gep a =>
    simp [instruction_constraints] at h; subst h
    simp [get_gep_constraint, build_constraint, build_expr_str]
  | Gfp a =>
    simp [instruction_constraints] at h; subst h
    simp [get_gfp_constraint, build_constraint, build_expr_str]
  | Load a =>
    simp only [instruction_constraints] at h
    split at h
    · simp at h; subst h
      simp [get_load_constraint, build_constraint, build_expr_str]
    · simp at h; subst h; simp
  | Store st =>
    simp only [instruction_constraints] at h
    split at h
    · split at h
      · simp at h
      · split at h
        · unfold get_store_constraint at h
          split at h
          · simp at h
          · simp at h; subst h
            simp [build_constraint, build_expr_str]
        · simp at h; subst h; simp
    · simp at h; subst h; simp
  | Other => simp [instruction_constraints] at h; subst h; simp

/-- An instruction that reads no missing operand has statements. -/
theorem instruction_constraints_some (func_name : String) (i : Instruction) (h : InstructionOK i) :
    ∃ ss, instruction_constraints func_name i = some ss := by
  cases i with
  | Copy copy =>
    simp only [instruction_constraints]
    split
    · rename_i hp
      have hc := h (by simpa using hp)
      cases hop : copy.op with
      | ConstInt v => rw [hop] at hc; simp [Operand.IsConstInt] at hc
      | Var v => simp [get_copy_constraint, hop, Operand.var]
    · exact ⟨_, rfl⟩
  | Store st =>
    simp only [instruction_constraints]
    cases hop : st.op with
    | ConstInt v => simp [Operand.IsConstInt]
    | Var v =>
      simp only [Operand.IsConstInt, Operand.var]
      simp only [get_store_constraint, hop, Operand.var]
      split
      · split <;> simp
      · simp
  | Load a => simp only [instruction_constraints]; split <;> simp
  | Addrof a => exact ⟨_, rfl⟩
  | Alloc a => exact ⟨_, rfl⟩
  | Gep a => exact ⟨_, rfl⟩
  | Gfp a => exact ⟨_, rfl⟩
  | Other => exact ⟨_, rfl⟩

/-- The loop over the parameters: it yields one statement for each parameter of pointer type. -/
theorem call_dir_args_spec (call_dir : CallDirInstruction) (func callee : Function) :
    ∀ (prms : List Variable) (i : Nat),
      (∀ j prm, prms.get? j = some prm → prm.type.indirection ≠ 0 →
        ∃ var, call_dir.args.get? (i + j) = some (Operand.Var var)) →
      ∃ ss, call_dir_args call_dir func callee prms i = some ss ∧
        ∃ ls, build_lines ss = some ls ∧
          ∀ l, l ∈ ls ↔ ∃ j var prm, call_dir.args.get? (i + j) = some (Operand.Var var) ∧
            prms.get? j = some prm ∧ prm.type.indirection ≠ 0 ∧
            l = func.name ++ "." ++ var.name ++ " <= " ++ callee.name ++ "." ++ prm.name ++ "\n"
  | [], i, _ => ⟨[], rfl, [], rfl, by simp⟩
  | prm :: rest, i, h => by
    have hrest : ∀ j q, rest.get? j = some q → q.type.indirection ≠ 0 →
        ∃ var, call_dir.args.get? (i + 1 + j) = some (Operand.Var var) := by
      intro j q hq hptr
      have := h (j + 1) q (by simpa using hq) hptr
      rwa [show i + (j + 1) = i + 1 + j by omega] at this
    obtain ⟨ss, hss, ls, hls, hmem⟩ := call_dir_args_spec call_dir func callee rest (i + 1) hrest
    by_cases hptr : prm.type.indirection = 0
    · refine ⟨ss, by simp [call_dir_args, hptr, hss], ls, hls, ?_⟩
      intro l
      rw [hmem]
      constructor
      · rintro ⟨j, var, q, ha, hq, hp, hl⟩
        refine ⟨j + 1, var, q, ?_, by simpa using hq, hp, hl⟩
        rwa [show i + (j + 1) = i + 1 + j by omega]
      · rintro ⟨j, var, q, ha, hq, hp, hl⟩
        cases j with
        | zero =>
          simp at hq
          subst hq
          exact absurd hptr hp
        | succ j =>
          refine ⟨j, var, q, ?_, by simpa using hq, hp, hl⟩
          rwa [show i + (j + 1) = i + 1 + j by omega] at ha
    · obtain ⟨var, hvar⟩ := h 0 prm (by simp) hptr
      simp only [Nat.add_zero] at hvar
      have hvar1 : call_dir.args[i]? = some (Operand.Var var) := by
        rwa [List.get?_eq_getElem?] at hvar
      refine ⟨⟨Expression.Term (Term.SetVariable ⟨var.name, func.name, true⟩),
          Expression.Term (Term.SetVariable ⟨prm.name, callee.name, true⟩)⟩ :: ss,
        by simp [call_dir_args, hptr, hvar1, Operand.var, hss],
        (func.name ++ "." ++ var.name ++ " <= " ++ callee.name ++ "." ++ prm.name ++ "\n") :: ls,
        by simp [build_lines, build_constraint_sv, hls, build_set_var_str, String.append_assoc],
        ?_⟩
      intro l
      rw [List.mem_cons, hmem]
      constructor
      · rintro (hl | ⟨j, v, q, ha, hq, hp, hl⟩)
        · exact ⟨0, var, prm, hvar, by simp, hptr, hl⟩
        · refine ⟨j + 1, v, q, ?_, by simpa using hq, hp, hl⟩
          rwa [show i + (j + 1) = i + 1 + j by omega]
      · rintro ⟨j, v, q, ha, hq, hp, hl⟩
        cases j with
        | zero =>
          simp at hq
          subst hq
          simp only [Nat.add_zero] at ha
          rw [hvar] at ha
          cases ha
          exact Or.inl hl
        | succ j =>
          right
          refine ⟨j, v, q, ?_, by simpa using hq, hp, hl⟩
          rwa [show i + (j + 1) = i + 1 + j by omega] at ha

/-- The statements of a direct call and their texts: the one of the returned value when the
result is kept in a pointer, and one for each parameter of pointer type. -/
theorem get_call_dir_constraint_spec (call_dir : CallDirInstruction) (func callee : Function)
    (hargs : ∀ i prm, callee.params.get? i = some prm → prm.type.indirection ≠ 0 →
      ∃ var, call_dir.args.get? i = some (Operand.Var var))
    (hret : ∀ lhs, call_dir.lhs = some lhs → lhs.type.indirection ≠ 0 →
      ∃ ret_var, get_ret_val callee = some ret_var) :
    ∃ ss, get_call_dir_constraint call_dir func callee = some ss ∧
      ∃ ls, build_lines ss = some ls ∧
        ∀ l, l ∈ ls ↔
          (∃ lhs ret_var, call_dir.lhs = some lhs ∧ lhs.type.indirection ≠ 0 ∧
            get_ret_val callee = some ret_var ∧
            l = callee.name ++ "." ++ ret_var.name ++ " <= " ++ func.name ++ "." ++ lhs.name
              ++ "\n") ∨
          (∃ i var prm, call_dir.args.get? i = some (Operand.Var var) ∧
            callee.params.get? i = some prm ∧ prm.type.indirection ≠ 0 ∧
            l = func.name ++ "." ++ var.name ++ " <= " ++ callee.name ++ "." ++ prm.name
              ++ "\n") := by
  obtain ⟨ss, hss, ls, hls, hmem⟩ := call_dir_args_spec call_dir func callee callee.params 0
    (by simpa using hargs)
  simp only [Nat.zero_add] at hmem
  unfold get_call_dir_constraint
  cases hl : call_dir.lhs with
  | none =>
    refine ⟨ss, by simp [hss], ls, hls, ?_⟩
    intro l
    rw [hmem]
    simp
  | some lhs =>
    by_cases hptr : lhs.type.indirection = 0
    · refine ⟨ss, by simp [hss, hptr], ls, hls, ?_⟩
      intro l
      rw [hmem]
      constructor
      · exact Or.inr
      · rintro (⟨lhs1, r, h1, h2, -⟩ | h)
        · cases h1
          exact absurd hptr h2
        · exact h
    · obtain ⟨r, hr⟩ := hret lhs hl hptr
      refine ⟨⟨Expression.Term (Term.SetVariable ⟨r.name, callee.name, true⟩),
          Expression.Term (Term.SetVariable ⟨lhs.name, func.name, true⟩)⟩ :: ss,
        by simp [hss, hptr, hr],
        (callee.name ++ "." ++ r.name ++ " <= " ++ func.name ++ "." ++ lhs.name ++ "\n") :: ls,
        by simp [build_lines, build_constraint_sv, hls, build_set_var_str, String.append_assoc],
        ?_⟩
      intro l
      rw [List.mem_cons, hmem]
      constructor
      · rintro (h | h)
        · exact Or.inl ⟨lhs, r, rfl, hptr, hr, h⟩
        · exact Or.inr h
      · rintro (⟨lhs1, r1, h1, -, h3, h4⟩ | h)
        · cases h1
          rw [hr] at h3
          cases h3
          exact Or.inl h4
        · exact Or.inr h

/-- C11. For a CallDir terminal in the function `F` that calls the function `G` of the program
with variable arguments, one for each parameter of `G`, where `G` returns a variable if the
result of the call is kept in a pointer: the generator emits `F.arg_i <= G.param_i` for each
position `i` of pointer type (the test is made on the type of the parameter of `G`), it emits
`G.retvar <= F.lhs` if and only if the call has an `lhs` of pointer type, and it emits no other
constraint; nothing is emitted for the other positions. -/
theorem call_dir_emits (p : Program) (F G : Function) (call_dir : CallDirInstruction)
    (hG : p.funcs.lookup call_dir.callee = some G)
    (hvar : ∀ a ∈ call_dir.args, a.IsConstInt = false)
    (hlen : G.params.length ≤ call_dir.args.length)
    (hret : ∀ lhs, call_dir.lhs = some lhs → lhs.type.indirection ≠ 0 →
      ∃ ret_var, get_ret_val G = some ret_var) :
    ∃ ls, terminal_lines p F (Terminal.CallDir call_dir) = some ls ∧
      ∀ l, l ∈ ls ↔
        (∃ lhs ret_var, call_dir.lhs = some lhs ∧ lhs.type.indirection ≠ 0 ∧
          get_ret_val G = some ret_var ∧
          l = G.name ++ "." ++ ret_var.name ++ " <= " ++ F.name ++ "." ++ lhs.name ++ "\n") ∨
        (∃ i arg param, call_dir.args.get? i = some (Operand.Var arg) ∧
          G.params.get? i = some param ∧ param.type.indirection ≠ 0 ∧
          l = F.name ++ "." ++ arg.name ++ " <= " ++ G.name ++ "." ++ param.name ++ "\n") := by
  have hargs : ∀ i prm, G.params.get? i = some prm → prm.type.indirection ≠ 0 →
      ∃ var, call_dir.args.get? i = some (Operand.Var var) := by
    intro i prm hi _
    have hlt : i < G.params.length := by
      rw [List.get?_eq_getElem?] at hi
      exact (List.getElem?_eq_some_iff.1 hi).1
    have hlt1 : i < call_dir.args.length := Nat.lt_of_lt_of_le hlt hlen
    have hmem : call_dir.args[i] ∈ call_dir.args := List.getElem_mem hlt1
    have hc := hvar _ hmem
    rw [List.get?_eq_getElem?, List.getElem?_eq_getElem hlt1]
    cases ha : call_dir.args[i] with
    | ConstInt v => rw [ha] at hc; simp [Operand.IsConstInt] at hc
    | Var v => exact ⟨v, rfl⟩
  obtain ⟨ss, hss, ls, hls, hmem⟩ := get_call_dir_constraint_spec call_dir F G hargs hret
  refine ⟨ls, ?_, hmem⟩
  simp [terminal_lines, terminal_constraints, hG, hss, hls]

/-- C11, on the call `x := G(i, q)` in `F`, where `G` takes an int `n` and a pointer `a` and
returns `r`: the lines are `G.r <= F.x` and `F.q <= G.a`. -/
theorem call_dir_emits_witness :
    terminal_lines callProgram callerExample (Terminal.CallDir callExample) =
      some ["G.r <= F.x\n", "F.q <= G.a\n"] ∧
    ∃ ls, terminal_lines callProgram callerExample (Terminal.CallDir callExample) = some ls ∧
      ∀ l, l ∈ ls ↔
        (∃ lhs ret_var, callExample.lhs = some lhs ∧ lhs.type.indirection ≠ 0 ∧
          get_ret_val calleeExample = some ret_var ∧
          l = calleeExample.name ++ "." ++ ret_var.name ++ " <= " ++ callerExample.name ++ "."
            ++ lhs.name ++ "\n") ∨
        (∃ i arg param, callExample.args.get? i = some (Operand.Var arg) ∧
          calleeExample.params.get? i = some param ∧ param.type.indirection ≠ 0 ∧
          l = callerExample.name ++ "." ++ arg.name ++ " <= " ++ calleeExample.name ++ "."
            ++ param.name ++ "\n") :=
  ⟨by decide, call_dir_emits callProgram callerExample calleeExample callExample rfl
    (by decide) (by decide) (fun _ _ _ => ⟨ptrVar "r", rfl⟩)⟩

/-- A list of statements that has texts: every statement has one, and the texts are theirs. -/
theorem build_lines_mem : ∀ (cs : List Statement) (ls : List String), build_lines cs = some ls →
    (∀ c ∈ cs, ∃ l, build_constraint c = some l) ∧
    ∀ l, l ∈ ls ↔ ∃ c ∈ cs, build_constraint c = some l
  | [], ls, h => by
    simp [build_lines] at h
    subst h
    simp
  | c :: cs, ls, h => by
    unfold build_lines at h
    split at h
    · rename_i l ls1 hl hls1
      cases h
      have hc : ∀ c1 ∈ c :: cs, ∃ l, build_constraint c1 = some l := by
        intro c1 hc1
        rcases List.mem_cons.1 hc1 with rfl | hc1
        · exact ⟨l, hl⟩
        · exact (build_lines_mem cs ls1 hls1).1 c1 hc1
      refine ⟨hc, ?_⟩
      obtain ⟨ls2, hls2, hmem⟩ := build_lines_some (c :: cs) hc
      simp only [build_lines, hl, hls1] at hls2
      cases hls2
      exact hmem
    · cases h

/-- The set of the printed lines: ascending, and with the same members as the inserted texts. -/
theorem str_constraints_spec (ls : List String) :
    (str_constraints ls).Pairwise Solver.nameLt ∧ ∀ l, l ∈ str_constraints ls ↔ l ∈ ls := by
  have key : ∀ (ls set : List String), set.Pairwise Solver.nameLt →
      (ls.foldl (fun set l => Solver.setInsert l set) set).Pairwise Solver.nameLt ∧
      ∀ l, l ∈ ls.foldl (fun set l => Solver.setInsert l set) set ↔ l ∈ set ∨ l ∈ ls := by
    intro ls
    induction ls with
    | nil => intro set h; simpa using h
    | cons a ls ih =>
      intro set h
      obtain ⟨h1, h2⟩ := ih (Solver.setInsert a set) (Solver.sortedKeys_setInsert a h)
      refine ⟨h1, ?_⟩
      intro l
      simp only [List.foldl_cons]
      rw [h2, Solver.mem_setInsert, List.mem_cons]
      tauto
  obtain ⟨h1, h2⟩ := key ls [] List.Pairwise.nil
  exact ⟨h1, fun l => by rw [str_constraints, h2]; simp⟩

/-- A terminal that `main` handles has statements, and they have texts. -/
theorem terminal_lines_some (p : Program) (func : Function) (t : Terminal) (h : TerminalOK p t) :
    ∃ ss, terminal_constraints p func t = some ss ∧ ∃ ls, build_lines ss = some ls := by
  cases t with
  | CallDir call_dir =>
    obtain ⟨callee, hc, hargs, hret⟩ := h
    obtain ⟨ss, hss, ls, hls, -⟩ := get_call_dir_constraint_spec call_dir func callee hargs hret
    exact ⟨ss, by simp [terminal_constraints, hc, hss], ls, hls⟩
  | Ret r => exact ⟨[], rfl, [], rfl⟩
  | Other => exact ⟨[], rfl, [], rfl⟩

/-- The text of a statement: the two sides around `" <= "`, and a newline. -/
theorem build_constraint_shape (c : Statement) (l : String) (h : build_constraint c = some l) :
    ∃ s1 s2, build_expr_str c.e1 = some s1 ∧ build_expr_str c.e2 = some s2 ∧
      l = s1 ++ " <= " ++ s2 ++ "\n" := by
  unfold build_constraint at h
  split at h
  · rename_i s1 s2 h1 h2
    cases h
    exact ⟨s1, s2, h1, h2, rfl⟩
  · cases h

/-- C13. On a program that the generator handles to its end, the output is a strictly increasing
sequence of lines (in the lexicographic order of the texts, newline included), each line is the
text of one constraint, and the set of the printed lines equals the set of the constraint texts
generated from all instructions and terminals of all functions. -/
theorem main_prints_sorted_set (p : Program) (hp : ProgramOK p) :
    ∃ out, main_output p = some out ∧ out.Pairwise Solver.nameLt ∧
      (∀ l, l ∈ out ↔ ∃ func ∈ p.funcs, ∃ bb ∈ func.2.bbs,
        (∃ i ∈ bb.2.instructions, ∃ ls, instruction_lines func.1 i = some ls ∧ l ∈ ls) ∨
        (∃ ls, terminal_lines p func.2 bb.2.terminal = some ls ∧ l ∈ ls)) ∧
      (∀ l ∈ out, ∃ (c : Statement) (s1 s2 : String), build_expr_str c.e1 = some s1 ∧ build_expr_str c.e2 = some s2 ∧
        l = s1 ++ " <= " ++ s2 ++ "\n") := by
  -- every block has statements
  have hblock : ∀ func ∈ p.funcs, ∀ bb ∈ func.2.bbs,
      ∃ ss, block_constraints p func.1 func.2 bb.2 = some ss ∧
        ∀ c, c ∈ ss ↔ (∃ i ∈ bb.2.instructions, ∃ y,
            instruction_constraints func.1 i = some y ∧ c ∈ y) ∨
          (∃ y, terminal_constraints p func.2 bb.2.terminal = some y ∧ c ∈ y) := by
    intro func hf bb hb
    obtain ⟨hi, ht⟩ := hp func hf bb hb
    obtain ⟨x, hx, hxm⟩ := collect_some (instruction_constraints func.1) bb.2.instructions
      (fun i hi1 => instruction_constraints_some func.1 i (hi i hi1))
    obtain ⟨y, hy, -⟩ := terminal_lines_some p func.2 bb.2.terminal ht
    refine ⟨x ++ y, by simp [block_constraints, hx, hy], ?_⟩
    intro c
    rw [List.mem_append, hxm]
    constructor
    · rintro (h | h)
      · exact Or.inl h
      · exact Or.inr ⟨y, hy, h⟩
    · rintro (h | ⟨y1, hy1, h⟩)
      · exact Or.inl h
      · rw [hy] at hy1
        cases hy1
        exact Or.inr h
  have hfunc : ∀ func ∈ p.funcs,
      ∃ ss, collect (fun bb => block_constraints p func.1 func.2 bb.2) func.2.bbs = some ss ∧
        ∀ c, c ∈ ss ↔ ∃ bb ∈ func.2.bbs, (∃ i ∈ bb.2.instructions, ∃ y,
            instruction_constraints func.1 i = some y ∧ c ∈ y) ∨
          (∃ y, terminal_constraints p func.2 bb.2.terminal = some y ∧ c ∈ y) := by
    intro func hf
    obtain ⟨ss, hss, hmem⟩ := collect_some
      (fun bb : String × BasicBlock => block_constraints p func.1 func.2 bb.2) func.2.bbs
      (fun bb hb => (hblock func hf bb hb).imp fun _ h => h.1)
    refine ⟨ss, hss, ?_⟩
    intro c
    rw [hmem]
    constructor
    · rintro ⟨bb, hb, y, hy, hc⟩
      obtain ⟨y1, hy1, hm⟩ := hblock func hf bb hb
      rw [hy1] at hy
      cases hy
      exact ⟨bb, hb, (hm c).1 hc⟩
    · rintro ⟨bb, hb, h⟩
      obtain ⟨y1, hy1, hm⟩ := hblock func hf bb hb
      exact ⟨bb, hb, y1, hy1, (hm c).2 h⟩
  obtain ⟨cs, hcs, hcm⟩ := collect_some
    (fun func : String × Function =>
      collect (fun bb => block_constraints p func.1 func.2 bb.2) func.2.bbs) p.funcs
    (fun func hf => (hfunc func hf).imp fun _ h => h.1)
  have hcm1 : ∀ c, c ∈ cs ↔ ∃ func ∈ p.funcs, ∃ bb ∈ func.2.bbs,
      (∃ i ∈ bb.2.instructions, ∃ y, instruction_constraints func.1 i = some y ∧ c ∈ y) ∨
      (∃ y, terminal_constraints p func.2 bb.2.terminal = some y ∧ c ∈ y) := by
    intro c
    rw [hcm]
    constructor
    · rintro ⟨func, hf, y, hy, hc⟩
      obtain ⟨y1, hy1, hm⟩ := hfunc func hf
      rw [hy1] at hy
      cases hy
      exact ⟨func, hf, (hm c).1 hc⟩
    · rintro ⟨func, hf, h⟩
      obtain ⟨y1, hy1, hm⟩ := hfunc func hf
      exact ⟨func, hf, y1, hy1, (hm c).2 h⟩
  -- every statement has a text
  have hprint : ∀ c ∈ cs, ∃ l, build_constraint c = some l := by
    intro c hc
    obtain ⟨func, hf, bb, hb, h | h⟩ := (hcm1 c).1 hc
    · obtain ⟨i, -, y, hy, hcy⟩ := h
      exact instruction_constraints_printable func.1 i y hy c hcy
    · obtain ⟨y, hy, hcy⟩ := h
      obtain ⟨y1, hy1, ls, hls⟩ := terminal_lines_some p func.2 bb.2.terminal (hp func hf bb hb).2
      rw [hy1] at hy
      cases hy
      exact (build_lines_mem _ _ hls).1 c hcy
  obtain ⟨ls, hls, hlm⟩ := build_lines_some cs hprint
  obtain ⟨hsorted, hsm⟩ := str_constraints_spec ls
  refine ⟨str_constraints ls, by simp [main_output, main_constraints, hcs, hls], hsorted, ?_, ?_⟩
  · intro l
    rw [hsm, hlm]
    constructor
    · rintro ⟨c, hc, hl⟩
      obtain ⟨func, hf, bb, hb, h | h⟩ := (hcm1 c).1 hc
      · obtain ⟨i, hi, y, hy, hcy⟩ := h
        obtain ⟨ls1, hls1⟩ := build_lines_some y (instruction_constraints_printable func.1 i y hy)
        refine ⟨func, hf, bb, hb, Or.inl ⟨i, hi, ls1, by simp [instruction_lines, hy, hls1.1], ?_⟩⟩
        exact (hls1.2 l).2 ⟨c, hcy, hl⟩
      · obtain ⟨y, hy, hcy⟩ := h
        obtain ⟨y1, hy1, ls1, hls1⟩ :=
          terminal_lines_some p func.2 bb.2.terminal (hp func hf bb hb).2
        rw [hy1] at hy
        cases hy
        refine ⟨func, hf, bb, hb, Or.inr ⟨ls1, by simp [terminal_lines, hy1, hls1], ?_⟩⟩
        exact ((build_lines_mem _ _ hls1).2 l).2 ⟨c, hcy, hl⟩
    · rintro ⟨func, hf, bb, hb, h | h⟩
      · obtain ⟨i, hi, ls1, hls1, hl⟩ := h
        unfold instruction_lines at hls1
        split at hls1
        · cases hls1
        · rename_i y hy
          obtain ⟨c, hcy, hcl⟩ := ((build_lines_mem _ _ hls1).2 l).1 hl
          exact ⟨c, (hcm1 c).2 ⟨func, hf, bb, hb, Or.inl ⟨i, hi, y, hy, hcy⟩⟩, hcl⟩
      · obtain ⟨ls1, hls1, hl⟩ := h
        unfold terminal_lines at hls1
        split at hls1
        · cases hls1
        · rename_i y hy
          obtain ⟨c, hcy, hcl⟩ := ((build_lines_mem _ _ hls1).2 l).1 hl
          exact ⟨c, (hcm1 c).2 ⟨func, hf, bb, hb, Or.inr ⟨y, hy, hcy⟩⟩, hcl⟩
  · intro l hl
    obtain ⟨c, -, hcl⟩ := (hlm l).1 ((hsm l).1 hl)
    obtain ⟨s1, s2, h1, h2, e⟩ := build_constraint_shape c l hcl
    exact ⟨c, s1, s2, h1, h2, e⟩

/-- The example of a direct call is a program that the generator handles to its end. -/
theorem callProgram_ok : ProgramOK callProgram := by
  intro func hf bb hb
  simp only [callProgram, List.mem_cons, List.mem_singleton, List.not_mem_nil, or_false] at hf
  rcases hf with rfl | rfl
  · simp only [callerExample, List.mem_singleton] at hb
    subst hb
    refine ⟨?_, ?_⟩
    · intro i hi
      simp only [List.mem_singleton] at hi
      subst hi
      intro _
      rfl
    · refine ⟨calleeExample, rfl, ?_, ?_⟩
      · intro i prm hi hptr
        match i, hi with
        | 0, hi => simp [calleeExample, intVar] at hi; subst hi; simp at hptr
        | 1, hi => exact ⟨ptrVar "q", rfl⟩
        | i + 2, hi => simp [calleeExample] at hi
      · intro lhs _ _
        exact ⟨ptrVar "r", rfl⟩
  · simp only [calleeExample, List.mem_singleton] at hb
    subst hb
    exact ⟨by simp, trivial⟩

/-- C13, on the example of a direct call: the lines `F.p <= F.q`, `F.q <= G.a` and `G.r <= F.x`
are printed in this order. -/
theorem main_prints_sorted_set_witness :
    main_output callProgram = some ["F.p <= F.q\n", "F.q <= G.a\n", "G.r <= F.x\n"] ∧
    ∃ out, main_output callProgram = some out ∧ out.Pairwise Solver.nameLt ∧
      (∀ l, l ∈ out ↔ ∃ func ∈ callProgram.funcs, ∃ bb ∈ func.2.bbs,
        (∃ i ∈ bb.2.instructions, ∃ ls, instruction_lines func.1 i = some ls ∧ l ∈ ls) ∨
        (∃ ls, terminal_lines callProgram func.2 bb.2.terminal = some ls ∧ l ∈ ls)) ∧
      (∀ l ∈ out, ∃ (c : Statement) (s1 s2 : String), build_expr_str c.e1 = some s1 ∧ build_expr_str c.e2 = some s2 ∧
        l = s1 ++ " <= " ++ s2 ++ "\n") :=
  ⟨by decide, main_prints_sorted_set callProgram callProgram_ok⟩

/-- C12. The global pointer `g` is copied in `F` and in `H`: the generator renders it with the
name of the function around it, as `F.g` in one line and as `H.g` in the other, not as the bare
`g` with an empty function name, so that the two uses are two different set variables. -/
theorem global_rendered_function_qualified :
    ptrVar "g" ∈ globalExample.globals ∧
    main_output globalExample = some ["F.g <= F.p\n", "H.g <= H.q\n"] ∧
    get_copy_constraint ⟨ptrVar "p", Operand.Var (ptrVar "g")⟩ "F" =
      some ⟨Expression.Term (Term.SetVariable ⟨"g", "F", true⟩),
        Expression.Term (Term.SetVariable ⟨"p", "F", true⟩)⟩ ∧
    build_set_var_str ⟨"g", "F", true⟩ ≠ build_set_var_str ⟨"g", "H", true⟩ := by
  refine ⟨by decide, by decide, rfl, by decide⟩

end Generator

/-! ## The call graph of the mod/ref analysis -/

namespace ModRef

open Generator (Variable Operand intVar ptrVar)

theorem mem_insertNew {α : Type} [DecidableEq α] {a x : α} {l : List α} :
    x ∈ insertNew a l ↔ x = a ∨ x ∈ l := by
  unfold insertNew
  split
  · constructor
    · exact Or.inr
    · rintro (rfl | h)
      · assumption
      · exact h
  · simp [or_comm]

theorem mem_get_node {st : State} {name x : String} :
    x ∈ (get_node st name).nodes_ ↔ x = name ∨ x ∈ st.nodes_ := by
  unfold get_node
  split
  · constructor
    · exact Or.inr
    · rintro (rfl | h)
      · assumption
      · exact h
  · simp [or_comm]

theorem get_node_succs (st : State) (name : String) : (get_node st name).succs = st.succs := by
  unfold get_node; split <;> rfl

theorem get_node_preds (st : State) (name : String) : (get_node st name).preds = st.preds := by
  unfold get_node; split <;> rfl

theorem get_node_mods (st : State) (name : String) : (get_node st name).mods = st.mods := by
  unfold get_node; split <;> rfl

theorem get_node_refs (st : State) (name : String) : (get_node st name).refs = st.refs := by
  unfold get_node; split <;> rfl

/-- A loop keeps an invariant, moves along a preorder, and leaves behind what each element
establishes, when that is kept along the preorder. -/
theorem foldl_collect {σ α : Type} (f : σ → α → σ) (I : σ → Prop) (R : σ → σ → Prop)
    (Q : α → σ → Prop) (hrefl : ∀ s, R s s) (htrans : ∀ s s1 s2, R s s1 → R s1 s2 → R s s2)
    (hQ : ∀ a s s1, Q a s → R s s1 → Q a s1) :
    ∀ (l : List α) (s : σ), I s → (∀ s a, a ∈ l → I s → I (f s a) ∧ R s (f s a) ∧ Q a (f s a)) →
      I (l.foldl f s) ∧ R s (l.foldl f s) ∧ ∀ a ∈ l, Q a (l.foldl f s)
  | [], s, hs, _ => ⟨hs, hrefl s, by simp⟩
  | a :: l, s, hs, hstep => by
    obtain ⟨h1, h2, h3⟩ := hstep s a (List.mem_cons_self _ _) hs
    obtain ⟨k1, k2, k3⟩ := foldl_collect f I R Q hrefl htrans hQ l (f s a) h1
      (fun s b hb => hstep s b (List.mem_cons_of_mem _ hb))
    refine ⟨k1, htrans _ _ _ h2 k2, ?_⟩
    intro b hb
    rcases List.mem_cons.1 hb with rfl | hb
    · exact hQ _ _ _ h3 k2
    · exact k3 b hb

theorem CallStep.rfl (p : Program) (pointsTo : PointsTo) (w : Walk) : CallStep p pointsTo w w :=
  ⟨fun _ h => h, fun _ h => h, fun _ h => h, Nat.le_refl _⟩

theorem CallStep.tr (p : Program) (pointsTo : PointsTo) (w w1 w2 : Walk)
    (h : CallStep p pointsTo w w1) (h1 : CallStep p pointsTo w1 w2) : CallStep p pointsTo w w2 :=
  ⟨fun e he => h1.succs e (h.succs e he), fun v hv => h1.visited v (h.visited v hv),
    fun q hq => h1.queue q (h.queue q hq), Nat.le_trans h1.measure h.measure⟩

/-- A member that is excluded takes one from the members that are not excluded. -/
theorem filter_push {α : Type} [DecidableEq α] (U V : List α) (x : α) (hx : x ∈ U) (hv : x ∉ V) :
    (U.filter (fun n => n ∉ V ++ [x])).length + 1 ≤ (U.filter (fun n => n ∉ V)).length := by
  induction U with
  | nil => cases hx
  | cons a U ih =>
    by_cases hax : a = x
    · subst hax
      have h1 : (List.filter (fun n => decide (n ∉ V ++ [a])) (a :: U)) =
          List.filter (fun n => decide (n ∉ V ++ [a])) U := by
        rw [List.filter_cons_of_neg]
        simp
      have h2 : (List.filter (fun n => decide (n ∉ V)) (a :: U)) =
          a :: List.filter (fun n => decide (n ∉ V)) U := by
        rw [List.filter_cons_of_pos]
        simpa using hv
      rw [h1, h2, List.length_cons]
      have h3 : (List.filter (fun n => decide (n ∉ V ++ [a])) U).length ≤
          (List.filter (fun n => decide (n ∉ V)) U).length := by
        apply List.Sublist.length_le
        apply List.monotone_filter_right
        intro n hn
        simp only [List.mem_append, List.mem_singleton, not_or, decide_eq_true_eq] at hn ⊢
        exact hn.1
      omega
    · have hxU : x ∈ U := by
        rcases List.mem_cons.1 hx with h | h
        · exact absurd h.symm hax
        · exact h
      have ih1 := ih hxU
      by_cases haV : a ∈ V
      · rw [List.filter_cons_of_neg (by simp [haV]), List.filter_cons_of_neg (by simp [haV])]
        exact ih1
      · rw [List.filter_cons_of_pos (by simp [haV, hax]), List.filter_cons_of_pos (by simp [haV])]
        simp only [List.length_cons]
        omega

/-- One callee: the edge is there afterwards, and the callee is visited. -/
theorem add_callee_spec (p : Program) (pointsTo : PointsTo) (N : String) (w : Walk)
    (callee : String) (hw : CallMid p pointsTo N w) (hc : Calls p pointsTo N callee)
    (hn : callee ∈ callNames p pointsTo) :
    CallMid p pointsTo N (add_callee N w callee) ∧
      CallStep p pointsTo w (add_callee N w callee) ∧
      (N, callee) ∈ (add_callee N w callee).st.succs := by
  have hst : ∀ e, e ∈ (add_edge (get_node w.st callee) N callee).succs ↔
      e = (N, callee) ∨ e ∈ w.st.succs := by
    intro e
    simp only [add_edge, mem_insertNew, get_node_succs]
  have hpr : ∀ e, e ∈ (add_edge (get_node w.st callee) N callee).preds ↔
      e = (callee, N) ∨ e ∈ w.st.preds := by
    intro e
    simp only [add_edge, mem_insertNew, get_node_preds]
  have hnd : ∀ x, x ∈ (add_edge (get_node w.st callee) N callee).nodes_ ↔
      x = callee ∨ x ∈ w.st.nodes_ := by
    intro x
    simp only [add_edge, mem_get_node]
  have hsync : ∀ a b, (a, b) ∈ (add_edge (get_node w.st callee) N callee).succs ↔
      (b, a) ∈ (add_edge (get_node w.st callee) N callee).preds := by
    intro a b
    rw [hst, hpr, hw.sync a b]
    simp only [Prod.mk.injEq]
    tauto
  have hmods : (add_edge (get_node w.st callee) N callee).mods = [] := by
    simp only [add_edge, get_node_mods, hw.mods]
  have hrefs : (add_edge (get_node w.st callee) N callee).refs = [] := by
    simp only [add_edge, get_node_refs, hw.refs]
  have hreach : Relation.ReflTransGen (Calls p pointsTo) "test" callee :=
    (hw.reach N hw.self_vis).tail hc
  by_cases hv : callee ∈ w.visited
  · have e : add_callee N w callee =
        { w with st := add_edge (get_node w.st callee) N callee } := by
      simp [add_callee, hv]
    rw [e]
    refine ⟨⟨hw.test_vis, hw.reach, hw.queue_vis, ?_, ?_, hsync, ?_, ?_, hmods, hrefs,
      hw.self_vis, hw.names⟩, ⟨?_, fun _ h => h, fun _ h => h, Nat.le_refl _⟩,
      (hst _).2 (Or.inl rfl)⟩
    · intro v hvv hq hvN b hb
      exact (hst _).2 (Or.inr (hw.done v hvv hq hvN b hb))
    · intro a b hab
      rcases (hst _).1 hab with h | h
      · cases h
        exact ⟨hc, hw.self_vis, hv⟩
      · exact hw.edges a b h
    · intro n hn1
      rcases (hnd n).1 hn1 with rfl | h
      · exact hv
      · exact hw.nodes n h
    · intro v hvv hq
      exact (hnd v).2 (Or.inr (hw.made v hvv hq))
    · intro e he
      exact (hst e).2 (Or.inr he)
  · have e : add_callee N w callee =
        { st := add_edge (get_node w.st callee) N callee, queue := w.queue ++ [callee],
          visited := w.visited ++ [callee] } := by
      simp [add_callee, hv]
    rw [e]
    refine ⟨⟨?_, ?_, ?_, ?_, ?_, hsync, ?_, ?_, hmods, hrefs, ?_, ?_⟩, ⟨?_, ?_, ?_, ?_⟩,
      (hst _).2 (Or.inl rfl)⟩
    · exact List.mem_append_left _ hw.test_vis
    · intro v hvv
      rcases List.mem_append.1 hvv with h | h
      · exact hw.reach v h
      · simp only [List.mem_singleton] at h
        subst h
        exact hreach
    · intro q hq
      rcases List.mem_append.1 hq with h | h
      · exact List.mem_append_left _ (hw.queue_vis q h)
      · exact List.mem_append_right _ h
    · intro v hvv hq hvN b hb
      have hq1 : v ∉ w.queue := fun h => hq (List.mem_append_left _ h)
      have hv1 : v ∈ w.visited := by
        rcases List.mem_append.1 hvv with h | h
        · exact h
        · exact absurd (List.mem_append_right _ h) hq
      exact (hst _).2 (Or.inr (hw.done v hv1 hq1 hvN b hb))
    · intro a b hab
      rcases (hst _).1 hab with h | h
      · cases h
        exact ⟨hc, List.mem_append_left _ hw.self_vis, List.mem_append_right _ (by simp)⟩
      · obtain ⟨h1, h2, h3⟩ := hw.edges a b h
        exact ⟨h1, List.mem_append_left _ h2, List.mem_append_left _ h3⟩
    · intro n hn1
      rcases (hnd n).1 hn1 with rfl | h
      · exact List.mem_append_right _ (by simp)
      · exact List.mem_append_left _ (hw.nodes n h)
    · intro v hvv hq
      have hq1 : v ∉ w.queue := fun h => hq (List.mem_append_left _ h)
      have hv1 : v ∈ w.visited := by
        rcases List.mem_append.1 hvv with h | h
        · exact h
        · exact absurd (List.mem_append_right _ h) hq
      exact (hnd v).2 (Or.inr (hw.made v hv1 hq1))
    · exact List.mem_append_left _ hw.self_vis
    · intro v hvv
      rcases List.mem_append.1 hvv with h | h
      · exact hw.names v h
      · simp only [List.mem_singleton] at h
        subst h
        exact hn
    · intro e he
      exact (hst e).2 (Or.inr he)
    · intro v hvv
      exact List.mem_append_left _ hvv
    · intro q hq
      exact List.mem_append_left _ hq
    · have := filter_push (callNames p pointsTo) w.visited callee hn hv
      simp only [List.length_append, List.length_singleton]
      omega

/-- The calls of a function are the callees of its blocks. -/
theorem calls_iff (p : Program) (pointsTo : PointsTo) (a b : String) :
    Calls p pointsTo a b ↔
      ∃ func, p.func a = some func ∧ ∃ bb ∈ func.bbs, b ∈ blockCallees pointsTo bb.2 := by
  constructor
  · rintro ⟨func, hf, bb, hb, h | h⟩
    · obtain ⟨c, hc, rfl⟩ := h
      exact ⟨func, hf, bb, hb, by simp [blockCallees, hc]⟩
    · obtain ⟨c, hc, hm⟩ := h
      exact ⟨func, hf, bb, hb, by simpa [blockCallees, hc] using hm⟩
  · rintro ⟨func, hf, bb, hb, h⟩
    refine ⟨func, hf, bb, hb, ?_⟩
    unfold blockCallees at h
    split at h
    · rename_i c hc
      simp only [List.mem_singleton] at h
      exact Or.inl ⟨c, hc, h.symm⟩
    · rename_i c hc
      exact Or.inr ⟨c, hc, h⟩
    · cases h

/-- A function that the lookup finds is a function of the program, under its name. -/
theorem func_mem (p : Program) (name : String) (func : Function) (h : p.func name = some func) :
    func ∈ p.funcs ∧ func.name = name := by
  unfold Program.func at h
  exact ⟨List.mem_of_find?_eq_some h, by simpa using List.find?_some h⟩

/-- The callees of the blocks of a function of the program are names that can be met. -/
theorem blockCallees_names (p : Program) (pointsTo : PointsTo) (func : Function)
    (hf : func ∈ p.funcs) (bb : String × BasicBlock) (hb : bb ∈ func.bbs) (c : String)
    (hc : c ∈ blockCallees pointsTo bb.2) : c ∈ callNames p pointsTo := by
  unfold callNames
  refine List.mem_cons_of_mem _ ?_
  rw [List.mem_flatMap]
  refine ⟨func, hf, ?_⟩
  rw [List.mem_flatMap]
  exact ⟨bb, hb, hc⟩

/-- One block: the edges to its callees are there afterwards. -/
theorem call_graph_block_spec (p : Program) (pointsTo : PointsTo) (N : String) (func : Function)
    (hf : p.func N = some func) (bb : String × BasicBlock) (hb : bb ∈ func.bbs) (w : Walk)
    (hw : CallMid p pointsTo N w) :
    CallMid p pointsTo N (call_graph_block pointsTo N w bb.2) ∧
      CallStep p pointsTo w (call_graph_block pointsTo N w bb.2) ∧
      ∀ c ∈ blockCallees pointsTo bb.2, (N, c) ∈ (call_graph_block pointsTo N w bb.2).st.succs := by
  have hcall : ∀ c ∈ blockCallees pointsTo bb.2, Calls p pointsTo N c :=
    fun c hc => (calls_iff p pointsTo N c).2 ⟨func, hf, bb, hb, hc⟩
  have hname : ∀ c ∈ blockCallees pointsTo bb.2, c ∈ callNames p pointsTo :=
    fun c hc => blockCallees_names p pointsTo func (func_mem p N func hf).1 bb hb c hc
  have key : call_graph_block pointsTo N w bb.2 =
      (blockCallees pointsTo bb.2).foldl (add_callee N) w := by
    unfold call_graph_block blockCallees
    split <;> simp_all
  rw [key]
  exact foldl_collect (add_callee N) (CallMid p pointsTo N) (CallStep p pointsTo)
    (fun c w1 => (N, c) ∈ w1.st.succs) (CallStep.rfl p pointsTo) (CallStep.tr p pointsTo)
    (fun c s s1 h h1 => h1.succs _ h) (blockCallees pointsTo bb.2) w hw
    (fun s c hc hs => add_callee_spec p pointsTo N s c hs (hcall c hc) (hname c hc))

/-- One iteration of the loop of `ComputeCallGraph`. -/
theorem call_graph_body_spec (p : Program) (pointsTo : PointsTo) (N : String) (func : Function)
    (hf : p.func N = some func) (rest : List String) (w : Walk) (hq : w.queue = N :: rest)
    (hw : CallInv p pointsTo w) :
    CallInv p pointsTo (func.bbs.foldl (fun w1 bb => call_graph_block pointsTo N w1 bb.2)
        { w with st := get_node w.st N, queue := rest }) ∧
      CallStep p pointsTo { w with st := get_node w.st N, queue := rest }
        (func.bbs.foldl (fun w1 bb => call_graph_block pointsTo N w1 bb.2)
          { w with st := get_node w.st N, queue := rest }) := by
  have hNv : N ∈ w.visited := hw.queue_vis N (by rw [hq]; exact List.mem_cons_self _ _)
  have hmid : CallMid p pointsTo N { w with st := get_node w.st N, queue := rest } := by
    refine ⟨hw.test_vis, hw.reach, ?_, ?_, ?_, ?_, ?_, ?_, ?_, ?_, hNv, hw.names⟩
    · intro q hq1
      exact hw.queue_vis q (by rw [hq]; exact List.mem_cons_of_mem _ hq1)
    · intro v hv hvq hvN b hb
      have : v ∉ w.queue := by
        rw [hq]
        simp only [List.mem_cons, not_or]
        exact ⟨hvN, hvq⟩
      simpa [get_node_succs] using hw.done v hv this b hb
    · intro a b hab
      simp only [get_node_succs] at hab
      exact hw.edges a b hab
    · intro a b
      simp only [get_node_succs, get_node_preds]
      exact hw.sync a b
    · intro n hn
      rcases mem_get_node.1 hn with rfl | h
      · exact hNv
      · exact hw.nodes n h
    · intro v hv hvq
      by_cases hvN : v = N
      · exact mem_get_node.2 (Or.inl hvN)
      · have : v ∉ w.queue := by
          rw [hq]
          simp only [List.mem_cons, not_or]
          exact ⟨hvN, hvq⟩
        exact mem_get_node.2 (Or.inr (hw.made v hv this))
    · simp only [get_node_mods, hw.mods]
    · simp only [get_node_refs, hw.refs]
  obtain ⟨h1, h2, h3⟩ := foldl_collect (fun w1 (bb : String × BasicBlock) =>
      call_graph_block pointsTo N w1 bb.2) (CallMid p pointsTo N) (CallStep p pointsTo)
    (fun bb w1 => ∀ c ∈ blockCallees pointsTo bb.2, (N, c) ∈ w1.st.succs)
    (CallStep.rfl p pointsTo) (CallStep.tr p pointsTo)
    (fun bb s s1 h h1 c hc => h1.succs _ (h c hc)) func.bbs _ hmid
    (fun s bb hb hs => call_graph_block_spec p pointsTo N func hf bb hb s hs)
  refine ⟨⟨h1.test_vis, h1.reach, h1.queue_vis, ?_, h1.edges, h1.sync, h1.nodes, h1.made,
    h1.mods, h1.refs, h1.names⟩, h2⟩
  intro v hv hvq b hb
  by_cases hvN : v = N
  · subst hvN
    obtain ⟨func1, hf1, bb, hbb, hc⟩ := (calls_iff p pointsTo v b).1 hb
    rw [hf] at hf1
    cases hf1
    exact h3 bb hbb b hc
  · exact h1.done v hv hvq hvN b hb

/-- The loop of `ComputeCallGraph` ends when the fuel exceeds the length of the queue plus the
number of names not yet visited, provided every reachable name is a function of the program. -/
theorem call_graph_loop_finishes (p : Program) (pointsTo : PointsTo)
    (hdef : ∀ v, Relation.ReflTransGen (Calls p pointsTo) "test" v → ∃ func, p.func v = some func) :
    ∀ (fuel : Nat) (w : Walk), CallInv p pointsTo w →
      w.queue.length + ((callNames p pointsTo).filter (fun n => n ∉ w.visited)).length < fuel →
      ∃ w1, call_graph_loop p pointsTo fuel w = Outcome.finished w1 ∧ CallInv p pointsTo w1 ∧
        w1.queue = []
  | 0, w, _, hlt => by omega
  | fuel + 1, w, hw, hlt => by
    unfold call_graph_loop
    cases hq : w.queue with
    | nil => exact ⟨w, rfl, hw, hq⟩
    | cons N rest =>
      have hNv : N ∈ w.visited := hw.queue_vis N (by rw [hq]; exact List.mem_cons_self _ _)
      obtain ⟨func, hf⟩ := hdef N (hw.reach N hNv)
      obtain ⟨h1, h2⟩ := call_graph_body_spec p pointsTo N func hf rest w hq hw
      simp only [hf]
      apply call_graph_loop_finishes p pointsTo hdef fuel _ h1
      have hm := h2.measure
      simp only [hq, List.length_cons] at hlt
      simp only at hm
      omega

/-- More fuel does not change the result of the loop of `ComputeCallGraph`. -/
theorem call_graph_loop_mono (p : Program) (pointsTo : PointsTo) :
    ∀ (fuel : Nat) (w w1 : Walk), call_graph_loop p pointsTo fuel w = Outcome.finished w1 →
      ∀ fuel1, fuel ≤ fuel1 → call_graph_loop p pointsTo fuel1 w = Outcome.finished w1
  | 0, w, w1, h, fuel1, _ => by
    unfold call_graph_loop at h
    split at h
    · rename_i hq
      cases h
      cases fuel1 with
      | zero => simp [call_graph_loop, hq]
      | succ n => simp [call_graph_loop, hq]
    · cases h
  | fuel + 1, w, w1, h, fuel1, hle => by
    cases fuel1 with
    | zero => omega
    | succ n =>
      unfold call_graph_loop at h ⊢
      cases hq : w.queue with
      | nil => simpa [hq] using h
      | cons N rest =>
        simp only [hq] at h ⊢
        cases hf : p.func N with
        | none => simp [hf] at h
        | some func =>
          simp only [hf] at h ⊢
          exact call_graph_loop_mono p pointsTo fuel _ w1 h n (by omega)

/-- Every reachable name is a function of the program when every name that can be met is. -/
theorem reachable_defined (p : Program) (pointsTo : PointsTo)
    (h : ∀ n ∈ callNames p pointsTo, (p.func n).isSome = true) :
    ∀ v, Relation.ReflTransGen (Calls p pointsTo) "test" v → ∃ func, p.func v = some func := by
  intro v hv
  apply Option.isSome_iff_exists.1
  apply h
  cases hv with
  | refl => exact List.mem_cons_self _ _
  | tail _ hc =>
    obtain ⟨func, hf, bb, hb, hc1⟩ := (calls_iff p pointsTo _ v).1 hc
    exact blockCallees_names p pointsTo func (func_mem p _ func hf).1 bb hb v hc1

/-- The function `ComputeCallGraph` ends within `callGraphFuel` iterations, with the loop
invariant and an empty queue. -/
theorem ComputeCallGraph_finishes (p : Program) (pointsTo : PointsTo)
    (hdef : ∀ v, Relation.ReflTransGen (Calls p pointsTo) "test" v → ∃ func, p.func v = some func) :
    ∃ w, (∀ fuel, callGraphFuel p pointsTo ≤ fuel →
        ComputeCallGraph p pointsTo fuel State.empty = Outcome.finished w) ∧
      CallInv p pointsTo w ∧ w.queue = [] := by
  have hinit : CallInv p pointsTo ⟨State.empty, ["test"], ["test"]⟩ := by
    refine ⟨by simp, ?_, by simp, ?_, ?_, ?_, ?_, ?_, rfl, rfl, ?_⟩
    · intro v hv
      simp only [List.mem_singleton] at hv
      subst hv
      exact Relation.ReflTransGen.refl
    · intro v hv hq
      exact absurd hv hq
    · intro a b h
      simp [State.empty] at h
    · intro a b
      simp [State.empty]
    · intro n h
      simp [State.empty] at h
    · intro v hv hq
      exact absurd hv hq
    · intro v hv
      simp only [List.mem_singleton] at hv
      subst hv
      exact List.mem_cons_self _ _
  have hm : (⟨State.empty, ["test"], ["test"]⟩ : Walk).queue.length +
      ((callNames p pointsTo).filter
        (fun n => n ∉ (⟨State.empty, ["test"], ["test"]⟩ : Walk).visited)).length <
      callGraphFuel p pointsTo := by
    unfold callGraphFuel callNames
    rw [List.filter_cons_of_neg (by simp)]
    have := List.length_filter_le (fun n => decide (n ∉ ["test"]))
      (p.funcs.flatMap (fun f => f.bbs.flatMap (fun bb => blockCallees pointsTo bb.2)))
    simp only [List.length_cons, List.length_nil]
    omega
  obtain ⟨w, hw, hinv, hq⟩ := call_graph_loop_finishes p pointsTo hdef _ _ hinit hm
  exact ⟨w, fun fuel hle => call_graph_loop_mono p pointsTo _ _ w hw fuel hle, hinv, hq⟩

/-- At the end of `ComputeCallGraph` the visited names are those that the calls reach from
`test`, and the edges of the graph are the calls of the visited functions. -/
theorem CallInv.at_end (p : Program) (pointsTo : PointsTo) (w : Walk) (hw : CallInv p pointsTo w)
    (hq : w.queue = []) :
    (∀ f, f ∈ w.visited ↔ Relation.ReflTransGen (Calls p pointsTo) "test" f) ∧
    (∀ a b, (a, b) ∈ w.st.succs ↔ a ∈ w.visited ∧ Calls p pointsTo a b) ∧
    (∀ f, f ∈ w.visited ↔ f ∈ w.st.nodes_) := by
  have hnq : ∀ v, v ∉ w.queue := by
    intro v
    rw [hq]
    simp
  have hedge : ∀ a b, (a, b) ∈ w.st.succs ↔ a ∈ w.visited ∧ Calls p pointsTo a b := by
    intro a b
    constructor
    · intro h
      exact ⟨(hw.edges a b h).2.1, (hw.edges a b h).1⟩
    · rintro ⟨h1, h2⟩
      exact hw.done a h1 (hnq a) b h2
  refine ⟨?_, hedge, fun f => ⟨fun h => hw.made f h (hnq f), hw.nodes f⟩⟩
  intro f
  constructor
  · exact hw.reach f
  · intro h
    induction h with
    | refl => exact hw.test_vis
    | tail _ hc ih => exact (hw.edges _ _ ((hedge _ _).2 ⟨ih, hc⟩)).2.2

/-- C15. When every name that the calls reach from `test` is a function of the program,
`ComputeCallGraph` ends (within `callGraphFuel` iterations); the visited functions are then
exactly the functions reachable from `test` through call edges (the edges of the graph it has
built, which are the calls, direct or through `pointsTo`, of the visited functions), and for
every visited function `A` and every block of `A` whose terminal is a direct call of `B`, `B` is
in `succs(A)` and `A` is in `preds(B)`. -/
theorem call_graph_visits_reachable (p : Program) (pointsTo : PointsTo)
    (hdef : ∀ v, Relation.ReflTransGen (Calls p pointsTo) "test" v → ∃ func, p.func v = some func) :
    ∃ w, (∀ fuel, callGraphFuel p pointsTo ≤ fuel →
        ComputeCallGraph p pointsTo fuel State.empty = Outcome.finished w) ∧
      (∀ f, f ∈ w.visited ↔ Relation.ReflTransGen (Succ w.st) "test" f) ∧
      (∀ f, f ∈ w.visited ↔ Relation.ReflTransGen (Calls p pointsTo) "test" f) ∧
      (∀ A ∈ w.visited, ∀ func, p.func A = some func → ∀ bb ∈ func.bbs, ∀ c,
        bb.2.terminal = Terminal.CallDir c →
          (A, c.callee) ∈ w.st.succs ∧ (c.callee, A) ∈ w.st.preds) := by
  obtain ⟨w, hrun, hinv, hq⟩ := ComputeCallGraph_finishes p pointsTo hdef
  obtain ⟨hvis, hedge, -⟩ := hinv.at_end p pointsTo w hq
  refine ⟨w, hrun, ?_, hvis, ?_⟩
  · intro f
    constructor
    · intro hf
      have h := (hvis f).1 hf
      clear hf
      induction h with
      | refl => exact Relation.ReflTransGen.refl
      | tail hab hc ih =>
        exact ih.tail ((hedge _ _).2 ⟨(hvis _).2 hab, hc⟩)
    · intro h
      induction h with
      | refl => exact hinv.test_vis
      | tail _ hc ih => exact (hinv.edges _ _ hc).2.2
  · intro A hA func hf bb hb c hc
    have hcall : Calls p pointsTo A c.callee := ⟨func, hf, bb, hb, Or.inl ⟨c, hc, rfl⟩⟩
    have h := (hedge A c.callee).2 ⟨hA, hcall⟩
    exact ⟨h, (hinv.sync _ _).1 h⟩

/-- C15, on the example: from `test` the calls reach `test` and `a`, not `b`. -/
theorem call_graph_visits_reachable_witness :
    ComputeCallGraph cgProgram [] 10 State.empty =
      Outcome.finished ⟨⟨["test", "a"], [("a", "test"), ("test", "a")],
        [("test", "a"), ("a", "test")], [], []⟩, [], ["test", "a"]⟩ ∧
    ∃ w, (∀ fuel, callGraphFuel cgProgram [] ≤ fuel →
        ComputeCallGraph cgProgram [] fuel State.empty = Outcome.finished w) ∧
      (∀ f, f ∈ w.visited ↔ Relation.ReflTransGen (Succ w.st) "test" f) ∧
      (∀ f, f ∈ w.visited ↔ Relation.ReflTransGen (Calls cgProgram []) "test" f) ∧
      (∀ A ∈ w.visited, ∀ func, cgProgram.func A = some func → ∀ bb ∈ func.bbs, ∀ c,
        bb.2.terminal = Terminal.CallDir c →
          (A, c.callee) ∈ w.st.succs ∧ (c.callee, A) ∈ w.st.preds) :=
  ⟨by decide, call_graph_visits_reachable cgProgram []
    (reachable_defined cgProgram [] (by decide))⟩

/-! ### The transitive closure -/

theorem Grows.no_change (st : State) : Grows st st :=
  ⟨rfl, rfl, rfl, ⟨[], by simp⟩, ⟨[], by simp⟩, fun _ _ h => Relation.TransGen.single h⟩

theorem Grows.succ_kept {st st1 : State} (h : Grows st st1) {e : String × String}
    (he : e ∈ st.succs) : e ∈ st1.succs := by
  obtain ⟨t, ht⟩ := h.succs
  rw [ht]
  exact List.mem_append_left _ he

theorem Grows.pred_kept {st st1 : State} (h : Grows st st1) {e : String × String}
    (he : e ∈ st.preds) : e ∈ st1.preds := by
  obtain ⟨t, ht⟩ := h.preds
  rw [ht]
  exact List.mem_append_left _ he

theorem Grows.path {st st1 : State} (h : Grows st st1) {a b : String}
    (hab : Relation.TransGen (Succ st1) a b) : Relation.TransGen (Succ st) a b := by
  induction hab with
  | single h1 => exact h.derived _ _ h1
  | tail _ h1 ih => exact ih.trans (h.derived _ _ h1)

theorem Grows.then_grows {st st1 st2 : State} (h : Grows st st1) (h1 : Grows st1 st2) :
    Grows st st2 := by
  obtain ⟨t, ht⟩ := h.succs
  obtain ⟨t1, ht1⟩ := h1.succs
  obtain ⟨u, hu⟩ := h.preds
  obtain ⟨u1, hu1⟩ := h1.preds
  exact ⟨h1.nodes.trans h.nodes, h1.mods.trans h.mods, h1.refs.trans h.refs,
    ⟨t ++ t1, by rw [ht1, ht, List.append_assoc]⟩, ⟨u ++ u1, by rw [hu1, hu, List.append_assoc]⟩,
    fun a b hab => h.path (h1.derived a b hab)⟩

theorem Same.then_same {st st1 st2 : State} {n : String} (h : Same st st1 n) (h1 : Same st1 st2 n) :
    Same st st2 n :=
  fun b => ⟨fun hb => (h b).1 ((h1 b).1 hb), fun hb => (h b).2 ((h1 b).2 hb)⟩

/-- The pairs that are not edges do not become more. -/
theorem Grows.missing_le {st st1 : State} (h : Grows st st1) : missing st1 ≤ missing st := by
  unfold missing
  rw [h.nodes]
  apply List.Sublist.length_le
  apply List.monotone_filter_right
  intro e he
  simp only [decide_eq_true_eq] at he ⊢
  exact fun h1 => he (h.succ_kept h1)

/-- A node whose number of edges has not grown has the same edges. -/
theorem Grows.same_of_edges {st st1 : State} (h : Grows st st1) (n : String)
    (hle : edges st1 n ≤ edges st n) : Same st st1 n := by
  obtain ⟨t, ht⟩ := h.succs
  obtain ⟨u, hu⟩ := h.preds
  unfold edges at hle
  rw [ht, hu, List.filter_append, List.filter_append, List.length_append,
    List.length_append] at hle
  have h1 : (t.filter (fun e => e.1 = n)).length = 0 := by omega
  have h2 : (u.filter (fun e => e.1 = n)).length = 0 := by omega
  intro b
  constructor
  · intro hb
    rw [ht] at hb
    rcases List.mem_append.1 hb with hb | hb
    · exact hb
    · have : (n, b) ∈ t.filter (fun e => e.1 = n) := by simp [hb]
      rw [List.length_eq_zero.1 h1] at this
      cases this
  · intro hb
    rw [hu] at hb
    rcases List.mem_append.1 hb with hb | hb
    · exact hb
    · have : (n, b) ∈ u.filter (fun e => e.1 = n) := by simp [hb]
      rw [List.length_eq_zero.1 h2] at this
      cases this

theorem ClosureStep.idle (k : Nat) (ex : String → Prop) (w : Walk) : ClosureStep k ex w w :=
  ⟨Grows.no_change _, ⟨[], by simp, by simp, fun v hv => Or.inl hv,
    fun n hn => absurd (fun b => ⟨fun h => h, fun h => h⟩) hn⟩, fun _ h => h, Nat.le_refl _,
    Or.inl rfl⟩

theorem ClosureStep.then_step (k : Nat) (ex : String → Prop) (w w1 w2 : Walk)
    (h : ClosureStep k ex w w1) (h1 : ClosureStep k ex w1 w2) : ClosureStep k ex w w2 := by
  obtain ⟨t, ht, hn, hv, hs⟩ := h.queue
  obtain ⟨t1, ht1, hn1, hv1, hs1⟩ := h1.queue
  refine ⟨h.grows.then_grows h1.grows, ⟨t ++ t1, by rw [ht1, ht, List.append_assoc], ?_, ?_, ?_⟩,
    fun v hv => h1.visited v (h.visited v hv), Nat.le_trans h1.measure h.measure, ?_⟩
  · intro n hnt
    rcases List.mem_append.1 hnt with hx | hx
    · exact ⟨(hn n hx).1, h1.visited n (hn n hx).2⟩
    · have := (hn1 n hx).1
      rw [h.grows.nodes] at this
      exact ⟨this, (hn1 n hx).2⟩
  · intro v hvv
    rcases hv1 v hvv with hx | hx
    · rcases hv v hx with hy | hy
      · exact Or.inl hy
      · exact Or.inr (List.mem_append_left _ hy)
    · exact Or.inr (List.mem_append_right _ hx)
  · intro n hsame
    by_cases h0 : Same w.st w1.st n
    · by_cases h2 : Same w1.st w2.st n
      · exact absurd (h0.then_same h2) hsame
      · rcases hs1 n h2 with hx | hx
        · exact Or.inl (List.mem_append_right _ hx)
        · exact Or.inr hx
    · rcases hs n h0 with hx | hx
      · exact Or.inl (List.mem_append_left _ hx)
      · exact Or.inr hx
  · rcases h.strict with e | hlt
    · rcases h1.strict with e1 | hlt1
      · exact Or.inl (e1.trans e)
      · rw [e] at hlt1
        exact Or.inr hlt1
    · exact Or.inr (Nat.lt_of_le_of_lt h1.grows.missing_le hlt)

/-- The edges of a state after `add_edge`. -/
theorem add_edge_succs (st : State) (a b : String) (e : String × String) :
    e ∈ (add_edge st a b).succs ↔ e = (a, b) ∨ e ∈ st.succs := by
  simp only [add_edge, mem_insertNew]

theorem add_edge_preds (st : State) (a b : String) (e : String × String) :
    e ∈ (add_edge st a b).preds ↔ e = (b, a) ∨ e ∈ st.preds := by
  simp only [add_edge, mem_insertNew]

/-- An edge that is there is not added again. -/
theorem add_edge_old (st : State) (a b : String) (hs : Sound st) (h : (a, b) ∈ st.succs) :
    add_edge st a b = st := by
  have h1 : (b, a) ∈ st.preds := (hs.sync a b).1 h
  simp [add_edge, insertNew, h, h1]

/-- A new edge: both sets gain it at their end. -/
theorem add_edge_new (st : State) (a b : String) (hs : Sound st) (h : (a, b) ∉ st.succs) :
    add_edge st a b =
      { st with succs := st.succs ++ [(a, b)], preds := st.preds ++ [(b, a)] } := by
  have h1 : (b, a) ∉ st.preds := fun h2 => h ((hs.sync a b).2 h2)
  simp [add_edge, insertNew, h, h1]

/-- A member that passes one test and fails a stronger one: the stronger test lets fewer
through. -/
theorem filter_lt {α : Type} (U : List α) (P Q : α → Bool) (x : α) (hx : x ∈ U)
    (hPQ : ∀ n, Q n = true → P n = true) (hxP : P x = true) (hxQ : Q x = false) :
    (U.filter Q).length + 1 ≤ (U.filter P).length := by
  induction U with
  | nil => cases hx
  | cons a U ih =>
    have hle : (U.filter Q).length ≤ (U.filter P).length :=
      List.Sublist.length_le (List.monotone_filter_right U hPQ)
    by_cases hax : a = x
    · subst hax
      rw [List.filter_cons_of_pos hxP, List.filter_cons_of_neg (by simp [hxQ]), List.length_cons]
      omega
    · have hxU : x ∈ U := by
        rcases List.mem_cons.1 hx with h | h
        · exact absurd h.symm hax
        · exact h
      have ih1 := ih hxU
      cases hQ : Q a with
      | true =>
        rw [List.filter_cons_of_pos hQ, List.filter_cons_of_pos (hPQ a hQ)]
        simp only [List.length_cons]
        omega
      | false =>
        rw [List.filter_cons_of_neg (by simp [hQ])]
        cases hP : P a with
        | true =>
          rw [List.filter_cons_of_pos hP, List.length_cons]
          omega
        | false =>
          rw [List.filter_cons_of_neg (by simp [hP])]
          exact ih1

/-- A new edge between nodes takes one from the pairs that are not edges. -/
theorem missing_new (st : State) (a b : String) (ha : a ∈ st.nodes_) (hb : b ∈ st.nodes_)
    (h : (a, b) ∉ st.succs) :
    missing { st with succs := st.succs ++ [(a, b)], preds := st.preds ++ [(b, a)] } + 1 ≤
      missing st := by
  unfold missing
  apply filter_lt _ _ _ (a, b) (List.mem_product.2 ⟨ha, hb⟩)
  · intro n hn
    simp only [List.mem_append, not_or, decide_eq_true_eq] at hn ⊢
    exact hn.1
  · simpa using h
  · simp

/-- A loop over a set of nodes that only grows: the invariant is kept, the loop moves along the
preorder, and every node that is a member at the start has its turn. -/
theorem forNodes_collect (addr : String → Nat) (set : State → List (String × String))
    (n : String) (body : Walk → String → Walk) (I : Walk → Prop) (R : Walk → Walk → Prop)
    (hrefl : ∀ s, R s s) (htrans : ∀ s s1 s2, R s s1 → R s1 s2 → R s s2)
    (hmem : ∀ w w1 m, R w w1 → (n, m) ∈ set w.st → (n, m) ∈ set w1.st)
    (w : Walk) (hw : I w)
    (hbody : ∀ w1 m, I w1 → R w w1 → (n, m) ∈ set w1.st → I (body w1 m) ∧ R w1 (body w1 m)) :
    I (forNodes addr set n body w) ∧ R w (forNodes addr set n body w) ∧
      ∀ m ∈ w.st.nodes_, (n, m) ∈ set w.st →
        ∃ w1, I w1 ∧ R w w1 ∧ R (body w1 m) (forNodes addr set n body w) := by
  obtain ⟨h1, h2, h3⟩ := foldl_collect
    (fun w1 m => if (n, m) ∈ set w1.st then body w1 m else w1)
    (fun s => I s ∧ R w s) R
    (fun m s => (n, m) ∈ set w.st → ∃ w1, I w1 ∧ R w w1 ∧ R (body w1 m) s)
    hrefl htrans
    (fun m s s1 hq hr hm => by
      obtain ⟨w1, k1, k2, k3⟩ := hq hm
      exact ⟨w1, k1, k2, htrans _ _ _ k3 hr⟩)
    (nodeOrder addr w.st) w ⟨hw, hrefl w⟩
    (fun s m _ hs => by
      by_cases hm : (n, m) ∈ set s.st
      · obtain ⟨k1, k2⟩ := hbody s m hs.1 hs.2 hm
        simp only [hm, if_true]
        exact ⟨⟨k1, htrans _ _ _ hs.2 k2⟩, k2, fun _ => ⟨s, hs.1, hs.2, hrefl _⟩⟩
      · simp only [hm, if_false]
        exact ⟨hs, hrefl s, fun hm0 => absurd (hmem _ _ _ hs.2 hm0) hm⟩)
  refine ⟨h1.1, h1.2, ?_⟩
  intro m hm
  apply h3
  unfold nodeOrder
  exact (List.perm_insertionSort _ _).mem_iff.2 hm

/-- A node that becomes visited takes one from the nodes that are not visited. -/
theorem unvisited_push (w : Walk) (x : String) (hx : x ∈ w.st.nodes_) (hv : x ∉ w.visited) :
    unvisited (push w x) + 1 ≤ unvisited w := by
  unfold unvisited push
  apply filter_lt _ _ _ x hx
  · intro n hn
    simp only [mem_insertNew, not_or, decide_eq_true_eq] at hn ⊢
    exact hn.2
  · simpa using hv
  · simp [mem_insertNew]

/-- More visited nodes leave fewer nodes that are not visited. -/
theorem unvisited_le (w w1 : Walk) (hn : w1.st.nodes_ = w.st.nodes_)
    (hv : ∀ v ∈ w.visited, v ∈ w1.visited) : unvisited w1 ≤ unvisited w := by
  unfold unvisited
  rw [hn]
  apply List.Sublist.length_le
  apply List.monotone_filter_right
  intro e he
  simp only [decide_eq_true_eq] at he ⊢
  exact fun h1 => he (hv e h1)

/-- The body of the loop over the predecessors: the edge from `P` to `S` is there afterwards. -/
theorem closure_pred_spec (N S P : String) (w : Walk) (hs : Sound w.st)
    (hPN : (P, N) ∈ w.st.succs) (hNS : (N, S) ∈ w.st.succs) :
    Sound (closure_pred S w P).st ∧ ClosureStep 1 (fun n => n = S) w (closure_pred S w P) ∧
      (P, S) ∈ (closure_pred S w P).st.succs := by
  have hP : P ∈ w.st.nodes_ := (hs.ends _ _ hPN).1
  have hS : S ∈ w.st.nodes_ := (hs.ends _ _ hNS).2
  by_cases hold : (P, S) ∈ w.st.succs
  · have e0 : add_edge w.st P S = w.st := add_edge_old w.st P S hs hold
    by_cases hv : P ∈ w.visited
    · have e : closure_pred S w P = w := by
        simp [closure_pred, e0, hv]
      rw [e]
      exact ⟨hs, ClosureStep.idle _ _ _, hold⟩
    · have e : closure_pred S w P = push w P := by
        simp [closure_pred, e0, hv]
      rw [e]
      refine ⟨hs, ⟨Grows.no_change _, ⟨[P], rfl, ?_, ?_, ?_⟩, ?_, ?_, Or.inl rfl⟩, hold⟩
      · intro n hn
        simp only [List.mem_singleton] at hn
        subst hn
        exact ⟨hP, by simp [push, mem_insertNew]⟩
      · intro v hvv
        simp only [push, mem_insertNew] at hvv
        rcases hvv with rfl | h
        · exact Or.inr (by simp)
        · exact Or.inl h
      · intro n hn
        exact absurd (fun b => ⟨fun h => h, fun h => h⟩) hn
      · intro v hvv
        simp only [push, mem_insertNew]
        exact Or.inr hvv
      · have := unvisited_push w P hP hv
        have e1 : (push w P).queue.length = w.queue.length + 1 := by simp [push]
        have e2 : (push w P).st = w.st := rfl
        rw [e1, e2]
        omega
  · have e0 := add_edge_new w.st P S hs hold
    have hedges : edges (add_edge w.st P S) P > edges w.st P := by
      rw [e0]
      unfold edges
      simp only [List.filter_append, List.length_append]
      have : (List.filter (fun e => decide (e.1 = P)) [(P, S)]).length = 1 := by simp
      omega
    have e : closure_pred S w P = push { w with st := add_edge w.st P S } P := by
      simp [closure_pred, hedges]
    have hsound : Sound (add_edge w.st P S) := by
      refine ⟨?_, ?_⟩
      · intro a b
        rw [add_edge_succs, add_edge_preds, hs.sync a b]
        simp only [Prod.mk.injEq]
        tauto
      · intro a b hab
        rw [add_edge_succs] at hab
        have hn : (add_edge w.st P S).nodes_ = w.st.nodes_ := rfl
        rw [hn]
        rcases hab with h | h
        · cases h
          exact ⟨hP, hS⟩
        · exact hs.ends a b h
    have hgrows : Grows w.st (add_edge w.st P S) := by
      refine ⟨rfl, rfl, rfl, ⟨[(P, S)], by rw [e0]⟩, ⟨[(S, P)], by rw [e0]⟩, ?_⟩
      intro a b hab
      rw [add_edge_succs] at hab
      rcases hab with h | h
      · cases h
        exact (Relation.TransGen.single hPN).tail hNS
      · exact Relation.TransGen.single h
    rw [e]
    refine ⟨hsound, ⟨hgrows, ⟨[P], rfl, ?_, ?_, ?_⟩, ?_, ?_, Or.inr ?_⟩,
      (add_edge_succs _ _ _ _).2 (Or.inl rfl)⟩
    · intro n hn
      simp only [List.mem_singleton] at hn
      subst hn
      exact ⟨hP, by simp [push, mem_insertNew]⟩
    · intro v hvv
      simp only [push, mem_insertNew] at hvv
      rcases hvv with rfl | h
      · exact Or.inr (by simp)
      · exact Or.inl h
    · intro n hn
      by_contra hcon
      simp only [List.mem_singleton, not_or] at hcon
      apply hn
      intro b
      constructor
      · intro hb
        rcases (add_edge_succs _ _ _ _).1 hb with h | h
        · cases h
          exact absurd rfl hcon.1
        · exact h
      · intro hb
        rcases (add_edge_preds _ _ _ _).1 hb with h | h
        · cases h
          exact absurd rfl hcon.2
        · exact h
    · intro v hvv
      simp only [push, mem_insertNew]
      exact Or.inr hvv
    · have h1 : unvisited (push { w with st := add_edge w.st P S } P) ≤ unvisited w := by
        apply unvisited_le
        · rfl
        · intro v hvv
          simp only [push, mem_insertNew]
          exact Or.inr hvv
      have h2 := missing_new w.st P S hP hS hold
      rw [← e0] at h2
      have e1 : (push { w with st := add_edge w.st P S } P).queue.length =
          w.queue.length + 1 := by simp [push]
      have e2 : (push { w with st := add_edge w.st P S } P).st = add_edge w.st P S := rfl
      rw [e1, e2]
      omega
    · have h2 := missing_new w.st P S hP hS hold
      rw [← e0] at h2
      have e2 : (push { w with st := add_edge w.st P S } P).st = add_edge w.st P S := rfl
      rw [e2]
      omega

theorem ClosureStep.succ_mem {k : Nat} {ex : String → Prop} {w w1 : Walk}
    (h : ClosureStep k ex w w1) {e : String × String} (he : e ∈ w.st.succs) :
    e ∈ w1.st.succs := h.grows.succ_kept he

theorem ClosureStep.pred_mem {k : Nat} {ex : String → Prop} {w w1 : Walk}
    (h : ClosureStep k ex w w1) {e : String × String} (he : e ∈ w.st.preds) :
    e ∈ w1.st.preds := h.grows.pred_kept he

/-- The loop over the predecessors of `N`, for the successor `S`. -/
theorem closure_preds_spec (addr : String → Nat) (N S : String) (w : Walk) (hs : Sound w.st)
    (hNS : (N, S) ∈ w.st.succs) :
    Sound (forNodes addr State.preds N (closure_pred S) w).st ∧
      ClosureStep 1 (fun n => n = S) w (forNodes addr State.preds N (closure_pred S) w) ∧
      ∀ P, (N, P) ∈ w.st.preds →
        (P, S) ∈ (forNodes addr State.preds N (closure_pred S) w).st.succs := by
  obtain ⟨h1, h2, h3⟩ := forNodes_collect addr State.preds N (closure_pred S)
    (fun w1 => Sound w1.st) (ClosureStep 1 (fun n => n = S)) (ClosureStep.idle _ _)
    (ClosureStep.then_step _ _) (fun w w1 m h hm => h.pred_mem hm) w hs
    (fun w1 P hs1 hr hP =>
      (closure_pred_spec N S P w1 hs1 ((hs1.sync _ _).2 hP) (hr.succ_mem hNS)).imp id
        (fun h => h.1))
  refine ⟨h1, h2, ?_⟩
  intro P hP
  have hPn : P ∈ w.st.nodes_ := (hs.ends _ _ ((hs.sync _ _).2 hP)).1
  obtain ⟨w1, k1, k2, k3⟩ := h3 P hPn hP
  exact k3.succ_mem
    (closure_pred_spec N S P w1 k1 ((k1.sync _ _).2 (k2.pred_mem hP)) (k2.succ_mem hNS)).2.2

/-- A step that counts each new edge once also counts it twice. -/
theorem ClosureStep.twice {ex : String → Prop} {w w1 : Walk} (h : ClosureStep 1 ex w w1) :
    w1.queue.length + unvisited w1 + 2 * missing w1.st ≤
      w.queue.length + unvisited w + 2 * missing w.st := by
  have h1 := h.measure
  have h2 := h.grows.missing_le
  omega

/-- The body of the loop over the successors of `N`: the successor `S` is visited afterwards,
and every predecessor of `N` has the edge to `S`. -/
theorem closure_succ_spec (addr : String → Nat) (N S : String) (w : Walk) (hs : Sound w.st)
    (hNS : (N, S) ∈ w.st.succs) :
    Sound (closure_succ addr N w S).st ∧
      ClosureStep 2 (fun _ => False) w (closure_succ addr N w S) ∧
      S ∈ (closure_succ addr N w S).visited ∧
      (S ≠ N → ∀ P, (N, P) ∈ w.st.preds → (P, S) ∈ (closure_succ addr N w S).st.succs) := by
  have hS : S ∈ w.st.nodes_ := (hs.ends _ _ hNS).2
  -- the loop over the predecessors
  have hin : ∃ w1, (if N ≠ S then forNodes addr State.preds N (closure_pred S) w else w) = w1 ∧
      Sound w1.st ∧ ClosureStep 1 (fun n => n = S) w w1 ∧
      (S ≠ N → ∀ P, (N, P) ∈ w.st.preds → (P, S) ∈ w1.st.succs) := by
    by_cases hne : N = S
    · refine ⟨w, by simp [hne], hs, ClosureStep.idle _ _ _, fun h => absurd hne.symm h⟩
    · obtain ⟨h1, h2, h3⟩ := closure_preds_spec addr N S w hs hNS
      exact ⟨_, by simp [hne], h1, h2, fun _ => h3⟩
  obtain ⟨w1, hw1, hs1, hstep, hwork⟩ := hin
  obtain ⟨t, ht, hn, hv, hnot⟩ := hstep.queue
  have hS1 : S ∈ w1.st.nodes_ := by rw [hstep.grows.nodes]; exact hS
  by_cases hpush : S ∉ w1.visited ∨ edges w1.st S > edges w.st S
  · have e : closure_succ addr N w S = push w1 S := by
      unfold closure_succ
      simp only [hw1]
      rw [if_pos hpush]
    rw [e]
    refine ⟨hs1, ⟨hstep.grows, ⟨t ++ [S], ?_, ?_, ?_, ?_⟩, ?_, ?_, hstep.strict⟩, ?_,
      fun h P hP => hwork h P hP⟩
    · simp [push, ht]
    · intro n hnt
      rcases List.mem_append.1 hnt with h | h
      · exact ⟨(hn n h).1, by simp only [push, mem_insertNew]; exact Or.inr (hn n h).2⟩
      · simp only [List.mem_singleton] at h
        subst h
        exact ⟨hS, by simp [push, mem_insertNew]⟩
    · intro v hvv
      simp only [push, mem_insertNew] at hvv
      rcases hvv with rfl | h
      · exact Or.inr (by simp)
      · rcases hv v h with h1 | h1
        · exact Or.inl h1
        · exact Or.inr (List.mem_append_left _ h1)
    · intro n hsame
      rcases hnot n hsame with h | h
      · exact Or.inl (List.mem_append_left _ h)
      · exact Or.inl (by simp [h])
    · intro v hvv
      simp only [push, mem_insertNew]
      exact Or.inr (hstep.visited v hvv)
    · have e1 : (push w1 S).queue.length = w1.queue.length + 1 := by simp [push]
      have e2 : (push w1 S).st = w1.st := rfl
      rw [e1, e2]
      have hm := hstep.measure
      have hml := hstep.grows.missing_le
      by_cases hvis : S ∈ w1.visited
      · have hgt : edges w1.st S > edges w.st S := by
          rcases hpush with h | h
          · exact absurd hvis h
          · exact h
        have hlt : missing w1.st < missing w.st := by
          rcases hstep.strict with h | h
          · rw [h] at hgt
            omega
          · exact h
        have hu : unvisited (push w1 S) ≤ unvisited w1 := by
          apply unvisited_le
          · rfl
          · intro v hvv
            simp only [push, mem_insertNew]
            exact Or.inr hvv
        omega
      · have hu := unvisited_push w1 S hS1 hvis
        omega
    · simp [push, mem_insertNew]
  · have e : closure_succ addr N w S = w1 := by
      unfold closure_succ
      simp only [hw1]
      rw [if_neg hpush]
    rw [e]
    simp only [not_or, not_not, gt_iff_lt, not_lt] at hpush
    have hsame : Same w.st w1.st S := hstep.grows.same_of_edges S hpush.2
    refine ⟨hs1, ⟨hstep.grows, ⟨t, ht, hn, hv, ?_⟩, hstep.visited, hstep.twice, hstep.strict⟩,
      hpush.1, hwork⟩
    intro n hn1
    rcases hnot n hn1 with h | h
    · exact Or.inl h
    · subst h
      exact absurd hsame hn1

/-- The loop over the successors of `N`: every successor is visited afterwards, and every
predecessor of `N` has the edge to every other successor of `N`. -/
theorem closure_succs_spec (addr : String → Nat) (N : String) (w : Walk) (hs : Sound w.st) :
    Sound (forNodes addr State.succs N (closure_succ addr N) w).st ∧
      ClosureStep 2 (fun _ => False) w (forNodes addr State.succs N (closure_succ addr N) w) ∧
      ∀ S, (N, S) ∈ w.st.succs →
        S ∈ (forNodes addr State.succs N (closure_succ addr N) w).visited ∧
        (S ≠ N → ∀ P, (N, P) ∈ w.st.preds →
          (P, S) ∈ (forNodes addr State.succs N (closure_succ addr N) w).st.succs) := by
  obtain ⟨h1, h2, h3⟩ := forNodes_collect addr State.succs N (closure_succ addr N)
    (fun w1 => Sound w1.st) (ClosureStep 2 (fun _ => False)) (ClosureStep.idle _ _)
    (ClosureStep.then_step _ _) (fun w w1 m h hm => h.succ_mem hm) w hs
    (fun w1 S hs1 _ hS => (closure_succ_spec addr N S w1 hs1 hS).imp id (fun h => h.1))
  refine ⟨h1, h2, ?_⟩
  intro S hS
  have hSn : S ∈ w.st.nodes_ := (hs.ends _ _ hS).2
  obtain ⟨w1, k1, k2, k3⟩ := h3 S hSn hS
  obtain ⟨-, -, m1, m2⟩ := closure_succ_spec addr N S w1 k1 (k2.succ_mem hS)
  exact ⟨k3.visited S m1, fun hne P hP => k3.succ_mem (m2 hne P (k2.pred_mem hP))⟩

/-- One iteration of the loop of `ComputeTransitiveClosure`. -/
theorem closure_body_spec (addr : String → Nat) (st0 : State) (N : String) (rest : List String)
    (w : Walk) (hq : w.queue = N :: rest) (hw : ClosureInv st0 w) :
    ClosureInv st0 (forNodes addr State.succs N (closure_succ addr N)
        { w with st := get_node w.st N, queue := rest }) ∧
      ClosureStep 2 (fun _ => False) { w with queue := rest }
        (forNodes addr State.succs N (closure_succ addr N)
          { w with st := get_node w.st N, queue := rest }) := by
  have hNq : N ∈ w.queue := by rw [hq]; exact List.mem_cons_self _ _
  have hNv : N ∈ w.visited := hw.queue_vis N hNq
  have hNn : N ∈ w.st.nodes_ := hw.vis_nodes N hNv
  have eg : get_node w.st N = w.st := by simp [get_node, hNn]
  rw [eg]
  obtain ⟨h1, h2, h3⟩ := closure_succs_spec addr N { w with queue := rest } hw.sound
  generalize forNodes addr State.succs N (closure_succ addr N) { w with queue := rest } = w1
    at h1 h2 h3 ⊢
  obtain ⟨t, ht, hn, hv, hnot⟩ := h2.queue
  have hnodes := h2.grows.nodes
  refine ⟨⟨hw.grows.then_grows h2.grows, h1, h2.visited _ hw.test_vis, ?_, ?_, ?_, ?_⟩, h2⟩
  · intro v hvv
    rw [hnodes]
    rcases hv v hvv with h | h
    · exact hw.vis_nodes v h
    · exact (hn v h).1
  · intro q hqq
    rw [ht] at hqq
    rcases List.mem_append.1 hqq with h | h
    · exact h2.visited q (hw.queue_vis q (by rw [hq]; exact List.mem_cons_of_mem _ h))
    · exact (hn q h).2
  · intro n hnv hnq P S hP hS hne
    have hnt : n ∉ t := fun h => hnq (by rw [ht]; exact List.mem_append_right _ h)
    have hnr : n ∉ rest := fun h => hnq (by rw [ht]; exact List.mem_append_left _ h)
    have hnv0 : n ∈ w.visited := by
      rcases hv n hnv with h | h
      · exact h
      · exact absurd h hnt
    have hsame : Same w.st w1.st n := by
      by_contra hcon
      rcases hnot n hcon with h | h
      · exact hnt h
      · exact h
    have hP0 : (n, P) ∈ w.st.preds := (hsame P).2 hP
    have hS0 : (n, S) ∈ w.st.succs := (hsame S).1 hS
    by_cases hnN : n = N
    · subst hnN
      exact (h3 S hS0).2 hne P hP0
    · have : n ∉ w.queue := by
        rw [hq]
        simp only [List.mem_cons, not_or]
        exact ⟨hnN, hnr⟩
      exact h2.succ_mem (hw.closed n hnv0 this P S hP0 hS0 hne)
  · intro n hnv hnq S hS
    have hnt : n ∉ t := fun h => hnq (by rw [ht]; exact List.mem_append_right _ h)
    have hnr : n ∉ rest := fun h => hnq (by rw [ht]; exact List.mem_append_left _ h)
    have hnv0 : n ∈ w.visited := by
      rcases hv n hnv with h | h
      · exact h
      · exact absurd h hnt
    have hsame : Same w.st w1.st n := by
      by_contra hcon
      rcases hnot n hcon with h | h
      · exact hnt h
      · exact h
    have hS0 : (n, S) ∈ w.st.succs := (hsame S).1 hS
    by_cases hnN : n = N
    · subst hnN
      exact (h3 S hS0).1
    · have : n ∉ w.queue := by
        rw [hq]
        simp only [List.mem_cons, not_or]
        exact ⟨hnN, hnr⟩
      exact h2.visited S (hw.next n hnv0 this S hS0)

/-- The loop of `ComputeTransitiveClosure` ends when the fuel exceeds the length of the queue
plus the number of nodes not visited plus twice the number of pairs that are not edges. -/
theorem closure_loop_finishes (addr : String → Nat) (st0 : State) :
    ∀ (fuel : Nat) (w : Walk), ClosureInv st0 w →
      w.queue.length + unvisited w + 2 * missing w.st < fuel →
      ∃ w1, closure_loop addr fuel w = Outcome.finished w1 ∧ ClosureInv st0 w1 ∧ w1.queue = []
  | 0, w, _, hlt => by omega
  | fuel + 1, w, hw, hlt => by
    unfold closure_loop
    cases hq : w.queue with
    | nil => exact ⟨w, rfl, hw, hq⟩
    | cons N rest =>
      obtain ⟨h1, h2⟩ := closure_body_spec addr st0 N rest w hq hw
      simp only
      apply closure_loop_finishes addr st0 fuel _ h1
      have hm := h2.measure
      have e1 : unvisited { w with queue := rest } = unvisited w := rfl
      rw [e1] at hm
      simp only [hq, List.length_cons] at hlt
      simp only at hm
      omega

/-- More fuel does not change the result of the loop of `ComputeTransitiveClosure`. -/
theorem closure_loop_mono (addr : String → Nat) :
    ∀ (fuel : Nat) (w w1 : Walk), closure_loop addr fuel w = Outcome.finished w1 →
      ∀ fuel1, fuel ≤ fuel1 → closure_loop addr fuel1 w = Outcome.finished w1
  | 0, w, w1, h, fuel1, _ => by
    unfold closure_loop at h
    split at h
    · rename_i hq
      cases h
      cases fuel1 with
      | zero => simp [closure_loop, hq]
      | succ n => simp [closure_loop, hq]
    · cases h
  | fuel + 1, w, w1, h, fuel1, hle => by
    cases fuel1 with
    | zero => omega
    | succ n =>
      unfold closure_loop at h ⊢
      cases hq : w.queue with
      | nil => simpa [hq] using h
      | cons N rest =>
        simp only [hq] at h ⊢
        exact closure_loop_mono addr fuel _ w1 h n (by omega)

/-- At the end of `ComputeTransitiveClosure` on a call graph whose nodes are all reachable from
`test`, the edges are exactly the paths of one or more edges of the graph it started from. -/
theorem ClosureInv.closure_at_end (st0 : State) (w : Walk) (hw : ClosureInv st0 w) (hq : w.queue = [])
    (hs0 : Sound st0) (hreach : ∀ n ∈ st0.nodes_, Relation.ReflTransGen (Succ st0) "test" n) :
    ∀ a b, (a, b) ∈ w.st.succs ↔ Relation.TransGen (Succ st0) a b := by
  have hnq : ∀ v, v ∉ w.queue := by
    intro v
    rw [hq]
    simp
  have hvis : ∀ n ∈ st0.nodes_, n ∈ w.visited := by
    intro n hn
    have h := hreach n hn
    clear hn
    induction h with
    | refl => exact hw.test_vis
    | tail _ hc ih => exact hw.next _ ih (hnq _) _ (hw.grows.succ_kept hc)
  intro a b
  constructor
  · exact hw.grows.derived a b
  · intro h
    induction h with
    | single h1 => exact hw.grows.succ_kept h1
    | @tail b c _ hbc ih =>
      by_cases hcb : c = b
      · rw [hcb]
        exact ih
      · have hb : b ∈ w.visited := hvis b (hs0.ends _ _ hbc).1
        exact hw.closed b hb (hnq b) a c ((hw.sound.sync _ _).1 ih)
          (hw.grows.succ_kept hbc) hcb

/-- The function `ComputeTransitiveClosure` ends within `closureFuel` iterations on a
well-formed call graph that has the node `test`. -/
theorem ComputeTransitiveClosure_finishes (addr : String → Nat) (st0 : State) (hs0 : Sound st0)
    (htest : "test" ∈ st0.nodes_) :
    ∃ w, (∀ fuel, closureFuel st0 ≤ fuel →
        ComputeTransitiveClosure addr fuel st0 = Outcome.finished w) ∧
      ClosureInv st0 w ∧ w.queue = [] := by
  have hinit : ClosureInv st0 ⟨st0, ["test"], ["test"]⟩ := by
    refine ⟨Grows.no_change _, hs0, by simp, ?_, by simp, ?_, ?_⟩
    · intro v hv
      simp only [List.mem_singleton] at hv
      subst hv
      exact htest
    · intro n hn hnq
      exact absurd hn hnq
    · intro n hn hnq
      exact absurd hn hnq
  have hm : (⟨st0, ["test"], ["test"]⟩ : Walk).queue.length +
      unvisited ⟨st0, ["test"], ["test"]⟩ + 2 * missing st0 < closureFuel st0 := by
    unfold closureFuel unvisited
    have := List.length_filter_le (fun n => decide (n ∉ ["test"])) st0.nodes_
    simp only [List.length_cons, List.length_nil]
    omega
  obtain ⟨w, hw, hinv, hq⟩ := closure_loop_finishes addr st0 _ _ hinit hm
  exact ⟨w, fun fuel hle => closure_loop_mono addr _ _ w hw fuel hle, hinv, hq⟩

/-- The call graph at the end of `ComputeCallGraph` is well formed, all its nodes are reachable
from `test`, and no node has a mod or ref set yet. -/
theorem CallInv.graph (p : Program) (pointsTo : PointsTo) (w : Walk)
    (hw : CallInv p pointsTo w) (hq : w.queue = []) :
    Sound w.st ∧ "test" ∈ w.st.nodes_ ∧
      (∀ n ∈ w.st.nodes_, Relation.ReflTransGen (Succ w.st) "test" n) := by
  have hnq : ∀ v, v ∉ w.queue := by
    intro v
    rw [hq]
    simp
  obtain ⟨hvis, hedge, hnode⟩ := hw.at_end p pointsTo w hq
  refine ⟨⟨hw.sync, ?_⟩, hw.made _ hw.test_vis (hnq _), ?_⟩
  · intro a b hab
    obtain ⟨-, ha, hb⟩ := hw.edges a b hab
    exact ⟨hw.made a ha (hnq a), hw.made b hb (hnq b)⟩
  · intro n hn
    have h := (hvis n).1 (hw.nodes n hn)
    clear hn
    induction h with
    | refl => exact Relation.ReflTransGen.refl
    | tail hab hc ih => exact ih.tail ((hedge _ _).2 ⟨(hvis _).2 hab, hc⟩)

/-- C17. When every name that the calls reach from `test` is a function of the program,
`ComputeCallGraph` followed by `ComputeTransitiveClosure` ends, and then for all functions `A`
and `B`: `B` is in `succs(A)` if and only if `B` is reachable from `A` by a path of one or more
edges of the call graph that `ComputeCallGraph` built (exactly the transitive closure, with
neither missing nor spurious edges), whatever the addresses of the nodes are. -/
theorem closure_is_transitive_closure (p : Program) (pointsTo : PointsTo) (addr : String → Nat)
    (hdef : ∀ v, Relation.ReflTransGen (Calls p pointsTo) "test" v → ∃ func, p.func v = some func) :
    ∃ w0 w1, (∀ fuel, callGraphFuel p pointsTo ≤ fuel →
        ComputeCallGraph p pointsTo fuel State.empty = Outcome.finished w0) ∧
      (∀ fuel, closureFuel w0.st ≤ fuel →
        ComputeTransitiveClosure addr fuel w0.st = Outcome.finished w1) ∧
      ∀ A B, (A, B) ∈ w1.st.succs ↔ Relation.TransGen (Succ w0.st) A B := by
  obtain ⟨w0, hrun0, hinv0, hq0⟩ := ComputeCallGraph_finishes p pointsTo hdef
  obtain ⟨hs0, htest, hreach⟩ := hinv0.graph p pointsTo w0 hq0
  obtain ⟨w1, hrun1, hinv1, hq1⟩ := ComputeTransitiveClosure_finishes addr w0.st hs0 htest
  exact ⟨w0, w1, hrun0, hrun1, hinv1.closure_at_end w0.st w1 hq1 hs0 hreach⟩

/-- C17, on the example: `test` calls `a` and `a` calls `b`; the closure adds the edge from
`test` to `b`. -/
theorem closure_is_transitive_closure_witness :
    ComputeCallGraph modRefProgram modRefPointsTo 4 State.empty =
      Outcome.finished ⟨⟨["test", "a", "b"], [("a", "test"), ("b", "a")],
        [("test", "a"), ("a", "b")], [], []⟩, [], ["test", "a", "b"]⟩ ∧
    ComputeTransitiveClosure nodeAddr 19 ⟨["test", "a", "b"], [("a", "test"), ("b", "a")],
        [("test", "a"), ("a", "b")], [], []⟩ =
      Outcome.finished ⟨⟨["test", "a", "b"], [("a", "test"), ("b", "a"), ("b", "test")],
        [("test", "a"), ("a", "b"), ("test", "b")], [], []⟩, [], ["test", "a", "b"]⟩ ∧
    ∃ w0 w1, (∀ fuel, callGraphFuel modRefProgram modRefPointsTo ≤ fuel →
        ComputeCallGraph modRefProgram modRefPointsTo fuel State.empty = Outcome.finished w0) ∧
      (∀ fuel, closureFuel w0.st ≤ fuel →
        ComputeTransitiveClosure nodeAddr fuel w0.st = Outcome.finished w1) ∧
      ∀ A B, (A, B) ∈ w1.st.succs ↔ Relation.TransGen (Succ w0.st) A B :=
  ⟨by decide, by decide, closure_is_transitive_closure modRefProgram modRefPointsTo nodeAddr
    (reachable_defined modRefProgram modRefPointsTo (by decide))⟩

/-! ### The mod/ref information -/

/-- A loop whose body may abort: when no step aborts, it keeps an invariant, moves along a
preorder, and leaves behind what each element establishes. -/
theorem forEach_collect {σ α : Type} (f : σ → α → Option σ) (I : σ → Prop) (R : σ → σ → Prop)
    (Q : α → σ → Prop) (hrefl : ∀ s, R s s) (htrans : ∀ s s1 s2, R s s1 → R s1 s2 → R s s2)
    (hQ : ∀ a s s1, Q a s → R s s1 → Q a s1) :
    ∀ (l : List α) (s : σ), I s →
      (∀ s a, a ∈ l → I s → ∃ s1, f s a = some s1 ∧ I s1 ∧ R s s1 ∧ Q a s1) →
      ∃ s1, forEach f l s = some s1 ∧ I s1 ∧ R s s1 ∧ ∀ a ∈ l, Q a s1
  | [], s, hs, _ => ⟨s, rfl, hs, hrefl s, by simp⟩
  | a :: l, s, hs, hstep => by
    obtain ⟨s1, e1, h1, h2, h3⟩ := hstep s a (List.mem_cons_self _ _) hs
    obtain ⟨s2, e2, k1, k2, k3⟩ := forEach_collect f I R Q hrefl htrans hQ l s1 h1
      (fun s b hb => hstep s b (List.mem_cons_of_mem _ hb))
    refine ⟨s2, by simp [forEach, e1, e2], k1, htrans _ _ _ h2 k2, ?_⟩
    intro b hb
    rcases List.mem_cons.1 hb with rfl | hb
    · exact hQ _ _ _ h3 k2
    · exact k3 b hb

theorem mem_insertAll {node : String} {xs : List String} :
    ∀ {rel : List (String × String)} {e : String × String},
      e ∈ insertAll node xs rel ↔ e ∈ rel ∨ (e.1 = node ∧ e.2 ∈ xs) := by
  induction xs with
  | nil => intro rel e; simp [insertAll]
  | cons x xs ih =>
    intro rel e
    have : insertAll node (x :: xs) rel = insertAll node xs (insertNew (node, x) rel) := rfl
    rw [this, ih, mem_insertNew]
    constructor
    · rintro ((h | h) | h)
      · right
        rw [h]
        exact ⟨rfl, List.mem_cons_self _ _⟩
      · exact Or.inl h
      · exact Or.inr ⟨h.1, List.mem_cons_of_mem _ h.2⟩
    · rintro (h | ⟨h1, h2⟩)
      · exact Or.inl (Or.inr h)
      · rcases List.mem_cons.1 h2 with h3 | h3
        · left
          left
          exact Prod.ext h1 h3
        · exact Or.inr ⟨h1, h3⟩

theorem mem_members {rel : List (String × String)} {n x : String} :
    x ∈ members rel n ↔ (n, x) ∈ rel := by
  unfold members
  simp only [List.mem_map, List.mem_filter, decide_eq_true_eq]
  constructor
  · rintro ⟨e, ⟨he, h1⟩, h2⟩
    have : e = (n, x) := Prod.ext h1 h2
    rw [← this]
    exact he
  · intro h
    exact ⟨(n, x), ⟨h, rfl⟩, rfl⟩

/-- A function of the program is found under its name. -/
theorem func_some (p : Program) (func : Function) (h : func ∈ p.funcs) :
    ∃ func1, p.func func.name = some func1 := by
  apply Option.isSome_iff_exists.1
  unfold Program.func
  rw [List.find?_isSome]
  exact ⟨func, h, by simp⟩

theorem isGlobalVar_some (p : Program) (var : Variable) (F : String) (func : Function)
    (h : p.func F = some func) : ∃ g, isGlobalVar p var F = some g := by
  unfold isGlobalVar
  rw [h]
  simp only
  split
  · exact ⟨false, rfl⟩
  · exact ⟨_, rfl⟩

theorem global_name_some (p : Program) (var : Variable) (F : String) (func : Function)
    (h : p.func F = some func) : ∃ l, global_name p F var = some l := by
  obtain ⟨g, hg⟩ := isGlobalVar_some p var F func h
  simp only [global_name, hg, Option.map_some']
  exact ⟨_, rfl⟩

theorem global_operand_some (p : Program) (op : Operand) (F : String) (func : Function)
    (h : p.func F = some func) : ∃ l, global_operand p F op = some l := by
  cases op with
  | ConstInt v => exact ⟨[], rfl⟩
  | Var v => exact global_name_some p v F func h

theorem pointsToKey_some (p : Program) (var : Variable) (F : String) (func : Function)
    (h : p.func F = some func) : ∃ k, pointsToKey p F var = some k := by
  obtain ⟨g, hg⟩ := isGlobalVar_some p var F func h
  simp only [pointsToKey, hg, Option.map_some']
  exact ⟨_, rfl⟩

/-- An instruction that is read without a null pointer gives its strings. -/
theorem instr_mod_ref_some (p : Program) (pointsTo : PointsTo) (F : String) (func : Function)
    (h : p.func F = some func) (i : Instruction) (hi : i.hasOperand = true) :
    ∃ ms rs, instr_mod_ref p pointsTo F i = some (ms, rs) := by
  cases i with
  | Store s =>
    obtain ⟨k, hk⟩ := pointsToKey_some p s.dst F func h
    obtain ⟨r1, h1⟩ := global_name_some p s.dst F func h
    obtain ⟨r2, h2⟩ := global_operand_some p s.op F func h
    simp only [instr_mod_ref, hk, h1, h2, Option.map_some']
    exact ⟨_, _, rfl⟩
  | Load s =>
    obtain ⟨k, hk⟩ := pointsToKey_some p s.src F func h
    obtain ⟨r1, h1⟩ := global_name_some p s.lhs F func h
    simp only [instr_mod_ref, hk, h1, Option.map_some']
    exact ⟨_, _, rfl⟩
  | Copy s =>
    obtain ⟨r1, h1⟩ := global_name_some p s.lhs F func h
    obtain ⟨r2, h2⟩ := global_operand_some p s.op F func h
    simp only [instr_mod_ref, h1, h2, Option.map_some']
    exact ⟨_, _, rfl⟩
  | Arith s =>
    obtain ⟨r1, h1⟩ := global_name_some p s.lhs F func h
    obtain ⟨r2, h2⟩ := global_operand_some p s.op1 F func h
    obtain ⟨r3, h3⟩ := global_operand_some p s.op2 F func h
    simp only [instr_mod_ref, h1, h2, h3, Option.map_some']
    exact ⟨_, _, rfl⟩
  | Alloc s =>
    obtain ⟨r1, h1⟩ := global_name_some p s.lhs F func h
    obtain ⟨r2, h2⟩ := global_operand_some p s.num F func h
    simp only [instr_mod_ref, h1, h2, Option.map_some']
    exact ⟨_, _, rfl⟩
  | Cmp s =>
    obtain ⟨r1, h1⟩ := global_name_some p s.lhs F func h
    obtain ⟨r2, h2⟩ := global_operand_some p s.op1 F func h
    obtain ⟨r3, h3⟩ := global_operand_some p s.op2 F func h
    simp only [instr_mod_ref, h1, h2, h3, Option.map_some']
    exact ⟨_, _, rfl⟩
  | Gep s =>
    obtain ⟨r1, h1⟩ := global_name_some p s.lhs F func h
    obtain ⟨r2, h2⟩ := global_name_some p s.src F func h
    obtain ⟨r3, h3⟩ := global_operand_some p s.idx F func h
    simp only [instr_mod_ref, h1, h2, h3, Option.map_some']
    exact ⟨_, _, rfl⟩
  | Gfp s =>
    obtain ⟨r1, h1⟩ := global_name_some p s.lhs F func h
    obtain ⟨r2, h2⟩ := global_name_some p s.src F func h
    simp only [instr_mod_ref, h1, h2, Option.map_some']
    exact ⟨_, _, rfl⟩
  | Addrof s =>
    obtain ⟨r1, h1⟩ := global_name_some p s.lhs F func h
    simp only [instr_mod_ref, h1, Option.map_some']
    exact ⟨_, _, rfl⟩
  | Ret s =>
    cases hop : s.op with
    | none => simp [Instruction.hasOperand, hop] at hi
    | some op =>
      obtain ⟨r2, h2⟩ := global_operand_some p op F func h
      simp only [instr_mod_ref, hop, h2, Option.map_some']
      exact ⟨_, _, rfl⟩
  | Other => exact ⟨_, _, rfl⟩

theorem InitStep.stay_init (p : Program) (pointsTo : PointsTo) (st : State) :
    InitStep p pointsTo st st :=
  ⟨rfl, rfl, fun _ h => h, fun _ h => Or.inl h, fun _ h => h, fun _ h => h,
    fun _ _ h => Or.inl h, fun _ _ h => Or.inl h⟩

theorem InitStep.then_init (p : Program) (pointsTo : PointsTo) (st st1 st2 : State)
    (h : InitStep p pointsTo st st1) (h1 : InitStep p pointsTo st1 st2) :
    InitStep p pointsTo st st2 := by
  refine ⟨h1.succs.trans h.succs, h1.preds.trans h.preds, fun n hn => h1.nodes n (h.nodes n hn),
    ?_, fun e he => h1.mods e (h.mods e he), fun e he => h1.refs e (h.refs e he), ?_, ?_⟩
  · intro n hn
    rcases h1.nodes_new n hn with k | k
    · exact h.nodes_new n k
    · exact Or.inr k
  · intro n x hx
    rcases h1.mods_new n x hx with k | k
    · exact h.mods_new n x k
    · exact Or.inr k
  · intro n x hx
    rcases h1.refs_new n x hx with k | k
    · exact h.refs_new n x k
    · exact Or.inr k

/-- One instruction of `InitModRefInfo`: its strings are in the sets of the node afterwards. -/
theorem init_instr_spec (p : Program) (pointsTo : PointsTo) (func : Function)
    (hf : func ∈ p.funcs) (bb : String × BasicBlock) (hb : bb ∈ func.bbs) (i : Instruction)
    (hi : i ∈ bb.2.instructions) (hok : i.hasOperand = true) (st : State) :
    ∃ st1, init_instr p pointsTo func.name func.name st i = some st1 ∧
      InitStep p pointsTo st st1 ∧ st1.nodes_ = st.nodes_ ∧
      ∀ ms rs, instr_mod_ref p pointsTo func.name i = some (ms, rs) →
        (∀ x ∈ ms, (func.name, x) ∈ st1.mods) ∧ (∀ x ∈ rs, (func.name, x) ∈ st1.refs) := by
  obtain ⟨func1, hf1⟩ := func_some p func hf
  obtain ⟨ms, rs, hmr⟩ := instr_mod_ref_some p pointsTo func.name func1 hf1 i hok
  refine ⟨⟨st.nodes_, st.preds, st.succs, insertAll func.name ms st.mods,
      insertAll func.name rs st.refs⟩, by simp [init_instr, hmr],
    ⟨rfl, rfl, fun _ h => h, fun _ h => Or.inl h, ?_, ?_, ?_, ?_⟩, rfl, ?_⟩
  · intro e he
    exact mem_insertAll.2 (Or.inl he)
  · intro e he
    exact mem_insertAll.2 (Or.inl he)
  · intro n x hx
    rcases mem_insertAll.1 hx with h | ⟨h1, h2⟩
    · exact Or.inl h
    · simp only at h1 h2
      subst h1
      exact Or.inr ⟨func, hf, rfl, bb, hb, i, hi, ms, rs, hmr, h2⟩
  · intro n x hx
    rcases mem_insertAll.1 hx with h | ⟨h1, h2⟩
    · exact Or.inl h
    · simp only at h1 h2
      subst h1
      exact Or.inr ⟨func, hf, rfl, bb, hb, i, hi, ms, rs, hmr, h2⟩
  · intro ms1 rs1 h1
    rw [hmr] at h1
    cases h1
    exact ⟨fun x hx => mem_insertAll.2 (Or.inr ⟨rfl, hx⟩),
      fun x hx => mem_insertAll.2 (Or.inr ⟨rfl, hx⟩)⟩

/-- The function `InitModRefInfo` runs to its end on a program whose instructions it can read;
the edges stay, every function has a node, and the mod and ref sets gain exactly the initial
members. -/
theorem InitModRefInfo_spec (p : Program) (pointsTo : PointsTo) (hok : InitOK p) (st : State) :
    ∃ st1, InitModRefInfo p pointsTo st = some st1 ∧ InitStep p pointsTo st st1 ∧
      (∀ n x, InitMod p pointsTo n x → (n, x) ∈ st1.mods) ∧
      (∀ n x, InitRef p pointsTo n x → (n, x) ∈ st1.refs) := by
  have hfunc : ∀ (s : State) (func : Function), func ∈ p.funcs →
      ∃ s1, init_func p pointsTo s func = some s1 ∧ InitStep p pointsTo s s1 ∧
        ∀ bb ∈ func.bbs, ∀ i ∈ bb.2.instructions, ∀ ms rs,
          instr_mod_ref p pointsTo func.name i = some (ms, rs) →
            (∀ x ∈ ms, (func.name, x) ∈ s1.mods) ∧ (∀ x ∈ rs, (func.name, x) ∈ s1.refs) := by
    intro s func hf
    have hblock : ∀ (s : State) (bb : String × BasicBlock), bb ∈ func.bbs →
        ∃ s1, forEach (init_instr p pointsTo func.name func.name) bb.2.instructions s = some s1 ∧
          InitStep p pointsTo s s1 ∧ ∀ i ∈ bb.2.instructions, ∀ ms rs,
            instr_mod_ref p pointsTo func.name i = some (ms, rs) →
              (∀ x ∈ ms, (func.name, x) ∈ s1.mods) ∧ (∀ x ∈ rs, (func.name, x) ∈ s1.refs) := by
      intro s bb hb
      obtain ⟨s1, e, -, h2, h3⟩ := forEach_collect (init_instr p pointsTo func.name func.name)
        (fun _ => True) (InitStep p pointsTo)
        (fun i s1 => ∀ ms rs, instr_mod_ref p pointsTo func.name i = some (ms, rs) →
          (∀ x ∈ ms, (func.name, x) ∈ s1.mods) ∧ (∀ x ∈ rs, (func.name, x) ∈ s1.refs))
        (InitStep.stay_init p pointsTo) (InitStep.then_init p pointsTo)
        (fun i s s1 hq hr ms rs hmr =>
          ⟨fun x hx => hr.mods _ ((hq ms rs hmr).1 x hx),
            fun x hx => hr.refs _ ((hq ms rs hmr).2 x hx)⟩)
        bb.2.instructions s trivial
        (fun s i hi _ => by
          obtain ⟨s1, e, k1, -, k3⟩ :=
            init_instr_spec p pointsTo func hf bb hb i hi (hok func hf bb hb i hi) s
          exact ⟨s1, e, trivial, k1, k3⟩)
      exact ⟨s1, e, h2, h3⟩
    have hnode : InitStep p pointsTo s (get_node s func.name) := by
      refine ⟨get_node_succs _ _, get_node_preds _ _, fun n hn => mem_get_node.2 (Or.inr hn), ?_,
        ?_, ?_, ?_, ?_⟩
      · intro n hn
        rcases mem_get_node.1 hn with rfl | h
        · exact Or.inr ⟨func, hf, rfl⟩
        · exact Or.inl h
      · intro e he
        rwa [get_node_mods]
      · intro e he
        rwa [get_node_refs]
      · intro n x hx
        rw [get_node_mods] at hx
        exact Or.inl hx
      · intro n x hx
        rw [get_node_refs] at hx
        exact Or.inl hx
    obtain ⟨s1, e, -, h2, h3⟩ := forEach_collect
      (fun st1 (bb : String × BasicBlock) =>
        forEach (init_instr p pointsTo func.name func.name) bb.2.instructions st1)
      (fun _ => True) (InitStep p pointsTo)
      (fun bb s1 => ∀ i ∈ bb.2.instructions, ∀ ms rs,
        instr_mod_ref p pointsTo func.name i = some (ms, rs) →
          (∀ x ∈ ms, (func.name, x) ∈ s1.mods) ∧ (∀ x ∈ rs, (func.name, x) ∈ s1.refs))
      (InitStep.stay_init p pointsTo) (InitStep.then_init p pointsTo)
      (fun bb s s1 hq hr i hi ms rs hmr =>
        ⟨fun x hx => hr.mods _ ((hq i hi ms rs hmr).1 x hx),
          fun x hx => hr.refs _ ((hq i hi ms rs hmr).2 x hx)⟩)
      func.bbs (get_node s func.name) trivial
      (fun s bb hb _ => by
        obtain ⟨s1, e, k1, k2⟩ := hblock s bb hb
        exact ⟨s1, e, trivial, k1, k2⟩)
    exact ⟨s1, e, InitStep.then_init p pointsTo _ _ _ hnode h2, h3⟩
  obtain ⟨st1, e, -, h2, h3⟩ := forEach_collect (init_func p pointsTo)
    (fun _ => True) (InitStep p pointsTo)
    (fun func s1 => ∀ bb ∈ func.bbs, ∀ i ∈ bb.2.instructions, ∀ ms rs,
      instr_mod_ref p pointsTo func.name i = some (ms, rs) →
        (∀ x ∈ ms, (func.name, x) ∈ s1.mods) ∧ (∀ x ∈ rs, (func.name, x) ∈ s1.refs))
    (InitStep.stay_init p pointsTo) (InitStep.then_init p pointsTo)
    (fun func s s1 hq hr bb hb i hi ms rs hmr =>
      ⟨fun x hx => hr.mods _ ((hq bb hb i hi ms rs hmr).1 x hx),
        fun x hx => hr.refs _ ((hq bb hb i hi ms rs hmr).2 x hx)⟩)
    p.funcs st trivial
    (fun s func hf _ => by
      obtain ⟨s1, e, k1, k2⟩ := hfunc s func hf
      exact ⟨s1, e, trivial, k1, k2⟩)
  refine ⟨st1, e, h2, ?_, ?_⟩
  · rintro n x ⟨func, hf, rfl, bb, hb, i, hi, ms, rs, hmr, hx⟩
    exact (h3 func hf bb hb i hi ms rs hmr).1 x hx
  · rintro n x ⟨func, hf, rfl, bb, hb, i, hi, ms, rs, hmr, hx⟩
    exact (h3 func hf bb hb i hi ms rs hmr).2 x hx

theorem lookup_entry_self {β : Type} (F : String) (v : β) :
    ∀ (l : List (String × β)), (l.filter (fun e => e.1 ≠ F) ++ [(F, v)]).lookup F = some v
  | [] => by simp [List.lookup]
  | (k, b) :: l => by
    by_cases h : k = F
    · subst h
      rw [List.filter_cons_of_neg (by simp)]
      exact lookup_entry_self k v l
    · rw [List.filter_cons_of_pos (by simpa using h)]
      have hne : (F == k) = false := by simpa using fun e => h e.symm
      simp only [List.cons_append, List.lookup_cons, hne]
      exact lookup_entry_self F v l

theorem lookup_entry_other {β : Type} (F G : String) (v : β) (hG : G ≠ F) :
    ∀ (l : List (String × β)), (l.filter (fun e => e.1 ≠ F) ++ [(F, v)]).lookup G = l.lookup G
  | [] => by
    have hne : (G == F) = false := by simpa using hG
    simp [List.lookup, hne]
  | (k, b) :: l => by
    by_cases h : k = F
    · subst h
      rw [List.filter_cons_of_neg (by simp)]
      have hne : (G == k) = false := by simpa using hG
      simp only [List.lookup_cons, hne]
      exact lookup_entry_other k G v hG l
    · rw [List.filter_cons_of_pos (by simpa using h)]
      simp only [List.cons_append, List.lookup_cons]
      cases hGk : G == k with
      | true => rfl
      | false => exact lookup_entry_other F G v hG l

/-- One successor in the propagation loop: the initial members of the successor `m` are in the
sets of `F` afterwards. -/
theorem propagate_succ_spec (st2 : State)
    (htr : ∀ a b c, (a, b) ∈ st2.succs → (b, c) ∈ st2.succs → (a, c) ∈ st2.succs)
    (F m : String) (hFm : (F, m) ∈ st2.succs) (st : State) (hinv : PropInv st2 st) :
    PropInv st2 (propagate_succ F st m) ∧
      ((∀ e ∈ st.mods, e ∈ (propagate_succ F st m).mods) ∧
        (∀ e ∈ st.refs, e ∈ (propagate_succ F st m).refs)) ∧
      ((∀ x, (m, x) ∈ st2.mods → (F, x) ∈ (propagate_succ F st m).mods) ∧
        (∀ x, (m, x) ∈ st2.refs → (F, x) ∈ (propagate_succ F st m).refs)) := by
  have hm : ∀ e, e ∈ (propagate_succ F st m).mods ↔ e ∈ st.mods ∨ (e.1 = F ∧ (m, e.2) ∈ st.mods) := by
    intro e
    simp only [propagate_succ, mem_insertAll, mem_members]
  have hr : ∀ e, e ∈ (propagate_succ F st m).refs ↔ e ∈ st.refs ∨ (e.1 = F ∧ (m, e.2) ∈ st.refs) := by
    intro e
    simp only [propagate_succ, mem_insertAll, mem_members]
  have hfull : ∀ (rel : List (String × String)) (x : String),
      Full st2.succs rel m x → Full st2.succs rel F x := by
    rintro rel x (h | ⟨k, h1, h2⟩)
    · exact Or.inr ⟨m, hFm, h⟩
    · exact Or.inr ⟨k, htr _ _ _ hFm h1, h2⟩
  refine ⟨⟨hinv.succs, hinv.nodes, ?_, ?_, ?_, ?_⟩, ⟨?_, ?_⟩, ⟨?_, ?_⟩⟩
  · intro e he
    exact (hm e).2 (Or.inl (hinv.mods_lo e he))
  · intro e he
    exact (hr e).2 (Or.inl (hinv.refs_lo e he))
  · intro n x hx
    rcases (hm _).1 hx with h | ⟨h1, h2⟩
    · exact hinv.mods_hi n x h
    · simp only at h1 h2
      subst h1
      exact hfull _ x (hinv.mods_hi m x h2)
  · intro n x hx
    rcases (hr _).1 hx with h | ⟨h1, h2⟩
    · exact hinv.refs_hi n x h
    · simp only at h1 h2
      subst h1
      exact hfull _ x (hinv.refs_hi m x h2)
  · intro e he
    exact (hm e).2 (Or.inl he)
  · intro e he
    exact (hr e).2 (Or.inl he)
  · intro x hx
    exact (hm _).2 (Or.inr ⟨rfl, hinv.mods_lo _ hx⟩)
  · intro x hx
    exact (hr _).2 (Or.inr ⟨rfl, hinv.refs_lo _ hx⟩)

/-- One node in the propagation loop: its entry holds the initial members of the node and of
its successors, and the entries of the other nodes stay. -/
theorem propagate_node_spec (addr : String → Nat) (st2 : State)
    (htr : ∀ a b c, (a, b) ∈ st2.succs → (b, c) ∈ st2.succs → (a, c) ∈ st2.succs)
    (hends : ∀ a b, (a, b) ∈ st2.succs → b ∈ st2.nodes_)
    (r : State × List (String × ModRefInfo)) (hinv : PropInv st2 r.1) (F : String) :
    PropInv st2 (propagate_node addr r F).1 ∧
      (∀ G, Entry st2 G r.2 → Entry st2 G (propagate_node addr r F).2) ∧
      Entry st2 F (propagate_node addr r F).2 := by
  obtain ⟨h1, h2, h3⟩ := foldl_collect (propagate_succ F) (PropInv st2)
    (fun s s1 => (∀ e ∈ s.mods, e ∈ s1.mods) ∧ (∀ e ∈ s.refs, e ∈ s1.refs))
    (fun m s => (∀ x, (m, x) ∈ st2.mods → (F, x) ∈ s.mods) ∧
      (∀ x, (m, x) ∈ st2.refs → (F, x) ∈ s.refs))
    (fun s => ⟨fun _ h => h, fun _ h => h⟩)
    (fun s s1 s2 h k => ⟨fun e he => k.1 e (h.1 e he), fun e he => k.2 e (h.2 e he)⟩)
    (fun m s s1 hq hr => ⟨fun x hx => hr.1 _ (hq.1 x hx), fun x hx => hr.2 _ (hq.2 x hx)⟩)
    ((nodeOrder addr r.1).filter (fun node => (F, node) ∈ r.1.succs)) r.1 hinv
    (fun s m hm hs => by
      have hFm : (F, m) ∈ st2.succs := by
        have := (List.mem_filter.1 hm).2
        simp only [decide_eq_true_eq] at this
        rw [← hinv.succs]
        exact this
      exact propagate_succ_spec st2 htr F m hFm s hs)
  have hentry : Entry st2 F (propagate_node addr r F).2 := by
    refine ⟨_, lookup_entry_self F _ r.2, ?_, ?_⟩
    · intro x
      rw [mem_members]
      constructor
      · exact h1.mods_hi F x
      · rintro (h | ⟨m, hm1, hm2⟩)
        · exact h1.mods_lo _ h
        · apply (h3 m _).1 x hm2
          rw [List.mem_filter]
          refine ⟨?_, by simpa [hinv.succs] using hm1⟩
          unfold nodeOrder
          rw [(List.perm_insertionSort _ _).mem_iff, hinv.nodes]
          exact hends _ _ hm1
    · intro x
      rw [mem_members]
      constructor
      · exact h1.refs_hi F x
      · rintro (h | ⟨m, hm1, hm2⟩)
        · exact h1.refs_lo _ h
        · apply (h3 m _).2 x hm2
          rw [List.mem_filter]
          refine ⟨?_, by simpa [hinv.succs] using hm1⟩
          unfold nodeOrder
          rw [(List.perm_insertionSort _ _).mem_iff, hinv.nodes]
          exact hends _ _ hm1
  refine ⟨h1, ?_, hentry⟩
  intro G hG
  by_cases hGF : G = F
  · rw [hGF]
    exact hentry
  · obtain ⟨mr, e, k⟩ := hG
    exact ⟨mr, by rw [← e]; exact lookup_entry_other F G _ hGF r.2, k⟩

/-- The propagation loop of `ComputeModRefInfo` over the nodes in any order: every node that is
walked has an entry with the initial members of the node and of its successors. -/
theorem propagate_spec (addr : String → Nat) (st2 : State)
    (htr : ∀ a b c, (a, b) ∈ st2.succs → (b, c) ∈ st2.succs → (a, c) ∈ st2.succs)
    (hends : ∀ a b, (a, b) ∈ st2.succs → b ∈ st2.nodes_) (order : List String) :
    ∀ F ∈ order, Entry st2 F (order.foldl (propagate_node addr) (st2, [])).2 := by
  obtain ⟨-, -, h3⟩ := foldl_collect (propagate_node addr) (fun r => PropInv st2 r.1)
    (fun r r1 => ∀ G, Entry st2 G r.2 → Entry st2 G r1.2)
    (fun F r => Entry st2 F r.2)
    (fun s G h => h) (fun s s1 s2 h k G hG => k G (h G hG))
    (fun F s s1 hq hr => hr F hq)
    order (st2, [])
    ⟨rfl, rfl, fun _ h => h, fun _ h => h, fun _ _ h => Or.inl h, fun _ _ h => Or.inl h⟩
    (fun s F _ hs => propagate_node_spec addr st2 htr hends s hs F)
  exact h3

/-- The whole of `ComputeModRefInfo`. When every name that the calls reach from `test` is a
function of the program and `InitModRefInfo` can read every instruction, the run ends, whatever
the addresses of the nodes and the order of the walk over `nodes_` are, and the entry of every
visited function holds its initial members and those of the functions that one or more edges of
the call graph reach from it. -/
theorem ComputeModRefInfo_spec (p : Program) (pointsTo : PointsTo)
    (hdef : ∀ v, Relation.ReflTransGen (Calls p pointsTo) "test" v → ∃ func, p.func v = some func)
    (hok : InitOK p) :
    ∃ w0, (∀ fuel, callGraphFuel p pointsTo ≤ fuel →
        ComputeCallGraph p pointsTo fuel State.empty = Outcome.finished w0) ∧
      (∀ f, f ∈ w0.visited ↔ Relation.ReflTransGen (Calls p pointsTo) "test" f) ∧
      ∀ (addr : String → Nat) (ord : List String → List String), (∀ l, (ord l).Perm l) →
        ∃ w1 info, (∀ fuel, closureFuel w0.st ≤ fuel →
            ComputeTransitiveClosure addr fuel w0.st = Outcome.finished w1) ∧
          (∀ A B, (A, B) ∈ w1.st.succs ↔ Relation.TransGen (Succ w0.st) A B) ∧
          (∀ A B, (A, B) ∈ w1.st.succs → A ∈ w0.visited ∧ B ∈ w0.visited) ∧
          (∀ fuel, callGraphFuel p pointsTo ≤ fuel → closureFuel w0.st ≤ fuel →
            ComputeModRefInfo p pointsTo addr ord fuel = Outcome.finished info) ∧
          ∀ F ∈ w0.visited, ∃ mr, info.lookup F = some mr ∧
            (∀ x, x ∈ mr.mod ↔ InitMod p pointsTo F x ∨
              ∃ G, Relation.TransGen (Succ w0.st) F G ∧ InitMod p pointsTo G x) ∧
            (∀ x, x ∈ mr.ref ↔ InitRef p pointsTo F x ∨
              ∃ G, Relation.TransGen (Succ w0.st) F G ∧ InitRef p pointsTo G x) := by
  obtain ⟨w0, hrun0, hinv0, hq0⟩ := ComputeCallGraph_finishes p pointsTo hdef
  obtain ⟨hs0, htest, hreach⟩ := hinv0.graph p pointsTo w0 hq0
  obtain ⟨hvis, -, hnode⟩ := hinv0.at_end p pointsTo w0 hq0
  refine ⟨w0, hrun0, hvis, ?_⟩
  intro addr ord hord
  obtain ⟨w1, hrun1, hinv1, hq1⟩ := ComputeTransitiveClosure_finishes addr w0.st hs0 htest
  have hclo := hinv1.closure_at_end w0.st w1 hq1 hs0 hreach
  obtain ⟨st2, e2, hstep, hmods, hrefs⟩ := InitModRefInfo_spec p pointsTo hok w1.st
  have hm0 : w1.st.mods = [] := by rw [hinv1.grows.mods, hinv0.mods]
  have hr0 : w1.st.refs = [] := by rw [hinv1.grows.refs, hinv0.refs]
  have hmod : ∀ n x, (n, x) ∈ st2.mods ↔ InitMod p pointsTo n x := by
    intro n x
    constructor
    · intro h
      rcases hstep.mods_new n x h with k | k
      · rw [hm0] at k
        cases k
      · exact k
    · exact hmods n x
  have href : ∀ n x, (n, x) ∈ st2.refs ↔ InitRef p pointsTo n x := by
    intro n x
    constructor
    · intro h
      rcases hstep.refs_new n x h with k | k
      · rw [hr0] at k
        cases k
      · exact k
    · exact hrefs n x
  have hsucc : ∀ a b, (a, b) ∈ st2.succs ↔ Relation.TransGen (Succ w0.st) a b := by
    intro a b
    rw [hstep.succs]
    exact hclo a b
  have htr : ∀ a b c, (a, b) ∈ st2.succs → (b, c) ∈ st2.succs → (a, c) ∈ st2.succs := by
    intro a b c h1 h2
    exact (hsucc a c).2 (((hsucc a b).1 h1).trans ((hsucc b c).1 h2))
  have hends : ∀ a b, (a, b) ∈ st2.succs → b ∈ st2.nodes_ := by
    intro a b h
    rw [hstep.succs] at h
    exact hstep.nodes b (hinv1.sound.ends a b h).2
  have hprop := propagate_spec addr st2 htr hends (ord st2.nodes_)
  refine ⟨w1, ((ord st2.nodes_).foldl (propagate_node addr) (st2, [])).2, hrun1, hclo, ?_, ?_, ?_⟩
  · intro A B h
    obtain ⟨h1, h2⟩ := hinv1.sound.ends A B h
    rw [hinv1.grows.nodes] at h1 h2
    exact ⟨(hnode A).2 h1, (hnode B).2 h2⟩
  · intro fuel hf0 hf1
    unfold ComputeModRefInfo
    rw [hrun0 fuel hf0]
    simp only
    rw [hrun1 fuel hf1]
    simp only
    rw [e2]
  · intro F hF
    have hFn : F ∈ ord st2.nodes_ := by
      rw [(hord _).mem_iff]
      apply hstep.nodes
      rw [hinv1.grows.nodes]
      exact (hnode F).1 hF
    obtain ⟨mr, e, k1, k2⟩ := hprop F hFn
    refine ⟨mr, e, ?_, ?_⟩
    · intro x
      rw [k1]
      unfold Full
      rw [hmod]
      constructor
      · rintro (h | ⟨m, h1, h2⟩)
        · exact Or.inl h
        · exact Or.inr ⟨m, (hsucc F m).1 h1, (hmod m x).1 h2⟩
      · rintro (h | ⟨m, h1, h2⟩)
        · exact Or.inl h
        · exact Or.inr ⟨m, (hsucc F m).2 h1, (hmod m x).2 h2⟩
    · intro x
      rw [k2]
      unfold Full
      rw [href]
      constructor
      · rintro (h | ⟨m, h1, h2⟩)
        · exact Or.inl h
        · exact Or.inr ⟨m, (hsucc F m).1 h1, (href m x).1 h2⟩
      · rintro (h | ⟨m, h1, h2⟩)
        · exact Or.inl h
        · exact Or.inr ⟨m, (hsucc F m).2 h1, (href m x).2 h2⟩

/-- From a visited function, the paths of the graph that `ComputeCallGraph` has built are the
paths of the calls of the program. -/
theorem succ_path_iff_calls (p : Program) (pointsTo : PointsTo) (w : Walk)
    (hw : CallInv p pointsTo w) (hq : w.queue = []) (F G : String) (hF : F ∈ w.visited) :
    Relation.TransGen (Succ w.st) F G ↔ Relation.TransGen (Calls p pointsTo) F G := by
  obtain ⟨-, hedge, -⟩ := hw.at_end p pointsTo w hq
  constructor
  · intro h
    induction h with
    | single h1 => exact Relation.TransGen.single ((hedge _ _).1 h1).2
    | tail _ h1 ih => exact ih.tail ((hedge _ _).1 h1).2
  · intro h
    have key : Relation.TransGen (Succ w.st) F G ∧ G ∈ w.visited := by
      induction h with
      | single h1 =>
        have := (hedge _ _).2 ⟨hF, h1⟩
        exact ⟨Relation.TransGen.single this, (hw.edges _ _ this).2.2⟩
      | tail _ h1 ih =>
        have := (hedge _ _).2 ⟨ih.2, h1⟩
        exact ⟨ih.1.tail this, (hw.edges _ _ this).2.2⟩
    exact key.1

/-- C18. When every name that the calls reach from `test` is a function of the program and
`InitModRefInfo` can read every instruction, `ComputeModRefInfo` ends, and for every function
`F` reachable from `test` the mod set (the ref set) it returns is the union of the initial mod
(ref) set of `F` and the initial sets of every function reachable from `F` through one or more
call edges (the calls as `ComputeCallGraph` reads them); this holds for every order `ord` of the
walk over `nodes_` in the propagation loop and for all addresses `addr` of the nodes, so the
sets depend on neither. -/
theorem mod_ref_is_union (p : Program) (pointsTo : PointsTo) (addr : String → Nat)
    (ord : List String → List String)
    (hdef : ∀ v, Relation.ReflTransGen (Calls p pointsTo) "test" v → ∃ func, p.func v = some func)
    (hok : InitOK p) (hord : ∀ l, (ord l).Perm l) :
    ∃ N info, (∀ fuel, N ≤ fuel →
        ComputeModRefInfo p pointsTo addr ord fuel = Outcome.finished info) ∧
      ∀ F, Relation.ReflTransGen (Calls p pointsTo) "test" F →
        ∃ mr, info.lookup F = some mr ∧
          (∀ x, x ∈ mr.mod ↔ InitMod p pointsTo F x ∨
            ∃ G, Relation.TransGen (Calls p pointsTo) F G ∧ InitMod p pointsTo G x) ∧
          (∀ x, x ∈ mr.ref ↔ InitRef p pointsTo F x ∨
            ∃ G, Relation.TransGen (Calls p pointsTo) F G ∧ InitRef p pointsTo G x) := by
  obtain ⟨w0, hrun0, hinv0, hq0⟩ := ComputeCallGraph_finishes p pointsTo hdef
  obtain ⟨w0a, hrun0a, hvis, h⟩ := ComputeModRefInfo_spec p pointsTo hdef hok
  have e0 : w0a = w0 := by
    have h1 := hrun0 (max (callGraphFuel p pointsTo) (callGraphFuel p pointsTo)) (le_max_left _ _)
    have h2 := hrun0a (max (callGraphFuel p pointsTo) (callGraphFuel p pointsTo))
      (le_max_left _ _)
    rw [h1] at h2
    cases h2
    rfl
  subst e0
  obtain ⟨w1, info, -, -, -, hrun, hinfo⟩ := h addr ord hord
  refine ⟨max (callGraphFuel p pointsTo) (closureFuel w0a.st), info,
    fun fuel hf => hrun fuel (le_trans (le_max_left _ _) hf) (le_trans (le_max_right _ _) hf), ?_⟩
  intro F hF
  have hFv : F ∈ w0a.visited := (hvis F).2 hF
  obtain ⟨mr, e, k1, k2⟩ := hinfo F hFv
  refine ⟨mr, e, ?_, ?_⟩
  · intro x
    rw [k1]
    constructor
    · rintro (h | ⟨G, h1, h2⟩)
      · exact Or.inl h
      · exact Or.inr ⟨G, (succ_path_iff_calls p pointsTo w0a hinv0 hq0 F G hFv).1 h1, h2⟩
    · rintro (h | ⟨G, h1, h2⟩)
      · exact Or.inl h
      · exact Or.inr ⟨G, (succ_path_iff_calls p pointsTo w0a hinv0 hq0 F G hFv).2 h1, h2⟩
  · intro x
    rw [k2]
    constructor
    · rintro (h | ⟨G, h1, h2⟩)
      · exact Or.inl h
      · exact Or.inr ⟨G, (succ_path_iff_calls p pointsTo w0a hinv0 hq0 F G hFv).1 h1, h2⟩
    · rintro (h | ⟨G, h1, h2⟩)
      · exact Or.inl h
      · exact Or.inr ⟨G, (succ_path_iff_calls p pointsTo w0a hinv0 hq0 F G hFv).2 h1, h2⟩

/-- C18, on the example: `test` calls `a`, `a` writes `g` and calls `b`, `b` reads the cell `c1`
and writes the cell `c2`; in both orders of the walk the result gives `test` the mod set
`g, c2` and the ref set `c1`. -/
theorem mod_ref_is_union_witness :
    ComputeModRefInfo modRefProgram modRefPointsTo nodeAddr id 19 =
      Outcome.finished [("test", ⟨["g", "c2"], ["c1"]⟩), ("a", ⟨["g", "c2"], ["c1"]⟩),
        ("b", ⟨["c2"], ["c1"]⟩), ("c", ⟨["g"], []⟩)] ∧
    ComputeModRefInfo modRefProgram modRefPointsTo nodeAddr List.reverse 19 =
      Outcome.finished [("c", ⟨["g"], []⟩), ("b", ⟨["c2"], ["c1"]⟩),
        ("a", ⟨["g", "c2"], ["c1"]⟩), ("test", ⟨["g", "c2"], ["c1"]⟩)] ∧
    ∃ N info, (∀ fuel, N ≤ fuel →
        ComputeModRefInfo modRefProgram modRefPointsTo nodeAddr List.reverse fuel =
          Outcome.finished info) ∧
      ∀ F, Relation.ReflTransGen (Calls modRefProgram modRefPointsTo) "test" F →
        ∃ mr, info.lookup F = some mr ∧
          (∀ x, x ∈ mr.mod ↔ InitMod modRefProgram modRefPointsTo F x ∨
            ∃ G, Relation.TransGen (Calls modRefProgram modRefPointsTo) F G ∧
              InitMod modRefProgram modRefPointsTo G x) ∧
          (∀ x, x ∈ mr.ref ↔ InitRef modRefProgram modRefPointsTo F x ∨
            ∃ G, Relation.TransGen (Calls modRefProgram modRefPointsTo) F G ∧
              InitRef modRefProgram modRefPointsTo G x) :=
  ⟨by decide, by decide, mod_ref_is_union modRefProgram modRefPointsTo nodeAddr List.reverse
    (reachable_defined modRefProgram modRefPointsTo (by decide)) (by decide)
    (fun l => List.reverse_perm l)⟩

/-- C19. In the result of `ComputeModRefInfo`, for every caller `C` and every callee `D` that is
a successor of `C` in the transitively closed call graph, both have an entry, `mod(D)` is a
subset of `mod(C)` and `ref(D)` is a subset of `ref(C)`. -/
theorem mod_ref_monotone (p : Program) (pointsTo : PointsTo) (addr : String → Nat)
    (ord : List String → List String)
    (hdef : ∀ v, Relation.ReflTransGen (Calls p pointsTo) "test" v → ∃ func, p.func v = some func)
    (hok : InitOK p) (hord : ∀ l, (ord l).Perm l) :
    ∃ w0 w1 info, (∀ fuel, callGraphFuel p pointsTo ≤ fuel →
        ComputeCallGraph p pointsTo fuel State.empty = Outcome.finished w0) ∧
      (∀ fuel, closureFuel w0.st ≤ fuel →
        ComputeTransitiveClosure addr fuel w0.st = Outcome.finished w1) ∧
      (∀ fuel, callGraphFuel p pointsTo ≤ fuel → closureFuel w0.st ≤ fuel →
        ComputeModRefInfo p pointsTo addr ord fuel = Outcome.finished info) ∧
      ∀ C D, (C, D) ∈ w1.st.succs →
        ∃ mc md, info.lookup C = some mc ∧ info.lookup D = some md ∧
          (∀ x ∈ md.mod, x ∈ mc.mod) ∧ (∀ x ∈ md.ref, x ∈ mc.ref) := by
  obtain ⟨w0, hrun0, hvis, h⟩ := ComputeModRefInfo_spec p pointsTo hdef hok
  obtain ⟨w1, info, hrun1, hclo, hends, hrun, hinfo⟩ := h addr ord hord
  refine ⟨w0, w1, info, hrun0, hrun1, hrun, ?_⟩
  intro C D hCD
  obtain ⟨hC, hD⟩ := hends C D hCD
  obtain ⟨mc, ec, c1, c2⟩ := hinfo C hC
  obtain ⟨md, ed, d1, d2⟩ := hinfo D hD
  have hpath := (hclo C D).1 hCD
  refine ⟨mc, md, ec, ed, ?_, ?_⟩
  · intro x hx
    rw [c1]
    rcases (d1 x).1 hx with k | ⟨G, k1, k2⟩
    · exact Or.inr ⟨D, hpath, k⟩
    · exact Or.inr ⟨G, hpath.trans k1, k2⟩
  · intro x hx
    rw [c2]
    rcases (d2 x).1 hx with k | ⟨G, k1, k2⟩
    · exact Or.inr ⟨D, hpath, k⟩
    · exact Or.inr ⟨G, hpath.trans k1, k2⟩

/-- C19, on the example, where `b` is a successor of `test` in the closed graph. -/
theorem mod_ref_monotone_witness :
    ∃ w0 w1 info, (∀ fuel, callGraphFuel modRefProgram modRefPointsTo ≤ fuel →
        ComputeCallGraph modRefProgram modRefPointsTo fuel State.empty = Outcome.finished w0) ∧
      (∀ fuel, closureFuel w0.st ≤ fuel →
        ComputeTransitiveClosure nodeAddr fuel w0.st = Outcome.finished w1) ∧
      (∀ fuel, callGraphFuel modRefProgram modRefPointsTo ≤ fuel → closureFuel w0.st ≤ fuel →
        ComputeModRefInfo modRefProgram modRefPointsTo nodeAddr List.reverse fuel =
          Outcome.finished info) ∧
      ∀ C D, (C, D) ∈ w1.st.succs →
        ∃ mc md, info.lookup C = some mc ∧ info.lookup D = some md ∧
          (∀ x ∈ md.mod, x ∈ mc.mod) ∧ (∀ x ∈ md.ref, x ∈ mc.ref) :=
  mod_ref_monotone modRefProgram modRefPointsTo nodeAddr List.reverse
    (reachable_defined modRefProgram modRefPointsTo (by decide)) (by decide)
    (fun l => List.reverse_perm l)

/-- What `isGlobalVar` answers: the name is not among the locals of the function found under
`func_name`, and a global has it. -/
theorem isGlobalVar_iff (p : Program) (var : Variable) (F : String) (func : Function)
    (h : p.func F = some func) (g : Bool) (hg : isGlobalVar p var F = some g) :
    g = true ↔ (∀ l ∈ func.locals, l.1 ≠ var.name) ∧ ∃ gl ∈ p.globals, gl.name = var.name := by
  unfold isGlobalVar at hg
  rw [h] at hg
  simp only at hg
  split at hg
  · rename_i hpos
    cases hg
    simp only [Bool.false_eq_true, false_iff, not_and]
    intro hall
    exfalso
    obtain ⟨l, hl⟩ := List.exists_mem_of_length_pos hpos
    have := List.mem_filter.1 hl
    exact hall l this.1 (by simpa using this.2)
  · rename_i hneg
    cases hg
    have hnil : func.locals.filter (fun l => l.1 = var.name) = [] := by
      apply List.length_eq_zero.1
      omega
    constructor
    · intro hany
      refine ⟨?_, by simpa using hany⟩
      intro l hl hname
      have : l ∈ func.locals.filter (fun l => l.1 = var.name) := by
        rw [List.mem_filter]
        exact ⟨hl, by simpa using hname⟩
      rw [hnil] at this
      cases this
    · rintro ⟨-, hgl⟩
      simpa using hgl

/-- C20. `InitModRefInfo` runs to its end on a program whose instructions it can read, and then:
for every Store `*dst := op` in a function `F`, every cell in the points-to set of `dst`, looked
up under `dst` when `isGlobalVar` answers that `dst` is a global (its name is not among the
locals of `F` and a global has it) and under `F.dst` otherwise, is in the initial mod set of
`F`; for every Load `lhs := *src` in `F`, every cell in the points-to set of `src`, looked up in
the same way, is in the initial ref set of `F`. -/
theorem init_store_load_cells (p : Program) (pointsTo : PointsTo) (hok : InitOK p)
    (st : State) :
    ∃ st1, InitModRefInfo p pointsTo st = some st1 ∧
      ∀ F ∈ p.funcs, ∀ bb ∈ F.bbs,
        (∀ store_instr, Instruction.Store store_instr ∈ bb.2.instructions →
          ∃ g, isGlobalVar p store_instr.dst F.name = some g ∧
            (p.func F.name = some F →
              (g = true ↔ (∀ l ∈ F.locals, l.1 ≠ store_instr.dst.name) ∧
                ∃ gl ∈ p.globals, gl.name = store_instr.dst.name)) ∧
            ∀ cell ∈ pts_at pointsTo
                (if g then store_instr.dst.name else F.name ++ "." ++ store_instr.dst.name),
              (F.name, cell) ∈ st1.mods) ∧
        (∀ load_instr, Instruction.Load load_instr ∈ bb.2.instructions →
          ∃ g, isGlobalVar p load_instr.src F.name = some g ∧
            (p.func F.name = some F →
              (g = true ↔ (∀ l ∈ F.locals, l.1 ≠ load_instr.src.name) ∧
                ∃ gl ∈ p.globals, gl.name = load_instr.src.name)) ∧
            ∀ cell ∈ pts_at pointsTo
                (if g then load_instr.src.name else F.name ++ "." ++ load_instr.src.name),
              (F.name, cell) ∈ st1.refs) := by
  obtain ⟨st1, e, -, hmods, hrefs⟩ := InitModRefInfo_spec p pointsTo hok st
  refine ⟨st1, e, ?_⟩
  intro F hF bb hb
  obtain ⟨func1, hf1⟩ := func_some p F hF
  constructor
  · intro s hs
    obtain ⟨g, hg⟩ := isGlobalVar_some p s.dst F.name func1 hf1
    refine ⟨g, hg, fun hfF => isGlobalVar_iff p s.dst F.name F hfF g hg, ?_⟩
    intro cell hcell
    apply hmods
    obtain ⟨r1, h1⟩ := global_name_some p s.dst F.name func1 hf1
    obtain ⟨r2, h2⟩ := global_operand_some p s.op F.name func1 hf1
    refine ⟨F, hF, rfl, bb, hb, _, hs, pts_at pointsTo
      (if g then s.dst.name else F.name ++ "." ++ s.dst.name), r1 ++ r2, ?_, hcell⟩
    simp only [instr_mod_ref, pointsToKey, hg, h1, h2, Option.map_some']
  · intro s hs
    obtain ⟨g, hg⟩ := isGlobalVar_some p s.src F.name func1 hf1
    refine ⟨g, hg, fun hfF => isGlobalVar_iff p s.src F.name F hfF g hg, ?_⟩
    intro cell hcell
    apply hrefs
    obtain ⟨r1, h1⟩ := global_name_some p s.lhs F.name func1 hf1
    refine ⟨F, hF, rfl, bb, hb, _, hs, r1, pts_at pointsTo
      (if g then s.src.name else F.name ++ "." ++ s.src.name), ?_, hcell⟩
    simp only [instr_mod_ref, pointsToKey, hg, h1, Option.map_some']

/-- C20, on the example: in `b` the store through the local `q` gives the cell `c2` of `b.q` to
the mod set, and the load through the global `gp` gives the cell `c1` of `gp` to the ref set. -/
theorem init_store_load_cells_witness :
    InitModRefInfo modRefProgram modRefPointsTo State.empty =
      some ⟨["test", "a", "b", "c"], [], [], [("a", "g"), ("b", "c2"), ("c", "g")],
        [("b", "c1")]⟩ ∧
    ∃ st1, InitModRefInfo modRefProgram modRefPointsTo State.empty = some st1 ∧
      ∀ F ∈ modRefProgram.funcs, ∀ bb ∈ F.bbs,
        (∀ store_instr, Instruction.Store store_instr ∈ bb.2.instructions →
          ∃ g, isGlobalVar modRefProgram store_instr.dst F.name = some g ∧
            (modRefProgram.func F.name = some F →
              (g = true ↔ (∀ l ∈ F.locals, l.1 ≠ store_instr.dst.name) ∧
                ∃ gl ∈ modRefProgram.globals, gl.name = store_instr.dst.name)) ∧
            ∀ cell ∈ pts_at modRefPointsTo
                (if g then store_instr.dst.name else F.name ++ "." ++ store_instr.dst.name),
              (F.name, cell) ∈ st1.mods) ∧
        (∀ load_instr, Instruction.Load load_instr ∈ bb.2.instructions →
          ∃ g, isGlobalVar modRefProgram load_instr.src F.name = some g ∧
            (modRefProgram.func F.name = some F →
              (g = true ↔ (∀ l ∈ F.locals, l.1 ≠ load_instr.src.name) ∧
                ∃ gl ∈ modRefProgram.globals, gl.name = load_instr.src.name)) ∧
            ∀ cell ∈ pts_at modRefPointsTo
                (if g then load_instr.src.name else F.name ++ "." ++ load_instr.src.name),
              (F.name, cell) ∈ st1.refs) :=
  ⟨by decide, init_store_load_cells modRefProgram modRefPointsTo (by decide) State.empty⟩

/-- C16. The function `test` ends a block with an indirect call through its local `fp`. With a
points-to map that holds the function `b` under the set-variable name `test.fp` (the key that
`InitModRefInfo` builds for a pointer that is not a global), `ComputeCallGraph` makes no edge
from `test` to `b` and does not visit `b`: it looks the pointer up under the bare name `fp`, and
only a map that holds `b` under `fp` yields the edge. -/
theorem indirect_call_reads_bare_name :
    pointsToKey cgProgram "test" (ptrVar "fp") = some "test.fp" ∧
    "b" ∈ pts_at [("test.fp", ["b"])] "test.fp" ∧
    ComputeCallGraph cgProgram [("test.fp", ["b"])] 4 State.empty =
      Outcome.finished ⟨⟨["test", "a"], [("a", "test"), ("test", "a")],
        [("test", "a"), ("a", "test")], [], []⟩, [], ["test", "a"]⟩ ∧
    ComputeCallGraph cgProgram [("fp", ["b"])] 4 State.empty =
      Outcome.finished ⟨⟨["test", "a", "b"], [("a", "test"), ("b", "test"), ("test", "a")],
        [("test", "a"), ("test", "b"), ("a", "test")], [], []⟩, [], ["test", "a", "b"]⟩ := by
  refine ⟨by decide, by decide, by decide, by decide⟩

end ModRef

/-! ## The round trip from the generator to the solver -/

namespace Solver

theorem flushWord_nil : flushWord [] = [] := rfl

theorem flushWord_word (s : String) (h : s.data ≠ []) : flushWord s.data = [s] := by
  simp [flushWord, h]

/-- A word character joins the word that is being read. -/
theorem tokenize_loop_char (c : Char) (hc : Generator.wordChar c = true) (s word : List Char) :
    tokenize_loop (c :: s) word = tokenize_loop s (word ++ [c]) := by
  have hd : delimOf c = none := by
    unfold delimOf
    simp only [Generator.wordChar, Bool.not_eq_true', Bool.or_eq_false_iff,
      decide_eq_false_iff_not] at hc
    simp [hc]
  have h1 : c ≠ '<' := by
    intro h
    simp [Generator.wordChar, h] at hc
  have h2 : c ≠ '-' := by
    intro h
    simp [Generator.wordChar, h] at hc
  cases s with
  | nil => simp [tokenize_loop, hd]
  | cons d rest => simp [tokenize_loop, hd, h1, h2]

/-- A word joins the word that is being read. -/
theorem tokenize_loop_word : ∀ (w : List Char), (∀ c ∈ w, Generator.wordChar c = true) →
    ∀ (s word : List Char), tokenize_loop (w ++ s) word = tokenize_loop s (word ++ w)
  | [], _, s, word => by simp
  | c :: w, h, s, word => by
    rw [List.cons_append, tokenize_loop_char c (h c (List.mem_cons_self _ _)),
      tokenize_loop_word w (fun d hd => h d (List.mem_cons_of_mem _ hd))]
    simp

/-- A blank or a one-letter delimiter ends the word and starts afresh. -/
theorem tokenize_loop_delim (c : Char) (t : List String) (hc : delimOf c = some t)
    (s word : List Char) :
    tokenize_loop (c :: s) word = flushWord word ++ t ++ tokenize_loop s [] := by
  cases s with
  | nil => simp [tokenize_loop, hc, flushWord]
  | cons d rest => simp [tokenize_loop, hc]

/-- The delimiter `<=` ends the word and starts afresh. -/
theorem tokenize_loop_le (s word : List Char) :
    tokenize_loop ('<' :: '=' :: s) word = flushWord word ++ "<=" :: tokenize_loop s [] := by
  have hd : delimOf '<' = none := by decide
  simp [tokenize_loop, hd]

/-- A name in front of a blank or a one-letter delimiter is one token. -/
theorem tokenize_name (name : String) (h : Generator.Word name) (c : Char) (t : List String)
    (hc : delimOf c = some t) (s : List Char) :
    tokenize_loop (name.data ++ c :: s) [] = name :: t ++ tokenize_loop s [] := by
  rw [tokenize_loop_word name.data h.2, tokenize_loop_delim c t hc, List.nil_append,
    flushWord_word name h.1]
  rfl

end Solver

namespace Generator

theorem word_ref : Word "ref" := by decide

theorem word_proj : Word "proj" := by decide

theorem word_one : Word "1" := by decide

/-- The text of a side in front of a blank or a one-letter delimiter: its tokens. -/
theorem tokenize_side (e : Expression) (h : SideOK e) :
    ∃ text, build_expr_str e = some text ∧
      ∀ (c : Char) (t : List String) (s : List Char), Solver.delimOf c = some t →
        Solver.tokenize_loop (text.data ++ c :: s) [] =
          sideTokens e ++ t ++ Solver.tokenize_loop s [] := by
  have hopen : Solver.delimOf '(' = some ["("] := by decide
  have hcomma : Solver.delimOf ',' = some [","] := by decide
  have hclose : Solver.delimOf ')' = some [")"] := by decide
  match e, h with
  | Expression.Term (Term.SetVariable v), h =>
    refine ⟨build_set_var_str v, rfl, ?_⟩
    intro c t s hc
    rw [Solver.tokenize_name _ h.1 c t hc]
    rfl
  | Expression.Term (Term.Constructor (Constructor.mk [Term.SetVariable a, Term.SetVariable b]
      name)), h =>
    obtain ⟨hn, ha, hb⟩ := h
    subst hn
    refine ⟨"ref" ++ "(" ++ (build_set_var_str a ++ "," ++ build_set_var_str b) ++ ")", ?_, ?_⟩
    · simp [build_expr_str, build_args_str, Constructor.args, Constructor.name]
    · intro c t s hc
      have e1 : ("ref" ++ "(" ++ (build_set_var_str a ++ "," ++ build_set_var_str b) ++ ")").data
          ++ c :: s = "ref".data ++ '(' :: ((build_set_var_str a).data ++ ',' ::
            ((build_set_var_str b).data ++ ')' :: c :: s)) := by
        simp [String.data_append]
      rw [e1, Solver.tokenize_name _ word_ref '(' _ hopen, Solver.tokenize_name _ ha ',' _ hcomma,
        Solver.tokenize_name _ hb ')' _ hclose, Solver.tokenize_loop_delim c t hc]
      simp [sideTokens, Solver.flushWord]
  | Expression.Projection p, h =>
    obtain ⟨hn, harg, hv⟩ := h
    refine ⟨"proj(" ++ p.c.name ++ "," ++ toString p.arg ++ "," ++ build_set_var_str p.v ++ ")",
      rfl, ?_⟩
    intro c t s hc
    have e1 : ("proj(" ++ p.c.name ++ "," ++ toString p.arg ++ "," ++ build_set_var_str p.v
        ++ ")").data ++ c :: s = "proj".data ++ '(' :: ("ref".data ++ ',' :: ("1".data ++ ',' ::
          ((build_set_var_str p.v).data ++ ')' :: c :: s))) := by
      rw [hn, harg]
      simp [String.data_append]
      rfl
    rw [e1, Solver.tokenize_name _ word_proj '(' _ hopen,
      Solver.tokenize_name _ word_ref ',' _ hcomma, Solver.tokenize_name _ word_one ',' _ hcomma,
      Solver.tokenize_name _ hv ')' _ hclose, Solver.tokenize_loop_delim c t hc]
    simp [sideTokens, Solver.flushWord, hn, harg]
    rfl

/-- The tokens of a side are read back as the expression of the side. -/
theorem parse_side (e : Expression) (h : SideOK e) (more : List String) :
    ∃ x, toExpr e = some x ∧ Solver.parseTokens (sideTokens e ++ more) = some (x, more) := by
  match e, h with
  | Expression.Term (Term.SetVariable v), h =>
    obtain ⟨-, h1, h2, h3⟩ := h
    exact ⟨_, rfl, by simp [sideTokens, Solver.parseTokens, Solver.Consume, h1, h2, h3]⟩
  | Expression.Term (Term.Constructor (Constructor.mk [Term.SetVariable a, Term.SetVariable b]
      name)), h =>
    obtain ⟨hn, -, -⟩ := h
    subst hn
    exact ⟨Solver.Expr.ref (build_set_var_str a) (build_set_var_str b), by simp [toExpr],
      by simp [sideTokens, Solver.parseTokens, Solver.Consume, Solver.ConsumeToken]⟩
  | Expression.Projection p, h =>
    obtain ⟨hn, harg, -⟩ := h
    have hstoi : Solver.stoi "1" = some 1 := by decide
    have hone : toString (1 : Int) = "1" := by decide
    refine ⟨_, rfl, ?_⟩
    rw [hn, harg]
    simp [sideTokens, Solver.parseTokens, Solver.Consume, Solver.ConsumeToken, hn, harg, hone,
      hstoi]

/-- The text of a statement whose sides are as the generator builds them: its tokens, and the
constraint that `main` of the solver reads from them. -/
theorem line_round_trip (s : Statement) (h1 : SideOK s.e1) (h2 : SideOK s.e2) :
    ∃ text l r, build_constraint s = some text ∧ toExpr s.e1 = some l ∧ toExpr s.e2 = some r ∧
      (∀ rest, Solver.tokenize_loop (text.data ++ rest) [] =
        lineTokens s ++ Solver.tokenize_loop rest []) ∧
      ∀ more, Solver.parseConstraint (lineTokens s ++ more) = some ((l, r), more) := by
  obtain ⟨t1, e1, k1⟩ := tokenize_side s.e1 h1
  obtain ⟨t2, e2, k2⟩ := tokenize_side s.e2 h2
  have hblank : Solver.delimOf ' ' = some [] := by decide
  have hline : Solver.delimOf '\n' = some ["\n"] := by decide
  obtain ⟨l, hl, pl⟩ := parse_side s.e1 h1 ("<=" :: (sideTokens s.e2 ++ ["\n"]))
  refine ⟨t1 ++ " <= " ++ t2 ++ "\n", l, ?_⟩
  have hr := parse_side s.e2 h2
  obtain ⟨r, hr1, -⟩ := hr []
  refine ⟨r, by simp [build_constraint, e1, e2], hl, hr1, ?_, ?_⟩
  · intro rest
    have e : (t1 ++ " <= " ++ t2 ++ "\n").data ++ rest =
        t1.data ++ ' ' :: ('<' :: '=' :: (' ' :: (t2.data ++ '\n' :: rest))) := by
      simp [String.data_append]
    rw [e, k1 ' ' [] _ hblank, Solver.tokenize_loop_le, Solver.tokenize_loop_delim ' ' [] hblank,
      k2 '\n' ["\n"] _ hline]
    simp [lineTokens, Solver.flushWord]
  · intro more
    obtain ⟨l1, hl1, pl1⟩ := parse_side s.e1 h1 ("<=" :: (sideTokens s.e2 ++ "\n" :: more))
    obtain ⟨r1, hr2, pr1⟩ := parse_side s.e2 h2 ("\n" :: more)
    rw [hl] at hl1
    cases hl1
    rw [hr1] at hr2
    cases hr2
    have e : lineTokens s ++ more =
        sideTokens s.e1 ++ "<=" :: (sideTokens s.e2 ++ "\n" :: more) := by
      simp [lineTokens]
    rw [e]
    simp [Solver.parseConstraint, pl1, Solver.ConsumeToken, pr1]

/-- The texts of a list of statements whose sides are as the generator builds them: the tokens
of the printed text, and the constraints that `main` of the solver reads from them. -/
theorem file_round_trip : ∀ (ss : List Statement), (∀ s ∈ ss, SideOK s.e1 ∧ SideOK s.e2) →
    ∃ lines cs, build_lines ss = some lines ∧ toExprs ss = some cs ∧
      Solver.tokenize (printed lines) = fileTokens ss ∧ ss.length ≤ (fileTokens ss).length ∧
      ∀ fuel, ss.length ≤ fuel → Solver.parseFile fuel (fileTokens ss) = some cs
  | [], _ => ⟨[], [], rfl, rfl, rfl, Nat.le_refl _, fun fuel _ => by cases fuel <;> rfl⟩
  | s :: ss, h => by
    obtain ⟨text, l, r, ht, hl, hr, htok, hparse⟩ :=
      line_round_trip s (h s (List.mem_cons_self _ _)).1 (h s (List.mem_cons_self _ _)).2
    obtain ⟨lines, cs, hlines, hcs, htoks, hlen, hfile⟩ :=
      file_round_trip ss (fun s1 hs1 => h s1 (List.mem_cons_of_mem _ hs1))
    have hne : ∃ t ts, lineTokens s ++ fileTokens ss = t :: ts := by
      cases hx : lineTokens s ++ fileTokens ss with
      | nil =>
        have := congrArg List.length hx
        simp [lineTokens] at this
      | cons t ts => exact ⟨t, ts, rfl⟩
    refine ⟨text :: lines, (l, r) :: cs, by simp [build_lines, ht, hlines],
      by simp [toExprs, hl, hr, hcs], ?_, ?_, ?_⟩
    · have e : Solver.tokenize (printed (text :: lines)) =
          Solver.tokenize_loop (text.data ++ (printed lines).data) [] := by
        simp [Solver.tokenize, printed, String.data_append]
      rw [e, htok]
      unfold Solver.tokenize at htoks
      rw [htoks]
      rfl
    · obtain ⟨t, ts, e⟩ := hne
      simp only [fileTokens, lineTokens, List.length_append, List.length_cons,
        List.length_nil]
      omega
    · intro fuel hfuel
      cases fuel with
      | zero => simp at hfuel
      | succ n =>
        obtain ⟨t, ts, e⟩ := hne
        have e1 : fileTokens (s :: ss) = t :: ts := e
        rw [e1]
        unfold Solver.parseFile
        rw [← e, hparse (fileTokens ss)]
        show Option.map (fun cs => (l, r) :: cs) (Solver.parseFile n (fileTokens ss)) = _
        rw [hfile n (by simpa using hfuel)]
        rfl

/-- A set variable with a function name is a word that reads as no keyword. -/
theorem sideOK_local (func_name var_name : String) (hf : cleanName func_name)
    (hv : cleanName var_name) :
    Word (build_set_var_str ⟨var_name, func_name, true⟩) ∧
      SideOK (Expression.Term (Term.SetVariable ⟨var_name, func_name, true⟩)) := by
  have hdata : (build_set_var_str ⟨var_name, func_name, true⟩).data =
      func_name.data ++ '.' :: var_name.data := by
    simp [build_set_var_str, String.data_append]
  have hword : Word (build_set_var_str ⟨var_name, func_name, true⟩) := by
    refine ⟨by rw [hdata]; simp, ?_⟩
    intro c hc
    rw [hdata] at hc
    rcases List.mem_append.1 hc with h | h
    · exact hf c h
    · rcases List.mem_cons.1 h with h | h
      · rw [h]
        decide
      · exact hv c h
  have hdot : '.' ∈ (build_set_var_str ⟨var_name, func_name, true⟩).data := by
    rw [hdata]
    simp
  refine ⟨hword, hword, ?_, ?_, ?_⟩ <;>
  · intro h
    rw [h] at hdot
    revert hdot
    decide

/-- The statements of an instruction whose names are clean have sides as `SideOK` asks. -/
theorem instruction_constraints_sideOK (func_name : String) (hf : cleanName func_name)
    (i : Instruction) (hi : InstrNamesOK i) (ss : List Statement)
    (h : instruction_constraints func_name i = some ss) :
    ∀ s ∈ ss, SideOK s.e1 ∧ SideOK s.e2 := by
  cases i with
  | Copy copy =>
    simp only [instruction_constraints] at h
    split at h
    · unfold get_copy_constraint at h
      cases hop : copy.op with
      | ConstInt v => simp [hop, Operand.var] at h
      | Var v =>
        simp [hop, Operand.var] at h
        subst h
        have hv : cleanName v.name := by
          have := hi.2
          rw [hop] at this
          exact this
        intro s hs
        simp only [List.mem_singleton] at hs
        subst hs
        exact ⟨(sideOK_local func_name _ hf hv).2, (sideOK_local func_name _ hf hi.1).2⟩
    · simp at h; subst h; simp
  | Addrof a =>
    simp [instruction_constraints] at h; subst h
    intro s hs
    simp only [List.mem_singleton] at hs
    subst hs
    exact ⟨⟨rfl, (sideOK_local func_name _ hf hi.2).1, (sideOK_local func_name _ hf hi.2).1⟩,
      (sideOK_local func_name _ hf hi.1).2⟩
  | Alloc a =>
    simp [instruction_constraints] at h; subst h
    intro s hs
    simp only [List.mem_singleton] at hs
    subst hs
    exact ⟨⟨rfl, hi.2, hi.2⟩, (sideOK_local func_name _ hf hi.1).2⟩
  | Gep a =>
    simp [instruction_constraints] at h; subst h
    intro s hs
    simp only [List.mem_singleton] at hs
    subst hs
    exact ⟨(sideOK_local func_name _ hf hi.2).2, (sideOK_local func_name _ hf hi.1).2⟩
  | Gfp a =>
    simp [instruction_constraints] at h; subst h
    intro s hs
    simp only [List.mem_singleton] at hs
    subst hs
    exact ⟨(sideOK_local func_name _ hf hi.2).2, (sideOK_local func_name _ hf hi.1).2⟩
  | Load a =>
    simp only [instruction_constraints] at h
    split at h
    · simp at h; subst h
      intro s hs
      simp only [List.mem_singleton] at hs
      subst hs
      exact ⟨⟨rfl, rfl, (sideOK_local func_name _ hf hi.2).1⟩,
        (sideOK_local func_name _ hf hi.1).2⟩
    · simp at h; subst h; simp
  | Store st =>
    simp only [instruction_constraints] at h
    cases hop : st.op with
    | ConstInt v => simp [hop, Operand.IsConstInt] at h; subst h; simp
    | Var v =>
      have hv : cleanName v.name := by
        have := hi.2
        rw [hop] at this
        exact this
      simp only [hop, Operand.IsConstInt, Operand.var, get_store_constraint] at h
      by_cases hptr : v.type.indirection = 0
      · simp [hptr] at h
        subst h
        simp
      · simp [hptr] at h
        subst h
        intro s hs
        simp only [List.mem_singleton] at hs
        subst hs
        exact ⟨(sideOK_local func_name _ hf hv).2,
          ⟨rfl, rfl, (sideOK_local func_name _ hf hi.1).1⟩⟩
  | Other => simp [instruction_constraints] at h; subst h; simp

/-- C14. For statements whose sides are as the generator builds them (a set variable, a `ref`
constructor with two set-variable arguments, or the projection `proj(ref,1,v)`, with names that
are words): every statement has a text, and tokenizing the text and parsing it as `main` of the
solver does yields a left and a right expression of the same kind with the same constructor
name, projection index and set-variable names; so solving the printed text gives the same
solution as solving the same constraints fed directly. -/
theorem generator_solver_round_trip (ss : List Statement)
    (hok : ∀ s ∈ ss, SideOK s.e1 ∧ SideOK s.e2) :
    ∃ lines cs, build_lines ss = some lines ∧ toExprs ss = some cs ∧
      (∀ s ∈ ss, ∃ text l r, build_constraint s = some text ∧ toExpr s.e1 = some l ∧
        toExpr s.e2 = some r ∧
        Solver.parseConstraint (Solver.tokenize text) = some ((l, r), [])) ∧
      ∀ addr fuel, Solver.solve_text addr fuel (printed lines) = Solver.solve_main addr fuel cs := by
  obtain ⟨lines, cs, hlines, hcs, htoks, hlen, hfile⟩ := file_round_trip ss hok
  refine ⟨lines, cs, hlines, hcs, ?_, ?_⟩
  · intro s hs
    obtain ⟨text, l, r, ht, hl, hr, htok, hparse⟩ := line_round_trip s (hok s hs).1 (hok s hs).2
    refine ⟨text, l, r, ht, hl, hr, ?_⟩
    have e : Solver.tokenize text = lineTokens s := by
      have := htok []
      simpa [Solver.tokenize, Solver.tokenize_loop, Solver.flushWord] using this
    rw [e]
    simpa using hparse []
  · intro addr fuel
    unfold Solver.solve_text
    rw [htoks, hfile _ hlen]
    rfl

/-- C14, on a copy, an address, an allocation, a load and a store of the function `F`. -/
theorem generator_solver_round_trip_witness :
    collect (instruction_constraints "F") roundTripInstrs = some roundTripExample ∧
    build_lines roundTripExample = some ["F.q <= F.p\n", "ref(F.a,F.a) <= F.q\n",
      "ref(_alloc1,_alloc1) <= F.h\n", "proj(ref,1,F.p) <= F.x\n",
      "F.x <= proj(ref,1,F.p)\n"] ∧
    Solver.tokenize "proj(ref,1,F.p) <= F.x\n" =
      ["proj", "(", "ref", ",", "1", ",", "F.p", ")", "<=", "F.x", "\n"] ∧
    ∃ lines cs, build_lines roundTripExample = some lines ∧ toExprs roundTripExample = some cs ∧
      (∀ s ∈ roundTripExample, ∃ text l r, build_constraint s = some text ∧
        toExpr s.e1 = some l ∧ toExpr s.e2 = some r ∧
        Solver.parseConstraint (Solver.tokenize text) = some ((l, r), [])) ∧
      ∀ addr fuel, Solver.solve_text addr fuel (printed lines) = Solver.solve_main addr fuel cs :=
  ⟨rfl, by decide, by decide, generator_solver_round_trip roundTripExample (by
    intro s hs
    simp only [roundTripExample, List.mem_cons, List.mem_singleton, List.not_mem_nil,
      or_false] at hs
    rcases hs with rfl | rfl | rfl | rfl | rfl <;> exact ⟨by decide, by decide⟩)⟩

end Generator

/-! ## The initial mod/ref information: loads and returns -/

namespace ModRef

open Generator (Variable Operand intVar ptrVar)

/-- C21. The only block of `test` holds the load `x := *gp` through the global pointer `gp`,
which points to the cell `c1`: `InitModRefInfo` gives `test` the initial ref set with the one
member `c1`, the load contributes the members of the points-to set of `gp` and nothing else, so
`gp` itself is not in the ref set; for the store `*gp := x` through the same pointer the function
does insert `gp` into the ref set. -/
theorem load_through_global_leaves_it_out :
    isGlobalVar loadProgram (ptrVar "gp") "test" = some true ∧
    InitModRefInfo loadProgram loadPointsTo State.empty =
      some ⟨["test"], [], [], [], [("test", "c1")]⟩ ∧
    instr_mod_ref loadProgram loadPointsTo "test"
      (Instruction.Load ⟨intVar "x", ptrVar "gp"⟩) = some ([], ["c1"]) ∧
    instr_mod_ref loadProgram loadPointsTo "test"
      (Instruction.Store ⟨ptrVar "gp", Operand.Var (intVar "x")⟩) = some (["c1"], ["gp"]) := by
  decide

/-- C22. The only block of `test` ends with the terminal `ret g`, where `g` is a global:
`InitModRefInfo` leaves the initial ref set of `test` empty, since its loop reads the
instructions of a block and not the terminal; the test for `RetInstrType` inside that loop would
insert `g` for a `ret g` that stood among the instructions. -/
theorem returned_global_not_in_refs :
    isGlobalVar retProgram (intVar "g") "test" = some true ∧
    InitModRefInfo retProgram [] State.empty = some ⟨["test"], [], [], [], []⟩ ∧
    instr_mod_ref retProgram [] "test" (Instruction.Ret ⟨some (Operand.Var (intVar "g"))⟩) =
      some ([], ["g"]) := by
  decide

end ModRef

/-! ## The dataflow analyses: maps and the set of the variables whose address is taken -/

namespace Dataflow

open Generator (Variable AddrofInstruction)

/-- The lookup in a list of entries that starts with the entry of `a`. -/
theorem lookup_cons_if {α : Type} (k a : String) (b : α) (l : List (String × α)) :
    List.lookup k ((a, b) :: l) = if k = a then some b else List.lookup k l := by
  by_cases h : k = a
  · simp [List.lookup, h]
  · have h1 : (k == a) = false := by simp [h]
    simp [List.lookup, h1, h]

/-- After the assignment `m[key] = val` the key `key` has the value `val` and every other key has
the value it had. -/
theorem lookup_mapSet {α : Type} (key : String) (val : α) (m : List (String × α)) (k : String) :
    (mapSet key val m).lookup k = if k = key then some val else m.lookup k := by
  induction m with
  | nil => simp [mapSet, lookup_cons_if]
  | cons e m ih =>
    obtain ⟨k1, v1⟩ := e
    unfold mapSet
    by_cases hlt : Solver.nameLt key k1
    · simp only [hlt, if_true, lookup_cons_if]
    · simp only [hlt, if_false]
      by_cases heq : key = k1
      · simp only [heq, if_true, lookup_cons_if]
        by_cases h : k = k1 <;> simp [h]
      · simp only [heq, if_false, lookup_cons_if, ih]
        by_cases h1 : k = k1
        · have h2 : k ≠ key := fun h => heq (h ▸ h1)
          simp [h1, h2, Ne.symm heq]
        · simp [h1]

/-- The value `m[k]` after the assignment `m[key] = val`. -/
theorem mapGet_mapSet {α : Type} (key : String) (val : List α) (m : List (String × List α))
    (k : String) : mapGet (mapSet key val m) k = if k = key then val else mapGet m k := by
  unfold mapGet
  rw [lookup_mapSet]
  split <;> rfl

/-- A label of a block is a key of `bbs`, and the block found under it is an entry of `bbs`. -/
theorem lookup_of_mem_labels (func : Function) (l : String) (h : l ∈ labels func) :
    ∃ bb, func.bbs.lookup l = some bb ∧ (l, bb) ∈ func.bbs := by
  unfold labels at h
  generalize func.bbs = bbs at h ⊢
  induction bbs with
  | nil => simp at h
  | cons e bbs ih =>
    obtain ⟨k1, v1⟩ := e
    rw [lookup_cons_if]
    by_cases h1 : l = k1
    · exact ⟨v1, by simp [h1], by simp [h1]⟩
    · simp only [List.map_cons, List.mem_cons, h1, false_or] at h
      obtain ⟨bb, hbb, hm⟩ := ih h
      exact ⟨bb, by simp [h1, hbb], List.mem_cons_of_mem _ hm⟩

/-- At most two labels are pushed for a terminal. -/
theorem pushed_length (t : Terminal) : (pushed t).length ≤ 2 := by
  cases t <;> simp [pushed]

/-- Pushing the labels `ls` one after the other puts them on the stack in reverse order. -/
theorem foldl_push (ls s : List String) :
    ls.foldl (fun s l => l :: s) s = ls.reverse ++ s := by
  induction ls generalizing s with
  | nil => rfl
  | cons a ls ih => simp [ih]

/-- The members of a set after a loop of insertions: those it had, and those that an element of
the loop inserts. -/
theorem mem_foldl_iff {α β : Type} (f : List β → α → List β) (P : α → β → Prop)
    (hf : ∀ s a x, x ∈ f s a ↔ x ∈ s ∨ P a x) (l : List α) (s : List β) (x : β) :
    x ∈ l.foldl f s ↔ x ∈ s ∨ ∃ a ∈ l, P a x := by
  induction l generalizing s with
  | nil => simp
  | cons a l ih =>
    rw [List.foldl_cons, ih, hf]
    simp only [List.mem_cons, exists_eq_or_imp]
    tauto

/-- The members of the set after the tests on one instruction. -/
theorem mem_addrof_instr (func : Function) (s : List String) (i : Instruction) (x : String) :
    x ∈ addrof_instr func s i ↔ x ∈ s ∨ Taken func i x := by
  cases i with
  | Other => simp [addrof_instr, Taken]
  | Addrof a =>
    unfold addrof_instr Taken
    by_cases hi : isIntType a.rhs = true
    · simp only [hi, if_true]
      by_cases hl : func.locals.any (fun l => decide (l.1 = a.rhs.name)) = true
      · rw [if_pos hl, ModRef.mem_insertNew]
        have hl1 : ∃ l ∈ func.locals, l.1 = a.rhs.name := by
          simpa using hl
        constructor
        · rintro (h | h)
          · exact Or.inr ⟨a, rfl, hi, h.symm, Or.inl (h ▸ hl1)⟩
          · exact Or.inl h
        · rintro (h | ⟨a1, h1, _, h3, _⟩)
          · exact Or.inr h
          · injection h1 with h1
            subst h1
            exact Or.inl h3.symm
      · rw [if_neg hl]
        rw [mem_foldl_iff _ (fun (param : Variable) y => param.name = a.rhs.name ∧ y = a.rhs.name)]
        · have hl1 : ¬ ∃ l ∈ func.locals, l.1 = a.rhs.name := by
            simpa using hl
          constructor
          · rintro (h | ⟨q, hq, hq1, hq2⟩)
            · exact Or.inl h
            · exact Or.inr ⟨a, rfl, hi, hq2.symm, Or.inr ⟨q, hq, hq2 ▸ hq1⟩⟩
          · rintro (h | ⟨a1, h1, _, h3, h4⟩)
            · exact Or.inl h
            · injection h1 with h1
              subst h1
              rcases h4 with h4 | ⟨q, hq, hq1⟩
              · exact absurd (h3 ▸ h4) hl1
              · exact Or.inr ⟨q, hq, h3 ▸ hq1, h3.symm⟩
        · intro s1 q y
          by_cases hq : q.name = a.rhs.name
          · simp only [hq, if_true, ModRef.mem_insertNew, true_and]
            tauto
          · simp only [hq, if_false, false_and, or_false]
    · simp only [hi]
      constructor
      · intro h
        exact Or.inl h
      · rintro (h | ⟨a1, h1, h2, _⟩)
        · exact h
        · injection h1 with h1
          subst h1
          exact absurd h2 hi

/-- The members of the set that the loop over the blocks and the instructions fills. -/
theorem mem_addrof_blocks (func : Function) (x : String) :
    x ∈ addrof_blocks func ↔ ∃ e ∈ func.bbs, ∃ i ∈ e.2.instructions, Taken func i x := by
  unfold addrof_blocks
  rw [mem_foldl_iff _ (fun (e : String × BasicBlock) y => ∃ i ∈ e.2.instructions, Taken func i y)]
  · simp
  · intro s e y
    exact mem_foldl_iff _ (Taken func) (mem_addrof_instr func) _ _ _

end Dataflow

/-! ## Constant analysis: the initial state, the set of taken addresses, the output -/

namespace ConstantAnalysis

open Generator (Variable intVar ptrVar)
open Dataflow
open ModRef (Outcome)

/-- The store after the loop of `InitEntryStore` over the parameters: a name of a parameter with
an int type is `TOP`, every other name is as before. -/
theorem entry_store_lookup (params : List Variable) (store : AbstractStore) (k : String) :
    (params.foldl
      (fun (store : AbstractStore) param =>
        if isIntType param then mapSet param.name AbstractVal.TOP store else store)
      store).lookup k =
      if ∃ param ∈ params, isIntType param = true ∧ param.name = k then some AbstractVal.TOP
      else store.lookup k := by
  induction params generalizing store with
  | nil => simp
  | cons a params ih =>
    rw [List.foldl_cons, ih]
    by_cases h : ∃ param ∈ params, isIntType param = true ∧ param.name = k
    · have h1 : ∃ param ∈ a :: params, isIntType param = true ∧ param.name = k := by
        obtain ⟨q, hq, hq1⟩ := h
        exact ⟨q, List.mem_cons_of_mem _ hq, hq1⟩
      rw [if_pos h, if_pos h1]
    · rw [if_neg h]
      by_cases ha : isIntType a = true ∧ a.name = k
      · have h1 : ∃ param ∈ a :: params, isIntType param = true ∧ param.name = k :=
          ⟨a, List.mem_cons_self _ _, ha⟩
        rw [if_pos h1, if_pos ha.1, lookup_mapSet, if_pos ha.2.symm]
      · have h1 : ¬ ∃ param ∈ a :: params, isIntType param = true ∧ param.name = k := by
          rintro ⟨q, hq, hq1⟩
          rcases List.mem_cons.mp hq with rfl | hq
          · exact ha hq1
          · exact h ⟨q, hq, hq1⟩
        rw [if_neg h1]
        by_cases hi : isIntType a = true
        · rw [if_pos hi, lookup_mapSet, if_neg (fun hk => ha ⟨hi, hk.symm⟩)]
        · rw [if_neg hi]

/-- After the loop that gives every block an empty store (lines 129-132), every store is empty
if every store was. -/
theorem empty_stores (bbs : List (String × BasicBlock)) (m : List (String × AbstractStore))
    (hm : ∀ l, mapGet m l = []) (l : String) :
    mapGet (bbs.foldl (fun m e => mapSet e.1 [] m) m) l = [] := by
  induction bbs generalizing m with
  | nil => exact hm l
  | cons e bbs ih =>
    rw [List.foldl_cons]
    apply ih
    intro l1
    rw [mapGet_mapSet]
    split
    · rfl
    · exact hm l1

/-- The initial state of the driver of the constant analysis: `entry` is alone on the worklist,
the store of `entry` has the parameters with an int type as its keys, each with the value `TOP`,
and the store of every other label is empty. -/
theorem setup_spec (func : Function) :
    (setup func).worklist = ["entry"] ∧
    (∀ k v, (mapGet (setup func).bb2store "entry").lookup k = some v ↔
      v = AbstractVal.TOP ∧ ∃ param ∈ func.params, isIntType param = true ∧ param.name = k) ∧
    ∀ l, l ≠ "entry" → mapGet (setup func).bb2store l = [] := by
  refine ⟨rfl, ?_, ?_⟩
  · intro k v
    unfold setup InitEntryStore
    simp only
    rw [mapGet_mapSet, if_pos rfl, entry_store_lookup]
    by_cases h : ∃ param ∈ func.params, isIntType param = true ∧ param.name = k
    · rw [if_pos h]
      constructor
      · intro hv
        injection hv with hv
        exact ⟨hv.symm, h⟩
      · rintro ⟨hv, _⟩
        rw [hv]
    · rw [if_neg h]
      constructor
      · intro hv
        simp at hv
      · rintro ⟨_, h1⟩
        exact absurd h1 h
  · intro l hl
    unfold setup InitEntryStore
    simp only
    rw [mapGet_mapSet, if_neg hl]
    exact empty_stores func.bbs [] (fun _ => rfl) l

/-- C30. The set that `get_addr_of_int_types` computes holds exactly the names `x` for which
some `$addrof` of the function has an operand with an int type and the name `x`, where `x` is a
key of `locals` or the name of a parameter: an int-typed variable whose address is taken is in
the set if and only if it is a local or a parameter of the function, so a global that is neither
is not in the set. -/
theorem addr_of_int_types_members (func : Function) (x : String) :
    x ∈ (get_addr_of_int_types func).2 ↔
      ∃ e ∈ func.bbs, ∃ i ∈ e.2.instructions, Taken func i x :=
  mem_addrof_blocks func x

/-- C30, on the function `test` that takes the address of its local `x`, of its parameter `n` and
of the int global `g`: the set is `x, n`, and `g` is not in it. -/
theorem global_address_not_in_set :
    addrProgram.func "test" = some addrFunction ∧ addrProgram.globals = [intVar "g"] ∧
    isIntType (intVar "g") = true ∧
    (∃ e ∈ addrFunction.bbs, ∃ i ∈ e.2.instructions,
      i = Instruction.Addrof ⟨ptrVar "p", intVar "g"⟩) ∧
    (get_addr_of_int_types addrFunction).2 = ["x", "n"] ∧
    "g" ∉ (get_addr_of_int_types addrFunction).2 :=
  ⟨rfl, rfl, by decide, ⟨_, List.mem_cons_self _ _, _, by simp [addrFunction], rfl⟩,
    by decide, by decide⟩

/-- C26. On a run of `AnalyzeFunc` of the constant analysis that ends, for a function of the
program, whatever the transfer function and the printer of the stores are: the text on the
standard stream is one line with the label of each block of the function, written by
`get_addr_of_int_types`, followed by the printout of the stores (for each label of
`bbs_to_output` the label with a colon, the store, an empty line): the lines with the labels
stand before the first group of the printout. -/
theorem output_starts_with_labels (execute : Execute) (print : AbstractStore → String)
    (fuel : Nat) (p : Program) (func_name : String) (func : Function) (out : String)
    (hf : p.func func_name = some func)
    (hr : AnalyzeFunc execute print fuel p func_name = Outcome.finished out) :
    ∃ soln bbs_to_output,
      out = String.join (func.bbs.map (fun e => e.1 ++ "\n")) ++
        report print soln bbs_to_output := by
  unfold AnalyzeFunc at hr
  rw [hf] at hr
  simp only at hr
  split at hr
  · cases hr
  · cases hr
  · split at hr
    · cases hr
    · rename_i env1 soln _
      injection hr with hr
      exact ⟨soln, env1.bbs_to_output, hr.symm⟩

/-- C26, on the function `test` with the one block `entry` and the int parameter `n`: the text is
the line `entry`, then the group `entry:`, `n`, and an empty line. -/
theorem output_starts_with_labels_witness :
    addrProgram.func "test" = some addrFunction ∧
    AnalyzeFunc idleExecute keyLines 2 addrProgram "test" =
      Outcome.finished "entry\nentry:\nn\n\n" ∧
    ∃ soln bbs_to_output,
      "entry\nentry:\nn\n\n" = String.join (addrFunction.bbs.map (fun e => e.1 ++ "\n")) ++
        report keyLines soln bbs_to_output :=
  ⟨rfl, by decide,
    output_starts_with_labels idleExecute keyLines 2 addrProgram "test" addrFunction _ rfl
      (by decide)⟩

end ConstantAnalysis

/-! ## Interval analysis: the loop headers, the initial state, the set given to `execute` -/

namespace IntervalAnalysis

open Generator (Variable intVar ptrVar)
open Dataflow
open ModRef (Outcome)

/-- A label of a block that is visited for the first time takes one from the labels not
visited. -/
theorem unvisited_visit (func : Function) (visited : List String) (l : String)
    (hl : l ∈ labels func) (hv : l ∉ visited) :
    unvisited func (visited ++ [l]) + 1 ≤ unvisited func visited := by
  unfold unvisited
  apply ModRef.filter_lt _ _ _ l hl
  · intro n hn
    simp only [decide_eq_true_eq] at hn ⊢
    exact fun h => hn (List.mem_append_left _ h)
  · simpa using hv
  · simp

/-- The loop of `get_loop_headers` ends when the labels on the stack are labels of blocks and
the fuel exceeds the size of the stack plus twice the number of the labels not visited. -/
theorem loop_headers_loop_finishes (func : Function) (hc : Closed func) :
    ∀ (fuel : Nat) (d : Dfs), (∀ l ∈ d.stack, l ∈ labels func) →
      d.stack.length + 2 * unvisited func d.visited < fuel →
      ∃ d1, loop_headers_loop func fuel d = Outcome.finished d1 := by
  intro fuel
  induction fuel with
  | zero => intro d _ h; omega
  | succ fuel ih =>
    intro d hs hm
    unfold loop_headers_loop
    cases hst : d.stack with
    | nil => exact ⟨d, rfl⟩
    | cons current_bb rest =>
      simp only
      rw [hst] at hs hm
      have hcur : current_bb ∈ labels func := hs _ (List.mem_cons_self _ _)
      have hrest : ∀ l ∈ rest, l ∈ labels func := fun l hl => hs l (List.mem_cons_of_mem _ hl)
      unfold loop_headers_body
      by_cases hv : current_bb ∈ d.visited
      · simp only [hv, if_true]
        apply ih
        · exact hrest
        · simp only [List.length_cons] at hm ⊢
          omega
      · simp only [hv, if_false]
        obtain ⟨bb, hbb, hmem⟩ := lookup_of_mem_labels func current_bb hcur
        simp only [hbb]
        apply ih
        · intro l hl
          simp only [foldl_push, List.mem_append, List.mem_reverse] at hl
          rcases hl with hl | hl
          · exact hc.2 _ hmem l hl
          · exact hrest l hl
        · have h1 := unvisited_visit func d.visited current_bb hcur hv
          have h2 := pushed_length bb.terminal
          simp only [foldl_push, List.length_append, List.length_reverse, List.length_cons]
            at hm ⊢
          omega

/-- There are at most as many labels not visited as blocks. -/
theorem unvisited_le_length (func : Function) (visited : List String) :
    unvisited func visited ≤ func.bbs.length := by
  unfold unvisited labels
  calc _ ≤ (func.bbs.map (fun e => e.1)).length := List.length_filter_le _ _
    _ = _ := by simp

/-- After `loopHeadersFuel` iterations `get_loop_headers` has ended on a function whose
control-flow graph is closed. -/
theorem get_loop_headers_finishes (func : Function) (hc : Closed func) (fuel : Nat)
    (hf : loopHeadersFuel func ≤ fuel) :
    ∃ loop_headers, get_loop_headers func fuel = Outcome.finished loop_headers := by
  obtain ⟨d1, hd1⟩ := loop_headers_loop_finishes func hc fuel ⟨["entry"], [], [], []⟩
    (by intro l hl; simp only [List.mem_singleton] at hl; subst hl; exact hc.1)
    (by
      have := unvisited_le_length func []
      unfold loopHeadersFuel at hf
      simp only [List.length_singleton]
      omega)
  exact ⟨d1.loop_headers, by unfold get_loop_headers; rw [hd1]⟩

/-- The map `bb2store` after the loop of `InitEntryStore` over the parameters: in the store of
`entry` a name of a parameter with an int type is `TOP` and every other name is as before; the
store of every other label is as before. -/
theorem init_entry_store_spec (params : List Variable)
    (m : List (String × interval_abstract_store)) :
    (∀ k, (mapGet (params.foldl
        (fun m param =>
          if isIntType param then
            mapSet "entry" (mapSet param.name AbstractVals.TOP (mapGet m "entry")) m
          else m) m) "entry").lookup k =
      if ∃ param ∈ params, isIntType param = true ∧ param.name = k then some AbstractVals.TOP
      else (mapGet m "entry").lookup k) ∧
    ∀ l, l ≠ "entry" → mapGet (params.foldl
        (fun m param =>
          if isIntType param then
            mapSet "entry" (mapSet param.name AbstractVals.TOP (mapGet m "entry")) m
          else m) m) l = mapGet m l := by
  induction params generalizing m with
  | nil => simp
  | cons a params ih =>
    rw [List.foldl_cons]
    refine ⟨?_, ?_⟩
    · intro k
      rw [(ih _).1 k]
      by_cases h : ∃ param ∈ params, isIntType param = true ∧ param.name = k
      · have h1 : ∃ param ∈ a :: params, isIntType param = true ∧ param.name = k := by
          obtain ⟨q, hq, hq1⟩ := h
          exact ⟨q, List.mem_cons_of_mem _ hq, hq1⟩
        rw [if_pos h, if_pos h1]
      · rw [if_neg h]
        by_cases ha : isIntType a = true ∧ a.name = k
        · have h1 : ∃ param ∈ a :: params, isIntType param = true ∧ param.name = k :=
            ⟨a, List.mem_cons_self _ _, ha⟩
          rw [if_pos h1, if_pos ha.1, mapGet_mapSet, if_pos rfl, lookup_mapSet,
            if_pos ha.2.symm]
        · have h1 : ¬ ∃ param ∈ a :: params, isIntType param = true ∧ param.name = k := by
            rintro ⟨q, hq, hq1⟩
            rcases List.mem_cons.mp hq with rfl | hq
            · exact ha hq1
            · exact h ⟨q, hq, hq1⟩
          rw [if_neg h1]
          by_cases hi : isIntType a = true
          · rw [if_pos hi, mapGet_mapSet, if_pos rfl, lookup_mapSet,
              if_neg (fun hk => ha ⟨hi, hk.symm⟩)]
          · rw [if_neg hi]
    · intro l hl
      rw [(ih _).2 l hl]
      by_cases hi : isIntType a = true
      · rw [if_pos hi, mapGet_mapSet, if_neg hl]
      · rw [if_neg hi]

/-- The initial state of the driver of the interval analysis: `entry` is alone on the worklist,
the store of `entry` has the parameters with an int type as its keys, each with the value `TOP`,
and the store of every other label is empty. -/
theorem interval_setup_spec (func : Function) :
    (setup func).worklist = ["entry"] ∧
    (∀ k v, (mapGet (setup func).bb2store "entry").lookup k = some v ↔
      v = AbstractVals.TOP ∧ ∃ param ∈ func.params, isIntType param = true ∧ param.name = k) ∧
    ∀ l, l ≠ "entry" → mapGet (setup func).bb2store l = [] := by
  refine ⟨rfl, ?_, ?_⟩
  · intro k v
    unfold setup InitEntryStore
    simp only
    rw [(init_entry_store_spec func.params []).1 k]
    by_cases h : ∃ param ∈ func.params, isIntType param = true ∧ param.name = k
    · rw [if_pos h]
      constructor
      · intro hv
        injection hv with hv
        exact ⟨hv.symm, h⟩
      · rintro ⟨hv, _⟩
        rw [hv]
    · rw [if_neg h]
      constructor
      · intro hv
        simp [mapGet] at hv
      · rintro ⟨_, h1⟩
        exact absurd h1 h
  · intro l hl
    unfold setup InitEntryStore
    simp only
    rw [(init_entry_store_spec func.params []).2 l hl]
    rfl

/-- C24. For a function whose control-flow graph is closed. In the constant analysis, when the
worklist loop starts, `entry` is the only label on the worklist, the store of `entry` has exactly
the names of the parameters with an int type as its keys, each with the value `TOP`, and the
store of every other label is empty. In the interval analysis `get_loop_headers` ends (within
`loopHeadersFuel` iterations), and when the worklist loop starts the same three facts hold. -/
theorem initial_driver_state (func : Function) (fuel : Nat) (hc : Closed func)
    (hf : loopHeadersFuel func ≤ fuel) :
    ((ConstantAnalysis.setup func).worklist = ["entry"] ∧
      (∀ k v, (mapGet (ConstantAnalysis.setup func).bb2store "entry").lookup k = some v ↔
        v = ConstantAnalysis.AbstractVal.TOP ∧
          ∃ param ∈ func.params, isIntType param = true ∧ param.name = k) ∧
      ∀ l, l ≠ "entry" → mapGet (ConstantAnalysis.setup func).bb2store l = []) ∧
    ((∃ loop_headers, get_loop_headers func fuel = Outcome.finished loop_headers) ∧
      (setup func).worklist = ["entry"] ∧
      (∀ k v, (mapGet (setup func).bb2store "entry").lookup k = some v ↔
        v = AbstractVals.TOP ∧ ∃ param ∈ func.params, isIntType param = true ∧ param.name = k) ∧
      ∀ l, l ≠ "entry" → mapGet (setup func).bb2store l = []) :=
  ⟨ConstantAnalysis.setup_spec func, get_loop_headers_finishes func hc fuel hf,
    interval_setup_spec func⟩

/-- C24, on the diamond with the int parameter `n` and the pointer parameter `q`: the store of
`entry` is `n -> TOP`; the constant analysis has an empty store for `A`, `B` and `C`, the interval
analysis has no store for them yet. -/
theorem initial_driver_state_witness :
    Closed diamond ∧ loopHeadersFuel diamond ≤ 10 ∧
    (ConstantAnalysis.setup diamond).bb2store =
      [("A", []), ("B", []), ("C", []), ("entry", [("n", ConstantAnalysis.AbstractVal.TOP)])] ∧
    (setup diamond).bb2store = [("entry", [("n", AbstractVals.TOP)])] ∧
    ((ConstantAnalysis.setup diamond).worklist = ["entry"] ∧
      (∀ k v, (mapGet (ConstantAnalysis.setup diamond).bb2store "entry").lookup k = some v ↔
        v = ConstantAnalysis.AbstractVal.TOP ∧
          ∃ param ∈ diamond.params, isIntType param = true ∧ param.name = k) ∧
      ∀ l, l ≠ "entry" → mapGet (ConstantAnalysis.setup diamond).bb2store l = []) ∧
    ((∃ loop_headers, get_loop_headers diamond 10 = Outcome.finished loop_headers) ∧
      (setup diamond).worklist = ["entry"] ∧
      (∀ k v, (mapGet (setup diamond).bb2store "entry").lookup k = some v ↔
        v = AbstractVals.TOP ∧ ∃ param ∈ diamond.params, isIntType param = true ∧ param.name = k) ∧
      ∀ l, l ≠ "entry" → mapGet (setup diamond).bb2store l = []) :=
  ⟨by decide, by decide, by decide, by decide,
    initial_driver_state diamond 10 (by decide) (by decide)⟩

/-- The edges of the diamond: from `entry` to `A` and to `B`, and from `A` and from `B` to `C`. -/
theorem edge_diamond (a b : String) (h : Edge diamond a b) :
    (a = "entry" ∧ (b = "A" ∨ b = "B")) ∨ ((a = "A" ∨ a = "B") ∧ b = "C") := by
  obtain ⟨bb, hbb, hb⟩ := h
  simp only [diamond, Dataflow.lookup_cons_if] at hbb
  split at hbb
  · injection hbb with hbb
    subst hbb
    simp [pushed] at hb
    simp [*]
  · split at hbb
    · injection hbb with hbb
      subst hbb
      simp [pushed] at hb
      simp [*]
    · split at hbb
      · injection hbb with hbb
        subst hbb
        simp [pushed] at hb
      · split at hbb
        · injection hbb with hbb
          subst hbb
          simp [pushed] at hb
          simp [*]
        · simp at hbb

/-- No block of the diamond lies on a cycle of its control-flow graph. -/
theorem diamond_acyclic (l : String) : ¬ Relation.TransGen (Edge diamond) l l := by
  have hr : ∀ a b, Relation.TransGen (Edge diamond) a b →
      (a = "entry" ∧ b ≠ "entry") ∨ ((a = "A" ∨ a = "B") ∧ b = "C") := by
    intro a b h
    induction h with
    | single h =>
      rcases edge_diamond _ _ h with ⟨h1, h2⟩ | ⟨h1, h2⟩
      · left
        refine ⟨h1, ?_⟩
        rcases h2 with h2 | h2 <;> rw [h2] <;> decide
      · right
        exact ⟨h1, h2⟩
    | tail _ h ih =>
      rename_i c d
      rcases edge_diamond _ _ h with ⟨h1, h2⟩ | ⟨h1, h2⟩
      · rcases ih with ⟨_, h4⟩ | ⟨_, h4⟩
        · exact absurd h1 h4
        · rw [h4] at h1
          exact absurd h1 (by decide)
      · rcases ih with ⟨h3, _⟩ | ⟨_, h4⟩
        · left
          exact ⟨h3, by rw [h2]; decide⟩
        · rw [h4] at h1
          rcases h1 with h1 | h1 <;> exact absurd h1 (by decide)
  intro h
  rcases hr l l h with ⟨h1, h2⟩ | ⟨h1, h2⟩
  · exact h2 h1
  · rw [h2] at h1
    rcases h1 with h1 | h1 <;> exact absurd h1 (by decide)

/-- C23. On the diamond (`entry` branches to `A` and `B`, both jump to `C`, `C` returns), whose
control-flow graph has no cycle, `get_loop_headers` ends with the set of loop headers `C`: the
merge block is reported as a loop header, since it is taken from the stack a second time, after
its own visit has ended; it is not the target of a back edge. -/
theorem diamond_merge_is_reported :
    get_loop_headers diamond 8 = Outcome.finished ["C"] ∧
      ∀ l, ¬ Relation.TransGen (Edge diamond) l l :=
  ⟨by decide, diamond_acyclic⟩

/-- The worklist loop that hands the empty set to `execute` runs the same with a transfer
function that is given the empty set whatever set it is handed. -/
theorem worklist_loop_empty_set (execute : Execute) (p : Program) (func : Function)
    (loop_headers : List String) (fuel : Nat) (env : Env) :
    worklist_loop execute p func [] loop_headers fuel env =
      worklist_loop (fun prog bb label env _ final lh => execute prog bb label env [] final lh)
        p func [] loop_headers fuel env := by
  induction fuel generalizing env with
  | zero => rfl
  | succ fuel ih =>
    unfold worklist_loop
    cases env.worklist with
    | nil => rfl
    | cons current_bb rest =>
      simp only
      split
      · rfl
      · exact ih _

/-- The loop that fills `solution` with the empty set handed to `execute` runs the same with a
transfer function that is given the empty set whatever set it is handed. -/
theorem final_loop_empty_set (execute : Execute) (p : Program) (func : Function)
    (loop_headers : List String) (ls : List String) (env : Env)
    (solution : List (String × interval_abstract_store)) :
    final_loop execute p func [] loop_headers ls env solution =
      final_loop (fun prog bb label env _ final lh => execute prog bb label env [] final lh)
        p func [] loop_headers ls env solution := by
  induction ls generalizing env solution with
  | nil => rfl
  | cons l ls ih =>
    unfold final_loop
    split
    · rfl
    · exact ih _ _

/-- C25. Every call of the transfer function by `AnalyzeFunc` of the interval analysis is given
the empty set as `addrof_ints`: the run is the same when the transfer function is replaced by
one that is given the empty set whatever it is handed. The function `get_addrof_ints`, which is
not called, computes the set `x, n` for the function `test` that takes the address of its int
local `x` and of its int parameter `n`; these two are not in the set that is passed. -/
theorem execute_gets_empty_addrof_ints :
    (∀ (execute : Execute) (print : interval_abstract_store → String) (fuel : Nat)
        (p : Program) (func_name : String),
      AnalyzeFunc execute print fuel p func_name =
        AnalyzeFunc (fun prog bb label env _ final lh => execute prog bb label env [] final lh)
          print fuel p func_name) ∧
    get_addrof_ints ConstantAnalysis.addrFunction = ["x", "n"] := by
  refine ⟨?_, by decide⟩
  intro execute print fuel p func_name
  unfold AnalyzeFunc
  cases p.func func_name with
  | none => rfl
  | some func =>
    simp only
    cases get_loop_headers func fuel with
    | aborted => rfl
    | out_of_fuel => rfl
    | finished loop_headers =>
      simp only
      unfold analyze
      rw [← worklist_loop_empty_set]
      cases worklist_loop execute p func [] loop_headers fuel (setup func) with
      | aborted => rfl
      | out_of_fuel => rfl
      | finished env =>
        simp only
        rw [← final_loop_empty_set]

end IntervalAnalysis

/-! ## Reaching definitions: the comparator of the program points, an unknown function -/

namespace ReachingDef

open Solver (digitsValue nameLt)
open Dataflow
open ModRef (Outcome)

/-- The character of a decimal digit: a digit with the value of the digit, none of the
characters that `std::stoi` or the comparator treat specially. -/
theorem digitChar_isDigit (k : Nat) (h : k < 10) :
    (Nat.digitChar k).isDigit = true ∧ (Nat.digitChar k).toNat - 48 = k ∧
      Nat.digitChar k ≠ '.' ∧ Nat.digitChar k ≠ '-' ∧ Nat.digitChar k ≠ '+' ∧
      isSpace (Nat.digitChar k) = false := by
  interval_cases k <;> decide

/-- The value of a sequence of digits followed by one more digit. -/
theorem digitsValue_append (l : List Char) (c : Char) :
    digitsValue (l ++ [c]) = 10 * digitsValue l + (c.toNat - 48) := by
  simp [digitsValue, List.foldl_append]

/-- The decimal digits of a number: a non-empty sequence of digits with the value of the
number, put before the digits that are there. -/
theorem toDigitsCore_spec : ∀ (fuel n : Nat) (ds : List Char), n < fuel →
    ∃ l, Nat.toDigitsCore 10 fuel n ds = l ++ ds ∧ l ≠ [] ∧ digitsValue l = n ∧
      ∀ c ∈ l, c.isDigit = true ∧ c ≠ '.' ∧ c ≠ '-' ∧ c ≠ '+' ∧ isSpace c = false := by
  intro fuel
  induction fuel with
  | zero => intro n ds h; omega
  | succ fuel ih =>
    intro n ds h
    have hd := digitChar_isDigit (n % 10) (Nat.mod_lt _ (by decide))
    by_cases h0 : n / 10 = 0
    · refine ⟨[Nat.digitChar (n % 10)], ?_, by simp, ?_, ?_⟩
      · simp [Nat.toDigitsCore, h0]
      · simp only [digitsValue, List.foldl_cons, List.foldl_nil]
        rw [hd.2.1]; omega
      · intro c hc
        simp only [List.mem_singleton] at hc
        subst hc
        exact ⟨hd.1, hd.2.2⟩
    · obtain ⟨l, hl, hne, hv, hall⟩ := ih (n / 10) (Nat.digitChar (n % 10) :: ds) (by omega)
      refine ⟨l ++ [Nat.digitChar (n % 10)], ?_, by simp, ?_, ?_⟩
      · simp [Nat.toDigitsCore, h0, hl]
      · rw [digitsValue_append, hv, hd.2.1]; omega
      · intro c hc
        rcases List.mem_append.mp hc with hc | hc
        · exact hall c hc
        · simp only [List.mem_singleton] at hc
          subst hc
          exact ⟨hd.1, hd.2.2⟩

/-- The decimal text of a number is a non-empty sequence of digits with the value of the
number. -/
theorem toString_data (n : Nat) :
    ∃ l, (toString n).data = l ∧ l ≠ [] ∧ digitsValue l = n ∧
      ∀ c ∈ l, c.isDigit = true ∧ c ≠ '.' ∧ c ≠ '-' ∧ c ≠ '+' ∧ isSpace c = false := by
  obtain ⟨l, hl, hne, hv, hall⟩ := toDigitsCore_spec (n + 1) n [] (by omega)
  refine ⟨l, ?_, hne, hv, hall⟩
  show (Nat.repr n).data = l
  simp [Nat.repr, Nat.toDigits, hl, List.asString]

/-- The longest initial part whose members pass a test that every member passes is the whole
list. -/
theorem takeWhile_all {α : Type} (f : α → Bool) (l : List α) (h : ∀ c ∈ l, f c = true) :
    l.takeWhile f = l := by
  induction l with
  | nil => rfl
  | cons a l ih =>
    simp only [List.takeWhile, h a (List.mem_cons_self _ _)]
    rw [ih (fun c hc => h c (List.mem_cons_of_mem _ hc))]

/-- The call `std::stoi` reads the decimal text of a number that is an `int` back as that
number. -/
theorem stoi_toString (n : Nat) (h : n ≤ 2147483647) : stoi (toString n) = some (n : Int) := by
  obtain ⟨l, hl, hne, hv, hall⟩ := toString_data n
  unfold stoi
  rw [hl]
  cases l with
  | nil => exact absurd rfl hne
  | cons c r =>
    have hc := hall c (List.mem_cons_self _ _)
    have hdrop : List.dropWhile isSpace (c :: r) = c :: r := by
      simp [List.dropWhile, hc.2.2.2.2]
    rw [hdrop]
    have hs : ∀ (r0 : List Char), r0 = c :: r →
        Solver.stoi ⟨r0⟩ = some (n : Int) := by
      intro r0 hr0
      unfold Solver.stoi
      split
      · rename_i heq
        simp only at heq
        rw [hr0] at heq
        injection heq with h1 h2
        exact absurd h1 hc.2.2.1
      · rename_i heq
        simp only at heq
        rw [hr0] at heq
        injection heq with h1 h2
        exact absurd h1 hc.2.2.2.1
      · simp only
        rw [hr0, takeWhile_all Char.isDigit (c :: r) (fun x hx => (hall x hx).1), hv]
        simp
        omega
    exact hs _ rfl

/-- A text without the character has no last position of it. -/
theorem rfind_none (c : Char) (l : List Char) (h : c ∉ l) : rfind c l = none := by
  induction l with
  | nil => rfl
  | cons x l ih =>
    have h1 : c ∉ l := fun hc => h (List.mem_cons_of_mem _ hc)
    have h2 : x ≠ c := fun hc => h (hc ▸ List.mem_cons_self _ _)
    simp [rfind, ih h1, h2]

/-- The last dot of `b.idx`, where `idx` has no dot, is the one after `b`. -/
theorem rfind_append (b idx : List Char) (h : '.' ∉ idx) :
    rfind '.' (b ++ '.' :: idx) = some b.length := by
  induction b with
  | nil => simp [rfind, rfind_none '.' idx h]
  | cons x b ih => simp [rfind, ih]

/-- The text before the last dot of `b.x`, where `x` has no dot, is `b`. -/
theorem beforeDot_append (b x : String) (h : '.' ∉ x.data) : beforeDot (b ++ "." ++ x) = b := by
  unfold beforeDot
  have hd : (b ++ "." ++ x).data = b.data ++ '.' :: x.data := by
    simp [String.data_append]
  rw [hd, rfind_append _ _ h]
  simp

/-- The text after the last dot of `b.x`, where `x` has no dot, is `x`. -/
theorem afterDot_append (b x : String) (h : '.' ∉ x.data) : afterDot (b ++ "." ++ x) = x := by
  unfold afterDot
  have hd : (b ++ "." ++ x).data = b.data ++ '.' :: x.data := by
    simp [String.data_append]
  rw [hd, rfind_append _ _ h]
  simp only
  rw [List.drop_append]
  rfl

/-- The decimal text of a number has no dot. -/
theorem toString_no_dot (n : Nat) : '.' ∉ (toString n).data := by
  obtain ⟨l, hl, _, _, hall⟩ := toString_data n
  rw [hl]
  intro hc
  exact (hall _ hc).2.1 rfl

/-- The decimal text of a number is not the word `term`. -/
theorem toString_ne_term (n : Nat) : toString n ≠ "term" := by
  obtain ⟨l, hl, hne, _, hall⟩ := toString_data n
  intro h
  rw [h] at hl
  have := (hall 't' (by rw [← hl]; decide)).1
  exact absurd this (by decide)

/-- The comparator on two program points of the same block with numeric indices. -/
theorem pp_less_same_block (b : String) (i j : Nat) (hi : i ≤ 2147483647)
    (hj : j ≤ 2147483647) : pp_less (pp b i) (pp b j) = some (decide (i < j)) := by
  unfold pp_less pp
  simp only [beforeDot_append _ _ (toString_no_dot _), afterDot_append _ _ (toString_no_dot _),
    toString_ne_term, or_self, and_false, if_false, if_true, stoi_toString _ hi,
    stoi_toString _ hj, true_and]
  simp

/-- The comparator on two program points of different blocks. -/
theorem pp_less_other_block (b1 b2 x y : String) (hb : b1 ≠ b2) (hx : '.' ∉ x.data)
    (hy : '.' ∉ y.data) :
    pp_less (b1 ++ "." ++ x) (b2 ++ "." ++ y) = some (decide (nameLt b1 b2)) := by
  unfold pp_less
  simp only [beforeDot_append _ _ hx, afterDot_append _ _ hy, beforeDot_append _ _ hy,
    afterDot_append _ _ hx, hb, false_and, if_false]

/-- The comparator on a program point with a numeric index and the terminal of the same
block, in both orders. -/
theorem pp_less_term (b : String) (i : Nat) :
    pp_less (pp b i) (ppTerm b) = some false ∧ pp_less (ppTerm b) (pp b i) = some false := by
  have ht : '.' ∉ ("term" : String).data := by decide
  have h1 : ppTerm b = b ++ "." ++ "term" := by
    unfold ppTerm
    rw [String.append_assoc]
    rfl
  unfold pp_less
  rw [h1]
  unfold pp
  simp only [beforeDot_append _ _ (toString_no_dot _), afterDot_append _ _ (toString_no_dot _),
    beforeDot_append _ _ ht, afterDot_append _ _ ht]
  simp

/-- The evaluation of C28 for every block and every index: as the comparator is written, a
program point `b.i` with a numeric index and the point `b.term` of the same block are not ordered
at all: the comparator answers `false` for `b.i` before `b.term` and `false` for `b.term` before
`b.i`, for every label `b` and every index `i` (so it never puts `b.term` before `b.i`, and it
does not put `b.i` before `b.term`). -/
theorem term_not_ordered (b : String) (i : Nat) :
    pp_less (pp b i) (ppTerm b) = some false ∧ pp_less (ppTerm b) (pp b i) = some false :=
  pp_less_term b i

/-- C28. On the program points `bb1.9` and `bb1.term` of one block: the comparator answers `false`
for `bb1.9` before `bb1.term`, so it does not put the index before `term`; it answers `false` for
`bb1.term` before `bb1.9` as well, so the two are not ordered. -/
theorem index_not_before_term :
    pp_less (pp "bb1" 9) (ppTerm "bb1") = some false ∧
    pp_less (ppTerm "bb1") (pp "bb1" 9) = some false ∧
    pp "bb1" 9 = "bb1.9" ∧ ppTerm "bb1" = "bb1.term" := by
  decide

/-- C29. For two program points of the same block with the indices `i` and `j` (values of an
`int`), the comparator puts `b.i` before `b.j` if and only if `i < j`; for two program points of
different blocks `b1` and `b2`, whatever follows the last dot, it puts the first before the
second if and only if `b1` is before `b2` in the lexicographic order of the labels. -/
theorem comparator_orders_points (b : String) (i j : Nat) (b1 b2 x y : String)
    (hi : i ≤ 2147483647) (hj : j ≤ 2147483647) (hb : b1 ≠ b2) (hx : '.' ∉ x.data)
    (hy : '.' ∉ y.data) :
    pp_less (pp b i) (pp b j) = some (decide (i < j)) ∧
    pp_less (b1 ++ "." ++ x) (b2 ++ "." ++ y) = some (decide (nameLt b1 b2)) :=
  ⟨pp_less_same_block b i j hi hj, pp_less_other_block b1 b2 x y hb hx hy⟩

/-- C29, on `bb1.9` and `bb1.11`, and on `bb1.term` and `bb2.0`: `bb1.9` is before `bb1.11`,
and `bb1.term` is before `bb2.0`. -/
theorem comparator_orders_points_witness :
    pp_less "bb1.9" "bb1.11" = some true ∧ pp_less "bb1.11" "bb1.9" = some false ∧
    pp_less "bb1.term" "bb2.0" = some true ∧ pp_less "bb2.0" "bb1.term" = some false ∧
    (pp_less (pp "bb1" 9) (pp "bb1" 11) = some (decide (9 < 11)) ∧
      pp_less ("bb1" ++ "." ++ "term") ("bb2" ++ "." ++ "0") =
        some (decide (nameLt "bb1" "bb2"))) :=
  ⟨by decide, by decide, by decide, by decide,
    comparator_orders_points "bb1" 9 11 "bb1" "bb2" "term" "0" (by decide) (by decide)
      (by decide) (by decide) (by decide)⟩

/-- C27. When the program has no function of the requested name, `constant-analysis` and
`reachingdef`, called with their three arguments, run no analysis (the result depends on neither
the transfer function nor the fuel): each writes one line to the standard stream, `Func not
found` and `Function not found`, and `main` returns the exit code 0. -/
theorem unknown_function_exits_zero (execute : ConstantAnalysis.Execute)
    (print : ConstantAnalysis.AbstractStore → String) (fuel : Nat)
    (analysis : Function → Outcome String) (p : Program) (func_name : String)
    (h : p.func func_name = none) :
    ConstantAnalysis.main execute print fuel 4 p func_name =
      Outcome.finished ("Func not found\n", 0) ∧
    main analysis 4 p func_name = Outcome.finished ("Function not found\n", 0) := by
  unfold ConstantAnalysis.main ConstantAnalysis.AnalyzeFunc main AnalyzeFunc
  rw [h]
  exact ⟨rfl, rfl⟩

/-- C27, on a program whose only function is `test`, asked for the function `nope`. -/
theorem unknown_function_exits_zero_witness :
    ConstantAnalysis.addrProgram.func "nope" = none ∧
    ConstantAnalysis.main ConstantAnalysis.idleExecute ConstantAnalysis.keyLines 0 4
      ConstantAnalysis.addrProgram "nope" = Outcome.finished ("Func not found\n", 0) ∧
    main (fun _ => Outcome.aborted) 4 ConstantAnalysis.addrProgram "nope" =
      Outcome.finished ("Function not found\n", 0) :=
  ⟨rfl, unknown_function_exits_zero _ _ _ _ _ _ rfl⟩

/-- C27, on a program whose only function is `test`, asked for the function `nope`: the run of
`constant-analysis` ends with the exit code 0, which is not a non-zero exit code, and so does the
run of `reachingdef`. -/
theorem unknown_function_exit_code :
    ConstantAnalysis.addrProgram.func "nope" = none ∧
    ∃ out, ConstantAnalysis.main ConstantAnalysis.idleExecute ConstantAnalysis.keyLines 5 4
      ConstantAnalysis.addrProgram "nope" = Outcome.finished (out, 0) :=
  ⟨rfl, _, rfl⟩

end ReachingDef

/-! ## The solver: what `AddEdge` changes, a projection on both sides -/

namespace Solver

/-- C32. A call `AddEdge(lhs, rhs)` after the loading, for two nodes that are not two constructors
(two `ref` or two `lam_`) of the same name: when `lhs` is a constructor or `rhs` is a projection,
the graph changes only in that `lhs` is a predecessor of `rhs` afterwards and in that `rhs` is
appended to the worklist if and only if it is a set variable and `lhs` was not a predecessor of
it; otherwise the graph changes only in that `rhs` is a successor of `lhs` afterwards and in that
`lhs` is appended to the worklist if and only if it is a set variable and `rhs` was not a
successor of it. -/
theorem AddEdge_frame (g : Graph) (lhs rhs : Ref)
    (h : ¬ (((IsConstructor g lhs = true ∧ IsConstructor g rhs = true) ∨
        (IsLam g lhs = true ∧ IsLam g rhs = true)) ∧ Name g lhs = Name g rhs)) :
    ((IsConstructor g lhs = true ∨ IsLam g lhs = true ∨ IsProjection g rhs = true) →
      AddEdge g lhs rhs false = some
        { g with
          predecessor_nodes :=
            if (rhs, lhs) ∈ g.predecessor_nodes then g.predecessor_nodes
            else (rhs, lhs) :: g.predecessor_nodes
          worklist := g.worklist ++
            (if IsSetVar g rhs = true ∧ (rhs, lhs) ∉ g.predecessor_nodes then [rhs] else []) }) ∧
    (¬ (IsConstructor g lhs = true ∨ IsLam g lhs = true ∨ IsProjection g rhs = true) →
      AddEdge g lhs rhs false = some
        { g with
          successor_nodes :=
            if (lhs, rhs) ∈ g.successor_nodes then g.successor_nodes
            else (lhs, rhs) :: g.successor_nodes
          worklist := g.worklist ++
            (if IsSetVar g lhs = true ∧ (lhs, rhs) ∉ g.successor_nodes then [lhs] else []) }) := by
  have hA : AddEdge g lhs rhs false = some (AddEdgeStore g lhs rhs false) := by
    unfold AddEdge
    rw [if_neg]
    simpa [Bool.and_eq_true, Bool.or_eq_true] using h
  rw [hA]
  constructor
  · intro hc
    have hc1 : ((IsConstructor g lhs || IsLam g lhs) || IsProjection g rhs) = true := by
      simpa [Bool.or_eq_true, or_assoc] using hc
    unfold AddEdgeStore
    rw [if_pos hc1]
    by_cases hp : (rhs, lhs) ∈ g.predecessor_nodes
    · simp [HasPredecessor, hp]
    · by_cases hs : IsSetVar g rhs = true <;> simp [HasPredecessor, hp, hs, push_back]
  · intro hc
    have hc1 : ¬ ((IsConstructor g lhs || IsLam g lhs) || IsProjection g rhs) = true := by
      simpa [Bool.or_eq_true, or_assoc] using hc
    unfold AddEdgeStore
    rw [if_neg hc1]
    by_cases hp : (lhs, rhs) ∈ g.successor_nodes
    · simp [HasSuccessor, hp]
    · by_cases hs : IsSetVar g lhs = true <;> simp [HasSuccessor, hp, hs, push_back]

/-- C32, on the graph of `ref(a, X)` and the set variables `X` and `Y`: the edge from the
constructor to `Y` becomes a predecessor of `Y`, which is enqueued; the edge from `X` to `Y`
becomes a successor of `X`, which is enqueued. -/
theorem AddEdge_frame_witness :
    AddEdge refPairGraph (Ref.obj 0) (Ref.sv "Y") false =
      some { refPairGraph with
        predecessor_nodes := [(Ref.sv "Y", Ref.obj 0)], worklist := [Ref.sv "Y"] } ∧
    AddEdge refPairGraph (Ref.sv "X") (Ref.sv "Y") false =
      some { refPairGraph with
        successor_nodes := [(Ref.sv "X", Ref.sv "Y")], worklist := [Ref.sv "X"] } ∧
    ((IsConstructor refPairGraph (Ref.obj 0) = true ∨ IsLam refPairGraph (Ref.obj 0) = true ∨
        IsProjection refPairGraph (Ref.sv "Y") = true) →
      AddEdge refPairGraph (Ref.obj 0) (Ref.sv "Y") false = some
        { refPairGraph with
          predecessor_nodes :=
            if (Ref.sv "Y", Ref.obj 0) ∈ refPairGraph.predecessor_nodes
            then refPairGraph.predecessor_nodes
            else (Ref.sv "Y", Ref.obj 0) :: refPairGraph.predecessor_nodes
          worklist := refPairGraph.worklist ++
            (if IsSetVar refPairGraph (Ref.sv "Y") = true ∧
              (Ref.sv "Y", Ref.obj 0) ∉ refPairGraph.predecessor_nodes
            then [Ref.sv "Y"] else []) }) :=
  ⟨by decide, by decide, (AddEdge_frame refPairGraph (Ref.obj 0) (Ref.sv "Y") (by decide)).1⟩

/-- C36. On the constraints `ref(a, A) <= Y1`, `ref(b, B) <= Y2` and
`proj(ref, 1, Y1) <= proj(ref, 1, Y2)`: after `Solve` the projection of `Y1` (node 2) has the
successor `B`, and `A` is the argument of the `ref` predecessor of `Y1`, but the edge from `A` to
`B` is not in the graph; a second `Solve` adds it, so `Solve` is not idempotent. With the further
constraint `ref(c, C) <= A` the printed solution has `c` for `A` and no line for `B`. -/
theorem solve_leaves_projection_unresolved :
    readConstraints bothSidesExample = some bothSidesGraph ∧
    Solve exampleAddr 20 bothSidesGraph =
      Outcome.finished { bothSidesGraph with successor_nodes := [(Ref.obj 2, Ref.sv "B")] } ∧
    Solve exampleAddr 20 { bothSidesGraph with successor_nodes := [(Ref.obj 2, Ref.sv "B")] } =
      Outcome.finished { bothSidesGraph with
        successor_nodes := [(Ref.sv "A", Ref.sv "B"), (Ref.obj 2, Ref.sv "B")] } ∧
    solve_main exampleAddr 20 (bothSidesExample ++ [(Expr.ref "c" "C", Expr.setvar "A")]) =
      some [("A", ["c"]), ("Y1", ["a"]), ("Y2", ["b"])] := by
  decide

end Solver

/-! ## The solver: a store through a projection -/

namespace Solver

/-- Reading the constraint `w <= proj(nm, i, y)` leaves its edge in the graph. -/
theorem readConstraint_store_loaded {g g1 : Graph} {c : Expr × Expr}
    (h : readConstraint g c = some g1) : LoadedStore c g1 := by
  unfold readConstraint at h
  simp only at h
  obtain ⟨hgl, hlm, hl1, -, -⟩ := parseExpression_spec g c.1
  obtain ⟨hgr, -, -, -, hr3⟩ := parseExpression_spec (parseExpression g c.1).1 c.2
  obtain ⟨e1, e2⟩ := c
  intro w nm i y e
  cases e
  simp only at h hl1 hr3 hlm hgr
  obtain ⟨hn, hj⟩ := hr3 nm i y rfl
  rw [hl1 w rfl] at h hlm
  rw [AddEdge_sv] at h
  cases h
  have hfr : ∀ (G : Graph) (l r : Ref), (AddEdgeStore G l r true).nodes = G.nodes ∧
      (AddEdgeStore G l r true).set_var_map = G.set_var_map ∧
      (AddEdgeStore G l r true).proj_sv_refs = G.proj_sv_refs := by
    intro G l r
    rcases AddEdgeStore_cases G l r true with h0 | ⟨-, -, h0⟩ | ⟨-, -, h0⟩ <;> rw [h0] <;> simp
  obtain ⟨f1, f2, f3⟩ := hfr (parseExpression (parseExpression g (Expr.setvar w)).1
    (Expr.proj nm i y)).1 (Ref.sv w) (parseExpression (parseExpression g (Expr.setvar w)).1
    (Expr.proj nm i y)).2
  refine ⟨_, ?_, ?_, AddEdgeStore_pred_mem _ ?_, ?_⟩
  · rw [node_congr f1]; exact hn
  · rw [f3]; exact hj
  · simp [(node_projection hn).2.2.1]
  · rw [f2]
    exact hgr.svm (sv_mem_allRefs_iff.1 hlm)

/-- What a read constraint left in the graph stays when the graph grows. -/
theorem LoadedStore.stays {c : Expr × Expr} {g g1 : Graph} (h : LoadedStore c g)
    (hg : Grow g g1) : LoadedStore c g1 := by
  intro w nm i y e
  obtain ⟨p, hp, hj, hs, hw⟩ := h w nm i y e
  exact ⟨p, hg.node hp, hg.prj hj, hg.pred hs, hg.svm hw⟩

/-- After the reading loop, every constraint `w <= proj(nm, i, y)` that was read has left its
edge in the graph. -/
theorem readConstraints_store_loaded {cs : List (Expr × Expr)} {g : Graph}
    (h : readConstraints cs = some g) : ∀ c ∈ cs, LoadedStore c g := by
  unfold readConstraints at h
  refine forEachM_visit (I := fun _ => True) cs _ g ?_ ?_ trivial h
  · intro g2 a g3 _ _ hg
    exact ⟨trivial, readConstraint_store_loaded hg⟩
  · intro g2 a b g3 _ _ hQ hg
    exact hQ.stays (readConstraint_grow hg)

/-- After the body of the loop over `Y` for the set variable `x`, every set variable that was a
predecessor of the projection has `x` among its successors. -/
theorem projStep_pre {addr : Ref → Nat} {proj_sv_ref : Ref} {x w : String} {g g5 : Graph}
    (hx : IsArg g (Ref.sv x)) (hw : (proj_sv_ref, Ref.sv w) ∈ g.predecessor_nodes)
    (hwv : Ref.sv w ∈ allRefs g) (h : projStep addr proj_sv_ref g (Ref.sv x) = some g5) :
    (Ref.sv w, Ref.sv x) ∈ g5.successor_nodes := by
  unfold projStep at h
  simp only at h
  split at h
  · cases h
  · rename_i g3 h3
    rw [Option.map_eq_some'] at h
    obtain ⟨g4, h4, h5⟩ := h
    have h6 : (Ref.sv w, Ref.sv x) ∈ g3.successor_nodes := by
      refine forSet_visit (k := 1) (E := fun r => r = Ref.sv x)
        (Q := fun g6 => (Ref.sv w, Ref.sv x) ∈ g6.successor_nodes) hwv ?_ ?_ ?_ ?_ h3
      · intro g1 pred g2 hm hs hb
        refine addEdge_push_step (Or.inl ⟨rfl, rfl⟩) ?_ hb
        intro w1
        exact ⟨(w1.vp _ (mem_preds_iff.1 hm)).2, (hx.carry hs.nodes).valid w1⟩
      · intro g6 hI
        exact mem_preds_iff.2 (hI.pred_mono hw)
      · intro g6 g7 _ hb
        rw [AddEdge_sv, Option.map_some', Option.some.injEq] at hb
        have hmem : (Ref.sv w, Ref.sv x) ∈
            (AddEdgeStore g6 (Ref.sv w) (Ref.sv x) true).successor_nodes :=
          AddEdgeStore_succ_mem _ (by simp [isConstructor_sv, isLam_sv, isProjection_sv])
        split at hb
        · rw [← hb]; exact hmem
        · rw [← hb]; exact hmem
      · intro g6 g7 hst hq
        exact hst.succ_mono hq
    have s1 := projPreds_step hx h3
    have s2 : StepP 1 (fun r => r = Ref.sv x) g3 g4 := by
      refine forSet_step ?_ h4
      intro g1 succ g2 hm hs hb
      exact projSuccs_round hx (hs.nodes.trans s1.nodes) hm hb
    have h7 := s2.succ_mono h6
    split at h5
    · rw [← h5]; exact h7
    · rw [← h5]; exact h7

/-- After step 2.c on the set variable `y`: when `c` is a constructor predecessor of `y` with the
set variable `x` at the index of a projection of `y`, every set variable that was a predecessor
of the projection has `x` among its successors. -/
theorem resolveProjections_pre {addr : Ref → Nat} {y x w nm : String} {i : Int}
    {args : List Arg} {p c : Ref} {g g1 : Graph}
    (h : resolveProjections addr (Ref.sv y) g = some g1)
    (hP : (Ref.sv y, p) ∈ g.proj_sv_refs) (hPn : g.node p = some (Node.Projection nm y i))
    (hPv : p ∈ allRefs g)
    (hc : (Ref.sv y, c) ∈ g.predecessor_nodes) (hcn : g.node c = some (Node.Constructor nm args))
    (harg : GetArgAt g c i = some (Arg.node x))
    (hw : (p, Ref.sv w) ∈ g.predecessor_nodes) (hwv : Ref.sv w ∈ allRefs g)
    (hxv : Ref.sv x ∈ allRefs g) :
    (Ref.sv w, Ref.sv x) ∈ g1.successor_nodes := by
  refine forSet_visit (k := 2) (E := fun _ => False)
    (Q := fun g2 => (Ref.sv w, Ref.sv x) ∈ g2.successor_nodes) hPv ?_ ?_ ?_ ?_ h
  · intro g2 a g3 _ _ hb
    exact resolveRound_step hb
  · intro g2 hI
    rw [mem_projRefs_iff, hI.prj]
    exact hP
  · intro g2 g3 hI hb
    have hPn2 : g2.node p = some (Node.Projection nm y i) := by
      rw [node_congr hI.nodes]; exact hPn
    have hcn2 : g2.node c = some (Node.Constructor nm args) := by
      rw [node_congr hI.nodes]; exact hcn
    obtain ⟨-, -, -, hsv, hidx, hname⟩ := node_projection hPn2
    split at hb
    · cases hb
    · rename_i Y hY
      have hxY : Ref.sv x ∈ Y := by
        refine projValue_mem _ Y hY c ?_ (isConstructor_of_node hcn2) ?_ x ?_
        · rw [hsv]
          exact mem_preds_iff.2 (hI.pred_mono hc)
        · rw [name_of_constructor hcn2, hname]
        · rw [hidx, getArgAt_congr hI.nodes]
          exact harg
      have hxa : IsArg g2 (Ref.sv x) :=
        ⟨c, x, rfl, by rw [callArgs_congr hI.nodes]; exact getArgAt_mem harg⟩
      refine forSet_visit (k := 2) (E := fun _ => False)
        (Q := fun g4 => (Ref.sv w, Ref.sv x) ∈ g4.successor_nodes)
        (by rw [allRefs_congr hI.nodes hI.svm]; exact hxv) ?_ ?_ ?_ ?_ hb
      · intro g4 yi g5 hm hs hb4
        exact projStep_step ((projValue_isArg _ Y hY yi hm).carry hs.nodes) hb4
      · intro _ _
        exact hxY
      · intro g4 g5 hI4 hb4
        refine projStep_pre (hxa.carry hI4.nodes) (hI4.pred_mono (hI.pred_mono hw)) ?_ hb4
        rw [allRefs_congr (hI4.nodes.trans hI.nodes) (hI4.svm.trans hI.svm)]
        exact hwv
      · intro g4 g5 hst hq
        exact hst.succ_mono hq
  · intro g2 g3 hst hq
    exact hst.succ_mono hq

/-- After `Solve`, every set variable that is stored through `proj(ref, 1, y)` has the set
variable under a `ref` that flows into `y` among its successors. -/
theorem Solve_store_edge {addr : Ref → Nat} {fuel : Nat} {cs : List (Expr × Expr)} {g g1 : Graph}
    {a x y w : String} (hg : readConstraints cs = some g)
    (h1 : (Expr.ref a x, Expr.setvar y) ∈ cs)
    (h2 : (Expr.setvar w, Expr.proj "ref" 1 y) ∈ cs)
    (hs : Solve addr fuel g = Outcome.finished g1) :
    (Ref.sv w, Ref.sv x) ∈ g1.successor_nodes := by
  have wf := (readConstraints_wf hg).1
  obtain ⟨c, hcn, hcp, hxm⟩ := (readConstraints_loaded hg _ h1).2.1 a x y rfl
  obtain ⟨p, hpn, hpj, hps, hwm⟩ := readConstraints_store_loaded hg _ h2 w "ref" 1 y rfl
  have hpv : p ∈ allRefs g := wf.vprj _ hpj
  unfold Solve at hs
  have key := SolveLoop_inv addr (I := fun g2 => WF g2 ∧ g2.nodes = g.nodes ∧
    g2.set_var_map = g.set_var_map ∧ g2.proj_sv_refs = g.proj_sv_refs ∧
    (Ref.sv y, c) ∈ g2.predecessor_nodes ∧ (p, Ref.sv w) ∈ g2.predecessor_nodes ∧
    (Ref.sv y ∈ g2.worklist ∨ (Ref.sv w, Ref.sv x) ∈ g2.successor_nodes)) ?_ fuel _ g1 ?_ hs
  · obtain ⟨⟨-, -, -, -, -, -, hor⟩, hw⟩ := key
    rcases hor with h0 | h0
    · rw [hw] at h0
      cases h0
    · exact h0
  · intro g2 sv_node rest g3 ⟨w2, hn2, hs2, hj2, hc2, hp2, hor⟩ hw hb
    have hst := SolveBody_step hb
    refine ⟨(potential_decreases w2 hw hb).1, hst.nodes.trans hn2, hst.svm.trans hs2,
      hst.prj.trans hj2, hst.pred_mono hc2, hst.pred_mono hp2, ?_⟩
    by_cases hy : sv_node = Ref.sv y
    · subst hy
      right
      unfold SolveBody at hb
      split at hb
      · cases hb
      · rename_i g4 h4
        have s4 := propagate_step h4
        have hn4 : g4.nodes = g.nodes := s4.nodes.trans hn2
        have hA : allRefs g4 = allRefs g := allRefs_congr hn4 (s4.svm.trans hs2)
        have e1 : (Ref.sv y, p) ∈ g4.proj_sv_refs := by
          rw [s4.prj]
          show (Ref.sv y, p) ∈ g2.proj_sv_refs
          rw [hj2]; exact hpj
        have e2 : g4.node p = some (Node.Projection "ref" y 1) := by
          rw [node_congr hn4]; exact hpn
        have e3 : p ∈ allRefs g4 := by rw [hA]; exact hpv
        have e4 : g4.node c = some (Node.Constructor "ref" [Arg.str a, Arg.node x]) := by
          rw [node_congr hn4]; exact hcn
        have e5 : GetArgAt g4 c 1 = some (Arg.node x) := by
          rw [getArgAt_congr hn4]; exact getArgAt_ref_one hcn
        have e6 : Ref.sv w ∈ allRefs g4 := by rw [hA]; exact sv_mem_allRefs hwm
        have e7 : Ref.sv x ∈ allRefs g4 := by rw [hA]; exact sv_mem_allRefs hxm
        exact resolveProjections_pre hb e1 e2 e3 (s4.pred_mono hc2) e4 e5 (s4.pred_mono hp2) e6 e7
    · rcases hor with h0 | h0
      · left
        rw [hw] at h0
        rcases List.mem_cons.1 h0 with h0 | h0
        · exact absurd h0.symm hy
        · exact hst.wl_mono h0
      · right
        exact hst.succ_mono h0
  · refine ⟨initWorklist_wf wf, rfl, rfl, rfl, hcp, hps, Or.inl ?_⟩
    unfold initWorklist
    simp only [List.mem_append, List.mem_map, List.mem_filter]
    right
    refine ⟨y, ⟨sv_mem_allRefs_iff.1 (wf.vp _ hcp).1, ?_⟩, rfl⟩
    have hm : c ∈ preds g (Ref.sv y) := mem_preds_iff.2 hcp
    cases hq : preds g (Ref.sv y) with
    | nil => rw [hq] at hm; cases hm
    | cons _ _ => rfl

/-- C33. For constraints that hold `ref(a, x) <= y` and `w <= proj(ref, 1, y)`: `Solve` does not
run out of the fuel `solveFuel`; after `Solve` the graph has the edge from `w` to `x`, every `ref`
or `lam_` constructor that is a predecessor of `w` is a predecessor of `x`, and what `w` points to
`x` points to; in the printed solution the line of `w` is within the line of `x`; and for
well-formed constraints the solver does print a solution. -/
theorem solve_store_proj_flow (addr : Ref → Nat) (cs : List (Expr × Expr)) (a x y w : String)
    (h1 : (Expr.ref a x, Expr.setvar y) ∈ cs)
    (h2 : (Expr.setvar w, Expr.proj "ref" 1 y) ∈ cs) :
    (∀ g, readConstraints cs = some g → Solve addr (solveFuel g) g ≠ Outcome.out_of_fuel) ∧
    (∀ g fuel g1, readConstraints cs = some g → Solve addr fuel g = Outcome.finished g1 →
      (Ref.sv w, Ref.sv x) ∈ g1.successor_nodes ∧
      (∀ c, (IsConstructor g1 c = true ∨ IsLam g1 c = true) →
        c ∈ preds g1 (Ref.sv w) → c ∈ preds g1 (Ref.sv x)) ∧
      ∀ b, PointsTo g1 w b → PointsTo g1 x b) ∧
    (∀ fuel sol, solve_main addr fuel cs = some sol →
      ∀ cw, (w, cw) ∈ sol → ∃ cx, (x, cx) ∈ sol ∧ ∀ b ∈ cw, b ∈ cx) ∧
    (∀ k, (∀ c ∈ cs, ExprOK k c.1 ∧ ExprOK k c.2) →
      ∃ g sol, readConstraints cs = some g ∧ solve_main addr (solveFuel g) cs = some sol) := by
  have key : ∀ g fuel g1, readConstraints cs = some g → Solve addr fuel g = Outcome.finished g1 →
      (Ref.sv w, Ref.sv x) ∈ g1.successor_nodes ∧
      ∀ c, (IsConstructor g1 c = true ∨ IsLam g1 c = true) →
        c ∈ preds g1 (Ref.sv w) → c ∈ preds g1 (Ref.sv x) := by
    intro g fuel g1 hg hs
    have he := Solve_store_edge hg h1 h2 hs
    obtain ⟨-, hcl⟩ := Solve_closed (readConstraints_wf hg).1 hs
    exact ⟨he, fun c hc hm => mem_preds_iff.2 (hcl w c x (mem_preds_iff.1 hm) hc he)⟩
  refine ⟨fun g hg => Solve_no_timeout addr hg, ?_, ?_, fun k hk => solve_main_some addr hk⟩
  · intro g fuel g1 hg hs
    obtain ⟨he, hc⟩ := key g fuel g1 hg hs
    exact ⟨he, hc, fun b hb => pointsTo_mono hc hb⟩
  · intro fuel sol hsol
    obtain ⟨g, g1, hg, hs, hso⟩ := solve_main_parts hsol
    have w1 := (Solve_grows (readConstraints_wf hg).1 hs).1
    exact solution_subset w1 hso (fun b hb => pointsTo_mono (key g fuel g1 hg hs).2 hb)

/-- C33, on the constraints `ref(a, X) <= Y`, `W <= proj(ref, 1, Y)`, `ref(c, C) <= Z` and
`Z <= W`, where the cell `c` reaches `W` after `Y` was processed: the solution has `c` for `W`
and for `X`. -/
theorem solve_store_proj_flow_witness :
    (Expr.ref "a" "X", Expr.setvar "Y") ∈ storeExample ∧
    (Expr.setvar "W", Expr.proj "ref" 1 "Y") ∈ storeExample ∧
    solve_main exampleAddr 20 storeExample =
      some [("W", ["c"]), ("X", ["c"]), ("Y", ["a"]), ("Z", ["c"])] ∧
    (∀ cw, ("W", cw) ∈ [("W", ["c"]), ("X", ["c"]), ("Y", ["a"]), ("Z", ["c"])] →
      ∃ cx, ("X", cx) ∈ [("W", ["c"]), ("X", ["c"]), ("Y", ["a"]), ("Z", ["c"])] ∧
        ∀ b ∈ cw, b ∈ cx) :=
  ⟨by decide, by decide, by decide,
    (solve_store_proj_flow exampleAddr storeExample "a" "X" "Y" "W" (by decide) (by decide)).2.2.1
      20 _ (by decide)⟩

end Solver

/-! ## The call graph: the two edge sets are kept in step -/

namespace ModRef

open Generator (Variable Operand intVar ptrVar)

/-- The pair of insertions of an edge keeps the two edge sets in step. -/
theorem add_edge_symmetric (st : State) (a b : String) (h : Symmetric st) :
    Symmetric (add_edge st a b) := by
  intro x y
  rw [add_edge_succs, add_edge_preds, h x y]
  constructor
  · rintro (h1 | h1)
    · cases h1; exact Or.inl rfl
    · exact Or.inr h1
  · rintro (h1 | h1)
    · cases h1; exact Or.inl rfl
    · exact Or.inr h1

/-- Making a node changes no edge. -/
theorem get_node_symmetric (st : State) (n : String) (h : Symmetric st) :
    Symmetric (get_node st n) := by
  intro x y
  rw [get_node_succs, get_node_preds]
  exact h x y

/-- The edge to a callee keeps the two edge sets in step. -/
theorem add_callee_symmetric (func_name : String) (w : Walk) (callee : String)
    (h : Symmetric w.st) : Symmetric (add_callee func_name w callee).st := by
  unfold add_callee
  have h1 := add_edge_symmetric _ func_name callee (get_node_symmetric w.st callee h)
  split <;> exact h1

/-- A loop whose body keeps the two edge sets in step keeps them in step. -/
theorem foldl_symmetric {α : Type} (f : Walk → α → Walk)
    (hf : ∀ w a, Symmetric w.st → Symmetric (f w a).st) (l : List α) (w : Walk)
    (h : Symmetric w.st) : Symmetric (l.foldl f w).st := by
  induction l generalizing w with
  | nil => exact h
  | cons a l ih => exact ih _ (hf w a h)

/-- The body of the loop over the blocks keeps the two edge sets in step. -/
theorem call_graph_block_symmetric (pointsTo : PointsTo) (func_name : String) (w : Walk)
    (bb : BasicBlock) (h : Symmetric w.st) :
    Symmetric (call_graph_block pointsTo func_name w bb).st := by
  unfold call_graph_block
  split
  · exact add_callee_symmetric _ _ _ h
  · exact foldl_symmetric _ (fun w1 c => add_callee_symmetric func_name w1 c) _ _ h
  · exact h

/-- The loop of `ComputeCallGraph` keeps the two edge sets in step. -/
theorem call_graph_loop_symmetric (p : Program) (pointsTo : PointsTo) :
    ∀ (fuel : Nat) (w w1 : Walk), Symmetric w.st →
      call_graph_loop p pointsTo fuel w = Outcome.finished w1 → Symmetric w1.st := by
  intro fuel
  induction fuel with
  | zero =>
    intro w w1 h hr
    unfold call_graph_loop at hr
    split at hr
    · cases hr; exact h
    · cases hr
  | succ fuel ih =>
    intro w w1 h hr
    unfold call_graph_loop at hr
    split at hr
    · cases hr; exact h
    · split at hr
      · cases hr
      · refine ih _ w1 ?_ hr
        exact foldl_symmetric _
          (fun w2 (bb : String × BasicBlock) => call_graph_block_symmetric pointsTo _ w2 bb.2) _ _
          (get_node_symmetric _ _ h)

/-- The body of the loop over `node->preds` keeps the two edge sets in step. -/
theorem closure_pred_symmetric (succ : String) (w : Walk) (pred : String)
    (h : Symmetric w.st) : Symmetric (closure_pred succ w pred).st := by
  unfold closure_pred
  simp only
  split
  · exact add_edge_symmetric _ _ _ h
  · exact add_edge_symmetric _ _ _ h

/-- A loop over a set of nodes whose body keeps the two edge sets in step keeps them in
step. -/
theorem forNodes_symmetric (addr : String → Nat) (set : State → List (String × String))
    (n : String) (body : Walk → String → Walk)
    (hb : ∀ w m, Symmetric w.st → Symmetric (body w m).st) (w : Walk) (h : Symmetric w.st) :
    Symmetric (forNodes addr set n body w).st := by
  unfold forNodes
  refine foldl_symmetric _ ?_ _ _ h
  intro w1 m h1
  split
  · exact hb w1 m h1
  · exact h1

/-- The body of the loop over `node->succs` keeps the two edge sets in step. -/
theorem closure_succ_symmetric (addr : String → Nat) (node : String) (w : Walk) (succ : String)
    (h : Symmetric w.st) : Symmetric (closure_succ addr node w succ).st := by
  unfold closure_succ
  simp only
  have h1 : Symmetric (if node ≠ succ then
      forNodes addr State.preds node (closure_pred succ) w else w).st := by
    split
    · exact forNodes_symmetric _ _ _ _ (fun w1 m => closure_pred_symmetric succ w1 m) _ h
    · exact h
  have key : ∀ w1 : Walk, Symmetric w1.st →
      Symmetric (if succ ∉ w1.visited ∨ edges w1.st succ > edges w.st succ
        then push w1 succ else w1).st := by
    intro w1 hw1
    split
    · exact hw1
    · exact hw1
  exact key _ h1

/-- The loop of `ComputeTransitiveClosure` keeps the two edge sets in step. -/
theorem closure_loop_symmetric (addr : String → Nat) :
    ∀ (fuel : Nat) (w w1 : Walk), Symmetric w.st →
      closure_loop addr fuel w = Outcome.finished w1 → Symmetric w1.st := by
  intro fuel
  induction fuel with
  | zero =>
    intro w w1 h hr
    unfold closure_loop at hr
    split at hr
    · cases hr; exact h
    · cases hr
  | succ fuel ih =>
    intro w w1 h hr
    unfold closure_loop at hr
    split at hr
    · cases hr; exact h
    · refine ih _ w1 ?_ hr
      exact forNodes_symmetric _ _ _ _ (fun w2 m => closure_succ_symmetric addr _ w2 m) _
        (get_node_symmetric _ _ h)

/-- C34. The edges of the call graph are kept in pairs: when `B ∈ succs(A)` holds exactly if
`A ∈ preds(B)` does, then it still holds after the two guarded insertions of an edge, after the
body of each loop that inserts one (`add_callee` in `ComputeCallGraph`, `closure_pred` in
`ComputeTransitiveClosure`), and at the end of `ComputeCallGraph` and of
`ComputeTransitiveClosure`. -/
theorem call_graph_edges_symmetric (p : Program) (pointsTo : PointsTo) (addr : String → Nat)
    (st : State) (hst : Symmetric st) :
    (∀ a b, Symmetric (add_edge st a b)) ∧
    (∀ func_name w callee, w.st = st → Symmetric (add_callee func_name w callee).st) ∧
    (∀ succ w pred, w.st = st → Symmetric (closure_pred succ w pred).st) ∧
    (∀ fuel w, ComputeCallGraph p pointsTo fuel st = Outcome.finished w → Symmetric w.st) ∧
    (∀ fuel w, ComputeTransitiveClosure addr fuel st = Outcome.finished w → Symmetric w.st) :=
  ⟨fun a b => add_edge_symmetric st a b hst,
    fun f w c hw => add_callee_symmetric f w c (hw ▸ hst),
    fun s w q hw => closure_pred_symmetric s w q (hw ▸ hst),
    fun fuel w hr => call_graph_loop_symmetric p pointsTo fuel _ w hst hr,
    fun fuel w hr => closure_loop_symmetric addr fuel _ w hst hr⟩

/-- C34, on the example: the empty state is symmetric, and so are the call graph of the example
(`test` calls `a`, `a` calls `b`) and its closure. -/
theorem call_graph_edges_symmetric_witness :
    Symmetric State.empty ∧
    ComputeCallGraph modRefProgram modRefPointsTo 4 State.empty =
      Outcome.finished ⟨⟨["test", "a", "b"], [("a", "test"), ("b", "a")],
        [("test", "a"), ("a", "b")], [], []⟩, [], ["test", "a", "b"]⟩ ∧
    Symmetric ⟨["test", "a", "b"], [("a", "test"), ("b", "a")],
        [("test", "a"), ("a", "b")], [], []⟩ ∧
    ((∀ a b, Symmetric (add_edge State.empty a b)) ∧
    (∀ func_name w callee, w.st = State.empty →
      Symmetric (add_callee func_name w callee).st) ∧
    (∀ succ w pred, w.st = State.empty → Symmetric (closure_pred succ w pred).st) ∧
    (∀ fuel w, ComputeCallGraph modRefProgram modRefPointsTo fuel State.empty =
      Outcome.finished w → Symmetric w.st) ∧
    (∀ fuel w, ComputeTransitiveClosure nodeAddr fuel State.empty = Outcome.finished w →
      Symmetric w.st)) :=
  ⟨by decide, by decide, by decide,
    call_graph_edges_symmetric modRefProgram modRefPointsTo nodeAddr State.empty (by decide)⟩

end ModRef

/-! ## Interval analysis: every reachable cycle holds a reported block -/

namespace IntervalAnalysis

open Dataflow
open ModRef (Outcome)

/-- An entry found under a key is an entry of the list. -/
theorem lookup_mem {α : Type} (l : List (String × α)) (k : String) (v : α)
    (h : l.lookup k = some v) : (k, v) ∈ l := by
  induction l with
  | nil => simp at h
  | cons e l ih =>
    obtain ⟨k1, v1⟩ := e
    rw [lookup_cons_if] at h
    by_cases hk : k = k1
    · rw [if_pos hk] at h
      cases h
      rw [hk]
      exact List.mem_cons_self _ _
    · rw [if_neg hk] at h
      exact List.mem_cons_of_mem _ (ih h)

/-- The test `hasEdge` decides the edges of the control-flow graph. -/
theorem hasEdge_iff (func : Function) (v w : String) :
    hasEdge func v w = true ↔ Edge func v w := by
  unfold hasEdge Edge
  cases h : func.bbs.lookup v with
  | none => simp
  | some bb => simp

/-- The number of sources of `w` after the visit of `cur`: one more when `cur` has an edge to
`w`. -/
theorem sources_visit (func : Function) (visited : List String) (cur w : String) :
    sources func (visited ++ [cur]) w =
      sources func visited w + (if hasEdge func cur w = true then 1 else 0) := by
  unfold sources
  rw [List.filter_append, List.length_append]
  by_cases h : hasEdge func cur w = true
  · simp [h]; omega
  · simp [h]

/-- One iteration of the loop of `get_loop_headers` keeps the invariant `DfsInv`. -/
theorem body_inv (func : Function) (hc : Closed func) (d d1 : Dfs) (cur : String)
    (rest : List String) (hst : d.stack = cur :: rest) (hI : DfsInv func d)
    (hb : loop_headers_body func cur { d with stack := rest } = some d1) : DfsInv func d1 := by
  unfold loop_headers_body at hb
  simp only at hb
  by_cases hv : cur ∈ d.visited
  · rw [if_pos hv] at hb
    cases hb
    refine ⟨?_, ?_, ?_, ?_⟩
    · intro l hl
      exact hI.stack_labels l (by rw [hst]; exact List.mem_cons_of_mem _ hl)
    · intro w
      by_cases hw : w = cur
      · left
        simp only
        rw [ModRef.mem_insertNew]
        exact Or.inl hw
      · rcases hI.pushes w with h1 | h1
        · left
          simp only
          rw [ModRef.mem_insertNew]
          exact Or.inr h1
        · right
          simp only
          rw [hst, List.count_cons_of_ne hw] at h1
          exact h1
    · intro v hvv w hE
      rcases hI.next v hvv w hE with h1 | h1
      · rw [hst] at h1
        rcases List.mem_cons.1 h1 with h2 | h2
        · right; rw [h2]; exact hv
        · left; exact h2
      · right; exact h1
    · rcases hI.entry with h1 | h1
      · rw [hst] at h1
        rcases List.mem_cons.1 h1 with h2 | h2
        · right; rw [h2]; exact hv
        · left; exact h2
      · right; exact h1
  · rw [if_neg hv] at hb
    have hcur : cur ∈ labels func := hI.stack_labels cur (by rw [hst]; exact List.mem_cons_self _ _)
    cases hl : func.bbs.lookup cur with
    | none =>
      obtain ⟨bb, hbb, -⟩ := lookup_of_mem_labels func cur hcur
      rw [hbb] at hl
      cases hl
    | some bb =>
      rw [hl] at hb
      simp only [Option.some.injEq] at hb
      subst hb
      have hmem := lookup_mem _ _ _ hl
      have hedge : ∀ w, hasEdge func cur w = true ↔ w ∈ pushed bb.terminal := by
        intro w
        unfold hasEdge
        rw [hl]
        simp
      refine ⟨?_, ?_, ?_, ?_⟩
      · intro l hl1
        simp only [foldl_push, List.mem_append, List.mem_reverse] at hl1
        rcases hl1 with h1 | h1
        · exact hc.2 _ hmem l h1
        · exact hI.stack_labels l (by rw [hst]; exact List.mem_cons_of_mem _ h1)
      · intro w
        rcases hI.pushes w with h1 | h1
        · exact Or.inl h1
        · right
          simp only [foldl_push, List.count_append, List.count_reverse]
          rw [sources_visit]
          rw [hst] at h1
          have hp : (if hasEdge func cur w = true then 1 else 0) ≤
              List.count w (pushed bb.terminal) := by
            by_cases he : hasEdge func cur w = true
            · rw [if_pos he]
              exact List.count_pos_iff.2 ((hedge w).1 he)
            · rw [if_neg he]
              exact Nat.zero_le _
          by_cases hw : w = cur
          · subst hw
            rw [List.count_cons_self, if_neg hv] at h1
            rw [if_pos (List.mem_append_right _ (List.mem_singleton_self _))]
            omega
          · rw [List.count_cons_of_ne hw] at h1
            have e : (w ∈ d.visited ++ [cur]) ↔ w ∈ d.visited := by
              simp [hw]
            by_cases hwv : w ∈ d.visited
            · rw [if_pos hwv] at h1
              rw [if_pos (e.2 hwv)]
              omega
            · rw [if_neg hwv] at h1
              rw [if_neg (fun h => hwv (e.1 h))]
              omega
      · intro v hvv w hE
        simp only [foldl_push, List.mem_append, List.mem_reverse, List.mem_singleton] at hvv ⊢
        rcases hvv with h1 | h1
        · rcases hI.next v h1 w hE with h2 | h2
          · rw [hst] at h2
            rcases List.mem_cons.1 h2 with h3 | h3
            · exact Or.inr (Or.inr h3)
            · exact Or.inl (Or.inr h3)
          · exact Or.inr (Or.inl h2)
        · subst h1
          have := (hedge w).1 ((hasEdge_iff func v w).2 hE)
          exact Or.inl (Or.inl this)
      · simp only [foldl_push, List.mem_append, List.mem_reverse, List.mem_singleton]
        rcases hI.entry with h1 | h1
        · rw [hst] at h1
          rcases List.mem_cons.1 h1 with h2 | h2
          · exact Or.inr (Or.inr h2)
          · exact Or.inl (Or.inr h2)
        · exact Or.inr (Or.inl h1)

/-- The loop of `get_loop_headers` keeps the invariant `DfsInv` and ends with an empty stack. -/
theorem loop_inv (func : Function) (hc : Closed func) :
    ∀ (fuel : Nat) (d d1 : Dfs), DfsInv func d →
      loop_headers_loop func fuel d = Outcome.finished d1 → DfsInv func d1 ∧ d1.stack = [] := by
  intro fuel
  induction fuel with
  | zero =>
    intro d d1 hI hr
    unfold loop_headers_loop at hr
    split at hr
    · cases hr
      exact ⟨hI, by assumption⟩
    · cases hr
  | succ fuel ih =>
    intro d d1 hI hr
    unfold loop_headers_loop at hr
    split at hr
    · cases hr
      exact ⟨hI, by assumption⟩
    · rename_i cur rest hst
      split at hr
      · cases hr
      · rename_i d2 hb
        exact ih d2 d1 (body_inv func hc d d2 cur rest hst hI hb) hr

end IntervalAnalysis

namespace IntervalAnalysis

open Dataflow
open ModRef (Outcome)

/-- A list with two different members has at least two members. -/
theorem two_le_length {α : Type} (l : List α) (a b : α) (ha : a ∈ l) (hb : b ∈ l)
    (hab : a ≠ b) : 2 ≤ l.length := by
  match l, ha, hb with
  | [x], ha, hb =>
    simp only [List.mem_singleton] at ha hb
    exact absurd (ha.trans hb.symm) hab
  | _ :: _ :: _, _, _ => simp

/-- Along a chain: the head reaches every member, every member reaches the last one, and every
member but the head has a predecessor in the chain. -/
theorem chain_reaches {α : Type} (R : α → α → Prop) :
    ∀ (l : List α) (a : α), List.Chain R a l →
      (∀ y ∈ l, Relation.ReflTransGen R a y) ∧
      (∀ y ∈ a :: l, Relation.ReflTransGen R y ((a :: l).getLast (List.cons_ne_nil a l))) ∧
      (∀ y ∈ l, ∃ x ∈ a :: l, R x y)
  | [], a, _ => by
    refine ⟨by simp, ?_, by simp⟩
    intro y hy
    simp only [List.mem_singleton] at hy
    subst hy
    exact Relation.ReflTransGen.refl
  | b :: t, a, h => by
    rw [List.chain_cons] at h
    obtain ⟨h1, h2, h3⟩ := chain_reaches R t b h.2
    refine ⟨?_, ?_, ?_⟩
    · intro y hy
      rcases List.mem_cons.1 hy with rfl | hy
      · exact Relation.ReflTransGen.single h.1
      · exact Relation.ReflTransGen.head h.1 (h1 y hy)
    · intro y hy
      rw [List.getLast_cons_cons]
      rcases List.mem_cons.1 hy with rfl | hy
      · exact Relation.ReflTransGen.head h.1 (h2 b (List.mem_cons_self _ _))
      · exact h2 y hy
    · intro y hy
      rcases List.mem_cons.1 hy with rfl | hy
      · exact ⟨a, List.mem_cons_self _ _, h.1⟩
      · obtain ⟨x, hx, hxy⟩ := h3 y hy
        exact ⟨x, List.mem_cons_of_mem _ hx, hxy⟩

/-- On a cycle every block is reached from every other, and every block has a predecessor on the
cycle. -/
theorem cycle_facts (func : Function) (c : List String) (hcyc : IsCycle func c) :
    (∀ x ∈ c, ∀ y ∈ c, Relation.ReflTransGen (Edge func) x y) ∧
    ∀ y ∈ c, ∃ x ∈ c, Edge func x y := by
  match c, hcyc with
  | a :: l, ⟨hch, hlast⟩ =>
    obtain ⟨h1, h2, h3⟩ := chain_reaches (Edge func) l a hch
    have hto : ∀ x ∈ a :: l, Relation.ReflTransGen (Edge func) x a :=
      fun x hx => (h2 x hx).tail hlast
    have hfrom : ∀ y ∈ a :: l, Relation.ReflTransGen (Edge func) a y := by
      intro y hy
      rcases List.mem_cons.1 hy with rfl | hy
      · exact Relation.ReflTransGen.refl
      · exact h1 y hy
    refine ⟨fun x hx y hy => (hto x hx).trans (hfrom y hy), ?_⟩
    intro y hy
    rcases List.mem_cons.1 hy with rfl | hy
    · exact ⟨_, List.getLast_mem _, hlast⟩
    · exact h3 y hy

/-- When the loop of `get_loop_headers` has ended: a set of blocks reached from `entry` in which
every block has a predecessor holds a reported block. -/
theorem header_in_set (func : Function) (d : Dfs) (hI : DfsInv func d) (hs : d.stack = [])
    (c : List String) (x0 : String) (hx0 : x0 ∈ c)
    (hreach : ∀ y ∈ c, Relation.ReflTransGen (Edge func) "entry" y)
    (hpred : ∀ y ∈ c, ∃ x ∈ c, Edge func x y) : ∃ h ∈ c, h ∈ d.loop_headers := by
  have hentry : "entry" ∈ d.visited := by
    rcases hI.entry with h | h
    · rw [hs] at h; cases h
    · exact h
  have hvis : ∀ y, Relation.ReflTransGen (Edge func) "entry" y → y ∈ d.visited := by
    intro y hy
    induction hy with
    | refl => exact hentry
    | tail _ hE ih =>
      rcases hI.next _ ih _ hE with h | h
      · rw [hs] at h; cases h
      · exact h
  have hrep : ∀ w, 2 ≤ sources func d.visited w → w ∈ d.loop_headers := by
    intro w hw
    rcases hI.pushes w with h | h
    · exact h
    · rw [hs] at h
      simp only [List.count_nil, Nat.zero_add] at h
      split at h <;> omega
  by_cases he : "entry" ∈ c
  · refine ⟨"entry", he, hrep _ ?_⟩
    obtain ⟨p, hp, hE⟩ := hpred _ he
    have hpv := hvis p (hreach p hp)
    have : p ∈ d.visited.filter (fun v => hasEdge func v "entry") :=
      List.mem_filter.2 ⟨hpv, (hasEdge_iff func p "entry").2 hE⟩
    have := List.length_pos_of_mem this
    unfold sources
    rw [if_pos rfl]
    omega
  · have hin : ∀ y, Relation.ReflTransGen (Edge func) "entry" y → y ∈ c →
        ∃ u w, Relation.ReflTransGen (Edge func) "entry" u ∧ u ∉ c ∧ w ∈ c ∧ Edge func u w := by
      intro y hy
      induction hy with
      | refl => exact fun h => absurd h he
      | @tail b y hb hE ih =>
        intro hyc
        by_cases hbc : b ∈ c
        · exact ih hbc
        · exact ⟨b, y, hb, hbc, hyc, hE⟩
    obtain ⟨u, w, hu, huc, hwc, hE⟩ := hin x0 (hreach x0 hx0) hx0
    obtain ⟨p, hp, hpE⟩ := hpred w hwc
    refine ⟨w, hwc, hrep _ ?_⟩
    have h1 : u ∈ d.visited.filter (fun v => hasEdge func v w) :=
      List.mem_filter.2 ⟨hvis u hu, (hasEdge_iff func u w).2 hE⟩
    have h2 : p ∈ d.visited.filter (fun v => hasEdge func v w) :=
      List.mem_filter.2 ⟨hvis p (hreach p hp), (hasEdge_iff func p w).2 hpE⟩
    have := two_le_length _ u p h1 h2 (fun h => huc (h ▸ hp))
    unfold sources
    omega

/-- C35. For a function whose terminals name existing labels (and with a block `entry`),
`get_loop_headers` returns with the fuel `loopHeadersFuel`, whatever the shape of the
control-flow graph, and every cycle of the control-flow graph with a block that is reachable from
`entry` holds a block of the returned set `loop_headers`. -/
theorem loop_headers_sound (func : Function) (hc : Closed func) (fuel : Nat)
    (hf : loopHeadersFuel func ≤ fuel) :
    ∃ loop_headers, get_loop_headers func fuel = Outcome.finished loop_headers ∧
      ∀ c, IsCycle func c → (∃ x ∈ c, Relation.ReflTransGen (Edge func) "entry" x) →
        ∃ h ∈ c, h ∈ loop_headers := by
  obtain ⟨lh, hlh⟩ := get_loop_headers_finishes func hc fuel hf
  refine ⟨lh, hlh, ?_⟩
  unfold get_loop_headers at hlh
  split at hlh
  · rename_i d hd
    cases hlh
    have hinit : DfsInv func ⟨["entry"], [], [], []⟩ := by
      refine ⟨?_, ?_, ?_, Or.inl (List.mem_singleton_self _)⟩
      · intro l hl
        simp only [List.mem_singleton] at hl
        rw [hl]
        exact hc.1
      · intro w
        right
        unfold sources
        by_cases hw : w = "entry"
        · simp [hw]
        · simp [hw]
      · intro v hv
        cases hv
    obtain ⟨hI, hs⟩ := loop_inv func hc fuel _ d hinit hd
    intro c hcyc ⟨x0, hx0, hr0⟩
    obtain ⟨hall, hpred⟩ := cycle_facts func c hcyc
    exact header_in_set func d hI hs c x0 hx0 (fun y hy => hr0.trans (hall x0 hx0 y hy)) hpred
  · cases hlh
  · cases hlh

/-- C35, on a loop: `entry` jumps to `head`, which branches to `body` and `exit`, and `body` jumps
back to `head`; the set returned is `head`. -/
theorem loop_headers_sound_witness :
    Closed loopExample ∧ loopHeadersFuel loopExample ≤ 10 ∧
    get_loop_headers loopExample 10 = Outcome.finished ["head"] ∧
    ∃ loop_headers, get_loop_headers loopExample 10 = Outcome.finished loop_headers ∧
      ∀ c, IsCycle loopExample c →
        (∃ x ∈ c, Relation.ReflTransGen (Edge loopExample) "entry" x) →
        ∃ h ∈ c, h ∈ loop_headers :=
  ⟨by decide, by decide, by decide, loop_headers_sound loopExample (by decide) 10 (by decide)⟩

end IntervalAnalysis

/-! ## Interval analysis: widening -/

namespace IntervalAnalysis

open Dataflow

/-- The lookup after the entries of one key were removed. -/
theorem lookup_filter_ne {α : Type} (var k : String) :
    ∀ s : List (String × α),
      List.lookup k (s.filter (fun e => e.1 ≠ var)) = if k = var then none else List.lookup k s
  | [] => by simp
  | e :: s => by
    obtain ⟨a, b⟩ := e
    have ih := lookup_filter_ne (α := α) var k s
    by_cases ha : a = var
    · subst ha
      rw [List.filter_cons_of_neg (by simp), ih, lookup_cons_if]
      by_cases hk : k = a
      · simp [hk]
      · simp [hk]
    · rw [List.filter_cons_of_pos (by simpa using ha), lookup_cons_if, lookup_cons_if, ih]
      by_cases hk : k = a
      · simp [hk, ha]
      · simp [hk]

/-- After `set(var, v)` the variable `var` has the value `v` and every other variable the value
it had. -/
theorem storeGet_storeSet (var : String) (v : AbstractVals) (s : interval_abstract_store)
    (k : String) : storeGet (storeSet var v s) k = if k = var then v else storeGet s k := by
  unfold storeGet storeSet
  by_cases hv : v = AbstractVals.BOTTOM
  · rw [if_pos hv, lookup_filter_ne]
    by_cases hk : k = var
    · simp [hk, hv]
    · simp [hk]
  · rw [if_neg hv, lookup_mapSet]
    by_cases hk : k = var
    · simp [hk]
    · simp [hk]

/-- The bounds of the abstract value made from two bounds. -/
theorem bounds_ofBounds (lo hi : Option Int) : (ofBounds lo hi).bounds = some (lo, hi) := by
  unfold ofBounds
  by_cases h : lo = none ∧ hi = none
  · rw [if_pos h, h.1, h.2]
    rfl
  · rw [if_neg h]
    rfl

/-- Widening with bottom changes nothing. -/
theorem widenVal_bottom_right (x : AbstractVals) : widenVal x AbstractVals.BOTTOM = x := by
  cases x <;> rfl

/-- The loop of `widen` over the variables of `new` widens every variable. -/
theorem widen_fold_get (k : String) :
    ∀ (new s : interval_abstract_store), (new.map Prod.fst).Nodup →
      storeGet (new.foldl (fun s e => storeSet e.1 (widenVal (storeGet s e.1) e.2) s) s) k =
        widenVal (storeGet s k) (storeGet new k)
  | [], s, _ => by
    simp only [List.foldl_nil]
    exact (widenVal_bottom_right _).symm
  | e :: new, s, hn => by
    obtain ⟨a, b⟩ := e
    simp only [List.map_cons, List.nodup_cons] at hn
    rw [List.foldl_cons, widen_fold_get k new _ hn.2, storeGet_storeSet]
    by_cases hk : k = a
    · subst hk
      have hnone : List.lookup k new = none := by
        rw [List.lookup_eq_none_iff]
        intro e he
        rw [bne_iff_ne]
        intro h
        exact hn.1 (List.mem_map.2 ⟨e, he, h.symm⟩)
      rw [if_pos rfl]
      have h1 : storeGet new k = AbstractVals.BOTTOM := by
        unfold storeGet; rw [hnone]; rfl
      have h2 : storeGet ((k, b) :: new) k = b := by
        unfold storeGet; rw [lookup_cons_if]; simp
      rw [h1, h2, widenVal_bottom_right]
    · rw [if_neg hk]
      have h2 : storeGet ((a, b) :: new) k = storeGet new k := by
        unfold storeGet; rw [lookup_cons_if, if_neg hk]
      rw [h2]

/-- C31. The widening of interval stores is pointwise: for stores `old` and `new` (maps, so no
key of `new` occurs twice) every variable gets the widening of its two values, where an absent
variable is bottom; bottom in `old` takes the value of `new`; for two values with bounds the
widened lower bound is −∞ if `new.lo < old.lo` and `old.lo` otherwise, and the widened upper bound
is +∞ if `new.hi > old.hi` and `old.hi` otherwise; and `widen` reports a change exactly if a
variable has a new value. -/
theorem widen_is_pointwise (old new : interval_abstract_store)
    (hn : (new.map Prod.fst).Nodup) :
    (∀ k, storeGet (widen old new).1 k = widenVal (storeGet old k) (storeGet new k)) ∧
    (∀ x, widenVal AbstractVals.BOTTOM x = x) ∧
    (∀ o n lo hi nlo nhi, o.bounds = some (lo, hi) → n.bounds = some (nlo, nhi) →
      (widenVal o n).bounds =
        some (if loLt nlo lo then none else lo, if hiGt nhi hi then none else hi)) ∧
    ((widen old new).2 = true ↔ ∃ k, storeGet (widen old new).1 k ≠ storeGet old k) := by
  have hpt : ∀ k, storeGet (widen old new).1 k = widenVal (storeGet old k) (storeGet new k) :=
    fun k => widen_fold_get k new old hn
  refine ⟨hpt, fun x => rfl, ?_, ?_⟩
  · intro o n lo hi nlo nhi ho hnb
    unfold widenVal
    rw [ho, hnb]
    exact bounds_ofBounds _ _
  · constructor
    · intro h
      have h1 : new.any (fun e => decide (storeGet (widen old new).1 e.1 ≠ storeGet old e.1)) =
          true := h
      rw [List.any_eq_true] at h1
      obtain ⟨e, _, he⟩ := h1
      exact ⟨e.1, of_decide_eq_true he⟩
    · intro ⟨k, hk⟩
      have hmem : k ∈ new.map Prod.fst := by
        by_contra hc
        apply hk
        rw [hpt k]
        have hnone : List.lookup k new = none := by
          rw [List.lookup_eq_none_iff]
          intro e he
          rw [bne_iff_ne]
          intro h
          exact hc (List.mem_map.2 ⟨e, he, h.symm⟩)
        have : storeGet new k = AbstractVals.BOTTOM := by
          unfold storeGet; rw [hnone]; rfl
        rw [this, widenVal_bottom_right]
      obtain ⟨e, he, hek⟩ := List.mem_map.1 hmem
      show new.any (fun e => decide (storeGet (widen old new).1 e.1 ≠ storeGet old e.1)) = true
      rw [List.any_eq_true]
      exact ⟨e, he, decide_eq_true (hek ▸ hk)⟩

/-- C31, on the stores of `test_widen.cpp`: `old` has `v1` in `[-1, -1]` and `v2` top, `new` has
`v1` in `[4, 4]` and `v3` in `[4, 64]`; after the widening `v1` is in `[-1, +∞]`, `v2` is top and
`v3` is in `[4, 64]`, and `widen` reports a change. -/
theorem widen_is_pointwise_witness :
    widen [("v1", AbstractVals.Interval (some (-1)) (some (-1))), ("v2", AbstractVals.TOP)]
        [("v1", AbstractVals.Interval (some 4) (some 4)),
          ("v3", AbstractVals.Interval (some 4) (some 64))] =
      ([("v1", AbstractVals.Interval (some (-1)) none), ("v2", AbstractVals.TOP),
        ("v3", AbstractVals.Interval (some 4) (some 64))], true) ∧
    (∀ k, storeGet (widen [("v1", AbstractVals.Interval (some (-1)) (some (-1))),
          ("v2", AbstractVals.TOP)]
        [("v1", AbstractVals.Interval (some 4) (some 4)),
          ("v3", AbstractVals.Interval (some 4) (some 64))]).1 k =
      widenVal (storeGet [("v1", AbstractVals.Interval (some (-1)) (some (-1))),
          ("v2", AbstractVals.TOP)] k)
        (storeGet [("v1", AbstractVals.Interval (some 4) (some 4)),
          ("v3", AbstractVals.Interval (some 4) (some 64))] k)) :=
  ⟨by decide,
    (widen_is_pointwise [("v1", AbstractVals.Interval (some (-1)) (some (-1))),
        ("v2", AbstractVals.TOP)]
      [("v1", AbstractVals.Interval (some 4) (some 4)),
        ("v3", AbstractVals.Interval (some 4) (some 64))] (by decide)).1⟩

end IntervalAnalysis

/-! ## The comparator of the program points, the returned variable of a callee -/

namespace ReachingDef

/-- C37. On the program points `bb1.1`, `bb1.term` and `bb1.2`: the comparator puts neither of
`bb1.1` and `bb1.term` before the other, and neither of `bb1.term` and `bb1.2`, but it puts
`bb1.1` before `bb1.2`: being unordered is not transitive, so the comparator is not a strict weak
ordering. -/
theorem incomparability_not_transitive :
    pp_less (pp "bb1" 1) (ppTerm "bb1") = some false ∧
    pp_less (ppTerm "bb1") (pp "bb1" 1) = some false ∧
    pp_less (ppTerm "bb1") (pp "bb1" 2) = some false ∧
    pp_less (pp "bb1" 2) (ppTerm "bb1") = some false ∧
    pp_less (pp "bb1" 1) (pp "bb1" 2) = some true ∧
    pp "bb1" 1 = "bb1.1" ∧ ppTerm "bb1" = "bb1.term" ∧ pp "bb1" 2 = "bb1.2" := by
  decide

end ReachingDef

namespace Generator

/-- The loop of `get_ret_val` stops at the first block that returns a variable. -/
theorem get_ret_val_loop_first (bb : String × BasicBlock) (post : List (String × BasicBlock))
    (r : Variable) (hbb : bb.2.terminal = Terminal.Ret ⟨some (Operand.Var r)⟩) :
    ∀ pre : List (String × BasicBlock),
      (∀ b ∈ pre, ∀ v, b.2.terminal ≠ Terminal.Ret ⟨some (Operand.Var v)⟩) →
      get_ret_val_loop (pre ++ bb :: post) = some r
  | [], _ => by
    simp only [List.nil_append]
    unfold get_ret_val_loop
    rw [hbb]
  | b :: pre, hpre => by
    have ih := get_ret_val_loop_first bb post r hbb pre
      (fun b1 hb1 => hpre b1 (List.mem_cons_of_mem _ hb1))
    have hb := hpre b (List.mem_cons_self _ _)
    simp only [List.cons_append]
    unfold get_ret_val_loop
    split
    · rename_i ret hret
      split
      · rename_i var hvar
        exfalso
        apply hb var
        rw [hret]
        cases ret
        simp only at hvar
        rw [hvar]
      · exact ih
    · exact ih

/-- C40. For a direct call in `F` to `G` whose result is kept in the pointer `lhs`: when `r` is
the variable returned by the first block of `G`, in the order of its map of blocks, whose
terminal is a `ret` of a variable, the statements of the call are the one return constraint
`G.r <= F.lhs` followed by the constraints of the arguments, whatever the blocks after that one
return; the text of the return constraint is `G.r <= F.lhs`. -/
theorem call_dir_return_constraint (call_dir : CallDirInstruction) (func callee : Function)
    (lhs r : Variable) (pre post : List (String × BasicBlock)) (bb : String × BasicBlock)
    (hl : call_dir.lhs = some lhs) (hp : lhs.type.indirection ≠ 0)
    (hbbs : callee.bbs = pre ++ bb :: post)
    (hbb : bb.2.terminal = Terminal.Ret ⟨some (Operand.Var r)⟩)
    (hpre : ∀ b ∈ pre, ∀ v, b.2.terminal ≠ Terminal.Ret ⟨some (Operand.Var v)⟩) :
    get_call_dir_constraint call_dir func callee =
      (call_dir_args call_dir func callee callee.params 0).map
        (fun args => ⟨Expression.Term (Term.SetVariable ⟨r.name, callee.name, true⟩),
          Expression.Term (Term.SetVariable ⟨lhs.name, func.name, true⟩)⟩ :: args) ∧
    build_constraint ⟨Expression.Term (Term.SetVariable ⟨r.name, callee.name, true⟩),
        Expression.Term (Term.SetVariable ⟨lhs.name, func.name, true⟩)⟩ =
      some (callee.name ++ "." ++ r.name ++ " <= " ++ (func.name ++ "." ++ lhs.name) ++ "\n") := by
  refine ⟨?_, rfl⟩
  have hret : get_ret_val callee = some r := by
    unfold get_ret_val
    rw [hbbs]
    exact get_ret_val_loop_first bb post r hbb pre hpre
  unfold get_call_dir_constraint
  simp only [hl, hret]
  rw [if_pos (by simpa using hp)]

/-- C40, on the callee with two returning blocks: the call `x := G(i, q)` in `F` yields the
return constraint of `r1`, the variable of the block `left`, and the constraint of the argument
`q`. -/
theorem call_dir_return_constraint_witness :
    terminal_lines twoReturnsProgram callerExample (Terminal.CallDir callExample) =
      some ["G.r1 <= F.x\n", "F.q <= G.a\n"] ∧
    (get_call_dir_constraint callExample callerExample twoReturnsExample =
      (call_dir_args callExample callerExample twoReturnsExample twoReturnsExample.params 0).map
        (fun args => ⟨Expression.Term (Term.SetVariable ⟨"r1", "G", true⟩),
          Expression.Term (Term.SetVariable ⟨"x", "F", true⟩)⟩ :: args) ∧
    build_constraint ⟨Expression.Term (Term.SetVariable ⟨"r1", "G", true⟩),
        Expression.Term (Term.SetVariable ⟨"x", "F", true⟩)⟩ =
      some ("G" ++ "." ++ "r1" ++ " <= " ++ ("F" ++ "." ++ "x") ++ "\n")) :=
  ⟨by decide,
    call_dir_return_constraint callExample callerExample twoReturnsExample (ptrVar "x")
      (ptrVar "r1") [("entry", ⟨"entry", [], Terminal.Other⟩)]
      [("right", ⟨"right", [], Terminal.Ret ⟨some (Operand.Var (ptrVar "r2"))⟩⟩)]
      ("left", ⟨"left", [], Terminal.Ret ⟨some (Operand.Var (ptrVar "r1"))⟩⟩)
      rfl (by decide) rfl rfl
      (by
        intro b hb v
        rw [List.mem_singleton] at hb
        rw [hb]
        intro h
        cases h)⟩

/-- C40, on the callee with two returning blocks: the block `right` of `G` returns `r2`, but the
generator prints no constraint `G.r2 <= F.x` for the call `x := G(i, q)` in `F`. -/
theorem second_return_gets_no_constraint :
    (∃ bb ∈ twoReturnsExample.bbs,
      bb.2.terminal = Terminal.Ret ⟨some (Operand.Var (ptrVar "r2"))⟩) ∧
    callExample.lhs = some (ptrVar "x") ∧ (ptrVar "x").type.indirection ≠ 0 ∧
    main_output twoReturnsProgram = some ["F.p <= F.q\n", "F.q <= G.a\n", "G.r1 <= F.x\n"] ∧
    "G.r2 <= F.x\n" ∉ ["F.p <= F.q\n", "F.q <= G.a\n", "G.r1 <= F.x\n"] :=
  ⟨⟨("right", ⟨"right", [], Terminal.Ret ⟨some (Operand.Var (ptrVar "r2"))⟩⟩),
    List.mem_cons_of_mem _ (List.mem_cons_of_mem _ (List.mem_singleton.2 rfl)), rfl⟩,
    rfl, by decide, by decide, by decide⟩

end Generator

/-! ## Reachable types -/

namespace ReachableType

open Generator (DataType)
open ModRef (Outcome)

/-- In the program of the linked list no nesting depth is enough, neither for the pointer to `S`
nor for `S` itself, with the set empty or holding the pointer to `S`. -/
theorem list_out_of_fuel (isEqualType : ReachableType → ReachableType → Bool) :
    ∀ (fuel : Nat) (rset : List ReachableType), rset = [] ∨ rset = [structType "S" 1] →
      GetReachableType isEqualType listProgram fuel (structType "S" 1) rset =
        Outcome.out_of_fuel ∧
      GetReachableType isEqualType listProgram fuel (structType "S" 0) rset =
        Outcome.out_of_fuel := by
  intro fuel
  induction fuel with
  | zero => intro rset _; exact ⟨rfl, rfl⟩
  | succ fuel ih =>
    intro rset hr
    constructor
    · have h : GetReachableType isEqualType listProgram (fuel + 1) (structType "S" 1) rset =
          GetReachableType isEqualType listProgram fuel (structType "S" 0) rset := rfl
      rw [h]
      exact (ih rset hr).2
    · rcases hr with rfl | rfl
      · have h : GetReachableType isEqualType listProgram (fuel + 1) (structType "S" 0) [] =
            GetReachableType isEqualType listProgram fuel (structType "S" 1)
              [structType "S" 1] := rfl
        rw [h]
        exact (ih _ (Or.inr rfl)).1
      · have h : GetReachableType isEqualType listProgram (fuel + 1) (structType "S" 0)
              [structType "S" 1] =
            GetReachableType isEqualType listProgram fuel (structType "S" 1)
              [structType "S" 1] := rfl
        rw [h]
        exact (ih _ (Or.inr rfl)).1

/-- C38. For the struct of a linked list, `struct S { next: &S }`, and a variable of the type
pointer to `S`, `GetReachableType` started with an empty set returns at no nesting depth of its
calls: the call for `&S` calls itself for `S`, which calls itself for the type `&S` of the field
`next`, whether or not that type is in the set. On the type `&&int`, which reaches no struct,
three nested calls are enough and leave `&int` and `int` in the set. -/
theorem linked_list_never_returns (isEqualType : ReachableType → ReachableType → Bool) :
    (∀ fuel, GetReachableType isEqualType listProgram fuel (structType "S" 1) [] =
      Outcome.out_of_fuel) ∧
    GetReachableType isEqualType listProgram 3 (intType 2) [] =
      Outcome.finished [intType 1, intType 0] :=
  ⟨fun fuel => (list_out_of_fuel isEqualType fuel [] (Or.inl rfl)).1, rfl⟩

/-- C39. When the set holds a function type without return type and the queried type is a
function type without return type and with the same indirection, `isPresentInSet` reads the type
of the absent return type of the member (line 40) and does not return, whatever the parameters
are. For a set of one function type, it returns false when the member has a return type and the
queried type has none, and when the member has none and the queried type has one. So for two
pointers to a function that takes an `int` and returns nothing it does not return, and for a
pointer to a function that returns an `int` and one to a function that returns nothing it returns
false. -/
theorem absent_return_type_is_read (isEqualType : ReachableType → ReachableType → Bool)
    (rest : List ReachableType) (addr1 addr2 indirection : Nat) (ret : ReachableType)
    (params1 params2 : List ReachableType) :
    isPresentInSet isEqualType
        (mk DataType.FuncType (some (PtrType.FunctionType addr1 none params1)) indirection ::
          rest)
        (mk DataType.FuncType (some (PtrType.FunctionType addr2 none params2)) indirection) =
      none ∧
    isPresentInSet isEqualType
        [mk DataType.FuncType (some (PtrType.FunctionType addr1 (some ret) params1))
          indirection]
        (mk DataType.FuncType (some (PtrType.FunctionType addr2 none params2)) indirection) =
      some false ∧
    isPresentInSet isEqualType
        [mk DataType.FuncType (some (PtrType.FunctionType addr1 none params1)) indirection]
        (mk DataType.FuncType (some (PtrType.FunctionType addr2 (some ret) params2))
          indirection) =
      some false ∧
    isPresentInSet isEqualType [procType 0] (procType 1) = none ∧
    isPresentInSet isEqualType [funType 0] (procType 1) = some false := by
  refine ⟨?_, ?_, ?_, rfl, rfl⟩
  · simp [isPresentInSet, type, ptr_type, ReachableType.indirection, asFunctionType]
  · simp [isPresentInSet, type, ptr_type, ReachableType.indirection, asFunctionType]
  · simp [isPresentInSet, type, ptr_type, ReachableType.indirection, asFunctionType]

end ReachableType
